import Mathlib

/-!
# Reverse-mode engine of `paddle/fluid/imperative/basic_engine.cc`

A shallow embedding of `BasicEngine` (`Init`, `CheckBackwardInputs`,
`PrepareGradAccumulators`, `PrepareDeps`, `Execute`, `Clear`) together with the
properties proved about it.

Conventions of the embedding

* Pointers are identities.  A `std::shared_ptr<GradOpNode>` is an `Option (Fin n)`
  (`none` is `nullptr`); the recorded graph has `n` nodes and a shared pointer can
  only point at one of them.  A `std::shared_ptr<VariableWrapper>` is an
  `Option VarRef`.
* `std::map` / `std::unordered_map` objects are association lists; a
  `NameVarMap` is listed in iteration order.
* Every method returns `Except (Error × World n) (World n)`: the world at normal
  return, or the raised error together with the world at the point of the throw.
* Collaborators whose code is outside `basic_engine.cc` (the kernel runner, the
  accumulator arithmetic, hooks, constructors) are fields of `Collab`.
-/

namespace Imperative

/-! ## Data model -/

/-- Identity of a `VariableWrapper` recorded in the graph by the forward pass. -/
abbrev VarId := Nat

/-- Identity of a `VariableWrapper` object.  Wrappers recorded in the graph are
`graphVar i`; wrappers allocated by the engine or by an accumulator
(`std::make_shared<VariableWrapper>`) are `fresh k`, and are distinct objects
from every wrapper of the graph.  The engine never stores a wrapper it
allocated into the graph, so the maps of an `OpBase` hold `VarId`s. -/
inductive VarRef where
  | graphVar (i : VarId)
  | fresh (k : Nat)
deriving DecidableEq, Repr

/-- Allocated storage of a tensor (`Tensor::holder_`): where it lives, its
element type and its elements. -/
structure Allocation where
  place : Nat
  dtype : Nat
  data : List Int
deriving DecidableEq, Repr

/-- A `framework::LoDTensor`: its dims and, once `mutable_data` has run, its
allocation.  `IsInitialized()` is `holder.isSome`. -/
structure Tensor where
  dims : List Nat
  holder : Option Allocation
deriving DecidableEq, Repr

/-- Number of elements of a tensor (`numel()`), the product of its dims. -/
def Tensor.numel (t : Tensor) : Nat := t.dims.foldr (· * ·) 1

/-- What a `framework::Variable` holds: a dense tensor or a value of another
registered type (for instance `SelectedRows`). -/
inductive Held where
  | lodTensor (t : Tensor)
  | other (tag : Nat)
deriving DecidableEq, Repr

/-- A `framework::Variable`: a type-erased holder (`none` when
`!IsInitialized()`) and its in-place version counter. -/
structure Variable where
  holder : Option Held
  inplace_version : Nat
deriving DecidableEq, Repr

/-- The attributes of a `VariableWrapper` that the engine reads. -/
structure VariableWrapper where
  name : String
  has_grad_node : Bool
  overrided_stop_gradient : Bool
  is_leaf_grad : Bool
  leaf_hooks : List Nat
  inplace_version_snapshot : Nat
  data_type : Nat
  type : Nat
  forward_data_type : Nat
deriving DecidableEq, Repr

/-- The method `HasLeafHooks()`. -/
def VariableWrapper.has_leaf_hooks (v : VariableWrapper) : Bool := !v.leaf_hooks.isEmpty

/-- A `SavedVariableWrapperList`: the variables of one slot and its `IsGrad()` flag. -/
structure SavedVariableWrapperList (ρ : Type) where
  vars : List (Option ρ)
  is_grad : Bool
deriving DecidableEq, Repr

/-- A `NameVarMap<VariableWrapper>` in iteration order. -/
abbrev NameVarMap (ρ : Type) := List (String × SavedVariableWrapperList ρ)

/-- A recorded backward operator (`OpBase`). -/
structure OpBase where
  id : Nat
  type : String
  ins : NameVarMap VarId
  outs : NameVarMap VarId
  place : Nat
deriving DecidableEq, Repr

/-- A `GradOpNode` of a graph with `n` nodes: its operators in recorded order,
`GradPendingNodes()` and `InplaceGradNameMap()`. -/
structure GradOpNode (n : Nat) where
  ops : List OpBase
  grad_pending_nodes : List (Option (Fin n))
  inplace_grad_name_map : List (String × String)
deriving DecidableEq, Repr

/-- Identity of a `GradientAccumulator` object: the entry of
`leaf_basic_accumulators_` or of `accumulators_` that owns it. -/
inductive AccRef (n : Nat) where
  | leaf (v : VarId)
  | nonLeaf (p : Fin n) (v : VarId)
deriving DecidableEq, Repr

/-- Modelled from the spec: the accumulator classes are declared in
`gradient_accumulator.h`, outside the sources at hand.  An accumulator holds
its target variable, an inner variable when it wraps one, the reference count,
the completion count, the post-hook list and its strategy. -/
structure GradientAccumulator where
  var : VarId
  inner_var : Option VarRef
  ref_cnt : Nat
  cur_cnt : Nat
  post_hooks : Option (List Nat)
  sorted : Bool
deriving DecidableEq, Repr

/-- The error kinds of the engine.  The first eight are the kinds of the
specification; the others are raised by collaborators the code calls without a
guard of its own (`EnforceHasInOut`, `std::map::at`, `Variable::Get`,
`Tensor::place`, the dereference of a null pointer).  `FuelExhausted` belongs
to the embedding only. -/
inductive Error where
  | AlreadyConsumed
  | AlreadyInitialized
  | MissingGradSlot
  | MissingNode
  | MissingAccumulator
  | HookOnNonLeaf
  | InplaceTampering (op : String) (var : String) (observed expected : Nat)
  | KernelFailure
  | NoInOut
  | OutOfRange
  | HolderTypeMismatch
  | TensorNotInitialized
  | NullDereference
  | FuelExhausted
deriving DecidableEq, Repr

/-- The tensor side of the world: what each wrapper's `Variable` holds. -/
abbrev Store := VarRef → Variable

/-- Calls into collaborators, in the order they are made. -/
inductive Event (n : Nat) where
  | set_constant (v : VarRef) (value : Int)
  | run_op (node : Fin n) (idx : Nat) (op : OpBase) (ins : NameVarMap VarId)
      (outs : NameVarMap VarRef)
  | move_var (orig tmp : VarRef)
  | sum_grad (acc : AccRef n) (tmp : VarRef) (op_id : Nat)
  | accumulate_grad (acc : AccRef n)
  | call_backward_post_hooks (acc : AccRef n)
  | clear_backward_trace (node : Fin n) (idx : Nat)
deriving DecidableEq, Repr

/-- The state of a `BasicEngine` object. -/
structure BasicEngine (n : Nat) where
  init_node : Option (Fin n)
  retain_graph : Bool
  node_deps : List (Fin n × Int)
  accumulators : List (Fin n × List (VarId × GradientAccumulator))
  leaf_basic_accumulators : List (VarId × GradientAccumulator)
  need_accu_var_list : List (AccRef n × VarRef)
  inplace_var_list : List (VarRef × VarRef)
  leaf_accumulators : List (AccRef n)
deriving DecidableEq, Repr

/-- Everything the engine reads or writes: the recorded graph, the wrappers of
the graph, the wrappers allocated since, the tensors, the engine and the log of
collaborator calls. -/
structure World (n : Nat) where
  graph : Fin n → GradOpNode n
  wrappers : VarId → VariableWrapper
  temps : List VariableWrapper
  store : Store
  engine : BasicEngine n
  trace : List (Event n)

/-- Collaborators declared outside `basic_engine.cc`. -/
structure Collab where
  /-- The flag `FLAGS_sort_sum_gradient`. -/
  sort_sum_gradient : Bool
  /-- The attributes of `VariableWrapper(name)` right after construction. -/
  new_wrapper : String → VariableWrapper
  /-- Whether the accumulator constructed for a variable allocates an inner variable. -/
  wraps_inner_var : VariableWrapper → Bool
  /-- The call `OpBase::Run`; `none` when the kernel raises. -/
  run_op : OpBase → NameVarMap VarId → NameVarMap VarRef → Store → Option Store
  /-- Tensor effect of `*orig = std::move(*tmp)`. -/
  move_var : VarRef → VarRef → Store → Store
  /-- Tensor effect of `SumGrad(tmp, op_id)`. -/
  sum_grad : GradientAccumulator → VarRef → Nat → Store → Store
  /-- The predicate `SumGradCompleted()`. -/
  sum_grad_completed : GradientAccumulator → Bool
  /-- Tensor effect of `AccumulateGrad()`. -/
  accumulate_grad : GradientAccumulator → Store → Store
  /-- Tensor effect of `CallBackwardPostHooks()`. -/
  call_backward_post_hooks : GradientAccumulator → Store → Store

/-- Result of a method over a state `σ`: the state at return, or the error
raised and the state at the throw. -/
abbrev Res (σ : Type) := Except (Error × σ) σ

/-- The state a result ends in. -/
def Res.state {σ : Type} : Res σ → σ
  | .ok s => s
  | .error (_, s) => s

/-- The error a result raised, if any. -/
def Res.error? {σ : Type} : Res σ → Option Error
  | .ok _ => none
  | .error (e, _) => some e

/-- A loop `for (a : as) body(a)` over a state, leaving at the first throw. -/
def forEach {σ α : Type} (body : α → σ → Res σ) : List α → σ → Res σ
  | [], s => .ok s
  | a :: as, s =>
    match body a s with
    | .ok s1 => forEach body as s1
    | .error e => .error e

/-! ## Finite maps -/

/-- The lookup `m.find(k)`. -/
def find {κ α : Type} [DecidableEq κ] (k : κ) : List (κ × α) → Option α
  | [] => none
  | (k1, a) :: m => if k1 = k then some a else find k m

/-- The update `m[k] = f(m[k])`, where a missing entry is created first. -/
def upsert {κ α : Type} [DecidableEq κ] (k : κ) (f : Option α → α) :
    List (κ × α) → List (κ × α)
  | [] => [(k, f none)]
  | (k1, a) :: m => if k1 = k then (k1, f (some a)) :: m else (k1, a) :: upsert k f m

/-- A store with the variable of one wrapper replaced. -/
def Store.set (s : Store) (v : VarRef) (x : Variable) : Store :=
  fun u => if u = v then x else s u

/-- A default-constructed `LoDTensor`: dims `{0}`, nothing allocated. -/
def Tensor.blank : Tensor := { dims := [0], holder := none }

/-- The tensor left by `mutable_data(place, dtype)` followed by
`set_constant(value)` on a tensor of the given dims. -/
def Tensor.filled (dims : List Nat) (place dtype : Nat) (value : Int) : Tensor :=
  { dims := dims
    holder := some { place := place, dtype := dtype
                     data := List.replicate (Tensor.numel { dims := dims, holder := none }) value } }

/-- Attributes read through a reference that indexes no allocated wrapper; a
`fresh k` handed out by `World.alloc` always indexes one. -/
def VariableWrapper.blank : VariableWrapper :=
  { name := "", has_grad_node := false, overrided_stop_gradient := true, is_leaf_grad := false
    leaf_hooks := [], inplace_version_snapshot := 0, data_type := 0, type := 0
    forward_data_type := 0 }

/-- The wrapper object behind a reference. -/
def World.wrapper {n : Nat} (w : World n) : VarRef → VariableWrapper
  | .graphVar i => w.wrappers i
  | .fresh k => w.temps.getD k VariableWrapper.blank

/-- The allocation `std::make_shared<VariableWrapper>(...)`: a new wrapper object. -/
def World.alloc {n : Nat} (w : World n) (vw : VariableWrapper) : World n × VarRef :=
  ({ w with temps := w.temps ++ [vw] }, .fresh w.temps.length)

/-- The three statements `tmp_var = make_shared<VariableWrapper>(var->Name());
tmp_var->SetType(var->Type()); tmp_var->SetForwardDataType(var->ForwardDataType())`. -/
def World.allocLike {n : Nat} (C : Collab) (w : World n) (var : VarRef) : World n × VarRef :=
  w.alloc { C.new_wrapper (w.wrapper var).name with
            type := (w.wrapper var).type
            forward_data_type := (w.wrapper var).forward_data_type }

/-- The accumulator an `AccRef` points at. -/
def BasicEngine.acc? {n : Nat} (e : BasicEngine n) : AccRef n → Option GradientAccumulator
  | .leaf v => find v e.leaf_basic_accumulators
  | .nonLeaf p v => (find p e.accumulators).bind (find v)

/-- Write through an `AccRef`. -/
def BasicEngine.modifyAcc {n : Nat} (e : BasicEngine n) (r : AccRef n)
    (f : GradientAccumulator → GradientAccumulator) : BasicEngine n :=
  match r with
  | .leaf v =>
    { e with leaf_basic_accumulators :=
        e.leaf_basic_accumulators.map (fun kv => if kv.1 = v then (kv.1, f kv.2) else kv) }
  | .nonLeaf p v =>
    { e with accumulators :=
        e.accumulators.map (fun pm =>
          if pm.1 = p then (pm.1, pm.2.map (fun kv => if kv.1 = v then (kv.1, f kv.2) else kv))
          else pm) }

/-! ## `BasicEngine::Init` (lines 39-81) -/

/-- The gradient `VarBase` of a variable (`GradVarBase()`): its wrapper, its
producer node (`GradNode()`) and `GraphIsFreed()`. -/
structure GradVarBase (n : Nat) where
  wrapper : VarId
  grad_node : Option (Fin n)
  graph_is_freed : Bool
deriving DecidableEq, Repr

/-- A `VarBase` handed to `Init`: its wrapper and its gradient variable (`none`
when `HasGradVar()` is false). -/
structure VarBase (n : Nat) where
  wrapper : VarId
  grad_var : Option (GradVarBase n)
deriving DecidableEq, Repr

/-- Lines 66-80 of `Init`: the seed gradient is made a tensor of ones shaped like the
seed's primal tensor.  `var` is the wrapper of the seed, `grad` that of its gradient. -/
def seedGradient {n : Nat} (var grad : VarId) (w : World n) : Res (World n) :=
  -- auto& fwd_var = var->Var().Get<framework::LoDTensor>();
  match (w.store (.graphVar var)).holder with
  | some (.lodTensor fwd_var) =>
    -- auto* grad_var = ...->MutableVar()->GetMutable<framework::LoDTensor>();
    let gv := w.store (.graphVar grad)
    match gv.holder with
    | some (.other _) => .error (.HolderTypeMismatch, w)
    | held =>
      let grad_var : Tensor :=
        match held with
        | some (.lodTensor t) => t
        | _ => Tensor.blank
      let w1 : World n :=
        { w with store := w.store.set (.graphVar grad) { gv with holder := some (.lodTensor grad_var) } }
      -- var->GradVarBase()->InnerSetOverridedStopGradient(false);
      let w2 : World n :=
        { w1 with wrappers := fun i =>
            if i = grad then { w1.wrappers i with overrided_stop_gradient := false }
            else w1.wrappers i }
      -- dev_ctx = ...Get(fwd_var.place());
      match fwd_var.holder with
      | none => .error (.TensorNotInitialized, w2)
      | some a =>
        -- Resize(fwd_var.dims()); mutable_data(place, type); set_constant(1.0)
        let ones : Variable :=
          { gv with holder := some (.lodTensor (.filled fwd_var.dims a.place a.dtype 1)) }
        .ok { w2 with
                store := w2.store.set (.graphVar grad) ones
                trace := w2.trace ++ [.set_constant (.graphVar grad) 1] }
  | _ => .error (.HolderTypeMismatch, w)

/-- Pair a result over worlds with the seed. -/
def withSeed {n : Nat} (var : VarBase n) : Res (World n) → Res (World n × VarBase n)
  | .ok w => .ok (w, var)
  | .error (e, w) => .error (e, (w, var))

/-- The method `BasicEngine::Init(var, retain_graph)`.  The state is the world and the seed. -/
def BasicEngine.Init {n : Nat} (w : World n) (var : VarBase n) (retain_graph : Bool) :
    Res (World n × VarBase n) :=
  -- retain_graph_ = retain_graph;
  let w1 : World n := { w with engine := { w.engine with retain_graph := retain_graph } }
  -- init_node_ = var->GradVarBase()->GradNode();
  match var.grad_var with
  | none => .error (.NullDereference, (w1, var))
  | some g =>
    let w2 : World n := { w1 with engine := { w1.engine with init_node := g.grad_node } }
    -- PADDLE_ENFORCE_EQ(var->GradVarBase()->GraphIsFreed(), false, ...)
    if g.graph_is_freed then .error (.AlreadyConsumed, (w2, var))
    else
      -- if (!retain_graph) { SetGraphIsFreed(true); ClearGradNode(); }
      let g1 : GradVarBase n :=
        if retain_graph then g else { g with graph_is_freed := true, grad_node := none }
      let var1 : VarBase n := { var with grad_var := some g1 }
      -- if (init_node_ == nullptr || var->OverridedStopGradient()) return;
      if w2.engine.init_node.isNone || (w2.wrappers var.wrapper).overrided_stop_gradient then
        .ok (w2, var1)
      -- PADDLE_ENFORCE_EQ(var->HasGradVar(), true, ...): the gradient variable exists here
      else withSeed var1 (seedGradient var.wrapper g.wrapper w2)

/-! ## `BasicEngine::CheckBackwardInputs` (lines 83-109) -/

/-- The body of the inner loop of `CheckBackwardInputs` for one non-null variable. -/
def checkBackwardInput {n : Nat} (op : OpBase) (var : VarId) (w : World n) : World n :=
  let inner_var := w.store (.graphVar var)
  -- tensor = inner_var->GetMutable<LoDTensor>() when uninitialized or dense
  let tensor : Option Tensor :=
    match inner_var.holder with
    | none => some Tensor.blank
    | some (.lodTensor t) => some t
    | some (.other _) => none
  match tensor with
  | none => w
  | some t =>
    -- if (tensor && !tensor->IsInitialized())
    if t.holder.isNone then
      let zeros : Variable :=
        { inner_var with
            holder := some (.lodTensor (.filled t.dims op.place (w.wrappers var).data_type 0)) }
      { w with
          store := w.store.set (.graphVar var) zeros
          trace := w.trace ++ [.set_constant (.graphVar var) 0] }
    else w

/-- The method `BasicEngine::CheckBackwardInputs(op)`. -/
def BasicEngine.CheckBackwardInputs {n : Nat} (op : OpBase) (w : World n) : World n :=
  op.ins.foldl
    (fun w pair =>
      -- if (!pair.second.IsGrad()) continue;
      if !pair.2.is_grad then w
      else pair.2.vars.foldl
        (fun w var =>
          match var with
          | none => w
          | some v => checkBackwardInput op v w) w) w

/-! ## `BasicEngine::PrepareGradAccumulators` (lines 111-220) -/

/-- Modelled from the spec: the accumulator constructors are outside the
sources at hand.  A new accumulator is `Open`: reference count and completion
count 0, no hooks, the strategy chosen by `sort_sum_gradient`; when it wraps an
inner variable that variable is a newly allocated wrapper with the type and
forward dtype of the target. -/
def newAccumulator {n : Nat} (C : Collab) (w : World n) (var : VarId) :
    World n × GradientAccumulator :=
  if C.wraps_inner_var (w.wrappers var) then
    let wi := w.allocLike C (.graphVar var)
    (wi.1, { var := var, inner_var := some wi.2, ref_cnt := 0, cur_cnt := 0
             post_hooks := none, sorted := C.sort_sum_gradient })
  else
    (w, { var := var, inner_var := none, ref_cnt := 0, cur_cnt := 0
          post_hooks := none, sorted := C.sort_sum_gradient })

/-- Whether `var` is a grad-input of some operator of the node (the flag
`flag_vars_grad_op` of lines 160-180). -/
def readsVar {n : Nat} (node : GradOpNode n) (var : VarId) : Bool :=
  node.ops.any fun op => op.ins.any fun pair => pair.2.is_grad && decide (some var ∈ pair.2.vars)

/-- The method `EnforceHasInOut()`, by its name: an operator whose input and output maps are
both empty is rejected. -/
def OpBase.hasInOut (op : OpBase) : Bool := !(op.ins.isEmpty && op.outs.isEmpty)

/-- Lines 135-150 and 199-214: `IncreaseRefCnt()` and the hook attachment on
the accumulator just looked up or created. -/
def increaseAndHook (vw : VariableWrapper) (acc : GradientAccumulator) :
    GradientAccumulator × Bool :=
  let acc1 := { acc with ref_cnt := acc.ref_cnt + 1 }
  if vw.has_leaf_hooks then
    -- PADDLE_ENFORCE_NE(var->HasGradNode(), true, ...)
    if vw.has_grad_node then (acc1, false)
    else ({ acc1 with post_hooks := some vw.leaf_hooks }, true)
  else (acc1, true)

/-- The leaf branch (lines 124-150) for one variable. -/
def prepareLeaf {n : Nat} (C : Collab) (var : VarId) (w : World n) : Res (World n) :=
  -- auto& accumulator = leaf_basic_accumulators_[var.get()]; if (!accumulator) reset(new ...)
  let wa : World n × GradientAccumulator :=
    match find var w.engine.leaf_basic_accumulators with
    | some a => (w, a)
    | none => newAccumulator C w var
  let r := increaseAndHook (w.wrappers var) wa.2
  let w1 : World n :=
    { wa.1 with engine := { wa.1.engine with
        leaf_basic_accumulators := upsert var (fun _ => r.1) wa.1.engine.leaf_basic_accumulators } }
  if r.2 then .ok w1 else .error (.HookOnNonLeaf, w1)

/-- The non-leaf branch (lines 151-216) for one variable: the loop over
`grad_pending_nodes`. -/
def prepareNonLeaf {n : Nat} (C : Collab) (var : VarId) :
    List (Option (Fin n)) → World n → Res (World n)
  | [], w => .ok w
  -- PADDLE_ENFORCE_NOT_NULL(grad_pending_node, ...)
  | none :: _, w => .error (.MissingNode, w)
  | some p :: rest, w =>
    -- grad_pending_op.EnforceHasInOut() for every operator of the pending node
    if !(w.graph p).ops.all OpBase.hasInOut then .error (.NoInOut, w)
    -- if (!flag_vars_grad_op) continue;
    else if !readsVar (w.graph p) var then prepareNonLeaf C var rest w
    else
      -- auto& accumulator = accumulators_[grad_pending_node][var.get()];
      let row := (find p w.engine.accumulators).getD []
      let wa : World n × GradientAccumulator :=
        match find var row with
        | some a => (w, a)
        | none => newAccumulator C w var
      let r := increaseAndHook (w.wrappers var) wa.2
      let w1 : World n :=
        { wa.1 with engine := { wa.1.engine with
            accumulators :=
              upsert p (fun o => upsert var (fun _ => r.1) (o.getD [])) wa.1.engine.accumulators } }
      -- break;
      if r.2 then .ok w1 else .error (.HookOnNonLeaf, w1)

/-- The body of the loop over the variables of one grad-output slot (lines 119-218). -/
def prepareVar {n : Nat} (C : Collab) (pending : List (Option (Fin n)))
    (var : Option VarId) (w : World n) : Res (World n) :=
  match var with
  -- if (!var) continue;
  | none => .ok w
  | some v =>
    if !(w.wrappers v).has_grad_node then prepareLeaf C v w
    else prepareNonLeaf C v pending w

/-- The method `BasicEngine::PrepareGradAccumulators(op, grad_pending_nodes)`. -/
def BasicEngine.PrepareGradAccumulators {n : Nat} (C : Collab) (op : OpBase)
    (grad_pending_nodes : List (Option (Fin n))) (w : World n) : Res (World n) :=
  forEach
    (fun (pair : String × SavedVariableWrapperList VarId) w =>
      -- if (!pair.second.IsGrad()) continue;
      if !pair.2.is_grad then .ok w
      else forEach (prepareVar C grad_pending_nodes) pair.2.vars w)
    op.outs w

/-! ## `BasicEngine::PrepareDeps` (lines 222-258) -/

/-- Modelled from the spec: the type of `node_deps_` is declared in
`basic_engine.h`, outside the sources at hand; the spec gives
`node_deps: map<GradNode, int>`.  This is `++node_deps_[p]`. -/
def incrDep {n : Nat} (p : Fin n) (deps : List (Fin n × Int)) : List (Fin n × Int) :=
  upsert p (fun o => o.getD 0 + 1) deps

/-- The state of the sweep of `PrepareDeps`: the world, the queue `q` and the set `visited`. -/
structure Sweep (n : Nat) where
  world : World n
  q : List (Fin n)
  visited : List (Fin n)

/-- The body of the loop over `grad_pending_nodes` of lines 247-256. -/
def scanPending {n : Nat} (grad_pending_node : Option (Fin n)) (s : Sweep n) : Res (Sweep n) :=
  match grad_pending_node with
  -- PADDLE_ENFORCE_NOT_NULL(grad_pending_node, ...)
  | none => .error (.MissingNode, s)
  | some p =>
    -- ++node_deps_[grad_pending_node.get()];
    let w1 : World n :=
      { s.world with engine := { s.world.engine with
          node_deps := incrDep p s.world.engine.node_deps } }
    -- if (visited.count(p) == 0) { visited.insert(p); q.push(p); }
    if p ∈ s.visited then .ok { s with world := w1 }
    else .ok { world := w1, q := s.q ++ [p], visited := s.visited ++ [p] }

/-- The body of the loop over the operators of the current node (lines 242-245). -/
def prepareOp {n : Nat} (C : Collab) (grad_pending_nodes : List (Option (Fin n)))
    (cur_op : OpBase) (w : World n) : Res (World n) :=
  -- cur_op.EnforceHasInOut();
  if !cur_op.hasInOut then .error (.NoInOut, w)
  else BasicEngine.PrepareGradAccumulators C cur_op grad_pending_nodes w

/-- Lift a result over worlds to a result over sweeps. -/
def Sweep.lift {n : Nat} (s : Sweep n) : Res (World n) → Res (Sweep n)
  | .ok w => .ok { s with world := w }
  | .error (e, w) => .error (e, { s with world := w })

/-- One turn of the `while (!q.empty())` loop of `PrepareDeps` for the node at the front. -/
def sweepNode {n : Nat} (C : Collab) (cur_node : Fin n) (s : Sweep n) : Res (Sweep n) :=
  let grad_pending_nodes := (s.world.graph cur_node).grad_pending_nodes
  match s.lift (forEach (prepareOp C grad_pending_nodes) (s.world.graph cur_node).ops s.world) with
  | .ok s1 => forEach scanPending grad_pending_nodes s1
  | .error e => .error e

/-- The `while (!q.empty())` loop of `PrepareDeps`.  Each turn spends one unit of fuel. -/
def sweepLoop {n : Nat} (C : Collab) : Nat → Sweep n → Res (Sweep n)
  | fuel, s =>
    match s.q with
    | [] => .ok s
    | cur_node :: rest =>
      match fuel with
      | 0 => .error (.FuelExhausted, s)
      | fuel + 1 =>
        match sweepNode C cur_node { s with q := rest } with
        | .ok s1 => sweepLoop C fuel s1
        | .error e => .error e

/-- The method `BasicEngine::PrepareDeps()`.  A sweep pops at most `n` nodes, so `n` units of
fuel are enough (`sweepLoop_fuel`). -/
def BasicEngine.PrepareDeps {n : Nat} (C : Collab) (w : World n) : Res (World n) :=
  -- PADDLE_ENFORCE_EQ(node_deps_.empty(), true, ...)
  if !w.engine.node_deps.isEmpty then .error (.AlreadyInitialized, w)
  -- PADDLE_ENFORCE_EQ(accumulators_.empty(), true, ...)
  else if !w.engine.accumulators.isEmpty then .error (.AlreadyInitialized, w)
  else
    match w.engine.init_node with
    | none => .error (.NullDereference, w)
    | some init =>
      -- q.push(init_node_.get()); visited.insert(init_node_.get());
      match sweepLoop C n { world := w, q := [init], visited := [init] } with
      | .ok s => .ok s.world
      | .error (e, s) => .error (e, s.world)

/-! ## `BasicEngine::Execute` (lines 260-465) and `BasicEngine::Clear` (lines 467-474) -/

/-- The method `BasicEngine::Clear()`. -/
def BasicEngine.Clear {n : Nat} (w : World n) : World n :=
  { w with engine := { w.engine with
      init_node := none
      node_deps := []
      accumulators := []
      leaf_basic_accumulators := []
      need_accu_var_list := []
      leaf_accumulators := [] } }

/-- The accumulator lookup of lines 310-341 for a grad-output `var` of an operator of
`cur_node`: the entry of `leaf_basic_accumulators_` for a variable without grad node, and
otherwise the first pending node `p` with an entry `accumulators_[p][var]`. -/
def findAccumulator {n : Nat} (w : World n) (cur_node : Fin n) (var : VarId) :
    Option (AccRef n × GradientAccumulator) :=
  if !(w.wrappers var).has_grad_node then
    (find var w.engine.leaf_basic_accumulators).map fun a => (.leaf var, a)
  else
    (w.graph cur_node).grad_pending_nodes.findSome? fun grad_pending_node =>
      match grad_pending_node with
      | none => none
      | some p =>
        ((find p w.engine.accumulators).bind (find var)).map fun a => (.nonLeaf p var, a)

/-- The state of the remapping of one slot variable: the world and what `var` is bound to. -/
abbrev Binding (n : Nat) := World n × VarRef

/-- The world a remapping step ends in, at return or at the throw. -/
def endWorld {n : Nat} {α : Type} : Except (Error × World n) (World n × α) → World n
  | .ok (w, _) => w
  | .error (_, w) => w

/-- The loop of lines 366-377 over the variables of the mapped input slot. -/
def inplaceScan {n : Nat} (C : Collab) : List (Option VarId) → Binding n → Binding n
  | [], b => b
  | in_var :: rest, (w, var) =>
    -- if (in_var == var)
    if in_var.map VarRef.graphVar = some var then
      let wt := w.allocLike C var
      -- inplace_var_list_.emplace_back(var, tmp_var); var = tmp_var;
      inplaceScan C rest
        ({ wt.1 with engine := { wt.1.engine with
             inplace_var_list := wt.1.engine.inplace_var_list ++ [(var, wt.2)] } }, wt.2)
    else inplaceScan C rest (w, var)

/-- The body of the loop of lines 297-379 for one non-null variable `v` of the slot
`slot` of `tmp_outs`; returns what the slot entry is bound to afterwards. -/
def remapVar {n : Nat} (C : Collab) (cur_node : Fin n) (bwd_ins : NameVarMap VarId)
    (slot : String) (v : VarId) (w : World n) : Except (Error × World n) (Binding n) :=
  match findAccumulator w cur_node v with
  -- PADDLE_ENFORCE_EQ(iter != end / flag_find_grad, true, ...)
  | none => .error (.MissingAccumulator, w)
  | some (ref, acc) =>
    -- if (var->IsLeafGrad()) { leaf_accumulators_.insert(...); if (HasInnerVar()) var = InnerVar(); }
    let b1 : Binding n :=
      if (w.wrappers v).is_leaf_grad then
        ({ w with engine := { w.engine with
             leaf_accumulators :=
               if ref ∈ w.engine.leaf_accumulators then w.engine.leaf_accumulators
               else w.engine.leaf_accumulators ++ [ref] } },
         acc.inner_var.getD (.graphVar v))
      else (w, .graphVar v)
    -- if (var->OverridedStopGradient() || iter->second->RefCnt() > 1)
    if (b1.1.wrapper b1.2).overrided_stop_gradient || decide (acc.ref_cnt > 1) then
      let wt := b1.1.allocLike C b1.2
      -- var = tmp_var; need_accu_var_list_.emplace_back(iter->second.get(), var);
      .ok ({ wt.1 with engine := { wt.1.engine with
               need_accu_var_list := wt.1.engine.need_accu_var_list ++ [(ref, wt.2)] } }, wt.2)
    -- else if (!inplace_grad_name_map.empty() && inplace_grad_name_map.count(pair.first))
    else
      match find slot (b1.1.graph cur_node).inplace_grad_name_map with
      | none => .ok b1
      | some in_slot =>
        -- bwd_ins.at(inplace_grad_name_map.at(pair.first))
        match find in_slot bwd_ins with
        | none => .error (.OutOfRange, b1.1)
        | some in_vars => .ok (inplaceScan C in_vars.vars b1)

/-- The loop of lines 297-379 over the variables of one slot of `tmp_outs`. -/
def remapVars {n : Nat} (C : Collab) (cur_node : Fin n) (bwd_ins : NameVarMap VarId)
    (slot : String) : List (Option VarId) → World n →
    Except (Error × World n) (World n × List (Option VarRef))
  | [], w => .ok (w, [])
  -- if (!var) continue;
  | none :: rest, w =>
    match remapVars C cur_node bwd_ins slot rest w with
    | .ok (w1, vs) => .ok (w1, none :: vs)
    | .error e => .error e
  | some v :: rest, w =>
    match remapVar C cur_node bwd_ins slot v w with
    | .ok (w1, var) =>
      match remapVars C cur_node bwd_ins slot rest w1 with
      | .ok (w2, vs) => .ok (w2, some var :: vs)
      | .error e => .error e
    | .error e => .error e

/-- The loop of lines 292-380 over the slots of `tmp_outs`, a copy of `bwd_outs`. -/
def remapOuts {n : Nat} (C : Collab) (cur_node : Fin n) (bwd_ins : NameVarMap VarId) :
    NameVarMap VarId → World n → Except (Error × World n) (World n × NameVarMap VarRef)
  | [], w => .ok (w, [])
  | (slot, l) :: rest, w =>
    -- if (!pair.second.IsGrad()) continue;
    if !l.is_grad then
      match remapOuts C cur_node bwd_ins rest w with
      | .ok (w1, m) =>
        .ok (w1, (slot, { vars := l.vars.map (Option.map VarRef.graphVar), is_grad := l.is_grad })
                   :: m)
      | .error e => .error e
    else
      match remapVars C cur_node bwd_ins slot l.vars w with
      | .ok (w1, vs) =>
        match remapOuts C cur_node bwd_ins rest w1 with
        | .ok (w2, m) => .ok (w2, (slot, { vars := vs, is_grad := l.is_grad }) :: m)
        | .error e => .error e
      | .error e => .error e

/-- The check of lines 386-400 for one entry of an input slot. -/
def checkVersion {n : Nat} (cur_op : OpBase) (var_wrapper : Option VarId) (w : World n) :
    Res (World n) :=
  match var_wrapper with
  -- var_wrapper->InplaceVersionSnapshot() on a null pointer
  | none => .error (.NullDereference, w)
  | some v =>
    let wrapper_version_snapshot := (w.wrappers v).inplace_version_snapshot
    let tensor_version := (w.store (.graphVar v)).inplace_version
    -- PADDLE_ENFORCE_EQ(tensor_version, wrapper_version_snapshot, ...)
    if tensor_version = wrapper_version_snapshot then .ok w
    else .error (.InplaceTampering cur_op.type (w.wrappers v).name tensor_version
                   wrapper_version_snapshot, w)

/-- The in-place version check of lines 384-405 over the whole input map. -/
def checkVersions {n : Nat} (cur_op : OpBase) (w : World n) : Res (World n) :=
  forEach (fun (pair : String × SavedVariableWrapperList VarId) w =>
      forEach (checkVersion cur_op) pair.2.vars w)
    cur_op.ins w

/-- Lines 413-415: `*pair.first = std::move(*pair.second)` for every pair of
`inplace_var_list_`. -/
def moveInplace {n : Nat} (C : Collab) (w : World n) : World n :=
  w.engine.inplace_var_list.foldl
    (fun w pair => { w with store := C.move_var pair.1 pair.2 w.store
                            trace := w.trace ++ [.move_var pair.1 pair.2] }) w

/-- Lines 418-420: `pair.first->SumGrad(std::move(pair.second), cur_op.id())` for every pair
of `need_accu_var_list_`.  The completion count of the accumulator goes up by one. -/
def sumGrads {n : Nat} (C : Collab) (cur_op : OpBase) (w : World n) : World n :=
  w.engine.need_accu_var_list.foldl
    (fun w pair =>
      match w.engine.acc? pair.1 with
      | none => w
      | some acc =>
        { w with store := C.sum_grad acc pair.2 cur_op.id w.store
                 engine := w.engine.modifyAcc pair.1 fun a => { a with cur_cnt := a.cur_cnt + 1 }
                 trace := w.trace ++ [.sum_grad pair.1 pair.2 cur_op.id] }) w

/-- Lines 423-436: the loop over `leaf_accumulators_`. -/
def accumulateLeaves {n : Nat} (C : Collab) (w : World n) : World n :=
  w.engine.leaf_accumulators.foldl
    (fun w ref =>
      match w.engine.acc? ref with
      | none => w
      | some acc =>
        -- if (!accumulator->SumGradCompleted()) continue;
        if !C.sum_grad_completed acc then w
        else
          -- accumulator->AccumulateGrad();
          let w1 : World n :=
            { w with store := C.accumulate_grad acc w.store
                     trace := w.trace ++ [.accumulate_grad ref] }
          -- if (accumulator->HasPostHooks()) accumulator->CallBackwardPostHooks();
          if acc.post_hooks.isSome then
            { w1 with store := C.call_backward_post_hooks acc w1.store
                      trace := w1.trace ++ [.call_backward_post_hooks ref] }
          else w1) w

/-- Modelled from the spec: `OpBase::ClearBackwardTrace` is outside the sources at hand;
it drops what the operator captured, its input and output maps. -/
def clearBackwardTrace {n : Nat} (cur_node : Fin n) (idx : Nat) (w : World n) : World n :=
  { w with
      graph := fun m =>
        if m = cur_node then
          { w.graph m with ops := (w.graph m).ops.modify (fun op => { op with ins := [], outs := [] }) idx }
        else w.graph m
      trace := w.trace ++ [.clear_backward_trace cur_node idx] }

/-- Lines 413-444: what follows the kernel call for the `idx`-th operator `cur_op` of
`cur_node`. -/
def afterRun {n : Nat} (C : Collab) (cur_node : Fin n) (idx : Nat) (cur_op : OpBase)
    (w : World n) : World n :=
  let w5 := accumulateLeaves C (sumGrads C cur_op (moveInplace C w))
  -- need_accu_var_list_.clear(); leaf_accumulators_.clear();
  let w6 : World n :=
    { w5 with engine := { w5.engine with need_accu_var_list := [], leaf_accumulators := [] } }
  -- if (!retain_graph_) cur_op.ClearBackwardTrace();
  if !w6.engine.retain_graph then clearBackwardTrace cur_node idx w6 else w6

/-- The body of the loop over the operators of a node (lines 279-444) for the operator
`cur_op`, the `idx`-th of `cur_node`. -/
def runOp {n : Nat} (C : Collab) (cur_node : Fin n) (idx : Nat) (cur_op : OpBase)
    (w : World n) : Res (World n) :=
  -- CheckBackwardInputs(cur_op);
  let w1 := BasicEngine.CheckBackwardInputs cur_op w
  let bwd_ins := cur_op.ins
  -- NameVarMap<VariableWrapper> tmp_outs(bwd_outs); and its remapping
  match remapOuts C cur_node bwd_ins cur_op.outs w1 with
  | .error e => .error e
  | .ok (w2, tmp_outs) =>
    match checkVersions cur_op w2 with
    | .error e => .error e
    | .ok w3 =>
      -- OpBase::Run(cur_op.InnerOp(), bwd_ins, tmp_outs, cur_op.Attrs(), cur_op.place());
      match C.run_op cur_op bwd_ins tmp_outs w3.store with
      | none => .error (.KernelFailure, w3)
      | some store =>
        .ok (afterRun C cur_node idx cur_op
          { w3 with store := store
                    trace := w3.trace ++ [.run_op cur_node idx cur_op bwd_ins tmp_outs] })

/-- The loop `for (auto& cur_op : *shared_cur_node)` of lines 278-445: the operators of the
node are visited by position and read when they are reached. -/
def runOps {n : Nat} (C : Collab) (cur_node : Fin n) (w : World n) : Res (World n) :=
  forEach
    (fun idx w =>
      match (w.graph cur_node).ops.get? idx with
      | none => .ok w
      | some cur_op => runOp C cur_node idx cur_op w)
    (List.range (w.graph cur_node).ops.length) w

/-- The state of the scheduling loop of `Execute`: the world and the queue `q`. -/
structure Sched (n : Nat) where
  world : World n
  q : List (Fin n)

/-- Lift a result over worlds to a result over scheduler states. -/
def Sched.lift {n : Nat} (s : Sched n) : Res (World n) → Res (Sched n)
  | .ok w => .ok { s with world := w }
  | .error (e, w) => .error (e, { s with world := w })

/-- The body of the loop of lines 448-460 over `grad_pending_nodes`. -/
def collectReady {n : Nat} (grad_pending_node : Option (Fin n)) (s : Sched n) : Res (Sched n) :=
  match grad_pending_node with
  -- PADDLE_ENFORCE_NOT_NULL(grad_pending_node, ...)
  | none => .error (.MissingNode, s)
  | some p =>
    -- auto iter = node_deps_.find(p); if (iter == node_deps_.end()) continue;
    match find p s.world.engine.node_deps with
    | none => .ok s
    | some d =>
      let w1 : World n :=
        { s.world with engine := { s.world.engine with
            node_deps := upsert p (fun _ => d - 1) s.world.engine.node_deps } }
      -- if (--(iter->second) == 0) q.push(grad_pending_node);
      if d - 1 = 0 then .ok { world := w1, q := s.q ++ [p] }
      else .ok { s with world := w1 }

/-- One turn of the `while (!q.empty())` loop of `Execute` for the node at the front. -/
def execNode {n : Nat} (C : Collab) (cur_node : Fin n) (s : Sched n) : Res (Sched n) :=
  match s.lift (runOps C cur_node s.world) with
  | .ok s1 => forEach collectReady (s1.world.graph cur_node).grad_pending_nodes s1
  | .error e => .error e

/-- The `while (!q.empty())` loop of `Execute`.  Each turn spends one unit of fuel. -/
def execLoop {n : Nat} (C : Collab) : Nat → Sched n → Res (Sched n)
  | fuel, s =>
    match s.q with
    | [] => .ok s
    | cur_node :: rest =>
      match fuel with
      | 0 => .error (.FuelExhausted, s)
      | fuel + 1 =>
        match execNode C cur_node { s with q := rest } with
        | .ok s1 => execLoop C fuel s1
        | .error e => .error e

/-- The move `std::move(init_node_)` of line 268: the engine gives up its initial node. -/
def takeInitNode {n : Nat} (w : World n) : World n :=
  { w with engine := { w.engine with init_node := none } }

/-- The method `BasicEngine::Execute()`.  The scheduling loop pops at most `n + 1` nodes, so
`n + 1` units of fuel are enough (`execLoop_fuel`). -/
def BasicEngine.Execute {n : Nat} (C : Collab) (w : World n) : Res (World n) :=
  -- if (init_node_ == nullptr) return;
  match w.engine.init_node with
  | none => .ok w
  | some init =>
    -- PrepareDeps();
    match BasicEngine.PrepareDeps C w with
    | .error e => .error e
    | .ok w1 =>
      -- q.push(std::move(init_node_));
      match execLoop C (n + 1) { world := takeInitNode w1, q := [init] } with
      | .error (e, s) => .error (e, s.world)
      -- Clear();
      | .ok s => .ok (BasicEngine.Clear s.world)

/-! ## Notions the properties are stated with -/

/-- An edge of the reverse graph: `p` is a (non-null) pending node of `m`. -/
def Edge {n : Nat} (g : Fin n → GradOpNode n) (m p : Fin n) : Prop :=
  some p ∈ (g m).grad_pending_nodes

/-- The node `m` is reachable from `init` through non-null pending edges. -/
def Reachable {n : Nat} (g : Fin n → GradOpNode n) (init m : Fin n) : Prop :=
  Relation.ReflTransGen (Edge g) init m

/-- The reverse graph has no cycle. -/
def Acyclic {n : Nat} (g : Fin n → GradOpNode n) : Prop :=
  ∀ m, ¬ Relation.TransGen (Edge g) m m

/-- The operator a `run_op` event ran: its node and its position in the node. -/
def Event.ran {n : Nat} : Event n → Option (Fin n × Nat)
  | .run_op node idx _ _ _ => some (node, idx)
  | _ => none

/-- The operators run by a trace, in order. -/
def ranOps {n : Nat} (tr : List (Event n)) : List (Fin n × Nat) := tr.filterMap Event.ran

/-- An engine that holds no analysis state: as constructed, or as left by `Clear`. -/
def BasicEngine.Idle {n : Nat} (e : BasicEngine n) : Prop :=
  e.node_deps = [] ∧ e.accumulators = [] ∧ e.leaf_basic_accumulators = [] ∧
  e.need_accu_var_list = [] ∧ e.leaf_accumulators = []

instance {n : Nat} (e : BasicEngine n) : Decidable e.Idle :=
  inferInstanceAs (Decidable (e.node_deps = [] ∧ e.accumulators = [] ∧
    e.leaf_basic_accumulators = [] ∧ e.need_accu_var_list = [] ∧ e.leaf_accumulators = []))

/-- Whether an error is of kind `InplaceTampering`. -/
def Error.isInplaceTampering : Error → Bool
  | .InplaceTampering _ _ _ _ => true
  | _ => false

/-- Whether a variable holds something `CheckBackwardInputs` leaves alone: an allocated
dense tensor or a value of another type. -/
def Variable.hasData (x : Variable) : Bool :=
  match x.holder with
  | none => false
  | some (.lodTensor t) => t.holder.isSome
  | some (.other _) => true

/-! ## Example worlds

The graph of `z = x + y`, `y = 2x`: node 0 holds `add_grad`, node 1 holds `scale_grad`.
Variables 0, 1, 2 are `x`, `y`, `z`; variables 10, 11, 12 are their gradients. -/

/-- The wrappers of the example: only the gradients of `y` and `z` have a grad node, the
gradient of `x` is a leaf gradient. -/
def exWrapper (i : VarId) : VariableWrapper :=
  { name := "v", has_grad_node := decide (i = 11 ∨ i = 12), overrided_stop_gradient := false
    is_leaf_grad := decide (i = 10), leaf_hooks := [], inplace_version_snapshot := 0
    data_type := 5, type := 7, forward_data_type := 5 }

/-- The operator `add_grad`: reads the gradient of `z`, writes those of `x` and `y`. -/
def opAdd : OpBase :=
  { id := 2, type := "add_grad", ins := [("Out@GRAD", ⟨[some 12], true⟩)]
    outs := [("X@GRAD", ⟨[some 10], true⟩), ("Y@GRAD", ⟨[some 11], true⟩)], place := 0 }

/-- The operator `scale_grad`: reads the gradient of `y`, writes that of `x`. -/
def opScale : OpBase :=
  { id := 1, type := "scale_grad", ins := [("Out@GRAD", ⟨[some 11], true⟩)]
    outs := [("X@GRAD", ⟨[some 10], true⟩)], place := 0 }

/-- The reverse graph of the example. -/
def exGraph : Fin 2 → GradOpNode 2
  | ⟨0, _⟩ => { ops := [opAdd], grad_pending_nodes := [some 1], inplace_grad_name_map := [] }
  | ⟨_, _⟩ => { ops := [opScale], grad_pending_nodes := [], inplace_grad_name_map := [] }

/-- A dense tensor of one element on place 0 with dtype 5. -/
def exTensor (x : Int) : Variable :=
  { holder := some (.lodTensor { dims := [1], holder := some { place := 0, dtype := 5, data := [x] } })
    inplace_version := 0 }

/-- A kernel that writes `[1]` into every variable bound in its output map. -/
def exKernel (_ : OpBase) (_ : NameVarMap VarId) (outs : NameVarMap VarRef) (s : Store) :
    Option Store :=
  some (outs.foldl (fun s pair =>
    pair.2.vars.foldl (fun s var =>
      match var with
      | none => s
      | some v => s.set v (exTensor 1)) s) s)

/-- Collaborators of the example: an accumulator wraps an inner variable for a leaf
gradient, a new wrapper is stop-gradient, `SumGrad` and `AccumulateGrad` hand the
contribution on. -/
def exCollab : Collab :=
  { sort_sum_gradient := false
    new_wrapper := fun nm => { VariableWrapper.blank with name := nm }
    wraps_inner_var := fun vw => vw.is_leaf_grad
    run_op := exKernel
    move_var := fun orig tmp s => s.set orig (s tmp)
    sum_grad := fun acc tmp _ s => s.set (acc.inner_var.getD (.graphVar acc.var)) (s tmp)
    sum_grad_completed := fun a => a.cur_cnt == a.ref_cnt || a.ref_cnt == 1
    accumulate_grad := fun acc s => s.set (.graphVar acc.var) (s (acc.inner_var.getD (.graphVar acc.var)))
    call_backward_post_hooks := fun _ s => s }

/-- An idle engine. -/
def exEngine : BasicEngine 2 :=
  { init_node := none, retain_graph := false, node_deps := [], accumulators := []
    leaf_basic_accumulators := [], need_accu_var_list := [], inplace_var_list := []
    leaf_accumulators := [] }

/-- The world of the example before `Init`: `x`, `y`, `z` hold `[1]`, `[2]`, `[3]`. -/
def exWorld : World 2 :=
  { graph := exGraph, wrappers := exWrapper, temps := []
    store := fun v =>
      if v = .graphVar 0 then exTensor 1 else if v = .graphVar 1 then exTensor 2
      else if v = .graphVar 2 then exTensor 3 else { holder := none, inplace_version := 0 }
    engine := exEngine, trace := [] }

/-- The seed `z` of the example, with its gradient produced by node 0. -/
def exSeed : VarBase 2 :=
  { wrapper := 2, grad_var := some { wrapper := 12, grad_node := some 0, graph_is_freed := false } }

/-- The example with `z.stop_gradient = True` set after the forward pass. -/
def sgWorld : World 2 :=
  { exWorld with wrappers := fun i =>
      if i = 2 then { exWrapper i with overrided_stop_gradient := true } else exWrapper i }

/-- What `CheckBackwardInputs` may change between `w` and `w1`: only the holders of
variables that held no data, logging `set_constant` calls. -/
structure InputsChecked {n : Nat} (w w1 : World n) : Prop where
  graph : w1.graph = w.graph
  wrappers : w1.wrappers = w.wrappers
  temps : w1.temps = w.temps
  engine : w1.engine = w.engine
  version : ∀ v, (w1.store v).inplace_version = (w.store v).inplace_version
  kept : ∀ v, (w.store v).hasData = true → w1.store v = w.store v
  trace : ∃ evs, w1.trace = w.trace ++ evs ∧ ∀ e ∈ evs, ∃ v x, e = Event.set_constant v x

/-- What the remapping of the outputs of an operator may change between `w` and `w1`: the
allocated wrappers and the three work lists of the engine. -/
structure Remapped {n : Nat} (w w1 : World n) : Prop where
  graph : w1.graph = w.graph
  wrappers : w1.wrappers = w.wrappers
  store : w1.store = w.store
  trace : w1.trace = w.trace
  init_node : w1.engine.init_node = w.engine.init_node
  retain_graph : w1.engine.retain_graph = w.engine.retain_graph
  node_deps : w1.engine.node_deps = w.engine.node_deps
  accumulators : w1.engine.accumulators = w.engine.accumulators
  leaf_basic : w1.engine.leaf_basic_accumulators = w.engine.leaf_basic_accumulators
  temps : ∃ l, w1.temps = w.temps ++ l

/-- The version check passes on one entry of an input slot. -/
def versionOk {n : Nat} (w : World n) (v : VarId) : Prop :=
  (w.store (.graphVar v)).inplace_version = (w.wrappers v).inplace_version_snapshot

/-- Some variable of the input map of `op` has an in-place version that differs from its
snapshot. -/
def Tampered {n : Nat} (w : World n) (op : OpBase) : Prop :=
  ∃ pair ∈ op.ins, ∃ v, some v ∈ pair.2.vars ∧ ¬ versionOk w v

/-- No entry of the input map of `op` is a null pointer. -/
def InputsNonNull (op : OpBase) : Prop :=
  ∀ pair ∈ op.ins, none ∉ pair.2.vars

instance (op : OpBase) : Decidable (InputsNonNull op) :=
  inferInstanceAs (Decidable (∀ pair ∈ op.ins, none ∉ pair.2.vars))

instance {n : Nat} (w : World n) (v : VarId) : Decidable (versionOk w v) :=
  inferInstanceAs (Decidable
    ((w.store (.graphVar v)).inplace_version = (w.wrappers v).inplace_version_snapshot))

/-- What `PrepareGradAccumulators` may change between `w` and `w1`: the two accumulator
registries and the allocated wrappers. -/
structure Provisioned {n : Nat} (w w1 : World n) : Prop where
  graph : w1.graph = w.graph
  wrappers : w1.wrappers = w.wrappers
  store : w1.store = w.store
  trace : w1.trace = w.trace
  init_node : w1.engine.init_node = w.engine.init_node
  retain_graph : w1.engine.retain_graph = w.engine.retain_graph
  node_deps : w1.engine.node_deps = w.engine.node_deps
  need_accu : w1.engine.need_accu_var_list = w.engine.need_accu_var_list
  inplace : w1.engine.inplace_var_list = w.engine.inplace_var_list
  leaf_accumulators : w1.engine.leaf_accumulators = w.engine.leaf_accumulators
  temps : ∃ l, w1.temps = w.temps ++ l

/-- What `PrepareDeps` may change between `w` and `w1`: `node_deps_`, the two accumulator
registries and the allocated wrappers. -/
structure Analysed {n : Nat} (w w1 : World n) : Prop where
  graph : w1.graph = w.graph
  wrappers : w1.wrappers = w.wrappers
  store : w1.store = w.store
  trace : w1.trace = w.trace
  init_node : w1.engine.init_node = w.engine.init_node
  retain_graph : w1.engine.retain_graph = w.engine.retain_graph
  need_accu : w1.engine.need_accu_var_list = w.engine.need_accu_var_list
  inplace : w1.engine.inplace_var_list = w.engine.inplace_var_list
  leaf_accumulators : w1.engine.leaf_accumulators = w.engine.leaf_accumulators
  temps : ∃ l, w1.temps = w.temps ++ l

/-- The variable an accumulator reference is about. -/
def AccRef.var {n : Nat} : AccRef n → VarId
  | .leaf v => v
  | .nonLeaf _ v => v

/-- The reference count of the accumulator behind a reference, 0 when there is none. -/
def refCntOf {n : Nat} (e : BasicEngine n) (r : AccRef n) : Nat :=
  ((e.acc? r).map (·.ref_cnt)).getD 0

/-- The number of occurrences of `v` in the grad-output slots of `op`. -/
def gradOutCount (op : OpBase) (v : VarId) : Nat :=
  (op.outs.map fun pair => if pair.2.is_grad then pair.2.vars.count (some v) else 0).sum

/-- The first node of a pending list that has `v` among the grad-inputs of its operators. -/
def firstReader {n : Nat} (g : Fin n → GradOpNode n) (pending : List (Option (Fin n)))
    (v : VarId) : Option (Fin n) :=
  pending.findSome? fun q =>
    match q with
    | none => none
    | some p => if readsVar (g p) v then some p else none

/-- The accumulator the analysis routes a grad-output `v` to, for an operator whose node has
the pending list `pending`: the leaf accumulator of `v` when `v` has no grad node, and
otherwise the accumulator of `v` at the first pending node that reads `v`. -/
def routeVia {n : Nat} (g : Fin n → GradOpNode n) (wr : VarId → VariableWrapper)
    (pending : List (Option (Fin n))) (v : VarId) : Option (AccRef n) :=
  if !(wr v).has_grad_node then some (.leaf v)
  else (firstReader g pending v).map fun p => .nonLeaf p v

/-- The number of grad-output occurrences, in the operators of the nodes of `vis`, that
the analysis routes to the accumulator `r`. -/
def writeSites {n : Nat} (g : Fin n → GradOpNode n) (wr : VarId → VariableWrapper)
    (vis : List (Fin n)) (r : AccRef n) : Nat :=
  (vis.map fun m =>
    if routeVia g wr (g m).grad_pending_nodes r.var = some r then
      ((g m).ops.map fun op => gradOutCount op r.var).sum
    else 0).sum

/-- The number of occurrences of `p` in the pending lists of the nodes of `vis`. -/
def pendingCount {n : Nat} (g : Fin n → GradOpNode n) (vis : List (Fin n)) (p : Fin n) : Nat :=
  (vis.map fun m => (g m).grad_pending_nodes.count (some p)).sum

/-- The entry of `node_deps_` for a node that occurs `c` times: none when `c = 0`. -/
def depEntry (c : Nat) : Option Int := if c = 0 then none else some (c : Int)

/-- Whether one entry of a grad-output slot is routed to the accumulator `r`, as 0 or 1. -/
def routedTo {n : Nat} (g : Fin n → GradOpNode n) (wr : VarId → VariableWrapper)
    (pending : List (Option (Fin n))) (r : AccRef n) (var : Option VarId) : Nat :=
  match var with
  | none => 0
  | some v => if routeVia g wr pending v = some r then 1 else 0

/-- The invariant of the sweep of `PrepareDeps` between two turns of its loop, for a sweep
started in the world `w0` at `init`: `proc` lists the nodes popped so far. -/
structure SweepInv {n : Nat} (w0 : World n) (init : Fin n) (proc : List (Fin n))
    (s : Sweep n) : Prop where
  frame : Analysed w0 s.world
  vis : s.visited = proc ++ s.q
  nodup : s.visited.Nodup
  reach : ∀ m ∈ s.visited, Reachable w0.graph init m
  init_mem : init ∈ s.visited
  closed : ∀ m ∈ proc, ∀ p, Edge w0.graph m p → p ∈ s.visited
  deps : ∀ p, find p s.world.engine.node_deps = depEntry (pendingCount w0.graph proc p)
  refs : ∀ r, refCntOf s.world.engine r
    = refCntOf w0.engine r + writeSites w0.graph w0.wrappers proc r
  nonnull : ∀ m ∈ proc, none ∉ (w0.graph m).grad_pending_nodes

/-- The invariant of the sweep while the pending list of `cur` is scanned: `pre` is the part
of the list scanned so far. -/
structure ScanInv {n : Nat} (w0 : World n) (init : Fin n) (proc : List (Fin n)) (cur : Fin n)
    (pre : List (Option (Fin n))) (s : Sweep n) : Prop where
  frame : Analysed w0 s.world
  vis : s.visited = proc ++ cur :: s.q
  nodup : s.visited.Nodup
  reach : ∀ m ∈ s.visited, Reachable w0.graph init m
  init_mem : init ∈ s.visited
  closed : ∀ m ∈ proc, ∀ p, Edge w0.graph m p → p ∈ s.visited
  closed_pre : ∀ p, some p ∈ pre → p ∈ s.visited
  deps : ∀ p, find p s.world.engine.node_deps
    = depEntry (pendingCount w0.graph proc p + pre.count (some p))
  refs : ∀ r, refCntOf s.world.engine r
    = refCntOf w0.engine r + writeSites w0.graph w0.wrappers (proc ++ [cur]) r
  nonnull : ∀ m ∈ proc, none ∉ (w0.graph m).grad_pending_nodes
  nonnull_pre : none ∉ pre

/-- The example after `Init(z, retain_graph = true)`: the gradient of `z` is seeded and
`init_node_` is node 0. -/
def exReady : World 2 := (BasicEngine.Init exWorld exSeed true).state.1

/-! The graph of `u = 2a`, `z = u + b`: node 0 holds `sum_grad`, which writes the gradients
of `u` (variable 11) and of the leaf `b` (variable 14); node 1 holds `mul_grad`, which
writes the gradient of the leaf `a` (variable 13) and also reads variable 15. -/

/-- The wrappers of the second example. -/
def tWrapper (i : VarId) : VariableWrapper :=
  { name := "v", has_grad_node := decide (i = 11 ∨ i = 12), overrided_stop_gradient := false
    is_leaf_grad := decide (i = 13 ∨ i = 14), leaf_hooks := [], inplace_version_snapshot := 0
    data_type := 5, type := 7, forward_data_type := 5 }

/-- The operator `sum_grad` of the second example. -/
def opSum : OpBase :=
  { id := 2, type := "sum_grad", ins := [("Out@GRAD", ⟨[some 12], true⟩)]
    outs := [("B@GRAD", ⟨[some 14], true⟩), ("U@GRAD", ⟨[some 11], true⟩)], place := 0 }

/-- The operator `mul_grad` of the second example. -/
def opMul : OpBase :=
  { id := 1, type := "mul_grad"
    ins := [("Out@GRAD", ⟨[some 11], true⟩), ("Y@GRAD", ⟨[some 15], true⟩)]
    outs := [("A@GRAD", ⟨[some 13], true⟩)], place := 0 }

/-- The reverse graph of the second example. -/
def tGraph : Fin 2 → GradOpNode 2
  | ⟨0, _⟩ => { ops := [opSum], grad_pending_nodes := [some 1], inplace_grad_name_map := [] }
  | ⟨_, _⟩ => { ops := [opMul], grad_pending_nodes := [], inplace_grad_name_map := [] }

/-- The second example ready for `Execute`, where variable 15, an input of `mul_grad`, was
modified in place after the forward pass: its version is 1, its snapshot 0. -/
def tWorld : World 2 :=
  { graph := tGraph, wrappers := tWrapper, temps := []
    store := fun v =>
      if v = .graphVar 12 then exTensor 1
      else if v = .graphVar 15 then { exTensor 4 with inplace_version := 1 }
      else { holder := none, inplace_version := 0 }
    engine := { exEngine with init_node := some 0 }, trace := [] }

/-- The second example where instead variable 12, the input of the first operator run, was
modified in place. -/
def tWorldFirst : World 2 :=
  { tWorld with store := fun v =>
      if v = .graphVar 12 then { exTensor 1 with inplace_version := 1 }
      else { holder := none, inplace_version := 0 } }

/-- The second example as `PrepareDeps` leaves it: `node_deps_[1] = 1`, one accumulator for
the gradient of `u` at node 1, leaf accumulators for the gradients of `b` and `a`, each
wrapping a newly allocated inner variable. -/
def tPrepared : World 2 :=
  { tWorld with
      temps := [{ VariableWrapper.blank with name := "v", type := 7, forward_data_type := 5 },
                { VariableWrapper.blank with name := "v", type := 7, forward_data_type := 5 }]
      engine :=
        { init_node := none, retain_graph := false, node_deps := [(1, 1)]
          accumulators := [(1, [(11, { var := 11, inner_var := none, ref_cnt := 1, cur_cnt := 0
                                       post_hooks := none, sorted := false })])]
          leaf_basic_accumulators :=
            [(14, { var := 14, inner_var := some (.fresh 0), ref_cnt := 1, cur_cnt := 0
                    post_hooks := none, sorted := false }),
             (13, { var := 13, inner_var := some (.fresh 1), ref_cnt := 1, cur_cnt := 0
                    post_hooks := none, sorted := false })]
          need_accu_var_list := [], inplace_var_list := [], leaf_accumulators := [] } }

/-- An accumulator with its completion count forgotten: what the analysis fixed. -/
def GradientAccumulator.static (a : GradientAccumulator) : GradientAccumulator :=
  { a with cur_cnt := 0 }

/-- Whether an event is a `ClearBackwardTrace` call. -/
def Event.isClear {n : Nat} : Event n → Bool
  | .clear_backward_trace _ _ => true
  | _ => false

/-- Whether an event is a `SumGrad` call on the accumulator `r`. -/
def Event.sumGradOn {n : Nat} (r : AccRef n) : Event n → Bool
  | .sum_grad a _ _ => decide (a = r)
  | _ => false

/-- The number of `SumGrad` calls a trace makes on the accumulator `r`. -/
def sumGradCalls {n : Nat} (tr : List (Event n)) (r : AccRef n) : Nat :=
  tr.countP (Event.sumGradOn r)

/-- The operator a `run_op` event ran, with the maps it was recorded with. -/
def Event.ranOp {n : Nat} : Event n → Option (Fin n × Nat × OpBase)
  | .run_op node idx op _ _ => some (node, idx, op)
  | _ => none

/-- The operators run by a trace, in order, each with its node, its position and its
recorded input and output maps. -/
def ranOpsFull {n : Nat} (tr : List (Event n)) : List (Fin n × Nat × OpBase) :=
  tr.filterMap Event.ranOp

/-- What running operators of `cur_node` may change between `w` and `w1`: the tensors, the
completion counts, the work lists, the allocated wrappers, the captured maps of the
operators of `cur_node` at the positions `T` (only without retention), and the trace. -/
structure Stepped {n : Nat} (cur_node : Fin n) (T : Nat → Prop) (w w1 : World n) : Prop where
  wrappers : w1.wrappers = w.wrappers
  init_node : w1.engine.init_node = w.engine.init_node
  retain_graph : w1.engine.retain_graph = w.engine.retain_graph
  node_deps : w1.engine.node_deps = w.engine.node_deps
  pending : ∀ m, (w1.graph m).grad_pending_nodes = (w.graph m).grad_pending_nodes
  inplace_map : ∀ m, (w1.graph m).inplace_grad_name_map = (w.graph m).inplace_grad_name_map
  ops_len : ∀ m, (w1.graph m).ops.length = (w.graph m).ops.length
  others : ∀ m, m ≠ cur_node → w1.graph m = w.graph m
  untouched : ∀ j, ¬ T j → (w1.graph cur_node).ops.get? j = (w.graph cur_node).ops.get? j
  retained : w.engine.retain_graph = true → w1.graph = w.graph
  temps : ∃ l, w1.temps = w.temps ++ l
  accs : ∀ r, (w1.engine.acc? r).map GradientAccumulator.static
    = (w.engine.acc? r).map GradientAccumulator.static
  trace : ∃ evs, w1.trace = w.trace ++ evs ∧
    (w.engine.retain_graph = true → ∀ e ∈ evs, e.isClear = false)

/-- Well-formedness of the accumulator registries: every accumulator has been referenced at
least once, and an inner variable is a wrapper that has been allocated. -/
def AccWF {n : Nat} (w : World n) : Prop :=
  ∀ r a, w.engine.acc? r = some a →
    0 < a.ref_cnt ∧ ∀ x, a.inner_var = some x → ∃ k, x = VarRef.fresh k ∧ k < w.temps.length

/-- The operators of the node `m`, each with its node and its position. -/
def opsOf {n : Nat} (g : Fin n → GradOpNode n) (m : Fin n) : List (Fin n × Nat × OpBase) :=
  (List.range (g m).ops.length).filterMap fun i => ((g m).ops.get? i).map fun op => (m, i, op)

/-- What the scheduling loop of `Execute` may change between `w0` and `w`: as `Stepped`, for
operators of any node, and `node_deps_`. -/
structure Driven {n : Nat} (w0 w : World n) : Prop where
  wrappers : w.wrappers = w0.wrappers
  init_node : w.engine.init_node = w0.engine.init_node
  retain_graph : w.engine.retain_graph = w0.engine.retain_graph
  pending : ∀ m, (w.graph m).grad_pending_nodes = (w0.graph m).grad_pending_nodes
  inplace_map : ∀ m, (w.graph m).inplace_grad_name_map = (w0.graph m).inplace_grad_name_map
  ops_len : ∀ m, (w.graph m).ops.length = (w0.graph m).ops.length
  retained : w0.engine.retain_graph = true → w.graph = w0.graph
  temps : ∃ l, w.temps = w0.temps ++ l
  accs : ∀ r, (w.engine.acc? r).map GradientAccumulator.static
    = (w0.engine.acc? r).map GradientAccumulator.static
  trace : ∃ evs, w.trace = w0.trace ++ evs ∧
    (w0.engine.retain_graph = true → ∀ e ∈ evs, e.isClear = false)

/-- The invariant of the scheduling loop of `Execute` between two turns, for a loop started
in the world `w0` at `init`, where `vis` lists the nodes reachable from `init`: `done` lists
the nodes popped so far, in order. -/
structure SchedInv {n : Nat} (w0 : World n) (init : Fin n) (vis done : List (Fin n))
    (s : Sched n) : Prop where
  frame : Driven w0 s.world
  fresh : ∀ m, m ∉ done → s.world.graph m = w0.graph m
  nodup : (done ++ s.q).Nodup
  sub : ∀ m ∈ done ++ s.q, m ∈ vis
  init_mem : init ∈ done ++ s.q
  deps : ∀ p, find p s.world.engine.node_deps
    = if pendingCount w0.graph vis p = 0 then none
      else some ((pendingCount w0.graph vis p : Int) - (pendingCount w0.graph done p : Int))
  ready : ∀ p ∈ done ++ s.q, pendingCount w0.graph done p = pendingCount w0.graph vis p
  pushed : ∀ p, pendingCount w0.graph vis p ≠ 0 →
    pendingCount w0.graph done p = pendingCount w0.graph vis p → p ∈ done ++ s.q
  ran : ranOpsFull s.world.trace = ranOpsFull w0.trace ++ done.flatMap (opsOf w0.graph)
  topo : ∀ d1 p d2, done = d1 ++ p :: d2 → ∀ m ∈ vis, Edge w0.graph m p → m ∈ d1

/-- The invariant of the scheduling loop while the pending list of `cur` is scanned, after
the operators of `cur` have run: `pre` is the part of the list scanned so far. -/
structure CollectInv {n : Nat} (w0 : World n) (init : Fin n) (vis done : List (Fin n))
    (cur : Fin n) (pre : List (Option (Fin n))) (s : Sched n) : Prop where
  frame : Driven w0 s.world
  fresh : ∀ m, m ∉ done ++ [cur] → s.world.graph m = w0.graph m
  nodup : (done ++ cur :: s.q).Nodup
  sub : ∀ m ∈ done ++ cur :: s.q, m ∈ vis
  init_mem : init ∈ done ++ cur :: s.q
  deps : ∀ p, find p s.world.engine.node_deps
    = if pendingCount w0.graph vis p = 0 then none
      else some ((pendingCount w0.graph vis p : Int)
        - ((pendingCount w0.graph done p + pre.count (some p) : Nat) : Int))
  ready : ∀ p ∈ done ++ cur :: s.q,
    pendingCount w0.graph vis p ≤ pendingCount w0.graph done p + pre.count (some p)
  pushed : ∀ p, pendingCount w0.graph vis p ≠ 0 →
    pendingCount w0.graph done p + pre.count (some p) = pendingCount w0.graph vis p →
    p ∈ done ++ cur :: s.q
  ran : ranOpsFull s.world.trace
    = ranOpsFull w0.trace ++ (done ++ [cur]).flatMap (opsOf w0.graph)
  topo : ∀ d1 p d2, done ++ [cur] = d1 ++ p :: d2 → ∀ m ∈ vis, Edge w0.graph m p → m ∈ d1

/-- Two scheduler states that the scheduling loop cannot tell apart: the same queue, the
same dependency count for every node and the same pending lists. -/
structure Sim {n : Nat} (s s1 : Sched n) : Prop where
  q : s.q = s1.q
  deps : ∀ p, find p s.world.engine.node_deps = find p s1.world.engine.node_deps
  pending : ∀ m, (s.world.graph m).grad_pending_nodes = (s1.world.graph m).grad_pending_nodes

instance {n : Nat} (g : Fin n → GradOpNode n) (m p : Fin n) : Decidable (Edge g m p) :=
  inferInstanceAs (Decidable (some p ∈ (g m).grad_pending_nodes))

/-- An event that neither runs an operator nor clears a backward trace. -/
def Event.isQuiet {n : Nat} : Event n → Bool
  | .run_op _ _ _ _ _ => false
  | .clear_backward_trace _ _ => false
  | _ => true

/-- Whether the first event of a trace that runs an operator or clears a backward trace
is the clearing of the backward trace of operator `idx` of `node`. -/
def clearedNext {n : Nat} (node : Fin n) (idx : Nat) : List (Event n) → Bool
  | [] => false
  | e :: rest =>
    match e with
    | .clear_backward_trace m i => decide (m = node ∧ i = idx)
    | .run_op _ _ _ _ _ => false
    | _ => clearedNext node idx rest

/-- Whether every `run_op` event of a trace is followed, before any other operator is run,
by the clearing of the backward trace of the operator it ran. -/
def clearedAfterRun {n : Nat} : List (Event n) → Bool
  | [] => true
  | e :: rest =>
    match e with
    | .run_op node idx _ _ _ => clearedNext node idx rest && clearedAfterRun rest
    | _ => clearedAfterRun rest

/-- The events logged between `w` and `w1` leave no operator uncleared. -/
def Cleared {n : Nat} (w w1 : World n) : Prop :=
  ∃ evs, w1.trace = w.trace ++ evs ∧ clearedAfterRun evs = true

/-- The invariant of the scheduling loop of `Execute` with retention, for a loop started in
the world `w0`: the graph is as it was, and the operators of the popped nodes `done` have
been run, node by node. -/
structure RetInv {n : Nat} (w0 : World n) (done : List (Fin n)) (s : Sched n) : Prop where
  frame : Driven w0 s.world
  retain : w0.engine.retain_graph = true
  ran : ranOpsFull s.world.trace = ranOpsFull w0.trace ++ done.flatMap (opsOf w0.graph)

/-- The example after a first backward pass with retention, ready for a second pass without. -/
def exAgain : World 2 :=
  (BasicEngine.Init (BasicEngine.Execute exCollab exReady).state exSeed false).state.1

/-- The example ready for `Execute` without retention. -/
def exOnce : World 2 := (BasicEngine.Init exWorld exSeed false).state.1

/-- What a grad-output `v` routed to the accumulator `acc` is bound to when the test of
line 354 is made: the inner variable of the accumulator, for a leaf gradient whose
accumulator has one, and `v` itself otherwise. -/
def boundVar {n : Nat} (w : World n) (v : VarId) (acc : GradientAccumulator) : VarRef :=
  if (w.wrappers v).is_leaf_grad then acc.inner_var.getD (.graphVar v) else .graphVar v

/-- The test of line 354, `var->OverridedStopGradient() || iter->second->RefCnt() > 1`:
whether a grad-output routed to `acc` is redirected to a temporary and summed by `SumGrad`. -/
def redirected {n : Nat} (w : World n) (v : VarId) (acc : GradientAccumulator) : Bool :=
  (w.wrapper (boundVar w v acc)).overrided_stop_gradient || decide (acc.ref_cnt > 1)

/-- Whether one entry of a grad-output slot of an operator of `cur_node` leads to a
`SumGrad` call on the accumulator `r`, as 0 or 1. -/
def sumsInto {n : Nat} (w : World n) (cur_node : Fin n) (r : AccRef n) (var : Option VarId) :
    Nat :=
  match var with
  | none => 0
  | some v =>
    match findAccumulator w cur_node v with
    | some (ref, acc) => if ref = r ∧ redirected w v acc = true then 1 else 0
    | none => 0

/-- The number of `SumGrad` calls on `r` that an operator `op` of `cur_node` leads to. -/
def opSums {n : Nat} (w : World n) (cur_node : Fin n) (r : AccRef n) (op : OpBase) : Nat :=
  (op.outs.map fun pair =>
    if pair.2.is_grad then (pair.2.vars.map (sumsInto w cur_node r)).sum else 0).sum

/-- The number of entries of a `need_accu_var_list_` for the accumulator `r`. -/
def needCount {n : Nat} (l : List (AccRef n × VarRef)) (r : AccRef n) : Nat :=
  (l.map fun pair => if pair.1 = r then 1 else 0).sum

/-- What the execution keeps of the world `wp` the analysis left: the wrappers, the pending
lists, what the analysis fixed of every accumulator, and the wrappers allocated so far. -/
structure Kept {n : Nat} (wp w : World n) : Prop where
  wrappers : w.wrappers = wp.wrappers
  pending : ∀ m, (w.graph m).grad_pending_nodes = (wp.graph m).grad_pending_nodes
  inplace_map : ∀ m, (w.graph m).inplace_grad_name_map = (wp.graph m).inplace_grad_name_map
  accs : ∀ r, (w.engine.acc? r).map GradientAccumulator.static
    = (wp.engine.acc? r).map GradientAccumulator.static
  temps : ∃ l, w.temps = wp.temps ++ l

/-- The `SumGrad` calls made by the scheduling loop of `Execute`, started in the world `w0`,
when the nodes `done` have been popped: those of their operators. -/
structure CountInv {n : Nat} (w0 : World n) (done : List (Fin n)) (s : Sched n) : Prop where
  need : s.world.engine.need_accu_var_list = []
  calls : ∀ r, sumGradCalls s.world.trace r
    = sumGradCalls w0.trace r
      + (done.map fun m => ((w0.graph m).ops.map (opSums w0 m r)).sum).sum

/-- Whether the grad-outputs routed to the accumulator `r` are redirected to temporaries and
summed by `SumGrad`: the test of line 354 on the accumulator the analysis left. -/
def redirectedAt {n : Nat} (w : World n) (r : AccRef n) : Bool :=
  match w.engine.acc? r with
  | some a => redirected w r.var a
  | none => false

/-- The invariant of the scheduling loop of `Execute` that bounds its turns, in any graph:
apart from the initial node, every node popped or queued so far was pushed once, when its
dependency count reached 0, and the count has not gone up since. -/
def PushInv {n : Nat} (init : Fin n) (done : List (Fin n)) (s : Sched n) : Prop :=
  ∃ L, done ++ s.q = init :: L ∧ L.Nodup ∧
    ∀ p ∈ L, ∃ d, find p s.world.engine.node_deps = some d ∧ d ≤ 0

/-- The errors raised inside the sweep of `PrepareDeps`: by the loops of lines 236-257 and by
`PrepareGradAccumulators`. -/
def Error.isSweepError : Error → Bool
  | .HookOnNonLeaf => true
  | .MissingNode => true
  | .NoInOut => true
  | _ => false

/-! The graph of `u = f(a)` followed by an in-place `relu_(u)`, seeded at `u`: node 0 holds
`relu_grad`, which reads the gradient of `u` (variable 21) and writes it in place; node 1
holds `f_grad`, which reads variable 21 and writes the gradient of the leaf `a`
(variable 22). -/

/-- The wrappers of the in-place example. -/
def iWrapper (i : VarId) : VariableWrapper :=
  { name := "v", has_grad_node := decide (i = 21), overrided_stop_gradient := false
    is_leaf_grad := decide (i = 22), leaf_hooks := [], inplace_version_snapshot := 0
    data_type := 5, type := 7, forward_data_type := 5 }

/-- The operator `relu_grad` of the in-place example: its output is its input. -/
def opRelu : OpBase :=
  { id := 2, type := "relu_grad", ins := [("Out@GRAD", ⟨[some 21], true⟩)]
    outs := [("X@GRAD", ⟨[some 21], true⟩)], place := 0 }

/-- The operator `f_grad` of the in-place example. -/
def opSrc : OpBase :=
  { id := 1, type := "f_grad", ins := [("Out@GRAD", ⟨[some 21], true⟩)]
    outs := [("X@GRAD", ⟨[some 22], true⟩)], place := 0 }

/-- The reverse graph of the in-place example. -/
def iGraph : Fin 2 → GradOpNode 2
  | ⟨0, _⟩ =>
    { ops := [opRelu], grad_pending_nodes := [some 1]
      inplace_grad_name_map := [("X@GRAD", "Out@GRAD")] }
  | ⟨_, _⟩ => { ops := [opSrc], grad_pending_nodes := [], inplace_grad_name_map := [] }

/-- The in-place example ready for `Execute`: an idle engine with `init_node_` set, and the
gradient of `u` seeded. -/
def iWorld : World 2 :=
  { graph := iGraph, wrappers := iWrapper, temps := []
    store := fun v =>
      if v = .graphVar 21 then exTensor 1 else { holder := none, inplace_version := 0 }
    engine := { exEngine with init_node := some 0 }, trace := [] }

/-- The `move_var` calls of a trace, in order. -/
def movedPairs {n : Nat} (tr : List (Event n)) : List (VarRef × VarRef) :=
  tr.filterMap fun e =>
    match e with
    | .move_var orig tmp => some (orig, tmp)
    | _ => none

/-- The variable that the body of the inner loop of `CheckBackwardInputs` leaves for a
variable holding `x`, for an operator on `place` and a wrapper of dtype `dtype`: a zero
tensor when `x` is uninitialized or a dense tensor without data, and `x` otherwise. -/
def zeroFilled (place dtype : Nat) (x : Variable) : Variable :=
  match x.holder with
  | none => { x with holder := some (.lodTensor (.filled Tensor.blank.dims place dtype 0)) }
  | some (.lodTensor t) =>
    if t.holder.isNone then { x with holder := some (.lodTensor (.filled t.dims place dtype 0)) }
    else x
  | some (.other _) => x

/-- The variable `v` occurs in a grad-input slot of `op`. -/
def gradIn (op : OpBase) (v : VarId) : Prop :=
  ∃ pair ∈ op.ins, pair.2.is_grad = true ∧ some v ∈ pair.2.vars

/-- The first example with a leaf hook declared on every gradient variable. -/
def hWorld : World 2 :=
  { exWorld with wrappers := fun i => { exWrapper i with leaf_hooks := [7] } }

/-- An operator that writes the gradient of `z` (variable 12), which no operator of node 1
reads. -/
def opLoose : OpBase :=
  { id := 3, type := "loose_grad", ins := [("Out@GRAD", ⟨[some 12], true⟩)]
    outs := [("X@GRAD", ⟨[some 12], true⟩)], place := 0 }

/-- The errors raised by the body of the loop over the operators of a node (lines 279-444):
by the output remapping, the in-place version check and the kernel. -/
def Error.isRunError : Error → Bool
  | .MissingAccumulator => true
  | .OutOfRange => true
  | .NullDereference => true
  | .InplaceTampering _ _ _ _ => true
  | .KernelFailure => true
  | _ => false

/-- The first example with a null entry in place of every pending list. -/
def nWorld : World 2 :=
  { exReady with graph := fun m => { exGraph m with grad_pending_nodes := [none] } }

/-- Every accumulator of `accumulators_` (the registry of the non-leaf gradients) has been
referenced at least once. -/
def AccPos {n : Nat} (w : World n) : Prop :=
  ∀ p v a, w.engine.acc? (.nonLeaf p v) = some a → 0 < a.ref_cnt

/-! The graph of a fan-out: node 0 holds `fan_grad`, which writes the gradient of `y`
(variable 11); its pending nodes 2 and 1, in this order, both read variable 11. -/

/-- The wrappers of the fan-out example. -/
def rWrapper (i : VarId) : VariableWrapper :=
  { name := "v", has_grad_node := decide (i = 11 ∨ i = 12), overrided_stop_gradient := false
    is_leaf_grad := decide (i = 10 ∨ i = 13), leaf_hooks := [], inplace_version_snapshot := 0
    data_type := 5, type := 7, forward_data_type := 5 }

/-- The operator `fan_grad`: reads the gradient of `z`, writes that of `y`. -/
def opFan : OpBase :=
  { id := 3, type := "fan_grad", ins := [("Out@GRAD", ⟨[some 12], true⟩)]
    outs := [("X@GRAD", ⟨[some 11], true⟩)], place := 0 }

/-- The reverse graph of the fan-out example. -/
def rGraph : Fin 3 → GradOpNode 3
  | ⟨0, _⟩ =>
    { ops := [opFan], grad_pending_nodes := [some 2, some 1], inplace_grad_name_map := [] }
  | ⟨1, _⟩ => { ops := [opScale], grad_pending_nodes := [], inplace_grad_name_map := [] }
  | ⟨_, _⟩ => { ops := [opMul], grad_pending_nodes := [], inplace_grad_name_map := [] }

/-- The fan-out example ready for `Execute`: an idle engine with `init_node_` set. -/
def rWorld : World 3 :=
  { graph := rGraph, wrappers := rWrapper, temps := []
    store := fun v =>
      if v = .graphVar 12 then exTensor 1 else { holder := none, inplace_version := 0 }
    engine :=
      { init_node := some 0, retain_graph := false, node_deps := [], accumulators := []
        leaf_basic_accumulators := [], need_accu_var_list := [], inplace_var_list := []
        leaf_accumulators := [] }
    trace := [] }

/-- The operators of `w` are those of `w0` at the same positions, apart from operators whose
captured maps have been dropped. -/
def OpsKept {n : Nat} (w0 w : World n) : Prop :=
  ∀ m j op, (w.graph m).ops.get? j = some op →
    (w0.graph m).ops.get? j = some op ∨ op.outs = []

/-- The reverse graph of an unrouted output: node 0 holds `fan_grad`, which writes variable
11, a gradient with a grad node; its only pending node holds `f_grad`, which does not read
variable 11. -/
def uGraph : Fin 2 → GradOpNode 2
  | ⟨0, _⟩ => { ops := [opFan], grad_pending_nodes := [some 1], inplace_grad_name_map := [] }
  | ⟨_, _⟩ => { ops := [opSrc], grad_pending_nodes := [], inplace_grad_name_map := [] }

/-- The unrouted example ready for `Execute`. -/
def uWorld : World 2 :=
  { tWorld with graph := uGraph, wrappers := rWrapper }

/-- Lines 346-347: for a leaf gradient `v`, its accumulator is entered in the set
`leaf_accumulators_`. -/
def markLeaf {n : Nat} (w : World n) (v : VarId) (ref : AccRef n) : World n :=
  if (w.wrappers v).is_leaf_grad then
    { w with engine := { w.engine with
        leaf_accumulators :=
          if ref ∈ w.engine.leaf_accumulators then w.engine.leaf_accumulators
          else w.engine.leaf_accumulators ++ [ref] } }
  else w

/-! ## The Sum kernel for NPU (`sum_op_npu.cc`) -/

/-- An `NpuOpRunner` as `SumNPUKernel::Compute` builds it: the operator type, the input
tensors, the output tensors, the attributes, and the names given by `AddInputNames`. -/
structure NpuOpRunner where
  op_type : String
  inputs : List Tensor
  outputs : List Tensor
  attrs : List (String × Int)
  input_names : List String
deriving DecidableEq, Repr

/-- Collaborators of the kernel, outside the sources at hand: `Tensor::mutable_data<T>(place)`
on a tensor, `TensorCopy(src, place, dst)` giving the new `dst`, and `NpuOpRunner::Run`
giving the new content of the output. -/
structure NpuCollab where
  mutable_data : Tensor → Nat → Nat → Tensor
  tensor_copy : Tensor → Nat → Tensor → Tensor
  run : NpuOpRunner → Tensor

/-- What `Compute` reads of its `ExecutionContext`: the inputs `MultiInput<Tensor>("X")`,
null pointers included, the tensor behind `Output<Tensor>("Out")`, the place, and the
element type `T` of the kernel. -/
structure ExecutionContext where
  x : List (Option Tensor)
  out : Tensor
  place : Nat
  dtype : Nat

/-- What `Compute` leaves: the output tensor, and the runners it has run. -/
structure SumOutcome where
  out : Tensor
  runners : List NpuOpRunner
deriving DecidableEq, Repr

/-- The conversion `static_cast<int>` of a `size_t`, for a 32-bit `int`. -/
def toInt32 (k : Nat) : Int :=
  if k % 2 ^ 32 < 2 ^ 31 then ((k % 2 ^ 32 : Nat) : Int) else ((k % 2 ^ 32 : Nat) : Int) - 2 ^ 32

/-- The body of the loop of lines 45-52 for the index `i`. -/
def SumNPUKernel.pushInput (x : List (Option Tensor)) (acc : List Tensor × List String)
    (i : Nat) : List Tensor × List String :=
  match x.get? i with
  -- if (x[i] && x[i]->numel() > 0)
  | some (some t) =>
    if 0 < t.numel then
      -- inputs.push_back(*x[i]); names.push_back("x" + std::to_string(i));
      (acc.1 ++ [t], acc.2 ++ ["x" ++ toString i])
    else acc
  | _ => acc

/-- The method `SumNPUKernel::Compute` (lines 30-60). -/
def SumNPUKernel.Compute (K : NpuCollab) (ctx : ExecutionContext) : Except Error SumOutcome :=
  -- out->mutable_data<T>(ctx.GetPlace());
  let out := K.mutable_data ctx.out ctx.place ctx.dtype
  -- int n = static_cast<int>(x.size());
  let n := toInt32 ctx.x.length
  if n = 1 then
    -- TensorCopy(*x[0], place, out); return;
    match ctx.x.get? 0 with
    | some (some x0) => .ok { out := K.tensor_copy x0 ctx.place out, runners := [] }
    | _ => .error .NullDereference
  else
    -- for (int i = 0; i < n; ++i) { ... }
    let collected := (List.range n.toNat).foldl (SumNPUKernel.pushInput ctx.x) ([], [])
    -- NpuOpRunner runner{"AddN", {inputs}, {*out}, {{"N", n}}};
    -- runner.AddInputNames(names); runner.Run(stream);
    let runner : NpuOpRunner :=
      { op_type := "AddN", inputs := collected.1, outputs := [out], attrs := [("N", n)]
        input_names := collected.2 }
    .ok { out := K.run runner, runners := [runner] }

/-- The inputs the kernel is to forward, in the words of the property: the non-null inputs
with `numel > 0`, each with its original index, in their original order. -/
def forwarded (x : List (Option Tensor)) : List (Nat × Tensor) :=
  x.enum.filterMap fun p =>
    match p.2 with
    | some t => if 0 < t.numel then some (p.1, t) else none
    | none => none

/-- Collaborators for the examples of the kernel: `mutable_data` allocates zeros, `TensorCopy`
gives the source, and `AddN` is not computed. -/
def sumCollab : NpuCollab :=
  { mutable_data := fun t place dtype => Tensor.filled t.dims place dtype 0
    tensor_copy := fun src _ _ => src
    run := fun r => r.outputs.headD Tensor.blank }

/-- Three inputs of which the second is null: two tensors are forwarded. -/
def sumCtx : ExecutionContext :=
  { x := [some (Tensor.filled [2] 0 5 1), none, some (Tensor.filled [2] 0 5 3)]
    out := Tensor.blank, place := 0, dtype := 5 }

/-! The graph of `y = 2x` alone: its single node holds `scale_grad`, which reads the gradient
of `y` (variable 11) and writes the gradient of the leaf `x` (variable 10).  The analysis of
this graph leaves `node_deps_` and `accumulators_` empty. -/

/-- The reverse graph of `y = 2x`. -/
def sGraph : Fin 1 → GradOpNode 1
  | _ => { ops := [opScale], grad_pending_nodes := [], inplace_grad_name_map := [] }

/-- The world of `y = 2x` before `Init`, with an idle engine. -/
def sWorld : World 1 :=
  { graph := sGraph, wrappers := exWrapper, temps := []
    store := fun v =>
      if v = .graphVar 0 then exTensor 1 else if v = .graphVar 1 then exTensor 2
      else { holder := none, inplace_version := 0 }
    engine :=
      { init_node := none, retain_graph := false, node_deps := [], accumulators := []
        leaf_basic_accumulators := [], need_accu_var_list := [], inplace_var_list := []
        leaf_accumulators := [] }
    trace := [] }

/-- The seed `y`, with its gradient produced by node 0. -/
def sSeed : VarBase 1 :=
  { wrapper := 1, grad_var := some { wrapper := 11, grad_node := some 0, graph_is_freed := false } }

/-- The collaborators of the examples with a kernel that fails. -/
def failCollab : Collab := { exCollab with run_op := fun _ _ _ _ => none }

/-- The world after `Init(y, retain_graph = true)` and an `Execute` whose kernel fails: the
throw skips `Clear`. -/
def sFailed : World 1 :=
  (BasicEngine.Execute failCollab (BasicEngine.Init sWorld sSeed true).state.1).state

/-- The world after a second `Init(y, retain_graph = true)` on the same engine. -/
def sAgain : World 1 :=
  (BasicEngine.Init sFailed (BasicEngine.Init sWorld sSeed true).state.2 true).state.1

/-! ## Loops -/

theorem forEach_state_inv {σ α : Type} (body : α → σ → Res σ) (P : σ → Prop)
    (hbody : ∀ a s, P s → P (body a s).state) :
    ∀ (l : List α) (s : σ), P s → P (forEach body l s).state := by
  intro l
  induction l with
  | nil => intro s hs; exact hs
  | cons a l ih =>
    intro s hs
    have h := hbody a s hs
    simp only [forEach]
    rcases hb : body a s with ⟨e, s1⟩ | s1
    · rw [hb] at h; exact h
    · rw [hb] at h; exact ih s1 h

theorem forEach_ok_inv {σ α : Type} (body : α → σ → Res σ) (P : σ → Prop) (l : List α)
    (hbody : ∀ a ∈ l, ∀ s s1, P s → body a s = .ok s1 → P s1) :
    ∀ (s s1 : σ), P s → forEach body l s = .ok s1 → P s1 := by
  induction l with
  | nil => intro s s1 hs h; simp only [forEach, Except.ok.injEq] at h; exact h ▸ hs
  | cons a l ih =>
    intro s s1 hs h
    simp only [forEach] at h
    rcases hb : body a s with ⟨e, s2⟩ | s2
    · rw [hb] at h; cases h
    · rw [hb] at h
      exact ih (fun b hb1 => hbody b (List.mem_cons_of_mem _ hb1)) s2 s1
        (hbody a (List.mem_cons_self _ _) s s2 hs hb) h

/-- A loop whose body only checks: it ends in the state it started in, and it completes
exactly when every check passes. -/
theorem forEach_check {σ α : Type} (body : α → σ → Res σ)
    (hbody : ∀ a s, (body a s).state = s) (l : List α) (s : σ) :
    (forEach body l s).state = s ∧
    ((forEach body l s).error? = none ↔ ∀ a ∈ l, (body a s).error? = none) ∧
    (∀ e, (forEach body l s).error? = some e → ∃ a ∈ l, (body a s).error? = some e) := by
  induction l with
  | nil => simp [forEach, Res.state, Res.error?]
  | cons a l ih =>
    have h := hbody a s
    simp only [forEach]
    rcases hb : body a s with ⟨e, s1⟩ | s1
    · rw [hb] at h
      simp only [Res.state] at h
      subst h
      simp [Res.state, Res.error?, hb]
    · rw [hb] at h
      simp only [Res.state] at h
      subst h
      refine ⟨ih.1, ?_, ?_⟩
      · rw [ih.2.1]; simp [hb, Res.error?]
      · intro e he
        obtain ⟨b, hb1, hb2⟩ := ih.2.2 e he
        exact ⟨b, List.mem_cons_of_mem _ hb1, hb2⟩

theorem foldl_inv {σ α : Type} (f : σ → α → σ) (P : σ → Prop)
    (hf : ∀ s a, P s → P (f s a)) : ∀ (l : List α) (s : σ), P s → P (l.foldl f s) := by
  intro l
  induction l with
  | nil => intro s hs; exact hs
  | cons a l ih => intro s hs; exact ih _ (hf s a hs)

/-! ## Properties of `Init` -/

/-- C5. Double backward without retention is rejected: for a seed with gradient variable
`g`, `Init` fails with `AlreadyConsumed` whenever `g` has its graph freed; and when it is
not freed, after `Init` with `retain_graph = false`, whatever its outcome, the seed's
gradient has `graph_is_freed` set and no producer node, so that every further `Init` on
that seed fails with `AlreadyConsumed`. -/
theorem init_rejects_double_backward {n : Nat} (w : World n) (wrapper : VarId)
    (g : GradVarBase n) (retain_graph : Bool) :
    (g.graph_is_freed = true →
      (BasicEngine.Init w ⟨wrapper, some g⟩ retain_graph).error? = some .AlreadyConsumed) ∧
    (g.graph_is_freed = false →
      (BasicEngine.Init w ⟨wrapper, some g⟩ false).state.2.grad_var
          = some { g with graph_is_freed := true, grad_node := none } ∧
      ∀ (w1 : World n) (r : Bool),
        (BasicEngine.Init w1 (BasicEngine.Init w ⟨wrapper, some g⟩ false).state.2 r).error?
          = some .AlreadyConsumed) := by
  have key : ∀ r : Res (World n), (withSeed (n := n)
      ⟨wrapper, some { g with graph_is_freed := true, grad_node := none }⟩ r).state.2.grad_var
        = some { g with graph_is_freed := true, grad_node := none } := by
    intro r
    rcases r with ⟨e, w1⟩ | w1 <;> rfl
  constructor
  · intro hg
    simp [BasicEngine.Init, hg, Res.error?]
  · intro hg
    have hv : (BasicEngine.Init w ⟨wrapper, some g⟩ false).state.2.grad_var
        = some { g with graph_is_freed := true, grad_node := none } := by
      simp only [BasicEngine.Init, hg]
      split
      · contradiction
      · split
        · rfl
        · exact key _
    refine ⟨hv, fun w1 r => ?_⟩
    generalize (BasicEngine.Init w ⟨wrapper, some g⟩ false).state.2 = v at hv
    simp [BasicEngine.Init, hv, Res.error?]

/-- Witness of C5 on the example seed. -/
theorem init_rejects_double_backward_witness :
    (BasicEngine.Init exWorld exSeed false).state.2.grad_var
        = some { wrapper := 12, grad_node := none, graph_is_freed := true } ∧
    ∀ (w1 : World 2) (r : Bool),
      (BasicEngine.Init w1 (BasicEngine.Init exWorld exSeed false).state.2 r).error?
        = some .AlreadyConsumed :=
  (init_rejects_double_backward exWorld 2 ⟨12, some 0, false⟩ false).2 rfl

/-- C7, evaluated on the code.  The seed `z` of the example has `stop_gradient` set and a
producing grad node.  `Init` returns without seeding but leaves `init_node_` set, so the
following `Execute` is not a no-op: `PrepareDeps` fills `node_deps_` and creates
accumulators, and both operators of the graph are run. -/
theorem stop_gradient_seed_still_executes :
    (sgWorld.wrappers exSeed.wrapper).overrided_stop_gradient = true ∧
    (BasicEngine.Init sgWorld exSeed true).error? = none ∧
    (BasicEngine.Init sgWorld exSeed true).state.1.trace = [] ∧
    (BasicEngine.Init sgWorld exSeed true).state.1.engine.init_node = some 0 ∧
    (BasicEngine.PrepareDeps exCollab
        (BasicEngine.Init sgWorld exSeed true).state.1).state.engine.node_deps = [(1, 1)] ∧
    (BasicEngine.PrepareDeps exCollab
        (BasicEngine.Init sgWorld exSeed true).state.1).state.engine.leaf_basic_accumulators
          ≠ [] ∧
    (BasicEngine.Execute exCollab (BasicEngine.Init sgWorld exSeed true).state.1).error? = none ∧
    ranOps (BasicEngine.Execute exCollab (BasicEngine.Init sgWorld exSeed true).state.1).state.trace
      = [(0, 0), (1, 0)] := by
  refine ⟨by decide, by decide, by decide, by decide, by decide, by decide, by decide, by decide⟩

/-- C8. Seeding: for a seed that has a gradient variable `g` with a producer node, is not
stop-gradient and is not freed, and whose primal value is an allocated dense tensor
(`g` holding nothing or a dense tensor), `Init` succeeds, leaves the gradient a tensor
with the dims, dtype and place of the primal tensor and every element 1, stores
`init_node_ = g`'s producer node, and sets the stop-gradient override of the gradient
wrapper to false. -/
theorem init_seeds_gradient {n : Nat} (w : World n) (wrapper : VarId) (g : GradVarBase n)
    (retain_graph : Bool) (node : Fin n) (fwd : Tensor) (a : Allocation)
    (hnode : g.grad_node = some node)
    (hstop : (w.wrappers wrapper).overrided_stop_gradient = false)
    (hfreed : g.graph_is_freed = false)
    (hprimal : (w.store (.graphVar wrapper)).holder = some (.lodTensor fwd))
    (halloc : fwd.holder = some a)
    (hgrad : ∀ tag, (w.store (.graphVar g.wrapper)).holder ≠ some (.other tag)) :
    (BasicEngine.Init w ⟨wrapper, some g⟩ retain_graph).error? = none ∧
    (∃ data : List Int,
      ((BasicEngine.Init w ⟨wrapper, some g⟩ retain_graph).state.1.store
          (.graphVar g.wrapper)).holder
        = some (.lodTensor { dims := fwd.dims
                             holder := some { place := a.place, dtype := a.dtype, data := data } }) ∧
      data.length = fwd.numel ∧ ∀ x ∈ data, x = 1) ∧
    (BasicEngine.Init w ⟨wrapper, some g⟩ retain_graph).state.1.engine.init_node = some node ∧
    ((BasicEngine.Init w ⟨wrapper, some g⟩ retain_graph).state.1.wrappers
        g.wrapper).overrided_stop_gradient = false := by
  have hseed : ∃ w1, seedGradient wrapper g.wrapper
        ({ w with engine := { w.engine with retain_graph := retain_graph, init_node := g.grad_node } })
        = .ok w1 ∧
      (w1.store (.graphVar g.wrapper)).holder
        = some (.lodTensor (Tensor.filled fwd.dims a.place a.dtype 1)) ∧
      w1.engine.init_node = some node ∧ (w1.wrappers g.wrapper).overrided_stop_gradient = false := by
    simp only [seedGradient, hprimal, halloc]
    rcases hh : (w.store (.graphVar g.wrapper)).holder with _ | (t | tag)
    · exact ⟨_, rfl, by simp [Store.set], hnode, by simp⟩
    · exact ⟨_, rfl, by simp [Store.set], hnode, by simp⟩
    · exact absurd hh (hgrad tag)
  obtain ⟨w1, h1, h2, h3, h4⟩ := hseed
  have hInit : BasicEngine.Init w ⟨wrapper, some g⟩ retain_graph
      = .ok (w1, ⟨wrapper, some (if retain_graph then g
               else { g with graph_is_freed := true, grad_node := none })⟩) := by
    simp only [BasicEngine.Init, hfreed, hnode, hstop]
    simp only [hnode] at h1
    simp [h1, withSeed]
  rw [hInit]
  refine ⟨rfl, ⟨List.replicate fwd.numel 1, ?_, by simp, ?_⟩, h3, h4⟩
  · simpa [Res.state, Tensor.filled, Tensor.numel] using h2
  · intro x hx
    exact (List.mem_replicate.mp hx).2

/-- Witness of C8 on the example seed. -/
theorem init_seeds_gradient_witness :
    (BasicEngine.Init exWorld exSeed true).error? = none ∧
    (∃ data : List Int,
      ((BasicEngine.Init exWorld exSeed true).state.1.store (.graphVar 12)).holder
        = some (.lodTensor { dims := [1]
                             holder := some { place := 0, dtype := 5, data := data } }) ∧
      data.length = 1 ∧ ∀ x ∈ data, x = 1) ∧
    (BasicEngine.Init exWorld exSeed true).state.1.engine.init_node = some 0 ∧
    ((BasicEngine.Init exWorld exSeed true).state.1.wrappers 12).overrided_stop_gradient = false :=
  init_seeds_gradient exWorld 2 ⟨12, some 0, false⟩ true 0
    { dims := [1], holder := some { place := 0, dtype := 5, data := [3] } }
    { place := 0, dtype := 5, data := [3] } rfl rfl rfl rfl rfl (by intro tag h; cases h)

/-! ## Frames of the stages of one operator -/

theorem InputsChecked.unchanged {n : Nat} (w : World n) : InputsChecked w w :=
  ⟨rfl, rfl, rfl, rfl, fun _ => rfl, fun _ _ => rfl, [], by simp, by simp⟩

theorem InputsChecked.andThen {n : Nat} {w w1 w2 : World n} (h1 : InputsChecked w w1)
    (h2 : InputsChecked w1 w2) : InputsChecked w w2 := by
  refine ⟨h2.graph.trans h1.graph, h2.wrappers.trans h1.wrappers, h2.temps.trans h1.temps,
    h2.engine.trans h1.engine, fun v => (h2.version v).trans (h1.version v), ?_, ?_⟩
  · intro v hv
    have h := h1.kept v hv
    rw [h2.kept v (by rw [h]; exact hv), h]
  · obtain ⟨e1, he1, h1e⟩ := h1.trace
    obtain ⟨e2, he2, h2e⟩ := h2.trace
    refine ⟨e1 ++ e2, by rw [he2, he1, List.append_assoc], ?_⟩
    intro e he
    rcases List.mem_append.mp he with h | h
    · exact h1e e h
    · exact h2e e h

theorem checkBackwardInput_frame {n : Nat} (op : OpBase) (var : VarId) (w : World n) :
    InputsChecked w (checkBackwardInput op var w) := by
  have hz : ∀ (t : Tensor) (x : Variable), (w.store (.graphVar var)).hasData = false →
      InputsChecked w { w with
        store := w.store.set (.graphVar var)
          { (w.store (.graphVar var)) with holder := some (.lodTensor t) }
        trace := w.trace ++ [.set_constant (.graphVar var) 0] } := by
    intro t _ hd
    refine ⟨rfl, rfl, rfl, rfl, ?_, ?_, ⟨[_], rfl, by simp⟩⟩
    · intro v
      simp only [Store.set]
      split
      · rename_i h; rw [h]
      · rfl
    · intro v hv
      simp only [Store.set]
      split
      · rename_i h
        rw [h, hd] at hv
        cases hv
      · rfl
  simp only [checkBackwardInput]
  rcases hh : (w.store (.graphVar var)).holder with _ | (t | tag)
  · simp only [Tensor.blank, Option.isNone_none, if_true]
    exact hz _ (w.store (.graphVar var)) (by simp [Variable.hasData, hh])
  · simp only
    split
    · rename_i h1
      rw [Option.isNone_iff_eq_none] at h1
      exact hz _ (w.store (.graphVar var)) (by simp [Variable.hasData, hh, h1])
    · exact InputsChecked.unchanged w
  · exact InputsChecked.unchanged w

theorem CheckBackwardInputs_frame {n : Nat} (op : OpBase) (w : World n) :
    InputsChecked w (BasicEngine.CheckBackwardInputs op w) := by
  unfold BasicEngine.CheckBackwardInputs
  refine foldl_inv _ (InputsChecked w) ?_ _ w (InputsChecked.unchanged w)
  intro s pair hs
  split
  · exact hs
  · refine foldl_inv _ (InputsChecked w) ?_ _ s hs
    intro s1 var hs1
    cases var with
    | none => exact hs1
    | some v => exact hs1.andThen (checkBackwardInput_frame op v s1)

theorem InputsChecked.ranOps_eq {n : Nat} {w w1 : World n} (h : InputsChecked w w1) :
    ranOps w1.trace = ranOps w.trace := by
  obtain ⟨evs, he, hevs⟩ := h.trace
  rw [he, Imperative.ranOps, List.filterMap_append]
  have : List.filterMap Event.ran evs = [] := by
    rw [List.filterMap_eq_nil_iff]
    intro e hmem
    obtain ⟨v, x, rfl⟩ := hevs e hmem
    rfl
  rw [this, List.append_nil]
  rfl

theorem Remapped.noop {n : Nat} (w : World n) : Remapped w w :=
  ⟨rfl, rfl, rfl, rfl, rfl, rfl, rfl, rfl, rfl, [], by simp⟩

theorem Remapped.seq {n : Nat} {w w1 w2 : World n} (h1 : Remapped w w1)
    (h2 : Remapped w1 w2) : Remapped w w2 := by
  refine ⟨h2.graph.trans h1.graph, h2.wrappers.trans h1.wrappers, h2.store.trans h1.store,
    h2.trace.trans h1.trace, h2.init_node.trans h1.init_node,
    h2.retain_graph.trans h1.retain_graph, h2.node_deps.trans h1.node_deps,
    h2.accumulators.trans h1.accumulators, h2.leaf_basic.trans h1.leaf_basic, ?_⟩
  obtain ⟨l1, hl1⟩ := h1.temps
  obtain ⟨l2, hl2⟩ := h2.temps
  exact ⟨l1 ++ l2, by rw [hl2, hl1, List.append_assoc]⟩

theorem allocLike_frame {n : Nat} (C : Collab) (w : World n) (var : VarRef) :
    Remapped w (w.allocLike C var).1 :=
  ⟨rfl, rfl, rfl, rfl, rfl, rfl, rfl, rfl, rfl, _, rfl⟩

theorem inplaceScan_frame {n : Nat} (C : Collab) (l : List (Option VarId)) :
    ∀ (b : Binding n), Remapped b.1 (inplaceScan C l b).1 := by
  induction l with
  | nil => intro b; exact Remapped.noop _
  | cons a l ih =>
    rintro ⟨w, var⟩
    simp only [inplaceScan]
    split
    · refine Remapped.seq ?_ (ih (_, _))
      exact ⟨rfl, rfl, rfl, rfl, rfl, rfl, rfl, rfl, rfl, _, rfl⟩
    · exact ih (w, var)

theorem remapVar_frame {n : Nat} (C : Collab) (cur_node : Fin n) (bwd_ins : NameVarMap VarId)
    (slot : String) (v : VarId) (w : World n) :
    Remapped w (endWorld (remapVar C cur_node bwd_ins slot v w)) := by
  unfold remapVar
  rcases findAccumulator w cur_node v with _ | ⟨ref, acc⟩
  · exact Remapped.noop w
  · have hb1 : Remapped w
        (if (w.wrappers v).is_leaf_grad then
          (({ w with engine := { w.engine with
             leaf_accumulators :=
               if ref ∈ w.engine.leaf_accumulators then w.engine.leaf_accumulators
               else w.engine.leaf_accumulators ++ [ref] } } : World n),
           acc.inner_var.getD (.graphVar v))
        else (w, .graphVar v)).1 := by
      split
      · exact ⟨rfl, rfl, rfl, rfl, rfl, rfl, rfl, rfl, rfl, [], by simp⟩
      · exact Remapped.noop w
    simp only
    generalize (if (w.wrappers v).is_leaf_grad then
          (({ w with engine := { w.engine with
             leaf_accumulators :=
               if ref ∈ w.engine.leaf_accumulators then w.engine.leaf_accumulators
               else w.engine.leaf_accumulators ++ [ref] } } : World n),
           acc.inner_var.getD (.graphVar v))
        else (w, .graphVar v)) = b1 at hb1 ⊢
    split
    · refine hb1.seq ((allocLike_frame C b1.1 b1.2).seq ?_)
      exact ⟨rfl, rfl, rfl, rfl, rfl, rfl, rfl, rfl, rfl, [], by simp [endWorld]⟩
    · split
      · exact hb1
      · split
        · exact hb1
        · exact hb1.seq (inplaceScan_frame C _ b1)

theorem remapVars_frame {n : Nat} (C : Collab) (cur_node : Fin n) (bwd_ins : NameVarMap VarId)
    (slot : String) (l : List (Option VarId)) :
    ∀ w : World n, Remapped w (endWorld (remapVars C cur_node bwd_ins slot l w)) := by
  induction l with
  | nil => intro w; exact Remapped.noop w
  | cons a l ih =>
    intro w
    cases a with
    | none =>
      simp only [remapVars]
      have h := ih w
      rcases hr : remapVars C cur_node bwd_ins slot l w with ⟨e, w1⟩ | ⟨w1, vs⟩
      · rw [hr] at h; exact h
      · rw [hr] at h; exact h
    | some v =>
      simp only [remapVars]
      have h1 := remapVar_frame C cur_node bwd_ins slot v w
      rcases hr1 : remapVar C cur_node bwd_ins slot v w with ⟨e, w1⟩ | ⟨w1, var⟩
      · rw [hr1] at h1; exact h1
      · rw [hr1] at h1
        have h2 := ih w1
        dsimp only [endWorld] at h1 ⊢
        rcases hr2 : remapVars C cur_node bwd_ins slot l w1 with ⟨e, w2⟩ | ⟨w2, vs⟩
        · rw [hr2] at h2; exact h1.seq h2
        · rw [hr2] at h2; exact h1.seq h2

theorem remapOuts_frame {n : Nat} (C : Collab) (cur_node : Fin n) (bwd_ins : NameVarMap VarId)
    (outs : NameVarMap VarId) :
    ∀ w : World n, Remapped w (endWorld (remapOuts C cur_node bwd_ins outs w)) := by
  induction outs with
  | nil => intro w; exact Remapped.noop w
  | cons a l ih =>
    intro w
    obtain ⟨slot, sl⟩ := a
    simp only [remapOuts]
    split
    · have h := ih w
      rcases hr : remapOuts C cur_node bwd_ins l w with ⟨e, w1⟩ | ⟨w1, vs⟩
      · rw [hr] at h; exact h
      · rw [hr] at h; exact h
    · have h1 := remapVars_frame C cur_node bwd_ins slot sl.vars w
      rcases hr1 : remapVars C cur_node bwd_ins slot sl.vars w with ⟨e, w1⟩ | ⟨w1, var⟩
      · rw [hr1] at h1; exact h1
      · rw [hr1] at h1
        have h2 := ih w1
        dsimp only [endWorld] at h1 ⊢
        rcases hr2 : remapOuts C cur_node bwd_ins l w1 with ⟨e, w2⟩ | ⟨w2, vs⟩
        · rw [hr2] at h2; exact h1.seq h2
        · rw [hr2] at h2; exact h1.seq h2

/-! ## The in-place version check -/

theorem checkVersion_state {n : Nat} (op : OpBase) (var : Option VarId) (w : World n) :
    (checkVersion op var w).state = w := by
  unfold checkVersion
  cases var with
  | none => rfl
  | some v =>
    simp only
    split <;> rfl

theorem checkVersions_spec {n : Nat} (op : OpBase) (w : World n) (hnn : InputsNonNull op) :
    (checkVersions op w).state = w ∧
    ((checkVersions op w).error? = none ↔ ¬ Tampered w op) ∧
    (∀ e, (checkVersions op w).error? = some e → e.isInplaceTampering = true) := by
  have hin : ∀ (pair : String × SavedVariableWrapperList VarId) (s : World n),
      (forEach (checkVersion op) pair.2.vars s).state = s :=
    fun pair s => (forEach_check _ (checkVersion_state op) pair.2.vars s).1
  have hout := forEach_check
    (fun (pair : String × SavedVariableWrapperList VarId) (s : World n) =>
      forEach (checkVersion op) pair.2.vars s) hin op.ins w
  refine ⟨hout.1, ?_, ?_⟩
  · unfold checkVersions
    rw [hout.2.1]
    constructor
    · rintro h ⟨pair, hp, v, hv, hbad⟩
      have h1 := (forEach_check _ (checkVersion_state op) pair.2.vars w).2.1.mp (h pair hp)
        (some v) hv
      simp only [checkVersion] at h1
      split at h1
      · rename_i hok; exact hbad hok
      · cases h1
    · intro h pair hp
      rw [(forEach_check _ (checkVersion_state op) pair.2.vars w).2.1]
      intro var hvar
      cases var with
      | none => exact absurd hvar (hnn pair hp)
      | some v =>
        simp only [checkVersion]
        split
        · rfl
        · rename_i hbad
          exact absurd ⟨pair, hp, v, hvar, hbad⟩ h
  · intro e he
    obtain ⟨pair, hp, h1⟩ := hout.2.2 e he
    obtain ⟨var, hvar, h2⟩ := (forEach_check _ (checkVersion_state op) pair.2.vars w).2.2 e h1
    cases var with
    | none => exact absurd hvar (hnn pair hp)
    | some v =>
      simp only [checkVersion] at h2
      split at h2
      · cases h2
      · simp only [Res.error?, Option.some.injEq] at h2
        rw [← h2]; rfl

/-- C9. In-place version check: when an operator is reached and the remapping of its
outputs completes (every output accumulator resolves), over an input map without null
entries the operator fails with `InplaceTampering` if and only if some variable of its
input map has an in-place version different from its snapshot; and in that case `run_op`
is not invoked: the trace at the throw holds no further `run_op` event. -/
theorem inplace_version_check {n : Nat} (C : Collab) (cur_node : Fin n) (idx : Nat)
    (cur_op : OpBase) (w : World n)
    (hremap : (remapOuts C cur_node cur_op.ins cur_op.outs
      (BasicEngine.CheckBackwardInputs cur_op w)).isOk = true)
    (hnn : InputsNonNull cur_op) :
    ((∃ e, (runOp C cur_node idx cur_op w).error? = some e ∧ e.isInplaceTampering = true) ↔
      Tampered w cur_op) ∧
    (Tampered w cur_op → ranOps (runOp C cur_node idx cur_op w).state.trace = ranOps w.trace) := by
  have hc := CheckBackwardInputs_frame cur_op w
  have hr := remapOuts_frame C cur_node cur_op.ins cur_op.outs
    (BasicEngine.CheckBackwardInputs cur_op w)
  rcases hrm : remapOuts C cur_node cur_op.ins cur_op.outs
      (BasicEngine.CheckBackwardInputs cur_op w) with ⟨e, w1⟩ | ⟨w2, tmp_outs⟩
  · rw [hrm] at hremap; cases hremap
  rw [hrm] at hr
  simp only [endWorld] at hr
  have hv := checkVersions_spec cur_op w2 hnn
  have htam : Tampered w2 cur_op ↔ Tampered w cur_op := by
    unfold Tampered versionOk
    simp only [hr.store, hr.wrappers, hc.wrappers, hc.version]
  rw [htam] at hv
  have hrun : ranOps w2.trace = ranOps w.trace := by rw [hr.trace]; exact hc.ranOps_eq
  unfold runOp
  simp only [hrm]
  rcases hcv : checkVersions cur_op w2 with ⟨e, w3⟩ | w3
  · have hst := hv.1
    rw [hcv] at hst hv
    simp only [Res.state] at hst
    subst hst
    have hne : ¬ (Res.error? (Except.error (e, w3) : Res (World n)) = none) := by
      simp [Res.error?]
    have ht : Tampered w cur_op := by
      by_contra hcon
      exact hne (hv.2.1.mpr hcon)
    exact ⟨⟨fun _ => ht, fun _ => ⟨e, rfl, hv.2.2 e rfl⟩⟩, fun _ => hrun⟩
  · have hnt : ¬ Tampered w cur_op := by
      rw [hcv] at hv
      exact hv.2.1.mp rfl
    refine ⟨⟨?_, fun h => absurd h hnt⟩, fun h => absurd h hnt⟩
    rintro ⟨e, he, hte⟩
    exfalso
    simp only at he
    split at he
    · simp only [Res.error?, Option.some.injEq] at he
      rw [← he] at hte; cases hte
    · cases he

/-! ## Finite maps -/

theorem find_upsert {κ α : Type} [DecidableEq κ] (k k1 : κ) (f : Option α → α)
    (m : List (κ × α)) :
    find k1 (upsert k f m) = if k1 = k then some (f (find k m)) else find k1 m := by
  induction m with
  | nil =>
    simp only [upsert, find]
    by_cases h : k = k1
    · subst h; simp
    · simp [h, Ne.symm h]
  | cons a m ih =>
    obtain ⟨k2, x⟩ := a
    simp only [upsert]
    by_cases h2 : k2 = k
    · subst h2
      simp only [if_true, find]
      by_cases h : k2 = k1
      · subst h; simp
      · simp [h, Ne.symm h]
    · simp only [h2, if_false, find]
      by_cases h : k2 = k1
      · subst h; simp [h2]
      · simp only [h, if_false]; exact ih

theorem find_map_update {κ α : Type} [DecidableEq κ] (k k1 : κ) (f : α → α) (m : List (κ × α)) :
    find k1 (m.map fun kv => if kv.1 = k then (kv.1, f kv.2) else kv)
      = (find k1 m).map fun a => if k1 = k then f a else a := by
  induction m with
  | nil => rfl
  | cons a m ih =>
    obtain ⟨k2, x⟩ := a
    show find k1 ((if k2 = k then (k2, f x) else (k2, x)) ::
        m.map fun kv => if kv.1 = k then (kv.1, f kv.2) else kv) = _
    by_cases h2 : k2 = k
    · rw [if_pos h2]
      simp only [find]
      by_cases h : k2 = k1
      · simp [h, ← h2]
      · simp only [h, if_false]; exact ih
    · rw [if_neg h2]
      simp only [find]
      by_cases h : k2 = k1
      · subst h; simp [h2]
      · simp only [h, if_false]; exact ih

/-! ## Frames of the dependency analysis -/

theorem Provisioned.stay {n : Nat} (w : World n) : Provisioned w w :=
  ⟨rfl, rfl, rfl, rfl, rfl, rfl, rfl, rfl, rfl, rfl, [], by simp⟩

theorem Provisioned.step {n : Nat} {w w1 w2 : World n} (h1 : Provisioned w w1)
    (h2 : Provisioned w1 w2) : Provisioned w w2 := by
  refine ⟨h2.graph.trans h1.graph, h2.wrappers.trans h1.wrappers, h2.store.trans h1.store,
    h2.trace.trans h1.trace, h2.init_node.trans h1.init_node,
    h2.retain_graph.trans h1.retain_graph, h2.node_deps.trans h1.node_deps,
    h2.need_accu.trans h1.need_accu, h2.inplace.trans h1.inplace,
    h2.leaf_accumulators.trans h1.leaf_accumulators, ?_⟩
  obtain ⟨l1, hl1⟩ := h1.temps
  obtain ⟨l2, hl2⟩ := h2.temps
  exact ⟨l1 ++ l2, by rw [hl2, hl1, List.append_assoc]⟩

theorem Analysed.start {n : Nat} (w : World n) : Analysed w w :=
  ⟨rfl, rfl, rfl, rfl, rfl, rfl, rfl, rfl, rfl, [], by simp⟩

theorem Analysed.extend {n : Nat} {w w1 w2 : World n} (h1 : Analysed w w1)
    (h2 : Analysed w1 w2) : Analysed w w2 := by
  refine ⟨h2.graph.trans h1.graph, h2.wrappers.trans h1.wrappers, h2.store.trans h1.store,
    h2.trace.trans h1.trace, h2.init_node.trans h1.init_node,
    h2.retain_graph.trans h1.retain_graph,
    h2.need_accu.trans h1.need_accu, h2.inplace.trans h1.inplace,
    h2.leaf_accumulators.trans h1.leaf_accumulators, ?_⟩
  obtain ⟨l1, hl1⟩ := h1.temps
  obtain ⟨l2, hl2⟩ := h2.temps
  exact ⟨l1 ++ l2, by rw [hl2, hl1, List.append_assoc]⟩

theorem Provisioned.analysed {n : Nat} {w w1 : World n} (h : Provisioned w w1) :
    Analysed w w1 :=
  ⟨h.graph, h.wrappers, h.store, h.trace, h.init_node, h.retain_graph, h.need_accu, h.inplace,
    h.leaf_accumulators, h.temps⟩

theorem newAccumulator_frame {n : Nat} (C : Collab) (w : World n) (var : VarId) :
    Provisioned w (newAccumulator C w var).1 ∧ (newAccumulator C w var).2.ref_cnt = 0 := by
  unfold newAccumulator
  split
  · exact ⟨⟨rfl, rfl, rfl, rfl, rfl, rfl, rfl, rfl, rfl, rfl, _, rfl⟩, rfl⟩
  · exact ⟨Provisioned.stay w, rfl⟩

theorem increaseAndHook_ref_cnt (vw : VariableWrapper) (acc : GradientAccumulator) :
    (increaseAndHook vw acc).1.ref_cnt = acc.ref_cnt + 1 := by
  unfold increaseAndHook
  split
  · split <;> rfl
  · rfl

theorem Res.state_ite {σ : Type} (b : Bool) (e : Error) (s : σ) :
    Res.state (if b = true then (Except.ok s : Res σ) else .error (e, s)) = s := by
  cases b <;> rfl

theorem newAccumulator_engine {n : Nat} (C : Collab) (w : World n) (var : VarId) :
    (newAccumulator C w var).1.engine = w.engine := by
  unfold newAccumulator
  split <;> rfl

theorem refCntOf_set_leaf {n : Nat} (e : BasicEngine n) (v : VarId) (a : GradientAccumulator)
    (ref : AccRef n) :
    refCntOf { e with leaf_basic_accumulators := upsert v (fun _ => a) e.leaf_basic_accumulators }
        ref
      = if ref = .leaf v then a.ref_cnt else refCntOf e ref := by
  cases ref with
  | leaf v1 =>
    simp only [refCntOf, BasicEngine.acc?, find_upsert]
    by_cases h : v1 = v
    · simp [h]
    · simp [h]
  | nonLeaf p v1 => simp [refCntOf, BasicEngine.acc?]

theorem refCntOf_set_nonLeaf {n : Nat} (e : BasicEngine n) (p : Fin n) (v : VarId)
    (a : GradientAccumulator) (ref : AccRef n) :
    refCntOf
        { e with accumulators := upsert p (fun o => upsert v (fun _ => a) (o.getD [])) e.accumulators }
        ref
      = if ref = .nonLeaf p v then a.ref_cnt else refCntOf e ref := by
  cases ref with
  | leaf v1 => simp [refCntOf, BasicEngine.acc?]
  | nonLeaf p1 v1 =>
    simp only [refCntOf, BasicEngine.acc?, find_upsert]
    by_cases hp : p1 = p
    · subst hp
      simp only [if_true, Option.bind_some]
      by_cases h : v1 = v
      · simp [h, find_upsert]
      · have h2 : ¬ v = v1 := fun e => h e.symm
        cases find p1 e.accumulators <;> simp [find, find_upsert, h, h2]
    · simp [hp]

/-- The leaf branch: one more reference on the leaf accumulator of `var`. -/
theorem prepareLeaf_spec {n : Nat} (C : Collab) (var : VarId) (w : World n) :
    Provisioned w (prepareLeaf C var w).state ∧
    ∀ ref, refCntOf (prepareLeaf C var w).state.engine ref
      = refCntOf w.engine ref + if ref = .leaf var then 1 else 0 := by
  unfold prepareLeaf
  have hwa : ∃ wa : World n × GradientAccumulator,
      (match find var w.engine.leaf_basic_accumulators with
        | some a => (w, a)
        | none => newAccumulator C w var) = wa ∧
      Provisioned w wa.1 ∧ wa.1.engine = w.engine ∧
      wa.2.ref_cnt = refCntOf w.engine (.leaf var) := by
    refine ⟨_, rfl, ?_⟩
    rcases hf : find var w.engine.leaf_basic_accumulators with _ | a
    · exact ⟨(newAccumulator_frame C w var).1, newAccumulator_engine C w var,
        by simp [refCntOf, BasicEngine.acc?, hf, (newAccumulator_frame C w var).2]⟩
    · exact ⟨Provisioned.stay w, rfl, by simp [refCntOf, BasicEngine.acc?, hf]⟩
  obtain ⟨wa, hwa_eq, hprov, heng, hcnt⟩ := hwa
  rw [hwa_eq]
  simp only [Res.state_ite]
  constructor
  · exact hprov.step ⟨rfl, rfl, rfl, rfl, rfl, rfl, rfl, rfl, rfl, rfl, [], by simp⟩
  · intro ref
    rw [refCntOf_set_leaf, increaseAndHook_ref_cnt, hcnt, heng]
    by_cases h : ref = .leaf var
    · simp [h]
    · simp [h]

/-- The non-leaf branch: when it returns, one more reference on the accumulator of `var`
at the first pending node that reads `var`, if there is one. -/
theorem prepareNonLeaf_spec {n : Nat} (C : Collab) (var : VarId)
    (pending : List (Option (Fin n))) (w : World n) :
    Provisioned w (prepareNonLeaf C var pending w).state ∧
    ((prepareNonLeaf C var pending w).error? = none →
      ∀ ref, refCntOf (prepareNonLeaf C var pending w).state.engine ref
        = refCntOf w.engine ref +
          if (firstReader w.graph pending var).map (fun p => AccRef.nonLeaf p var) = some ref
          then 1 else 0) := by
  induction pending with
  | nil => exact ⟨Provisioned.stay w, fun _ ref => by simp [prepareNonLeaf, Res.state, firstReader]⟩
  | cons q rest ih =>
    cases q with
    | none => exact ⟨Provisioned.stay w, fun h => by simp [prepareNonLeaf, Res.error?] at h⟩
    | some p =>
      simp only [prepareNonLeaf]
      split
      · exact ⟨Provisioned.stay w, fun h => by simp [Res.error?] at h⟩
      · split
        · rename_i hreads
          refine ⟨ih.1, fun h ref => ?_⟩
          rw [ih.2 h ref]
          simp only [Bool.not_eq_true', Bool.not_eq_false] at hreads
          simp [firstReader, List.findSome?, hreads]
        · rename_i hreads
          simp only [Bool.not_eq_true', Bool.not_eq_false, Bool.not_eq_true] at hreads
          have hwa : ∃ wa : World n × GradientAccumulator,
              (match find var ((find p w.engine.accumulators).getD []) with
                | some a => (w, a)
                | none => newAccumulator C w var) = wa ∧
              Provisioned w wa.1 ∧ wa.1.engine = w.engine ∧
              wa.2.ref_cnt = refCntOf w.engine (.nonLeaf p var) := by
            refine ⟨_, rfl, ?_⟩
            have hget : (find p w.engine.accumulators).bind (find var)
                = find var ((find p w.engine.accumulators).getD []) := by
              cases find p w.engine.accumulators <;> simp [find]
            rcases hf : find var ((find p w.engine.accumulators).getD []) with _ | a
            · exact ⟨(newAccumulator_frame C w var).1, newAccumulator_engine C w var,
                by simp [refCntOf, BasicEngine.acc?, hget, hf, (newAccumulator_frame C w var).2]⟩
            · exact ⟨Provisioned.stay w, rfl, by simp [refCntOf, BasicEngine.acc?, hget, hf]⟩
          obtain ⟨wa, hwa_eq, hprov, heng, hcnt⟩ := hwa
          rw [hwa_eq]
          have hfr : firstReader w.graph (some p :: rest) var = some p := by
            simp [firstReader, List.findSome?, hreads]
          simp only [Res.state_ite]
          constructor
          · exact hprov.step ⟨rfl, rfl, rfl, rfl, rfl, rfl, rfl, rfl, rfl, rfl, [], by simp⟩
          · intro _ ref
            rw [refCntOf_set_nonLeaf, increaseAndHook_ref_cnt, hcnt, heng, hfr]
            by_cases h : ref = .nonLeaf p var
            · simp [h]
            · have h2 : ¬ (AccRef.nonLeaf p var = ref) := fun e => h e.symm
              simp [h, h2]

/-- One grad-output variable: when the analysis returns, one more reference on the
accumulator the variable is routed to. -/
theorem prepareVar_spec {n : Nat} (C : Collab) (pending : List (Option (Fin n)))
    (var : Option VarId) (w : World n) :
    Provisioned w (prepareVar C pending var w).state ∧
    ((prepareVar C pending var w).error? = none →
      ∀ ref, refCntOf (prepareVar C pending var w).state.engine ref
        = refCntOf w.engine ref +
          match var with
          | none => 0
          | some v => if routeVia w.graph w.wrappers pending v = some ref then 1 else 0) := by
  cases var with
  | none => exact ⟨Provisioned.stay w, fun _ _ => rfl⟩
  | some v =>
    simp only [prepareVar, routeVia]
    split
    · rename_i hleaf
      refine ⟨(prepareLeaf_spec C v w).1, fun _ ref => ?_⟩
      rw [(prepareLeaf_spec C v w).2 ref]
      by_cases h : ref = .leaf v
      · simp [h]
      · have h2 : ¬ (AccRef.leaf v = ref) := fun e => h e.symm
        simp [h, h2]
    · exact prepareNonLeaf_spec C v pending w

/-- A loop whose body adds `c r a` to a measure `μ r` and keeps a frame `F s0`. -/
theorem forEach_sum {σ α ρ : Type} (body : α → σ → Res σ) (F : σ → Prop)
    (μ : ρ → σ → Nat) (c : ρ → α → Nat)
    (hbody : ∀ a s, F s → F (body a s).state ∧
      ((body a s).error? = none → ∀ r, μ r (body a s).state = μ r s + c r a)) :
    ∀ (l : List α) (s : σ), F s → F (forEach body l s).state ∧
      ((forEach body l s).error? = none →
        ∀ r, μ r (forEach body l s).state = μ r s + (l.map (c r)).sum) := by
  intro l
  induction l with
  | nil => intro s hs; exact ⟨hs, fun _ r => by simp [forEach, Res.state]⟩
  | cons a l ih =>
    intro s hs
    have hb := hbody a s hs
    simp only [forEach]
    rcases hba : body a s with ⟨e, s1⟩ | s1
    · rw [hba] at hb
      exact ⟨hb.1, fun h => by simp [Res.error?] at h⟩
    · rw [hba] at hb
      simp only [Res.state, Res.error?, forall_const] at hb
      refine ⟨(ih s1 hb.1).1, fun h r => ?_⟩
      rw [(ih s1 hb.1).2 h r, hb.2 r]
      simp only [List.map_cons, List.sum_cons]
      omega

theorem routeVia_var {n : Nat} (g : Fin n → GradOpNode n) (wr : VarId → VariableWrapper)
    (pending : List (Option (Fin n))) (v : VarId) (r : AccRef n)
    (h : routeVia g wr pending v = some r) : r.var = v := by
  unfold routeVia at h
  split at h
  · cases h; rfl
  · cases hf : firstReader g pending v with
    | none => rw [hf] at h; cases h
    | some p => rw [hf] at h; cases h; rfl

theorem routedTo_sum {n : Nat} (g : Fin n → GradOpNode n) (wr : VarId → VariableWrapper)
    (pending : List (Option (Fin n))) (r : AccRef n) (vars : List (Option VarId)) :
    (vars.map (routedTo g wr pending r)).sum
      = if routeVia g wr pending r.var = some r then vars.count (some r.var) else 0 := by
  induction vars with
  | nil => simp
  | cons var vars ih =>
    rw [List.map_cons, List.sum_cons, ih]
    cases var with
    | none => simp [routedTo, List.count_cons]
    | some v =>
      simp only [routedTo]
      by_cases hv : v = r.var
      · subst hv
        by_cases hr : routeVia g wr pending r.var = some r
        · simp [hr, List.count_cons]; omega
        · simp [hr]
      · have hne : ¬ routeVia g wr pending v = some r := fun h => hv (routeVia_var g wr pending v r h).symm
        simp [hne, List.count_cons, hv]

theorem sum_map_ite_const {α : Type} (P : Prop) [Decidable P] (f : α → Nat) (l : List α) :
    (l.map fun a => if P then f a else 0).sum = if P then (l.map f).sum else 0 := by
  by_cases h : P <;> simp [h]

/-- The analysis of one operator: when it returns, the reference count of every
accumulator has grown by the number of grad-output occurrences routed to it. -/
theorem PrepareGradAccumulators_spec {n : Nat} (C : Collab) (op : OpBase)
    (pending : List (Option (Fin n))) (w : World n) :
    Provisioned w (BasicEngine.PrepareGradAccumulators C op pending w).state ∧
    ((BasicEngine.PrepareGradAccumulators C op pending w).error? = none →
      ∀ r, refCntOf (BasicEngine.PrepareGradAccumulators C op pending w).state.engine r
        = refCntOf w.engine r +
          if routeVia w.graph w.wrappers pending r.var = some r then gradOutCount op r.var
          else 0) := by
  have hvars : ∀ (vars : List (Option VarId)) (s : World n), Provisioned w s →
      Provisioned w (forEach (prepareVar C pending) vars s).state ∧
      ((forEach (prepareVar C pending) vars s).error? = none →
        ∀ r, refCntOf (forEach (prepareVar C pending) vars s).state.engine r
          = refCntOf s.engine r + (vars.map (routedTo w.graph w.wrappers pending r)).sum) := by
    intro vars s hs
    refine forEach_sum (prepareVar C pending) (Provisioned w)
      (fun r (s : World n) => refCntOf s.engine r) (fun r => routedTo w.graph w.wrappers pending r)
      ?_ vars s hs
    intro var s1 hs1
    refine ⟨hs1.step (prepareVar_spec C pending var s1).1, fun h r => ?_⟩
    beta_reduce
    rw [(prepareVar_spec C pending var s1).2 h r, hs1.graph, hs1.wrappers]
    rfl
  have h := forEach_sum
    (fun (pair : String × SavedVariableWrapperList VarId) (s : World n) =>
      if !pair.2.is_grad then (.ok s : Res (World n))
      else forEach (prepareVar C pending) pair.2.vars s)
    (Provisioned w)
    (fun r (s : World n) => refCntOf s.engine r)
    (fun r pair => if pair.2.is_grad then
      (pair.2.vars.map (routedTo w.graph w.wrappers pending r)).sum else 0)
    ?_ op.outs w (Provisioned.stay w)
  · refine ⟨h.1, fun he r => ?_⟩
    have h2 := h.2 he r
    simp only at h2
    unfold BasicEngine.PrepareGradAccumulators
    rw [h2]
    congr 1
    simp only [routedTo_sum, gradOutCount]
    by_cases hr : routeVia w.graph w.wrappers pending r.var = some r
    · simp [hr]
    · simp [hr]
  · intro pair s hs
    by_cases hg : pair.2.is_grad = true
    · simp only [hg, Bool.not_true, Bool.false_eq_true, if_false, if_true]
      exact hvars pair.2.vars s hs
    · simp only [Bool.not_eq_true] at hg
      simp only [hg, Bool.not_false, if_true, Bool.false_eq_true, if_false]
      exact ⟨hs, fun _ r => rfl⟩

/-! ## The sweep of `PrepareDeps` -/

theorem prepareOp_spec {n : Nat} (C : Collab) (pending : List (Option (Fin n)))
    (op : OpBase) (w : World n) :
    Provisioned w (prepareOp C pending op w).state ∧
    ((prepareOp C pending op w).error? = none →
      ∀ r, refCntOf (prepareOp C pending op w).state.engine r
        = refCntOf w.engine r +
          if routeVia w.graph w.wrappers pending r.var = some r then gradOutCount op r.var
          else 0) := by
  unfold prepareOp
  split
  · exact ⟨Provisioned.stay w, fun h => by simp [Res.error?] at h⟩
  · exact PrepareGradAccumulators_spec C op pending w

theorem prepareOps_spec {n : Nat} (C : Collab) (pending : List (Option (Fin n)))
    (ops : List OpBase) (w : World n) :
    Provisioned w (forEach (prepareOp C pending) ops w).state ∧
    ((forEach (prepareOp C pending) ops w).error? = none →
      ∀ r, refCntOf (forEach (prepareOp C pending) ops w).state.engine r
        = refCntOf w.engine r +
          if routeVia w.graph w.wrappers pending r.var = some r then
            (ops.map fun op => gradOutCount op r.var).sum
          else 0) := by
  have h := forEach_sum (prepareOp C pending) (Provisioned w)
    (fun r (s : World n) => refCntOf s.engine r)
    (fun r op => if routeVia w.graph w.wrappers pending r.var = some r then gradOutCount op r.var
      else 0)
    ?_ ops w (Provisioned.stay w)
  · refine ⟨h.1, fun he r => ?_⟩
    have h2 := h.2 he r
    beta_reduce at h2
    rw [h2, sum_map_ite_const]
  · intro op s hs
    refine ⟨hs.step (prepareOp_spec C pending op s).1, fun he r => ?_⟩
    beta_reduce
    rw [(prepareOp_spec C pending op s).2 he r, hs.graph, hs.wrappers]

theorem depEntry_getD (c : Nat) : (depEntry c).getD 0 = (c : Int) := by
  unfold depEntry
  split
  · rename_i h; simp [h]
  · rfl

theorem depEntry_succ (c : Nat) : some ((depEntry c).getD 0 + 1) = depEntry (c + 1) := by
  rw [depEntry_getD]
  simp [depEntry]

theorem scanPending_step {n : Nat} (w0 : World n) (init : Fin n) (proc : List (Fin n))
    (cur : Fin n) (pre : List (Option (Fin n))) (x : Option (Fin n)) (s s1 : Sweep n)
    (hx : x ∈ (w0.graph cur).grad_pending_nodes)
    (hinv : ScanInv w0 init proc cur pre s) (h : scanPending x s = .ok s1) :
    ScanInv w0 init proc cur (pre ++ [x]) s1 := by
  cases x with
  | none => simp [scanPending] at h
  | some p =>
    have hcur : Reachable w0.graph init cur :=
      hinv.reach cur (by rw [hinv.vis]; simp)
    have hp : Reachable w0.graph init p := Relation.ReflTransGen.tail hcur hx
    have hdeps : ∀ p1, find p1 (incrDep p s.world.engine.node_deps)
        = depEntry (pendingCount w0.graph proc p1 + (pre ++ [some p]).count (some p1)) := by
      intro p1
      unfold incrDep
      rw [find_upsert]
      by_cases hpp : p1 = p
      · subst hpp
        rw [if_pos rfl, hinv.deps p1, depEntry_succ]
        simp [List.count_append, add_assoc]
      · rw [if_neg hpp, hinv.deps p1]
        have : ¬ (p = p1) := fun e => hpp e.symm
        simp [List.count_append, List.count_cons, this]
    have hfr : ∀ (w1 : World n), w1 = { s.world with engine := { s.world.engine with
        node_deps := incrDep p s.world.engine.node_deps } } → Analysed w0 w1 := by
      intro w1 hw1
      subst hw1
      exact hinv.frame.extend ⟨rfl, rfl, rfl, rfl, rfl, rfl, rfl, rfl, rfl, [], by simp⟩
    have hrefs : ∀ (w1 : World n), w1 = { s.world with engine := { s.world.engine with
        node_deps := incrDep p s.world.engine.node_deps } } →
        ∀ r, refCntOf w1.engine r = refCntOf s.world.engine r := by
      intro w1 hw1 r
      subst hw1
      cases r <;> rfl
    have hnn : none ∉ pre ++ [some p] := by
      intro hmem
      rcases List.mem_append.mp hmem with h1 | h1
      · exact hinv.nonnull_pre h1
      · simp at h1
    simp only [scanPending] at h
    split at h
    · rename_i hmem
      simp only [Except.ok.injEq] at h
      subst h
      refine ⟨hfr _ rfl, hinv.vis, hinv.nodup, hinv.reach, hinv.init_mem, hinv.closed, ?_,
        hdeps, fun r => (hrefs _ rfl r).trans (hinv.refs r), hinv.nonnull, hnn⟩
      intro p1 hp1
      rcases List.mem_append.mp hp1 with h1 | h1
      · exact hinv.closed_pre p1 h1
      · simp only [List.mem_singleton, Option.some.injEq] at h1
        subst h1; exact hmem
    · rename_i hmem
      simp only [Except.ok.injEq] at h
      subst h
      refine ⟨hfr _ rfl, ?_, ?_, ?_, ?_, ?_, ?_, hdeps,
        fun r => (hrefs _ rfl r).trans (hinv.refs r), hinv.nonnull, hnn⟩
      · show s.visited ++ [p] = proc ++ cur :: (s.q ++ [p])
        rw [hinv.vis]; simp
      · show (s.visited ++ [p]).Nodup
        rw [List.nodup_append]
        exact ⟨hinv.nodup, List.nodup_singleton p, by
          intro a ha hb
          simp only [List.mem_singleton] at hb
          subst hb; exact hmem ha⟩
      · intro m hm
        rcases List.mem_append.mp hm with h1 | h1
        · exact hinv.reach m h1
        · simp only [List.mem_singleton] at h1
          subst h1; exact hp
      · exact List.mem_append_left _ hinv.init_mem
      · intro m hm p1 he
        exact List.mem_append_left _ (hinv.closed m hm p1 he)
      · intro p1 hp1
        rcases List.mem_append.mp hp1 with h1 | h1
        · exact List.mem_append_left _ (hinv.closed_pre p1 h1)
        · simp only [List.mem_singleton, Option.some.injEq] at h1
          subst h1; exact List.mem_append_right _ (List.mem_singleton_self _)

theorem scanPending_loop {n : Nat} (w0 : World n) (init : Fin n) (proc : List (Fin n))
    (cur : Fin n) (suf : List (Option (Fin n))) :
    ∀ (pre : List (Option (Fin n))) (s s1 : Sweep n),
      (w0.graph cur).grad_pending_nodes = pre ++ suf →
      ScanInv w0 init proc cur pre s → forEach scanPending suf s = .ok s1 →
      ScanInv w0 init proc cur (pre ++ suf) s1 := by
  induction suf with
  | nil =>
    intro pre s s1 _ hinv h
    simp only [forEach, Except.ok.injEq] at h
    subst h
    simpa using hinv
  | cons x suf ih =>
    intro pre s s1 hpend hinv h
    simp only [forEach] at h
    rcases hx : scanPending x s with ⟨e, s2⟩ | s2
    · rw [hx] at h; cases h
    · rw [hx] at h
      have hmem : x ∈ (w0.graph cur).grad_pending_nodes := by rw [hpend]; simp
      have h2 := scanPending_step w0 init proc cur pre x s s2 hmem hinv hx
      have := ih (pre ++ [x]) s2 s1 (by rw [hpend]; simp) h2 h
      simpa using this

theorem pendingCount_append {n : Nat} (g : Fin n → GradOpNode n) (l1 l2 : List (Fin n))
    (p : Fin n) : pendingCount g (l1 ++ l2) p = pendingCount g l1 p + pendingCount g l2 p := by
  simp [pendingCount, List.map_append, List.sum_append]

theorem writeSites_append {n : Nat} (g : Fin n → GradOpNode n) (wr : VarId → VariableWrapper)
    (l1 l2 : List (Fin n)) (r : AccRef n) :
    writeSites g wr (l1 ++ l2) r = writeSites g wr l1 r + writeSites g wr l2 r := by
  simp [writeSites, List.map_append, List.sum_append]

theorem sweepNode_spec {n : Nat} (C : Collab) (w0 : World n) (init : Fin n)
    (proc : List (Fin n)) (cur : Fin n) (rest : List (Fin n)) (s s1 : Sweep n)
    (hq : s.q = cur :: rest) (hinv : SweepInv w0 init proc s)
    (h : sweepNode C cur { s with q := rest } = .ok s1) :
    SweepInv w0 init (proc ++ [cur]) s1 := by
  unfold sweepNode at h
  simp only at h
  have hops := prepareOps_spec C (s.world.graph cur).grad_pending_nodes (s.world.graph cur).ops
    s.world
  rcases hf : forEach (prepareOp C (s.world.graph cur).grad_pending_nodes)
      (s.world.graph cur).ops s.world with ⟨e, w1⟩ | w1
  · rw [hf] at h; simp [Sweep.lift] at h
  · rw [hf] at h hops
    simp only [Sweep.lift, Res.state, Res.error?, forall_const] at h hops
    have hg : s.world.graph = w0.graph := hinv.frame.graph
    have hscan0 : ScanInv w0 init proc cur []
        ({ world := w1, q := rest, visited := s.visited } : Sweep n) := by
      refine ⟨hinv.frame.extend hops.1.analysed, by rw [hinv.vis, hq], hinv.nodup, hinv.reach,
        hinv.init_mem, hinv.closed, by simp, ?_, ?_, hinv.nonnull, by simp⟩
      · intro p
        show find p w1.engine.node_deps = _
        rw [hops.1.node_deps, hinv.deps p]; simp
      · intro r
        show refCntOf w1.engine r = _
        rw [hops.2 r, hinv.refs r, writeSites_append, hg, hinv.frame.wrappers]
        simp [writeSites, add_assoc]
    have hscan := scanPending_loop w0 init proc cur (w0.graph cur).grad_pending_nodes [] _ s1
      (by simp) hscan0 (by rw [← hg]; exact h)
    simp only [List.nil_append] at hscan
    refine ⟨hscan.frame, by rw [hscan.vis]; simp, hscan.nodup, hscan.reach, hscan.init_mem, ?_,
      ?_, hscan.refs, ?_⟩
    · intro m hm p he
      rcases List.mem_append.mp hm with h1 | h1
      · exact hscan.closed m h1 p he
      · simp only [List.mem_singleton] at h1
        subst h1
        exact hscan.closed_pre p he
    · intro p
      rw [hscan.deps p, pendingCount_append]
      simp [pendingCount]
    · intro m hm
      rcases List.mem_append.mp hm with h1 | h1
      · exact hscan.nonnull m h1
      · simp only [List.mem_singleton] at h1
        subst h1
        exact hscan.nonnull_pre

theorem sweepLoop_spec {n : Nat} (C : Collab) (w0 : World n) (init : Fin n) (fuel : Nat) :
    ∀ (proc : List (Fin n)) (s s1 : Sweep n), SweepInv w0 init proc s →
      sweepLoop C fuel s = .ok s1 → ∃ proc1, SweepInv w0 init proc1 s1 ∧ s1.q = [] := by
  induction fuel with
  | zero =>
    intro proc s s1 hinv h
    unfold sweepLoop at h
    rcases hq : s.q with _ | ⟨cur, rest⟩
    · rw [hq] at h
      simp only [Except.ok.injEq] at h
      subst h
      exact ⟨proc, hinv, hq⟩
    · rw [hq] at h; cases h
  | succ fuel ih =>
    intro proc s s1 hinv h
    unfold sweepLoop at h
    rcases hq : s.q with _ | ⟨cur, rest⟩
    · rw [hq] at h
      simp only [Except.ok.injEq] at h
      subst h
      exact ⟨proc, hinv, hq⟩
    · rw [hq] at h
      simp only at h
      rcases hn : sweepNode C cur { s with q := rest } with ⟨e, s2⟩ | s2
      · rw [hn] at h; cases h
      · rw [hn] at h
        exact ih _ s2 s1 (sweepNode_spec C w0 init proc cur rest s s2 hq hinv hn) h

/-- What a successful `PrepareDeps` establishes, for an engine whose `init_node_` is `init`:
there is a list `vis` of the nodes reachable from `init`, each once, such that `node_deps_`
counts the occurrences in their pending lists and every reference count has grown by the
number of write-sites routed to the accumulator. -/
theorem PrepareDeps_spec {n : Nat} (C : Collab) (w : World n) (init : Fin n)
    (hinit : w.engine.init_node = some init)
    (hok : (BasicEngine.PrepareDeps C w).error? = none) :
    ∃ vis : List (Fin n), vis.Nodup ∧ (∀ m, m ∈ vis ↔ Reachable w.graph init m) ∧
      Analysed w (BasicEngine.PrepareDeps C w).state ∧
      (∀ p, find p (BasicEngine.PrepareDeps C w).state.engine.node_deps
        = depEntry (pendingCount w.graph vis p)) ∧
      (∀ r, refCntOf (BasicEngine.PrepareDeps C w).state.engine r
        = refCntOf w.engine r + writeSites w.graph w.wrappers vis r) ∧
      (∀ m ∈ vis, none ∉ (w.graph m).grad_pending_nodes) ∧
      w.engine.node_deps = [] ∧ w.engine.accumulators = [] := by
  unfold BasicEngine.PrepareDeps at hok ⊢
  by_cases h1 : w.engine.node_deps.isEmpty = true
  swap
  · simp [h1, Res.error?] at hok
  by_cases h2 : w.engine.accumulators.isEmpty = true
  swap
  · simp [h1, h2, Res.error?] at hok
  simp only [h1, h2, Bool.not_true, Bool.false_eq_true, if_false, hinit] at hok ⊢
  have hnd : w.engine.node_deps = [] := List.isEmpty_iff.mp h1
  have hacc : w.engine.accumulators = [] := List.isEmpty_iff.mp h2
  have hinv0 : SweepInv w init []
      ({ world := w, q := [init], visited := [init] } : Sweep n) := by
    refine ⟨Analysed.start w, rfl, List.nodup_singleton _, ?_, List.mem_singleton_self _,
      by simp, ?_, by simp [writeSites], by simp⟩
    · intro m hm
      simp only [List.mem_singleton] at hm
      subst hm
      exact Relation.ReflTransGen.refl
    · intro p
      simp [hnd, find, pendingCount, depEntry]
  rcases hl : sweepLoop C n ({ world := w, q := [init], visited := [init] } : Sweep n)
    with ⟨e, s1⟩ | s1
  · rw [hl] at hok; simp [Res.error?] at hok
  · obtain ⟨proc, hinv, hq⟩ := sweepLoop_spec C w init n [] _ s1 hinv0 hl
    have hvis : s1.visited = proc := by rw [hinv.vis, hq, List.append_nil]
    refine ⟨proc, hvis ▸ hinv.nodup, ?_, hinv.frame, hinv.deps, hinv.refs, hinv.nonnull,
      hnd, hacc⟩
    intro m
    constructor
    · intro hm
      exact hinv.reach m (hvis ▸ hm)
    · intro hm
      induction hm with
      | refl => exact hvis ▸ hinv.init_mem
      | tail _ he ih => exact hvis ▸ hinv.closed _ ih _ he

/-! ## Properties of `PrepareDeps` -/

theorem pendingCount_pos {n : Nat} (g : Fin n → GradOpNode n) (vis : List (Fin n)) (p : Fin n) :
    pendingCount g vis p ≠ 0 ↔ ∃ m ∈ vis, Edge g m p := by
  unfold pendingCount Edge
  induction vis with
  | nil => simp
  | cons a vis ih =>
    simp only [List.map_cons, List.sum_cons, List.mem_cons, exists_eq_or_imp]
    rw [← ih, ← List.count_pos_iff]
    omega

/-- C2. In-degree correctness: when `PrepareDeps` succeeds on an engine whose `init_node_`
is `init`, there is a list `vis` holding each node reachable from `init` exactly once (also
when the graph has a cycle) such that `node_deps_` has an entry for `p` exactly when `p`
occurs in the pending list of a reachable node, and that entry is the number of occurrences
of `p` in the pending lists of the nodes of `vis`, with multiplicity. -/
theorem prepare_deps_in_degree {n : Nat} (C : Collab) (w : World n) (init : Fin n)
    (hinit : w.engine.init_node = some init)
    (hok : (BasicEngine.PrepareDeps C w).error? = none) :
    ∃ vis : List (Fin n), vis.Nodup ∧ (∀ m, m ∈ vis ↔ Reachable w.graph init m) ∧
      ∀ p,
        ((find p (BasicEngine.PrepareDeps C w).state.engine.node_deps).isSome = true ↔
          ∃ m, Reachable w.graph init m ∧ some p ∈ (w.graph m).grad_pending_nodes) ∧
        ∀ d, find p (BasicEngine.PrepareDeps C w).state.engine.node_deps = some d →
          d = ((vis.map fun m => (w.graph m).grad_pending_nodes.count (some p)).sum : Nat) := by
  obtain ⟨vis, hnd, hmem, _, hdeps, _⟩ := PrepareDeps_spec C w init hinit hok
  refine ⟨vis, hnd, hmem, fun p => ⟨?_, ?_⟩⟩
  · rw [hdeps p]
    have hpos := pendingCount_pos w.graph vis p
    constructor
    · intro h
      have hne : pendingCount w.graph vis p ≠ 0 := by
        intro h0
        simp [depEntry, h0] at h
      obtain ⟨m, hm, he⟩ := hpos.mp hne
      exact ⟨m, (hmem m).mp hm, he⟩
    · rintro ⟨m, hm, he⟩
      have hne : pendingCount w.graph vis p ≠ 0 := hpos.mpr ⟨m, (hmem m).mpr hm, he⟩
      simp [depEntry, hne]
  · intro d hd
    rw [hdeps p] at hd
    unfold depEntry at hd
    split at hd
    · cases hd
    · simp only [Option.some.injEq] at hd
      rw [← hd]; rfl

/-- Witness of C2 on the example graph. -/
theorem prepare_deps_in_degree_witness :
    ∃ vis : List (Fin 2), vis.Nodup ∧ (∀ m, m ∈ vis ↔ Reachable exReady.graph 0 m) ∧
      ∀ p,
        ((find p (BasicEngine.PrepareDeps exCollab exReady).state.engine.node_deps).isSome = true ↔
          ∃ m, Reachable exReady.graph 0 m ∧ some p ∈ (exReady.graph m).grad_pending_nodes) ∧
        ∀ d, find p (BasicEngine.PrepareDeps exCollab exReady).state.engine.node_deps = some d →
          d = ((vis.map fun m => (exReady.graph m).grad_pending_nodes.count (some p)).sum : Nat) :=
  prepare_deps_in_degree exCollab exReady 0 (by decide) (by decide)

/-- C3, amended.  Reference counts equal write-sites: when `PrepareDeps` succeeds on an engine
whose leaf accumulator registry is empty at entry (`PrepareDeps` itself checks only `node_deps_`
and `accumulators_`), then over the list `vis` of the nodes reachable
from `init` (each once) the reference count of every accumulator is the number of
grad-output occurrences routed to it: for the leaf accumulator of a variable `v` without
grad node, the occurrences of `v` in the grad-output slots of the operators of the nodes of
`vis`; for the accumulator at `(p, v)`, the occurrences in the nodes whose first pending
node reading `v` is `p`.  In the graph of `z = x + y`, `y = 2x` the leaf accumulator of the
gradient of `x` has reference count 2. -/
theorem prepare_deps_ref_counts {n : Nat} (C : Collab) (w : World n) (init : Fin n)
    (hinit : w.engine.init_node = some init)
    (hleaf : w.engine.leaf_basic_accumulators = [])
    (hok : (BasicEngine.PrepareDeps C w).error? = none) :
    (∃ vis : List (Fin n), vis.Nodup ∧ (∀ m, m ∈ vis ↔ Reachable w.graph init m) ∧
      (∀ v, (w.wrappers v).has_grad_node = false →
        refCntOf (BasicEngine.PrepareDeps C w).state.engine (.leaf v)
          = (vis.map fun m => ((w.graph m).ops.map fun op => gradOutCount op v).sum).sum) ∧
      (∀ p v, (w.wrappers v).has_grad_node = true →
        refCntOf (BasicEngine.PrepareDeps C w).state.engine (.nonLeaf p v)
          = (vis.map fun m =>
              if firstReader w.graph (w.graph m).grad_pending_nodes v = some p then
                ((w.graph m).ops.map fun op => gradOutCount op v).sum
              else 0).sum) ∧
      (∀ r a, (BasicEngine.PrepareDeps C w).state.engine.acc? r = some a →
        a.ref_cnt = writeSites w.graph w.wrappers vis r)) ∧
    refCntOf (BasicEngine.PrepareDeps exCollab exReady).state.engine (.leaf 10) = 2 := by
  refine ⟨?_, by decide⟩
  obtain ⟨vis, hnd, hmem, _, _, hrefs, _, _, hacc⟩ := PrepareDeps_spec C w init hinit hok
  have hzero : ∀ r, refCntOf w.engine r = 0 := by
    intro r
    cases r <;> simp [refCntOf, BasicEngine.acc?, hleaf, hacc, find]
  refine ⟨vis, hnd, hmem, ?_, ?_, ?_⟩
  · intro v hv
    rw [hrefs, hzero, Nat.zero_add]
    simp [writeSites, routeVia, AccRef.var, hv]
  · intro p v hv
    rw [hrefs, hzero, Nat.zero_add]
    simp only [writeSites, routeVia, AccRef.var, hv, Bool.not_true, Bool.false_eq_true, if_false]
    congr 1
    apply List.map_congr_left
    intro m _
    cases firstReader w.graph (w.graph m).grad_pending_nodes v <;> simp
  · intro r a ha
    have h := hrefs r
    rw [hzero, Nat.zero_add] at h
    rw [← h]
    simp [refCntOf, ha]

/-- Witness of C3 on the example graph. -/
theorem prepare_deps_ref_counts_witness :
    (∃ vis : List (Fin 2), vis.Nodup ∧ (∀ m, m ∈ vis ↔ Reachable exReady.graph 0 m) ∧
      (∀ v, (exReady.wrappers v).has_grad_node = false →
        refCntOf (BasicEngine.PrepareDeps exCollab exReady).state.engine (.leaf v)
          = (vis.map fun m => ((exReady.graph m).ops.map fun op => gradOutCount op v).sum).sum) ∧
      (∀ p v, (exReady.wrappers v).has_grad_node = true →
        refCntOf (BasicEngine.PrepareDeps exCollab exReady).state.engine (.nonLeaf p v)
          = (vis.map fun m =>
              if firstReader exReady.graph (exReady.graph m).grad_pending_nodes v = some p then
                ((exReady.graph m).ops.map fun op => gradOutCount op v).sum
              else 0).sum) ∧
      (∀ r a, (BasicEngine.PrepareDeps exCollab exReady).state.engine.acc? r = some a →
        a.ref_cnt = writeSites exReady.graph exReady.wrappers vis r)) ∧
    refCntOf (BasicEngine.PrepareDeps exCollab exReady).state.engine (.leaf 10) = 2 :=
  prepare_deps_ref_counts exCollab exReady 0 (by decide) (by decide) (by decide)

/-- Witness of C9: `mul_grad` of the second example, reached after the analysis. -/
theorem inplace_version_check_witness :
    ((∃ e, (runOp exCollab 1 0 opMul tPrepared).error? = some e ∧
        e.isInplaceTampering = true) ↔ Tampered tPrepared opMul) ∧
    (Tampered tPrepared opMul →
      ranOps (runOp exCollab 1 0 opMul tPrepared).state.trace = ranOps tPrepared.trace) :=
  inplace_version_check exCollab 1 0 opMul tPrepared (by decide) (by decide)

/-- An operator with a tampered input, whose outputs resolve, raises `InplaceTampering`
right after the remapping: nothing but `CheckBackwardInputs` and the remapping has
happened. -/
theorem runOp_tampered {n : Nat} (C : Collab) (cur_node : Fin n) (idx : Nat)
    (cur_op : OpBase) (w : World n)
    (hremap : (remapOuts C cur_node cur_op.ins cur_op.outs
      (BasicEngine.CheckBackwardInputs cur_op w)).isOk = true)
    (hnn : InputsNonNull cur_op) (ht : Tampered w cur_op) :
    ∃ e w1, runOp C cur_node idx cur_op w = .error (e, w1) ∧ e.isInplaceTampering = true ∧
      Remapped (BasicEngine.CheckBackwardInputs cur_op w) w1 := by
  have hc := CheckBackwardInputs_frame cur_op w
  have hr := remapOuts_frame C cur_node cur_op.ins cur_op.outs
    (BasicEngine.CheckBackwardInputs cur_op w)
  rcases hrm : remapOuts C cur_node cur_op.ins cur_op.outs
      (BasicEngine.CheckBackwardInputs cur_op w) with ⟨e, w1⟩ | ⟨w2, tmp_outs⟩
  · rw [hrm] at hremap; cases hremap
  rw [hrm] at hr
  simp only [endWorld] at hr
  have hv := checkVersions_spec cur_op w2 hnn
  have htam : Tampered w2 cur_op ↔ Tampered w cur_op := by
    unfold Tampered versionOk
    simp only [hr.store, hr.wrappers, hc.wrappers, hc.version]
  rw [htam] at hv
  unfold runOp
  simp only [hrm]
  rcases hcv : checkVersions cur_op w2 with ⟨e, w3⟩ | w3
  · have hst := hv.1
    rw [hcv] at hst hv
    simp only [Res.state] at hst
    subst hst
    exact ⟨e, w3, rfl, hv.2.2 e rfl, hr⟩
  · rw [hcv] at hv
    exact absurd ht (hv.2.1.mp rfl)

/-- C10 fails as stated.  In the second example an input of `mul_grad` has an in-place
version different from its snapshot when `Execute` is called; `Execute` fails with
`InplaceTampering`, but `sum_grad` has run before: the gradient of the leaf `b`
(variable 14, without grad node) held nothing at the call and holds a tensor at the throw. -/
theorem inplace_safety_not_atomic :
    Tampered tWorld opMul ∧ (tWorld.wrappers 14).has_grad_node = false ∧
    (BasicEngine.Execute exCollab tWorld).error? = some (.InplaceTampering "mul_grad" "v" 1 0) ∧
    tWorld.store (.graphVar 14) = { holder := none, inplace_version := 0 } ∧
    (BasicEngine.Execute exCollab tWorld).state.store (.graphVar 14) = exTensor 1 ∧
    (BasicEngine.Execute exCollab tWorld).state.store (.graphVar 14)
      ≠ tWorld.store (.graphVar 14) := by
  refine ⟨⟨("Y@GRAD", ⟨[some 15], true⟩), by decide, 15, by decide, by decide⟩, by decide,
    by decide!, by decide, by decide!, by decide!⟩

theorem runOps_first_error {n : Nat} (C : Collab) (cur_node : Fin n) (w : World n)
    (op0 : OpBase) (rest : List OpBase) (x : Error × World n)
    (hops : (w.graph cur_node).ops = op0 :: rest)
    (h : runOp C cur_node 0 op0 w = .error x) : runOps C cur_node w = .error x := by
  unfold runOps
  rw [hops, List.length_cons, List.range_succ_eq_map]
  simp only [forEach, hops, List.get?_cons_zero, h]

/-- C10, amended. Inplace safety at the first operator: when an input of the first operator
run by `Execute` (the first operator of `init_node_`) has an in-place version different
from its snapshot when `Execute` is called, the analysis succeeds, the outputs of that
operator resolve and its input map has no null entry, then `Execute` fails with
`InplaceTampering` before any kernel, move, `SumGrad` or `AccumulateGrad` call: the only
collaborator calls made are the zero-fills of `CheckBackwardInputs`, and every variable
that held data keeps its value. -/
theorem tampering_at_first_op {n : Nat} (C : Collab) (w : World n) (init : Fin n)
    (op0 : OpBase) (rest : List OpBase)
    (hinit : w.engine.init_node = some init)
    (hok : (BasicEngine.PrepareDeps C w).error? = none)
    (hops : (w.graph init).ops = op0 :: rest)
    (hremap : (remapOuts C init op0.ins op0.outs
      (BasicEngine.CheckBackwardInputs op0
        (takeInitNode (BasicEngine.PrepareDeps C w).state))).isOk = true)
    (hnn : InputsNonNull op0) (ht : Tampered w op0) :
    (∃ e, (BasicEngine.Execute C w).error? = some e ∧ e.isInplaceTampering = true) ∧
    (∃ evs, (BasicEngine.Execute C w).state.trace = w.trace ++ evs ∧
      ∀ e ∈ evs, ∃ v x, e = Event.set_constant v x) ∧
    (∀ v, (w.store v).hasData = true → (BasicEngine.Execute C w).state.store v = w.store v) := by
  obtain ⟨_, _, _, han, _⟩ := PrepareDeps_spec C w init hinit hok
  rcases hp : BasicEngine.PrepareDeps C w with ⟨e, w1⟩ | w1
  · rw [hp] at hok; simp [Res.error?] at hok
  rw [hp] at han hremap
  simp only [Res.state] at han hremap
  have ht2 : Tampered (takeInitNode w1) op0 := by
    unfold Tampered versionOk at ht ⊢
    simpa [takeInitNode, han.store, han.wrappers] using ht
  obtain ⟨e, w3, hrun, he, hrm⟩ := runOp_tampered C init 0 op0 (takeInitNode w1) hremap hnn ht2
  have hops2 : ((takeInitNode w1).graph init).ops = op0 :: rest := by
    show (w1.graph init).ops = _
    rw [han.graph]; exact hops
  have hrunOps := runOps_first_error C init (takeInitNode w1) op0 rest (e, w3) hops2 hrun
  have hexec : BasicEngine.Execute C w = .error (e, w3) := by
    unfold BasicEngine.Execute
    simp only [hinit, hp]
    unfold execLoop
    simp only [execNode, hrunOps, Sched.lift]
  have hc := CheckBackwardInputs_frame op0 (takeInitNode w1)
  rw [hexec]
  refine ⟨⟨e, rfl, he⟩, ?_, ?_⟩
  · obtain ⟨evs, hevs, hall⟩ := hc.trace
    refine ⟨evs, ?_, hall⟩
    simp only [Res.state]
    rw [hrm.trace, hevs]
    show w1.trace ++ evs = _
    rw [han.trace]
  · intro v hv
    simp only [Res.state]
    rw [hrm.store, hc.kept v (by show (w1.store v).hasData = true; rw [han.store]; exact hv)]
    show w1.store v = _
    rw [han.store]

/-- Witness of the amended C10: the second example with the input of `sum_grad` tampered. -/
theorem tampering_at_first_op_witness :
    (∃ e, (BasicEngine.Execute exCollab tWorldFirst).error? = some e ∧
      e.isInplaceTampering = true) ∧
    (∃ evs, (BasicEngine.Execute exCollab tWorldFirst).state.trace = tWorldFirst.trace ++ evs ∧
      ∀ e ∈ evs, ∃ v x, e = Event.set_constant v x) ∧
    (∀ v, (tWorldFirst.store v).hasData = true →
      (BasicEngine.Execute exCollab tWorldFirst).state.store v = tWorldFirst.store v) :=
  tampering_at_first_op exCollab tWorldFirst 0 opSum [] (by decide) (by decide!) (by decide)
    (by decide!) (by decide)
    ⟨("Out@GRAD", ⟨[some 12], true⟩), by decide, 12, by decide, by decide⟩

/-! ## Frames of the execution of operators -/

theorem Stepped.same {n : Nat} (cur_node : Fin n) (T : Nat → Prop) (w : World n) : Stepped cur_node T w w :=
  ⟨rfl, rfl, rfl, rfl, fun _ => rfl, fun _ => rfl, fun _ => rfl, fun _ _ => rfl, fun _ _ => rfl, fun _ => rfl,
    ⟨[], by simp⟩, fun _ => rfl, ⟨[], by simp, fun _ _ h => by cases h⟩⟩

theorem Stepped.next {n : Nat} {cur_node : Fin n} {T : Nat → Prop} {w w1 w2 : World n}
    (h1 : Stepped cur_node T w w1) (h2 : Stepped cur_node T w1 w2) : Stepped cur_node T w w2 := by
  refine ⟨h2.wrappers.trans h1.wrappers, h2.init_node.trans h1.init_node,
    h2.retain_graph.trans h1.retain_graph, h2.node_deps.trans h1.node_deps,
    fun m => (h2.pending m).trans (h1.pending m),
    fun m => (h2.inplace_map m).trans (h1.inplace_map m),
    fun m => (h2.ops_len m).trans (h1.ops_len m),
    fun m hm => (h2.others m hm).trans (h1.others m hm),
    fun j hj => (h2.untouched j hj).trans (h1.untouched j hj), ?_, ?_,
    fun r => (h2.accs r).trans (h1.accs r), ?_⟩
  · intro hr
    rw [h2.retained (by rw [h1.retain_graph]; exact hr), h1.retained hr]
  · obtain ⟨l1, hl1⟩ := h1.temps
    obtain ⟨l2, hl2⟩ := h2.temps
    exact ⟨l1 ++ l2, by rw [hl2, hl1, List.append_assoc]⟩
  · obtain ⟨e1, he1, hc1⟩ := h1.trace
    obtain ⟨e2, he2, hc2⟩ := h2.trace
    refine ⟨e1 ++ e2, by rw [he2, he1, List.append_assoc], fun hr e he => ?_⟩
    rcases List.mem_append.mp he with h | h
    · exact hc1 hr e h
    · exact hc2 (by rw [h1.retain_graph]; exact hr) e h

theorem InputsChecked.stepped {n : Nat} (cur_node : Fin n) (T : Nat → Prop) {w w1 : World n}
    (h : InputsChecked w w1) : Stepped cur_node T w w1 := by
  obtain ⟨evs, he, hall⟩ := h.trace
  refine ⟨h.wrappers, by rw [h.engine], by rw [h.engine], by rw [h.engine],
    fun m => by rw [h.graph], fun m => by rw [h.graph], fun m => by rw [h.graph],
    fun m _ => by rw [h.graph], fun _ _ => by rw [h.graph], fun _ => h.graph,
    ⟨[], by simp [h.temps]⟩,
    fun r => by rw [h.engine], ⟨evs, he, fun _ e hmem => ?_⟩⟩
  obtain ⟨v, x, rfl⟩ := hall e hmem
  rfl

theorem Remapped.toStepped {n : Nat} (cur_node : Fin n) (T : Nat → Prop) {w w1 : World n}
    (h : Remapped w w1) : Stepped cur_node T w w1 := by
  refine ⟨h.wrappers, h.init_node, h.retain_graph, h.node_deps,
    fun m => by rw [h.graph], fun m => by rw [h.graph], fun m => by rw [h.graph],
    fun m _ => by rw [h.graph], fun _ _ => by rw [h.graph], fun _ => h.graph, h.temps,
    fun r => ?_,
    ⟨[], by simp [h.trace], fun _ _ hmem => by cases hmem⟩⟩
  cases r with
  | leaf v => simp only [BasicEngine.acc?, h.leaf_basic]
  | nonLeaf p v => simp only [BasicEngine.acc?, h.accumulators]

theorem acc?_modifyAcc {n : Nat} (e : BasicEngine n) (r r1 : AccRef n)
    (f : GradientAccumulator → GradientAccumulator) :
    (e.modifyAcc r f).acc? r1 = (e.acc? r1).map fun a => if r1 = r then f a else a := by
  cases r with
  | leaf v =>
    cases r1 with
    | leaf v1 =>
      simp only [BasicEngine.modifyAcc, BasicEngine.acc?, find_map_update]
      by_cases h : v1 = v <;> simp [h]
    | nonLeaf p1 v1 => simp [BasicEngine.modifyAcc, BasicEngine.acc?]
  | nonLeaf p v =>
    cases r1 with
    | leaf v1 => simp [BasicEngine.modifyAcc, BasicEngine.acc?]
    | nonLeaf p1 v1 =>
      simp only [BasicEngine.modifyAcc, BasicEngine.acc?, find_map_update]
      cases hfp : find p1 e.accumulators with
      | none => simp
      | some row =>
        by_cases hp : p1 = p
        · subst hp
          simp only [Option.map_some', if_true, Option.some_bind]
          rw [find_map_update]
          by_cases h : v1 = v <;> simp [h]
        · simp [hp]

theorem moveInplace_stepped {n : Nat} (C : Collab) (cur_node : Fin n) (T : Nat → Prop)
    (w : World n) :
    Stepped cur_node T w (moveInplace C w) ∧
    ranOpsFull (moveInplace C w).trace = ranOpsFull w.trace ∧
    (∀ r, sumGradCalls (moveInplace C w).trace r = sumGradCalls w.trace r) ∧
    (moveInplace C w).engine = w.engine := by
  unfold moveInplace
  refine foldl_inv _ (fun w1 => Stepped cur_node T w w1 ∧ ranOpsFull w1.trace = ranOpsFull w.trace ∧
    (∀ r, sumGradCalls w1.trace r = sumGradCalls w.trace r) ∧ w1.engine = w.engine) ?_ _ w
    ⟨Stepped.same _ T w, rfl, fun _ => rfl, rfl⟩
  intro s pair hs
  refine ⟨hs.1.next ⟨rfl, rfl, rfl, rfl, fun _ => rfl, fun _ => rfl, fun _ => rfl,
    fun _ _ => rfl, fun _ _ => rfl, fun _ => rfl, ⟨[], by simp⟩, fun _ => rfl,
    ⟨[_], rfl, fun _ e he => by simp at he; subst he; rfl⟩⟩, ?_, ?_, hs.2.2.2⟩
  · rw [← hs.2.1]
    simp [ranOpsFull, List.filterMap_append, Event.ranOp]
  · intro r
    rw [← hs.2.2.1 r]
    simp [sumGradCalls, List.countP_append, Event.sumGradOn]

theorem foldl_sum {σ α ρ : Type} (f : σ → α → σ) (F : σ → Prop) (μ : ρ → σ → Nat)
    (c : ρ → α → Nat) (l : List α)
    (hf : ∀ s, ∀ a ∈ l, F s → F (f s a) ∧ ∀ r, μ r (f s a) = μ r s + c r a) :
    ∀ (s : σ), F s → F (l.foldl f s) ∧ ∀ r, μ r (l.foldl f s) = μ r s + (l.map (c r)).sum := by
  induction l with
  | nil => intro s hs; exact ⟨hs, fun r => by simp⟩
  | cons a l ih =>
    intro s hs
    have h1 := hf s a (List.mem_cons_self _ _) hs
    have h2 := ih (fun s b hb => hf s b (List.mem_cons_of_mem _ hb)) (f s a) h1.1
    refine ⟨h2.1, fun r => ?_⟩
    rw [List.foldl_cons, h2.2 r, h1.2 r]
    simp only [List.map_cons, List.sum_cons]
    omega

theorem static_isSome {n : Nat} {e e1 : BasicEngine n} {r : AccRef n}
    (h : (e1.acc? r).map GradientAccumulator.static = (e.acc? r).map GradientAccumulator.static) :
    (e1.acc? r).isSome = (e.acc? r).isSome := by
  cases h1 : e1.acc? r <;> cases h2 : e.acc? r <;> simp [h1, h2] at h ⊢

theorem sumGrads_step_frame {n : Nat} (cur_node : Fin n) (T : Nat → Prop) (s : World n)
    (ref : AccRef n) (store : Store) (e : Event n) (hc : e.isClear = false)
    (hr : e.ranOp = none) (f : GradientAccumulator → GradientAccumulator)
    (hf : ∀ a, (f a).static = a.static) :
    Stepped cur_node T s ({ s with store := store, engine := s.engine.modifyAcc ref f, trace := s.trace ++ [e] } : World n) ∧
    ranOpsFull (s.trace ++ [e]) = ranOpsFull s.trace ∧
    (s.engine.modifyAcc ref f).leaf_accumulators = s.engine.leaf_accumulators ∧
    (s.engine.modifyAcc ref f).inplace_var_list = s.engine.inplace_var_list := by
  refine ⟨⟨rfl, ?_, ?_, ?_, fun _ => rfl, fun _ => rfl, fun _ => rfl,
      fun _ _ => rfl, fun _ _ => rfl, fun _ => rfl, ⟨[], by simp⟩, ?_,
      ⟨[_], rfl, fun _ e1 he => by simp at he; subst he; exact hc⟩⟩, ?_, ?_, ?_⟩
  · cases ref <;> simp [BasicEngine.modifyAcc]
  · cases ref <;> simp [BasicEngine.modifyAcc]
  · cases ref <;> simp [BasicEngine.modifyAcc]
  · intro r
    show ((s.engine.modifyAcc ref f).acc? r).map _ = _
    rw [acc?_modifyAcc]
    cases s.engine.acc? r with
    | none => rfl
    | some a =>
      simp only [Option.map_some']
      by_cases h : r = ref <;> simp [h, hf]
  · simp [ranOpsFull, List.filterMap_append, hr]
  · cases ref <;> simp [BasicEngine.modifyAcc]
  · cases ref <;> simp [BasicEngine.modifyAcc]

/-- The `SumGrad` loop stays within the frame of the execution of operators. -/
theorem sumGrads_frame {n : Nat} (C : Collab) (cur_node : Fin n) (T : Nat → Prop)
    (cur_op : OpBase) (w : World n) :
    Stepped cur_node T w (sumGrads C cur_op w) ∧
    ranOpsFull (sumGrads C cur_op w).trace = ranOpsFull w.trace ∧
    (sumGrads C cur_op w).engine.leaf_accumulators = w.engine.leaf_accumulators ∧
    (sumGrads C cur_op w).engine.inplace_var_list = w.engine.inplace_var_list := by
  unfold sumGrads
  refine foldl_inv _ (fun s => Stepped cur_node T w s ∧ ranOpsFull s.trace = ranOpsFull w.trace ∧
      s.engine.leaf_accumulators = w.engine.leaf_accumulators ∧
      s.engine.inplace_var_list = w.engine.inplace_var_list) ?_ _ w
    ⟨Stepped.same _ T w, rfl, rfl, rfl⟩
  intro s pair hs
  rcases hacc : s.engine.acc? pair.1 with _ | acc
  · exact hs
  · have h := sumGrads_step_frame cur_node T s pair.1 (C.sum_grad acc pair.2 cur_op.id s.store)
      (.sum_grad pair.1 pair.2 cur_op.id) rfl rfl (fun a => { a with cur_cnt := a.cur_cnt + 1 })
      (fun a => rfl)
    exact ⟨hs.1.next h.1, h.2.1.trans hs.2.1, h.2.2.1.trans hs.2.2.1, h.2.2.2.trans hs.2.2.2⟩

/-- The `SumGrad` loop: one `sum_grad` event per pair of `need_accu_var_list_`. -/
theorem sumGrads_count {n : Nat} (C : Collab) (cur_op : OpBase) (w : World n)
    (hex : ∀ pair ∈ w.engine.need_accu_var_list, (w.engine.acc? pair.1).isSome = true) :
    ∀ r, sumGradCalls (sumGrads C cur_op w).trace r
      = sumGradCalls w.trace r
        + (w.engine.need_accu_var_list.map fun pair => if pair.1 = r then 1 else 0).sum := by
  unfold sumGrads
  refine (foldl_sum _ (fun s => ∀ r, (s.engine.acc? r).isSome = (w.engine.acc? r).isSome)
    (fun r (s : World n) => sumGradCalls s.trace r) (fun r pair => if pair.1 = r then 1 else 0)
    w.engine.need_accu_var_list ?_ w (fun _ => rfl)).2
  intro s pair hpair hs
  have hsome : (s.engine.acc? pair.1).isSome = true := by
    rw [hs pair.1]; exact hex pair hpair
  rcases hacc : s.engine.acc? pair.1 with _ | acc
  · rw [hacc] at hsome; cases hsome
  · simp only
    refine ⟨fun r => ?_, fun r => ?_⟩
    · rw [← hs r]
      show ((s.engine.modifyAcc pair.1 _).acc? r).isSome = _
      rw [acc?_modifyAcc]
      cases s.engine.acc? r <;> rfl
    · by_cases h : pair.1 = r
      · simp [sumGradCalls, List.countP_append, Event.sumGradOn, h]
      · simp [sumGradCalls, List.countP_append, Event.sumGradOn, h]

theorem accumulateLeaves_spec {n : Nat} (C : Collab) (cur_node : Fin n) (T : Nat → Prop)
    (w : World n) :
    Stepped cur_node T w (accumulateLeaves C w) ∧
    ranOpsFull (accumulateLeaves C w).trace = ranOpsFull w.trace ∧
    (∀ r, sumGradCalls (accumulateLeaves C w).trace r = sumGradCalls w.trace r) ∧
    (accumulateLeaves C w).engine = w.engine := by
  unfold accumulateLeaves
  refine foldl_inv _ (fun w1 => Stepped cur_node T w w1 ∧ ranOpsFull w1.trace = ranOpsFull w.trace ∧
    (∀ r, sumGradCalls w1.trace r = sumGradCalls w.trace r) ∧ w1.engine = w.engine) ?_ _ w
    ⟨Stepped.same _ T w, rfl, fun _ => rfl, rfl⟩
  intro s ref hs
  have hstep : ∀ (f : Store → Store) (e : Event n) (s1 : World n), e.isClear = false →
      e.ranOp = none → (∀ r, e.sumGradOn r = false) →
      (Stepped cur_node T w s1 ∧ ranOpsFull s1.trace = ranOpsFull w.trace ∧
        (∀ r, sumGradCalls s1.trace r = sumGradCalls w.trace r) ∧ s1.engine = w.engine) →
      (Stepped cur_node T w { s1 with store := f s1.store, trace := s1.trace ++ [e] } ∧
        ranOpsFull ({ s1 with store := f s1.store, trace := s1.trace ++ [e] } : World n).trace
          = ranOpsFull w.trace ∧
        (∀ r, sumGradCalls ({ s1 with store := f s1.store, trace := s1.trace ++ [e] } :
          World n).trace r = sumGradCalls w.trace r) ∧
        ({ s1 with store := f s1.store, trace := s1.trace ++ [e] } : World n).engine
          = w.engine) := by
    intro f e s1 hc hr hsg hs1
    refine ⟨hs1.1.next ⟨rfl, rfl, rfl, rfl, fun _ => rfl, fun _ => rfl, fun _ => rfl,
      fun _ _ => rfl, fun _ _ => rfl, fun _ => rfl, ⟨[], by simp⟩, fun _ => rfl,
      ⟨[e], rfl, fun _ e1 he => by simp at he; subst he; exact hc⟩⟩, ?_, ?_, hs1.2.2.2⟩
    · rw [← hs1.2.1]
      simp [ranOpsFull, List.filterMap_append, hr]
    · intro r
      rw [← hs1.2.2.1 r]
      simp [sumGradCalls, List.countP_append, hsg r]
  cases s.engine.acc? ref with
  | none => exact hs
  | some acc =>
    simp only
    split
    · exact hs
    · split
      · exact hstep (C.call_backward_post_hooks acc) (.call_backward_post_hooks ref) _ rfl rfl
          (fun _ => rfl)
          (hstep (C.accumulate_grad acc) (.accumulate_grad ref) s rfl rfl (fun _ => rfl) hs)
      · exact hstep (C.accumulate_grad acc) (.accumulate_grad ref) s rfl rfl (fun _ => rfl) hs

theorem clearBackwardTrace_stepped {n : Nat} (cur_node : Fin n) (T : Nat → Prop) (idx : Nat)
    (w : World n) (hT : T idx) (hr : w.engine.retain_graph = false) :
    Stepped cur_node T w (clearBackwardTrace cur_node idx w) ∧
    ranOpsFull (clearBackwardTrace cur_node idx w).trace = ranOpsFull w.trace ∧
    (∀ r, sumGradCalls (clearBackwardTrace cur_node idx w).trace r = sumGradCalls w.trace r) ∧
    (clearBackwardTrace cur_node idx w).engine = w.engine := by
  unfold clearBackwardTrace
  refine ⟨⟨rfl, rfl, rfl, rfl, ?_, ?_, ?_, ?_, ?_, ?_, ⟨[], by simp⟩, fun _ => rfl,
    ⟨[_], rfl, fun h => by rw [hr] at h; cases h⟩⟩, ?_, ?_, rfl⟩
  · intro m
    by_cases h : m = cur_node <;> simp [h]
  · intro m
    by_cases h : m = cur_node <;> simp [h]
  · intro m
    by_cases h : m = cur_node <;> simp [h]
  · intro m h
    simp [h]
  · intro j hj
    have hne : idx ≠ j := fun e => hj (e ▸ hT)
    simp [List.get?_eq_getElem?, List.getElem?_modify, hne]
  · intro h
    rw [hr] at h; cases h
  · simp [ranOpsFull, List.filterMap_append, Event.ranOp]
  · intro r
    simp [sumGradCalls, List.countP_append, Event.sumGradOn]

theorem InputsChecked.quiet {n : Nat} {w w1 : World n} (h : InputsChecked w w1) :
    ranOpsFull w1.trace = ranOpsFull w.trace ∧
    ∀ r, sumGradCalls w1.trace r = sumGradCalls w.trace r := by
  obtain ⟨evs, he, hevs⟩ := h.trace
  rw [he]
  constructor
  · rw [ranOpsFull, List.filterMap_append]
    have : List.filterMap Event.ranOp evs = [] := by
      rw [List.filterMap_eq_nil_iff]
      intro e hmem
      obtain ⟨v, x, rfl⟩ := hevs e hmem
      rfl
    rw [this, List.append_nil]
    rfl
  · intro r
    rw [sumGradCalls, List.countP_append]
    have : List.countP (Event.sumGradOn r) evs = 0 := by
      rw [List.countP_eq_zero]
      intro e hmem
      obtain ⟨v, x, rfl⟩ := hevs e hmem
      simp [Event.sumGradOn]
    rw [this, Nat.add_zero]
    rfl

/-- The stage after the kernel call stays within the frame, logs no `run_op` event and
leaves the two per-operator lists it clears empty. -/
theorem afterRun_frame {n : Nat} (C : Collab) (cur_node : Fin n) (T : Nat → Prop) (idx : Nat)
    (cur_op : OpBase) (w : World n) (hT : T idx) :
    Stepped cur_node T w (afterRun C cur_node idx cur_op w) ∧
    ranOpsFull (afterRun C cur_node idx cur_op w).trace = ranOpsFull w.trace ∧
    (afterRun C cur_node idx cur_op w).engine.need_accu_var_list = [] ∧
    (afterRun C cur_node idx cur_op w).engine.leaf_accumulators = [] ∧
    (afterRun C cur_node idx cur_op w).engine.inplace_var_list = w.engine.inplace_var_list := by
  have h1 := moveInplace_stepped C cur_node T w
  have h2 := sumGrads_frame C cur_node T cur_op (moveInplace C w)
  have h3 := accumulateLeaves_spec C cur_node T (sumGrads C cur_op (moveInplace C w))
  generalize hw5 : accumulateLeaves C (sumGrads C cur_op (moveInplace C w)) = w5 at h3
  have h5 : Stepped cur_node T w w5 := (h1.1.next h2.1).next h3.1
  have hran5 : ranOpsFull w5.trace = ranOpsFull w.trace := by
    rw [h3.2.1, h2.2.1, h1.2.1]
  have hin5 : w5.engine.inplace_var_list = w.engine.inplace_var_list := by
    rw [h3.2.2.2, h2.2.2.2, h1.2.2.2]
  have h6 : Stepped cur_node T w5 ({ w5 with engine := { w5.engine with
      need_accu_var_list := [], leaf_accumulators := [] } } : World n) := by
    refine ⟨rfl, rfl, rfl, rfl, fun _ => rfl, fun _ => rfl, fun _ => rfl, fun _ _ => rfl,
      fun _ _ => rfl, fun _ => rfl, ⟨[], by simp⟩, fun r => ?_,
      ⟨[], by simp, fun _ _ h => by cases h⟩⟩
    cases r <;> rfl
  unfold afterRun
  simp only [hw5]
  split
  · rename_i hret
    simp only [Bool.not_eq_true'] at hret
    have h7 := clearBackwardTrace_stepped cur_node T idx ({ w5 with engine := { w5.engine with
      need_accu_var_list := [], leaf_accumulators := [] } } : World n) hT hret
    refine ⟨(h5.next h6).next h7.1, by rw [h7.2.1]; exact hran5, ?_, ?_, ?_⟩
    · rw [h7.2.2.2]
    · rw [h7.2.2.2]
    · rw [h7.2.2.2]; exact hin5
  · exact ⟨h5.next h6, hran5, rfl, rfl, hin5⟩

/-- The stage after the kernel call: the `SumGrad` calls made are those of
`need_accu_var_list_`. -/
theorem afterRun_count {n : Nat} (C : Collab) (cur_node : Fin n) (idx : Nat)
    (cur_op : OpBase) (w : World n)
    (hex : ∀ pair ∈ w.engine.need_accu_var_list, (w.engine.acc? pair.1).isSome = true) :
    ∀ r, sumGradCalls (afterRun C cur_node idx cur_op w).trace r
      = sumGradCalls w.trace r
        + (w.engine.need_accu_var_list.map fun pair => if pair.1 = r then 1 else 0).sum := by
  intro r
  have h1 := moveInplace_stepped C cur_node (fun _ => True) w
  have h2 := sumGrads_count C cur_op (moveInplace C w) (by rw [h1.2.2.2]; exact hex) r
  have h3 := accumulateLeaves_spec C cur_node (fun _ => True)
    (sumGrads C cur_op (moveInplace C w))
  have h5 : sumGradCalls (accumulateLeaves C (sumGrads C cur_op (moveInplace C w))).trace r
      = sumGradCalls w.trace r
        + (w.engine.need_accu_var_list.map fun pair => if pair.1 = r then 1 else 0).sum := by
    rw [h3.2.2.1 r, h2, h1.2.2.1 r, h1.2.2.2]
  unfold afterRun
  simp only
  split
  · rename_i hret
    simp only [Bool.not_eq_true'] at hret
    have h7 := (clearBackwardTrace_stepped cur_node (fun _ => True) idx
      ({ accumulateLeaves C (sumGrads C cur_op (moveInplace C w)) with engine :=
        { (accumulateLeaves C (sumGrads C cur_op (moveInplace C w))).engine with
          need_accu_var_list := [], leaf_accumulators := [] } } : World n) trivial hret).2.2.1 r
    rw [h7]
    exact h5
  · exact h5

theorem checkVersions_state {n : Nat} (cur_op : OpBase) (w : World n) :
    (checkVersions cur_op w).state = w :=
  (forEach_check
    (fun (pair : String × SavedVariableWrapperList VarId) (s : World n) =>
      forEach (checkVersion cur_op) pair.2.vars s)
    (fun pair s => (forEach_check _ (checkVersion_state cur_op) pair.2.vars s).1)
    cur_op.ins w).1

/-- Every outcome of `runOp` is within the frame of the execution of operators. -/
theorem runOp_stepped {n : Nat} (C : Collab) (cur_node : Fin n) (T : Nat → Prop) (idx : Nat)
    (cur_op : OpBase) (w : World n) (hT : T idx) :
    Stepped cur_node T w (runOp C cur_node idx cur_op w).state := by
  have hc := (CheckBackwardInputs_frame cur_op w).stepped cur_node T
  have hr := remapOuts_frame C cur_node cur_op.ins cur_op.outs
    (BasicEngine.CheckBackwardInputs cur_op w)
  rcases hrm : remapOuts C cur_node cur_op.ins cur_op.outs
      (BasicEngine.CheckBackwardInputs cur_op w) with ⟨e, w1⟩ | ⟨w2, tmp_outs⟩
  · rw [hrm] at hr
    simp only [runOp, hrm]
    exact hc.next (hr.toStepped cur_node T)
  · rw [hrm] at hr
    simp only [endWorld] at hr
    have h2 := hc.next (hr.toStepped cur_node T)
    simp only [runOp, hrm]
    have hcv := checkVersions_state cur_op w2
    rcases hv : checkVersions cur_op w2 with ⟨e, w3⟩ | w3
    · rw [hv] at hcv
      simp only [Res.state] at hcv
      subst hcv
      exact h2
    · rw [hv] at hcv
      simp only [Res.state] at hcv
      subst hcv
      simp only
      split
      · exact h2
      · rename_i store hrun
        have h4 : Stepped cur_node T w3 ({ w3 with store := store, trace := w3.trace ++
            [.run_op cur_node idx cur_op cur_op.ins tmp_outs] } : World n) :=
          ⟨rfl, rfl, rfl, rfl, fun _ => rfl, fun _ => rfl, fun _ => rfl, fun _ _ => rfl,
            fun _ _ => rfl, fun _ => rfl, ⟨[], by simp⟩, fun _ => rfl,
            ⟨[_], rfl, fun _ e he => by simp at he; subst he; rfl⟩⟩
        exact (h2.next h4).next (afterRun_frame C cur_node T idx cur_op
          ({ w3 with store := store, trace := w3.trace ++
            [.run_op cur_node idx cur_op cur_op.ins tmp_outs] } : World n) hT).1

/-- A successful `runOp`: exactly one `run_op` event, for this operator, is logged, the two
per-operator lists end empty, and the `SumGrad` calls made are those of the
`need_accu_var_list_` built by the remapping. -/
theorem runOp_ok {n : Nat} (C : Collab) (cur_node : Fin n) (idx : Nat) (cur_op : OpBase)
    (w wf : World n) (h : runOp C cur_node idx cur_op w = .ok wf) :
    ranOpsFull wf.trace = ranOpsFull w.trace ++ [(cur_node, idx, cur_op)] ∧
    wf.engine.need_accu_var_list = [] ∧ wf.engine.leaf_accumulators = [] ∧
    ∃ w2 tmp_outs, remapOuts C cur_node cur_op.ins cur_op.outs
        (BasicEngine.CheckBackwardInputs cur_op w) = .ok (w2, tmp_outs) ∧
      ((∀ pair ∈ w2.engine.need_accu_var_list, (w2.engine.acc? pair.1).isSome = true) →
        ∀ r, sumGradCalls wf.trace r = sumGradCalls w.trace r
          + (w2.engine.need_accu_var_list.map fun pair => if pair.1 = r then 1 else 0).sum) := by
  have hc := CheckBackwardInputs_frame cur_op w
  have hr := remapOuts_frame C cur_node cur_op.ins cur_op.outs
    (BasicEngine.CheckBackwardInputs cur_op w)
  rcases hrm : remapOuts C cur_node cur_op.ins cur_op.outs
      (BasicEngine.CheckBackwardInputs cur_op w) with ⟨e, w1⟩ | ⟨w2, tmp_outs⟩
  · simp only [runOp, hrm] at h
    cases h
  · rw [hrm] at hr
    simp only [runOp, hrm] at h
    simp only [endWorld] at hr
    have hcv := checkVersions_state cur_op w2
    rcases hv : checkVersions cur_op w2 with ⟨e, w3⟩ | w3
    · rw [hv] at h; cases h
    · rw [hv] at hcv
      simp only [Res.state] at hcv
      subst hcv
      rw [hv] at h
      simp only at h
      split at h
      · cases h
      · rename_i store hrun
        simp only [Except.ok.injEq] at h
        have ha := afterRun_frame C cur_node (fun _ => True) idx cur_op
          ({ w3 with store := store, trace := w3.trace ++ [.run_op cur_node idx cur_op cur_op.ins tmp_outs] } : World n)
          trivial
        rw [h] at ha
        refine ⟨?_, ha.2.2.1, ha.2.2.2.1, w3, tmp_outs, rfl, fun hex r => ?_⟩
        · rw [ha.2.1]
          simp only [ranOpsFull, List.filterMap_append]
          rw [hr.trace]
          have := hc.quiet.1
          simp only [ranOpsFull] at this
          rw [this]
          rfl
        · have hcount := afterRun_count C cur_node idx cur_op
            ({ w3 with store := store, trace := w3.trace ++ [.run_op cur_node idx cur_op cur_op.ins tmp_outs] } : World n)
            hex r
          rw [h] at hcount
          rw [hcount]
          congr 1
          simp only [sumGradCalls, List.countP_append]
          rw [hr.trace]
          have := hc.quiet.2 r
          simp only [sumGradCalls] at this
          rw [this]
          simp [Event.sumGradOn]

/-! ## Running the operators of a node -/

theorem forEach_prefix {σ α : Type} (body : α → σ → Res σ) (I : List α → σ → Prop)
    (l : List α)
    (hstep : ∀ pre a suf s s1, l = pre ++ a :: suf → I pre s → body a s = .ok s1 →
      I (pre ++ [a]) s1) :
    ∀ (s s1 : σ), I [] s → forEach body l s = .ok s1 → I l s1 := by
  have key : ∀ (suf pre : List α) (s s1 : σ), l = pre ++ suf → I pre s →
      forEach body suf s = .ok s1 → I l s1 := by
    intro suf
    induction suf with
    | nil =>
      intro pre s s1 hl hI h
      simp only [forEach, Except.ok.injEq] at h
      subst h
      rw [hl, List.append_nil]; exact hI
    | cons a suf ih =>
      intro pre s s1 hl hI h
      simp only [forEach] at h
      rcases hb : body a s with ⟨e, s2⟩ | s2
      · rw [hb] at h; cases h
      · rw [hb] at h
        exact ih (pre ++ [a]) s2 s1 (by rw [hl]; simp) (hstep pre a suf s s2 hl hI hb) h
  intro s s1 hI h
  exact key l [] s s1 rfl hI h

theorem Stepped.mono {n : Nat} {cur_node : Fin n} {T T1 : Nat → Prop} {w w1 : World n}
    (h : Stepped cur_node T w w1) (hT : ∀ j, T j → T1 j) : Stepped cur_node T1 w w1 :=
  ⟨h.wrappers, h.init_node, h.retain_graph, h.node_deps, h.pending, h.inplace_map, h.ops_len,
    h.others, fun j hj => h.untouched j (fun hTj => hj (hT j hTj)), h.retained, h.temps,
    h.accs, h.trace⟩

/-- Every outcome of the loop over the operators of a node is within the frame. -/
theorem runOps_stepped {n : Nat} (C : Collab) (cur_node : Fin n) (w : World n) :
    Stepped cur_node (fun _ => True) w (runOps C cur_node w).state := by
  unfold runOps
  refine forEach_state_inv _ (Stepped cur_node (fun _ => True) w) ?_ _ w (Stepped.same _ _ w)
  intro idx s hs
  cases (s.graph cur_node).ops.get? idx with
  | none => exact hs
  | some op => exact hs.next (runOp_stepped C cur_node _ idx op s trivial)

/-- A successful loop over the operators of a node logs one `run_op` event per operator of
the node, in recorded order, each with the maps the operator had when the loop started. -/
theorem runOps_ok {n : Nat} (C : Collab) (cur_node : Fin n) (w w1 : World n)
    (h : runOps C cur_node w = .ok w1) :
    ranOpsFull w1.trace = ranOpsFull w.trace ++ opsOf w.graph cur_node := by
  unfold runOps at h
  have key := forEach_prefix
    (fun idx (s : World n) =>
      match (s.graph cur_node).ops.get? idx with
      | none => (.ok s : Res (World n))
      | some cur_op => runOp C cur_node idx cur_op s)
    (fun pre s => Stepped cur_node (fun j => j ∈ pre) w s ∧
      ranOpsFull s.trace = ranOpsFull w.trace ++
        pre.filterMap fun i => ((w.graph cur_node).ops.get? i).map fun op => (cur_node, i, op))
    (List.range (w.graph cur_node).ops.length) ?_ w w1
    ⟨Stepped.same _ _ w, by simp⟩ h
  · exact key.2
  · intro pre idx suf s s1 hl hI hb
    have hnd : (pre ++ idx :: suf).Nodup := hl ▸ List.nodup_range _
    have hnot : idx ∉ pre := by
      intro hmem
      have := (List.nodup_append.mp hnd).2.2 hmem (List.mem_cons_self _ _)
      exact this
    have hget : (s.graph cur_node).ops.get? idx = (w.graph cur_node).ops.get? idx :=
      hI.1.untouched idx hnot
    simp only [hget] at hb
    have hmono : Stepped cur_node (fun j => j ∈ pre ++ [idx]) w s :=
      hI.1.mono (fun j hj => List.mem_append_left _ hj)
    cases hop : (w.graph cur_node).ops.get? idx with
    | none =>
      rw [hop] at hb
      simp only [Except.ok.injEq] at hb
      subst hb
      refine ⟨hmono, ?_⟩
      rw [hI.2, List.filterMap_append]
      simp only [List.filterMap_cons, hop, Option.map_none', List.filterMap_nil, List.append_nil]
    | some op =>
      rw [hop] at hb
      simp only at hb
      have hst := runOp_stepped C cur_node (fun j => j ∈ pre ++ [idx]) idx op s (by simp)
      rw [hb] at hst
      refine ⟨hmono.next hst, ?_⟩
      rw [(runOp_ok C cur_node idx op s s1 hb).1, hI.2, List.filterMap_append,
        List.append_assoc]
      simp only [List.filterMap_cons, hop, Option.map_some', List.filterMap_nil]

/-! ## The scheduling loop of `Execute` -/

theorem sum_map_le_of_nodup_subset {α : Type} [DecidableEq α] (f : α → Nat) :
    ∀ (l v : List α), l.Nodup → l ⊆ v → (l.map f).sum ≤ (v.map f).sum := by
  intro l
  induction l with
  | nil => intro v _ _; simp
  | cons a l ih =>
    intro v hnd hsub
    have ha : a ∈ v := hsub (List.mem_cons_self _ _)
    have hperm : v.Perm (a :: v.erase a) := List.perm_cons_erase ha
    have hsum : (v.map f).sum = f a + ((v.erase a).map f).sum := by
      rw [(hperm.map f).sum_eq]; simp
    have hl : l ⊆ v.erase a := by
      intro x hx
      have hxa : x ≠ a := by
        rintro rfl
        exact (List.nodup_cons.mp hnd).1 hx
      exact (List.mem_erase_of_ne hxa).mpr (hsub (List.mem_cons_of_mem _ hx))
    have := ih (v.erase a) (List.nodup_cons.mp hnd).2 hl
    rw [hsum]
    simp only [List.map_cons, List.sum_cons]
    omega

theorem mem_of_sum_map_eq {α : Type} [DecidableEq α] (f : α → Nat) (l v : List α)
    (hnd : l.Nodup) (hsub : l ⊆ v) (h : (v.map f).sum ≤ (l.map f).sum) :
    ∀ m ∈ v, f m ≠ 0 → m ∈ l := by
  intro m hm hf
  by_contra hnot
  have := sum_map_le_of_nodup_subset f (m :: l) v (List.nodup_cons.mpr ⟨hnot, hnd⟩)
    (by intro x hx
        rcases List.mem_cons.mp hx with rfl | h1
        · exact hm
        · exact hsub h1)
  simp only [List.map_cons, List.sum_cons] at this
  omega

theorem pendingCount_le {n : Nat} (g : Fin n → GradOpNode n) (l vis : List (Fin n))
    (hnd : l.Nodup) (hsub : l ⊆ vis) (p : Fin n) :
    pendingCount g l p ≤ pendingCount g vis p :=
  sum_map_le_of_nodup_subset _ l vis hnd hsub

theorem Stepped.driven {n : Nat} {cur_node : Fin n} {T : Nat → Prop} {w0 w w1 : World n}
    (h0 : Driven w0 w) (h : Stepped cur_node T w w1) : Driven w0 w1 := by
  refine ⟨h.wrappers.trans h0.wrappers, h.init_node.trans h0.init_node,
    h.retain_graph.trans h0.retain_graph, fun m => (h.pending m).trans (h0.pending m),
    fun m => (h.inplace_map m).trans (h0.inplace_map m),
    fun m => (h.ops_len m).trans (h0.ops_len m), ?_, ?_,
    fun r => (h.accs r).trans (h0.accs r), ?_⟩
  · intro hr
    rw [h.retained (by rw [h0.retain_graph]; exact hr), h0.retained hr]
  · obtain ⟨l1, hl1⟩ := h0.temps
    obtain ⟨l2, hl2⟩ := h.temps
    exact ⟨l1 ++ l2, by rw [hl2, hl1, List.append_assoc]⟩
  · obtain ⟨e1, he1, hc1⟩ := h0.trace
    obtain ⟨e2, he2, hc2⟩ := h.trace
    refine ⟨e1 ++ e2, by rw [he2, he1, List.append_assoc], fun hr e he => ?_⟩
    rcases List.mem_append.mp he with h1 | h1
    · exact hc1 hr e h1
    · exact hc2 (by rw [h0.retain_graph]; exact hr) e h1

theorem Driven.begin {n : Nat} (w : World n) : Driven w w :=
  ⟨rfl, rfl, rfl, fun _ => rfl, fun _ => rfl, fun _ => rfl, fun _ => rfl, ⟨[], by simp⟩,
    fun _ => rfl, ⟨[], by simp, fun _ _ h => by cases h⟩⟩

theorem Driven.node_deps {n : Nat} {w0 w : World n} (h : Driven w0 w) (d : List (Fin n × Int)) :
    Driven w0 ({ w with engine := { w.engine with node_deps := d } } : World n) := by
  refine ⟨h.wrappers, h.init_node, h.retain_graph, h.pending, h.inplace_map, h.ops_len,
    h.retained, h.temps, fun r => ?_, h.trace⟩
  rw [← h.accs r]
  cases r <;> rfl

theorem count_snoc_some {n : Nat} (pre : List (Option (Fin n))) (p q : Fin n) :
    (pre ++ [some p]).count (some q) = pre.count (some q) + if p = q then 1 else 0 := by
  rw [List.count_append, List.count_singleton]
  by_cases h : p = q
  · subst h; simp
  · simp [h]

theorem collectReady_inv {n : Nat} (w0 : World n) (init : Fin n) (vis done : List (Fin n))
    (cur : Fin n) (pre : List (Option (Fin n))) (e : Option (Fin n)) (s s1 : Sched n)
    (hvis : ∀ p, e = some p → p ∈ vis)
    (hinv : CollectInv w0 init vis done cur pre s)
    (h : collectReady e s = .ok s1) :
    CollectInv w0 init vis done cur (pre ++ [e]) s1 := by
  cases e with
  | none => simp [collectReady] at h
  | some p =>
    have hd := hinv.deps p
    simp only [collectReady] at h
    rcases hf : find p s.world.engine.node_deps with _ | d
    · rw [hf] at h hd
      simp only [Except.ok.injEq] at h
      subst h
      have htot : pendingCount w0.graph vis p = 0 := by
        by_contra hne
        rw [if_neg hne] at hd
        cases hd
      refine ⟨hinv.frame, hinv.fresh, hinv.nodup, hinv.sub, hinv.init_mem, ?_, ?_, ?_,
        hinv.ran, hinv.topo⟩
      · intro q
        rw [hinv.deps q, count_snoc_some]
        by_cases hq : p = q
        · subst hq; simp [htot]
        · simp [hq]
      · intro q hq
        have := hinv.ready q hq
        rw [count_snoc_some]
        omega
      · intro q hq0 hq
        rw [count_snoc_some] at hq
        by_cases hpq : p = q
        · subst hpq; exact absurd htot hq0
        · rw [if_neg hpq] at hq
          exact hinv.pushed q hq0 hq
    · rw [hf] at h hd
      dsimp only at h
      have htot : pendingCount w0.graph vis p ≠ 0 := by
        intro h0
        rw [if_pos h0] at hd
        cases hd
      rw [if_neg htot] at hd
      simp only [Option.some.injEq] at hd
      have hdeps : ∀ (s2 : Sched n),
          s2.world.engine.node_deps = upsert p (fun _ => d - 1) s.world.engine.node_deps →
          ∀ q, find q s2.world.engine.node_deps
            = if pendingCount w0.graph vis q = 0 then none
              else some ((pendingCount w0.graph vis q : Int)
                - ((pendingCount w0.graph done q + (pre ++ [some p]).count (some q) : Nat)
                    : Int)) := by
        intro s2 h2 q
        rw [h2, find_upsert, count_snoc_some]
        by_cases hq : q = p
        · subst hq
          rw [if_pos rfl, if_neg htot, if_pos rfl]
          simp only [Option.some.injEq]
          push_cast
          omega
        · rw [if_neg hq, if_neg (Ne.symm hq), hinv.deps q]
          simp
      by_cases hz : d - 1 = 0
      · rw [if_pos hz] at h
        simp only [Except.ok.injEq] at h
        subst h
        have hnew : p ∉ done ++ cur :: s.q := by
          intro hm
          have := hinv.ready p hm
          omega
        have hcons : done ++ cur :: (s.q ++ [p]) = (done ++ cur :: s.q) ++ [p] := by simp
        refine ⟨(hinv.frame).node_deps _, hinv.fresh, ?_, ?_, ?_, hdeps _ rfl, ?_, ?_,
          hinv.ran, hinv.topo⟩
        · show (done ++ cur :: (s.q ++ [p])).Nodup
          rw [hcons]
          exact List.Nodup.append hinv.nodup (List.nodup_singleton p)
            (by
              intro x hx hx2
              rw [List.mem_singleton] at hx2
              subst hx2
              exact hnew hx)
        · intro m hm
          have hm : m ∈ done ++ cur :: (s.q ++ [p]) := hm
          rw [hcons, List.mem_append, List.mem_singleton] at hm
          rcases hm with hm | rfl
          · exact hinv.sub m hm
          · exact hvis m rfl
        · show init ∈ done ++ cur :: (s.q ++ [p])
          rw [hcons]
          exact List.mem_append_left _ hinv.init_mem
        · intro q hq
          have hq : q ∈ done ++ cur :: (s.q ++ [p]) := hq
          rw [hcons, List.mem_append, List.mem_singleton] at hq
          rw [count_snoc_some]
          rcases hq with hq | rfl
          · have := hinv.ready q hq
            omega
          · rw [if_pos rfl]; omega
        · intro q _ _
          show q ∈ done ++ cur :: (s.q ++ [p])
          rw [hcons]
          by_cases hq : q = p
          · subst hq; simp
          · refine List.mem_append_left _ (hinv.pushed q ‹_› ?_)
            have h3 := ‹pendingCount w0.graph done q + (pre ++ [some p]).count (some q)
              = pendingCount w0.graph vis q›
            rw [count_snoc_some, if_neg (Ne.symm hq)] at h3
            exact h3
      · rw [if_neg hz] at h
        simp only [Except.ok.injEq] at h
        subst h
        refine ⟨(hinv.frame).node_deps _, hinv.fresh, hinv.nodup, hinv.sub, hinv.init_mem,
          hdeps _ rfl, ?_, ?_, hinv.ran, hinv.topo⟩
        · intro q hq
          have := hinv.ready q hq
          rw [count_snoc_some]
          omega
        · intro q hq0 hq
          rw [count_snoc_some] at hq
          by_cases hpq : p = q
          · subst hpq
            rw [if_pos rfl] at hq
            omega
          · rw [if_neg hpq] at hq
            exact hinv.pushed q hq0 hq

theorem sum_map_le_of_support {α : Type} [DecidableEq α] (f : α → Nat) :
    ∀ (v l : List α), v.Nodup → (∀ m ∈ v, f m ≠ 0 → m ∈ l) →
      (v.map f).sum ≤ (l.map f).sum := by
  intro v
  induction v with
  | nil => intro l _ _; simp
  | cons a v ih =>
    intro l hnd hsup
    have hnd2 := List.nodup_cons.mp hnd
    by_cases hfa : f a = 0
    · simp only [List.map_cons, List.sum_cons, hfa, Nat.zero_add]
      exact ih l hnd2.2 (fun m hm => hsup m (List.mem_cons_of_mem _ hm))
    · have ha : a ∈ l := hsup a (List.mem_cons_self _ _) hfa
      have hsum : (l.map f).sum = f a + ((l.erase a).map f).sum := by
        rw [((List.perm_cons_erase ha).map f).sum_eq]; simp
      have := ih (l.erase a) hnd2.2 (by
        intro m hm hfm
        have hma : m ≠ a := by
          rintro rfl
          exact hnd2.1 hm
        exact (List.mem_erase_of_ne hma).mpr (hsup m (List.mem_cons_of_mem _ hm) hfm))
      simp only [List.map_cons, List.sum_cons]
      omega

theorem opsOf_congr {n : Nat} (g g1 : Fin n → GradOpNode n) (m : Fin n) (h : g1 m = g m) :
    opsOf g1 m = opsOf g m := by
  unfold opsOf
  rw [h]

theorem execNode_inv {n : Nat} (C : Collab) (w0 : World n) (init : Fin n)
    (vis done : List (Fin n)) (cur : Fin n) (rest : List (Fin n)) (s s1 : Sched n)
    (hclosed : ∀ m ∈ vis, ∀ p, Edge w0.graph m p → p ∈ vis)
    (hq : s.q = cur :: rest)
    (hinv : SchedInv w0 init vis done s)
    (h : execNode C cur { s with q := rest } = .ok s1) :
    SchedInv w0 init vis (done ++ [cur]) s1 := by
  unfold execNode at h
  have hst := runOps_stepped C cur s.world
  rcases hr : runOps C cur s.world with ⟨e, wE⟩ | wA
  · simp [hr, Sched.lift] at h
  rw [hr] at hst
  have hran := runOps_ok C cur s.world wA hr
  simp only [hr, Sched.lift] at h
  have hst : Stepped cur (fun _ => True) s.world wA := hst
  have hnd : (done ++ cur :: rest).Nodup := by
    have := hinv.nodup
    rwa [hq] at this
  have hcur_done : cur ∉ done := by
    intro hm
    have := List.disjoint_of_nodup_append hnd hm
    exact this (List.mem_cons_self _ _)
  have hcur_vis : cur ∈ vis := by
    refine hinv.sub cur ?_
    rw [hq]
    simp
  have hfr : Driven w0 wA := hst.driven hinv.frame
  have hc0 : CollectInv w0 init vis done cur [] ({ world := wA, q := rest } : Sched n) := by
    refine ⟨hfr, ?_, hnd, ?_, ?_, ?_, ?_, ?_, ?_, ?_⟩
    · intro m hm
      have hm1 : m ≠ cur := fun hc => hm (by rw [hc]; simp)
      have hm2 : m ∉ done := fun hc => hm (List.mem_append_left _ hc)
      rw [hst.others m hm1, hinv.fresh m hm2]
    · intro m hm
      refine hinv.sub m ?_
      rw [hq]
      exact hm
    · have := hinv.init_mem
      rw [hq] at this
      exact this
    · intro p
      show find p wA.engine.node_deps = _
      rw [hst.node_deps, hinv.deps p]
      simp
    · intro p hp
      have := hinv.ready p (by rw [hq]; exact hp)
      simp only [List.count_nil, Nat.add_zero]
      omega
    · intro p hp0 hp
      simp only [List.count_nil, Nat.add_zero] at hp
      have := hinv.pushed p hp0 hp
      rw [hq] at this
      exact this
    · show ranOpsFull wA.trace = _
      rw [hran, hinv.ran, opsOf_congr w0.graph s.world.graph cur (hinv.fresh cur hcur_done),
        List.flatMap_append, List.append_assoc]
      simp
    · intro d1 p d2 hsplit m hm he
      rcases List.eq_nil_or_concat d2 with rfl | ⟨d3, x, rfl⟩
      · have h2 : done ++ [cur] = d1 ++ [p] := hsplit
        have h3 := List.append_inj_left' h2 rfl
        have h4 := List.append_inj_right' h2 rfl
        simp only [List.cons.injEq, and_true] at h4
        subst h3 h4
        have hrdy := hinv.ready cur (by rw [hq]; simp)
        have hsub : done ⊆ vis := fun x hx => hinv.sub x (List.mem_append_left _ hx)
        refine mem_of_sum_map_eq (fun m => (w0.graph m).grad_pending_nodes.count (some cur))
          done vis (List.Nodup.of_append_left hnd) hsub ?_ m hm ?_
        · have : pendingCount w0.graph vis cur ≤ pendingCount w0.graph done cur := by omega
          exact this
        · exact List.count_pos_iff.mpr he |>.ne'
      · have h2 : done ++ [cur] = (d1 ++ p :: d3) ++ [x] := by
          rw [hsplit]; simp [List.concat_eq_append]
        have h3 := List.append_inj_left' h2 rfl
        exact hinv.topo d1 p d3 h3 m hm he
  have hpend : (wA.graph cur).grad_pending_nodes = (w0.graph cur).grad_pending_nodes :=
    hfr.pending cur
  have hfin := forEach_prefix collectReady
    (fun pre s2 => CollectInv w0 init vis done cur pre s2)
    (wA.graph cur).grad_pending_nodes
    (by
      intro pre a suf s2 s3 hl hI hb
      refine collectReady_inv w0 init vis done cur pre a s2 s3 ?_ hI hb
      intro p hp
      refine hclosed cur hcur_vis p ?_
      unfold Edge
      rw [← hpend, hl, hp]
      simp)
    _ s1 hc0 h
  have hcount : ∀ p, pendingCount w0.graph (done ++ [cur]) p
      = pendingCount w0.graph done p + (wA.graph cur).grad_pending_nodes.count (some p) := by
    intro p
    rw [pendingCount_append, hpend]
    simp [pendingCount]
  have hnd1 : (done ++ [cur]).Nodup := by
    have := @List.Nodup.of_append_left _ (done ++ [cur]) rest (by simpa using hnd)
    exact this
  have hsub1 : done ++ [cur] ⊆ vis := by
    intro x hx
    refine hfin.sub x ?_
    rcases List.mem_append.mp hx with h1 | h1
    · exact List.mem_append_left _ h1
    · rw [List.mem_singleton] at h1
      subst h1
      simp
  refine ⟨hfin.frame, hfin.fresh, ?_, ?_, ?_, ?_, ?_, ?_, hfin.ran, hfin.topo⟩
  · simpa using hfin.nodup
  · intro m hm
    exact hfin.sub m (by simpa using hm)
  · simpa using hfin.init_mem
  · intro p
    rw [hfin.deps p, hcount p]
  · intro p hp
    have h1 := hfin.ready p (by simpa using hp)
    have h2 := pendingCount_le w0.graph (done ++ [cur]) vis hnd1 hsub1 p
    rw [hcount p] at h2 ⊢
    omega
  · intro p hp0 hp
    rw [hcount p] at hp
    simpa using hfin.pushed p hp0 hp

theorem forEach_rel {σ α : Type} (body : α → σ → Res σ) (R : σ → σ → Prop) (l : List α)
    (hbody : ∀ a ∈ l, ∀ s t s1 t1, R s t → body a s = .ok s1 → body a t = .ok t1 → R s1 t1) :
    ∀ (s t s1 t1 : σ), R s t → forEach body l s = .ok s1 → forEach body l t = .ok t1 →
      R s1 t1 := by
  induction l with
  | nil =>
    intro s t s1 t1 hR h1 h2
    simp only [forEach, Except.ok.injEq] at h1 h2
    subst h1 h2
    exact hR
  | cons a l ih =>
    intro s t s1 t1 hR h1 h2
    simp only [forEach] at h1 h2
    rcases hs : body a s with ⟨e, s2⟩ | s2
    · rw [hs] at h1; cases h1
    rcases ht : body a t with ⟨e, t2⟩ | t2
    · rw [ht] at h2; cases h2
    rw [hs] at h1
    rw [ht] at h2
    exact ih (fun b hb => hbody b (List.mem_cons_of_mem _ hb)) s2 t2 s1 t1
      (hbody a (List.mem_cons_self _ _) s t s2 t2 hR hs ht) h1 h2

theorem collectReady_sim {n : Nat} (e : Option (Fin n)) (s t s1 t1 : Sched n)
    (hR : Sim s t) (h1 : collectReady e s = .ok s1) (h2 : collectReady e t = .ok t1) :
    Sim s1 t1 := by
  cases e with
  | none => simp [collectReady] at h1
  | some p =>
    simp only [collectReady] at h1 h2
    rw [← hR.deps p] at h2
    rcases hf : find p s.world.engine.node_deps with _ | d
    · rw [hf] at h1 h2
      simp only [Except.ok.injEq] at h1 h2
      subst h1 h2
      exact hR
    · rw [hf] at h1 h2
      dsimp only at h1 h2
      by_cases hz : d - 1 = 0
      · rw [if_pos hz] at h1 h2
        simp only [Except.ok.injEq] at h1 h2
        subst h1 h2
        refine ⟨?_, ?_, hR.pending⟩
        · show s.q ++ [p] = t.q ++ [p]
          rw [hR.q]
        · intro q
          show find q (upsert p _ _) = find q (upsert p _ _)
          rw [find_upsert, find_upsert, hR.deps q]
      · rw [if_neg hz] at h1 h2
        simp only [Except.ok.injEq] at h1 h2
        subst h1 h2
        refine ⟨hR.q, ?_, hR.pending⟩
        intro q
        show find q (upsert p _ _) = find q (upsert p _ _)
        rw [find_upsert, find_upsert, hR.deps q]

theorem execNode_sim {n : Nat} (C : Collab) (cur : Fin n) (rest : List (Fin n))
    (s t s1 t1 : Sched n) (hR : Sim s t)
    (h1 : execNode C cur { s with q := rest } = .ok s1)
    (h2 : execNode C cur { t with q := rest } = .ok t1) : Sim s1 t1 := by
  unfold execNode at h1 h2
  have hs := runOps_stepped C cur s.world
  have ht := runOps_stepped C cur t.world
  rcases hrs : runOps C cur s.world with ⟨e, wE⟩ | wA
  · simp [hrs, Sched.lift] at h1
  rcases hrt : runOps C cur t.world with ⟨e, wE⟩ | wB
  · simp [hrt, Sched.lift] at h2
  rw [hrs] at hs
  rw [hrt] at ht
  have hs : Stepped cur (fun _ => True) s.world wA := hs
  have ht : Stepped cur (fun _ => True) t.world wB := ht
  simp only [hrs, Sched.lift] at h1
  simp only [hrt, Sched.lift] at h2
  have hp : (wA.graph cur).grad_pending_nodes = (wB.graph cur).grad_pending_nodes := by
    rw [hs.pending, ht.pending, hR.pending]
  rw [← hp] at h2
  refine forEach_rel collectReady Sim _ (fun a _ s2 t2 s3 t3 => collectReady_sim a s2 t2 s3 t3)
    _ _ s1 t1 ?_ h1 h2
  refine ⟨rfl, ?_, ?_⟩
  · intro p
    show find p wA.engine.node_deps = find p wB.engine.node_deps
    rw [hs.node_deps, ht.node_deps, hR.deps p]
  · intro m
    show (wA.graph m).grad_pending_nodes = (wB.graph m).grad_pending_nodes
    rw [hs.pending, ht.pending, hR.pending]

/-- An invariant of the turns of the scheduling loop holds when the loop has drained the
queue; `done` collects the popped nodes. -/
theorem execLoop_inv {n : Nat} (C : Collab) (J : List (Fin n) → Sched n → Prop)
    (hJ : ∀ done cur rest s s1, s.q = cur :: rest → J done s →
      execNode C cur { s with q := rest } = .ok s1 → J (done ++ [cur]) s1) :
    ∀ (fuel : Nat) (done : List (Fin n)) (s s1 : Sched n), J done s →
      execLoop C fuel s = .ok s1 → ∃ l, J (done ++ l) s1 ∧ s1.q = [] := by
  intro fuel
  induction fuel with
  | zero =>
    intro done s s1 hJ0 h
    unfold execLoop at h
    rcases hq : s.q with _ | ⟨cur, rest⟩
    · simp only [hq, Except.ok.injEq] at h
      subst h
      exact ⟨[], by simpa using hJ0, hq⟩
    · simp [hq] at h
  | succ fuel ih =>
    intro done s s1 hJ0 h
    unfold execLoop at h
    rcases hq : s.q with _ | ⟨cur, rest⟩
    · simp only [hq, Except.ok.injEq] at h
      subst h
      exact ⟨[], by simpa using hJ0, hq⟩
    · simp only [hq] at h
      rcases hn : execNode C cur { s with q := rest } with ⟨e, sE⟩ | s2
      · simp [hn] at h
      · simp only [hn] at h
        obtain ⟨l, hl, hq1⟩ := ih (done ++ [cur]) s2 s1 (hJ done cur rest s s2 hq hJ0 hn) h
        exact ⟨cur :: l, by simpa using hl, hq1⟩

/-- Two runs of the scheduling loop from states it cannot tell apart pop the same nodes in
the same order. -/
theorem execLoop_lockstep {n : Nat} (C : Collab) (J K : List (Fin n) → Sched n → Prop)
    (hJ : ∀ done cur rest s s1, s.q = cur :: rest → J done s →
      execNode C cur { s with q := rest } = .ok s1 → J (done ++ [cur]) s1)
    (hK : ∀ done cur rest s s1, s.q = cur :: rest → K done s →
      execNode C cur { s with q := rest } = .ok s1 → K (done ++ [cur]) s1) :
    ∀ (fuel fuel1 : Nat) (done : List (Fin n)) (s t s1 t1 : Sched n), Sim s t →
      J done s → K done t → execLoop C fuel s = .ok s1 → execLoop C fuel1 t = .ok t1 →
      ∃ l, J (done ++ l) s1 ∧ K (done ++ l) t1 := by
  intro fuel
  induction fuel with
  | zero =>
    intro fuel1 done s t s1 t1 hR hJ0 hK0 h1 h2
    unfold execLoop at h1
    rcases hq : s.q with _ | ⟨cur, rest⟩
    · simp only [hq, Except.ok.injEq] at h1
      subst h1
      have hqt : t.q = [] := by rw [← hR.q, hq]
      unfold execLoop at h2
      simp only [hqt, Except.ok.injEq] at h2
      subst h2
      exact ⟨[], by simpa using hJ0, by simpa using hK0⟩
    · simp [hq] at h1
  | succ fuel ih =>
    intro fuel1 done s t s1 t1 hR hJ0 hK0 h1 h2
    unfold execLoop at h1
    rcases hq : s.q with _ | ⟨cur, rest⟩
    · simp only [hq, Except.ok.injEq] at h1
      subst h1
      have hqt : t.q = [] := by rw [← hR.q, hq]
      unfold execLoop at h2
      simp only [hqt, Except.ok.injEq] at h2
      subst h2
      exact ⟨[], by simpa using hJ0, by simpa using hK0⟩
    · have hqt : t.q = cur :: rest := by rw [← hR.q, hq]
      simp only [hq] at h1
      unfold execLoop at h2
      simp only [hqt] at h2
      cases fuel1 with
      | zero => simp at h2
      | succ fuel1 =>
        simp only at h2
        rcases hn : execNode C cur { s with q := rest } with ⟨e, sE⟩ | s2
        · simp [hn] at h1
        rcases hm : execNode C cur { t with q := rest } with ⟨e, tE⟩ | t2
        · simp [hm] at h2
        simp only [hn] at h1
        simp only [hm] at h2
        obtain ⟨l, hl1, hl2⟩ := ih fuel1 (done ++ [cur]) s2 t2 s1 t1
          (execNode_sim C cur rest s t s2 t2 hR hn hm)
          (hJ done cur rest s s2 hq hJ0 hn) (hK done cur rest t t2 hqt hK0 hm) h1 h2
        exact ⟨cur :: l, by simpa using hl1, by simpa using hl2⟩

theorem acyclic_of_rank {n : Nat} (g : Fin n → GradOpNode n) (rk : Fin n → Nat)
    (h : ∀ m p, Edge g m p → rk m < rk p) : Acyclic g := by
  have key : ∀ a b, Relation.TransGen (Edge g) a b → rk a < rk b := by
    intro a b hab
    induction hab with
    | single h1 => exact h _ _ h1
    | tail _ h2 ih => exact lt_trans ih (h _ _ h2)
  intro m hm
  exact lt_irrefl _ (key m m hm)

theorem SchedInv.initial {n : Nat} (w0 : World n) (init : Fin n) (vis : List (Fin n))
    (hvis : ∀ m, m ∈ vis ↔ Reachable w0.graph init m) (hac : Acyclic w0.graph)
    (hdeps : ∀ p, find p w0.engine.node_deps = depEntry (pendingCount w0.graph vis p)) :
    SchedInv w0 init vis [] ({ world := w0, q := [init] } : Sched n) := by
  have hinit : init ∈ vis := (hvis init).mpr Relation.ReflTransGen.refl
  refine ⟨Driven.begin w0, fun _ _ => rfl, by simp, ?_, by simp, ?_, ?_, ?_, by simp, ?_⟩
  · intro m hm
    simp only [List.nil_append, List.mem_singleton] at hm
    subst hm
    exact hinit
  · intro p
    show find p w0.engine.node_deps = _
    rw [hdeps p]
    simp [depEntry, pendingCount]
  · intro p hp
    simp only [List.nil_append, List.mem_singleton] at hp
    subst hp
    have h0 : pendingCount w0.graph vis p = 0 := by
      by_contra hne
      obtain ⟨m, hm, he⟩ := (pendingCount_pos w0.graph vis p).mp hne
      exact hac p (Relation.TransGen.tail' ((hvis m).mp hm) he)
    rw [h0]
    simp [pendingCount]
  · intro p hp0 hp
    simp only [pendingCount, List.map_nil, List.sum_nil] at hp
    exact absurd hp.symm hp0
  · intro d1 p d2 h
    simp at h

/-- A successful `Execute` is a successful analysis followed by a run of the scheduling loop
that drains the queue and maintains the scheduling invariant, followed by `Clear`. -/
theorem Execute_sched {n : Nat} (C : Collab) (w : World n) (init : Fin n)
    (hinit : w.engine.init_node = some init) (hac : Acyclic w.graph)
    (hok : (BasicEngine.Execute C w).error? = none) :
    ∃ (w1 : World n) (vis done : List (Fin n)) (sF : Sched n),
      BasicEngine.PrepareDeps C w = .ok w1 ∧ Analysed w w1 ∧ vis.Nodup ∧
      (∀ m, m ∈ vis ↔ Reachable w.graph init m) ∧
      SchedInv (takeInitNode w1) init vis done sF ∧ sF.q = [] ∧
      BasicEngine.Execute C w = .ok (BasicEngine.Clear sF.world) := by
  unfold BasicEngine.Execute at hok ⊢
  simp only [hinit] at hok ⊢
  rcases hp : BasicEngine.PrepareDeps C w with ⟨e, wE⟩ | w1
  · simp [hp, Res.error?] at hok
  simp only [hp] at hok ⊢
  rcases hl : execLoop C (n + 1) { world := takeInitNode w1, q := [init] } with ⟨e, sE⟩ | sF
  · simp [hl, Res.error?] at hok
  obtain ⟨vis, hnd, hvis, han, hdeps, _, _, _, _⟩ :=
    PrepareDeps_spec C w init hinit (by rw [hp]; rfl)
  rw [hp] at han hdeps
  simp only [Res.state] at han hdeps
  have hg : (takeInitNode w1).graph = w.graph := han.graph
  have hstart := SchedInv.initial (takeInitNode w1) init vis (by rw [hg]; exact hvis)
    (by rw [hg]; exact hac) (by rw [hg]; exact hdeps)
  have hclosed : ∀ m ∈ vis, ∀ p, Edge (takeInitNode w1).graph m p → p ∈ vis := by
    intro m hm p he
    rw [hg] at he
    exact (hvis p).mpr (Relation.ReflTransGen.tail ((hvis m).mp hm) he)
  obtain ⟨l, hfin, hq⟩ := execLoop_inv C (SchedInv (takeInitNode w1) init vis)
    (fun done cur rest s s1 hq hJ h =>
      execNode_inv C (takeInitNode w1) init vis done cur rest s s1 hclosed hq hJ h)
    (n + 1) [] _ sF hstart hl
  exact ⟨w1, vis, [] ++ l, sF, rfl, han, hnd, hvis, hfin, hq, rfl⟩

theorem flatMap_split {α β : Type} (f : α → List β) :
    ∀ (L : List α) (A B : List β) (x : β), L.flatMap f = A ++ x :: B →
      ∃ d1 c d2, L = d1 ++ c :: d2 ∧ x ∈ f c ∧ ∀ y ∈ d1.flatMap f, y ∈ A := by
  intro L
  induction L with
  | nil => intro A B x h; simp at h
  | cons c L ih =>
    intro A B x h
    rw [List.flatMap_cons] at h
    rcases List.append_eq_append_iff.mp h with ⟨a1, hA, hL⟩ | ⟨c1, hc, hx⟩
    · obtain ⟨d1, c2, d2, hsplit, hx, hpre⟩ := ih a1 B x hL
      refine ⟨c :: d1, c2, d2, by rw [hsplit]; rfl, hx, ?_⟩
      intro y hy
      rw [List.flatMap_cons, List.mem_append] at hy
      rw [hA, List.mem_append]
      exact hy.imp id (hpre y)
    · cases c1 with
      | nil =>
        simp only [List.nil_append] at hx
        simp only [List.append_nil] at hc
        obtain ⟨d1, c2, d2, hsplit, hx2, hpre⟩ := ih [] B x (by rw [← hx]; rfl)
        refine ⟨c :: d1, c2, d2, by rw [hsplit]; rfl, hx2, ?_⟩
        intro y hy
        rw [List.flatMap_cons, List.mem_append] at hy
        rcases hy with hy | hy
        · rw [← hc]; exact hy
        · exact absurd (hpre y hy) (List.not_mem_nil y)
      | cons x1 b =>
        simp only [List.cons_append, List.cons.injEq] at hx
        refine ⟨[], c, L, rfl, ?_, ?_⟩
        · rw [hc, hx.1]; simp
        · intro y hy; simp at hy

theorem opsOf_node {n : Nat} (g : Fin n → GradOpNode n) (m : Fin n) (x : Fin n × Nat × OpBase)
    (h : x ∈ opsOf g m) : x.1 = m := by
  unfold opsOf at h
  obtain ⟨i, _, hi⟩ := List.mem_filterMap.mp h
  cases hg : (g m).ops.get? i with
  | none => rw [hg] at hi; cases hi
  | some op =>
    rw [hg] at hi
    simp only [Option.map_some', Option.some.injEq] at hi
    rw [← hi]

theorem opsOf_all {n : Nat} (g : Fin n → GradOpNode n) (m : Fin n) (j : Nat)
    (h : j < (g m).ops.length) : ∃ op, (g m).ops.get? j = some op ∧ (m, j, op) ∈ opsOf g m := by
  refine ⟨(g m).ops.get ⟨j, h⟩, List.get?_eq_get h, ?_⟩
  unfold opsOf
  refine List.mem_filterMap.mpr ⟨j, List.mem_range.mpr h, ?_⟩
  rw [List.get?_eq_get h]
  rfl

theorem ranOps_of_full {n : Nat} (tr : List (Event n)) (x : Fin n × Nat × OpBase)
    (h : x ∈ ranOpsFull tr) : (x.1, x.2.1) ∈ ranOps tr := by
  unfold ranOpsFull at h
  unfold ranOps
  obtain ⟨e, he, hx⟩ := List.mem_filterMap.mp h
  refine List.mem_filterMap.mpr ⟨e, he, ?_⟩
  cases e <;> simp only [Event.ranOp] at hx <;> try cases hx
  rfl

/-- The events a successful `Execute` over an acyclic graph appends to the trace run the
operators of the popped nodes `done`, node by node. -/
theorem Execute_trace {n : Nat} (C : Collab) (w : World n) (init : Fin n)
    (hinit : w.engine.init_node = some init) (hac : Acyclic w.graph)
    (hok : (BasicEngine.Execute C w).error? = none) :
    ∃ (vis done : List (Fin n)) (evs : List (Event n)),
      (BasicEngine.Execute C w).state.trace = w.trace ++ evs ∧
      (∀ m, m ∈ vis ↔ Reachable w.graph init m) ∧
      ranOpsFull evs = done.flatMap (opsOf w.graph) ∧ done.Nodup ∧ (∀ m ∈ done, m ∈ vis) ∧
      (∀ d1 p d2, done = d1 ++ p :: d2 → ∀ m ∈ vis, Edge w.graph m p → m ∈ d1) ∧
      (w.engine.retain_graph = true → ∀ e ∈ evs, e.isClear = false) := by
  obtain ⟨w1, vis, done, sF, hp, han, hnd, hvis, hinv, hq, hex⟩ :=
    Execute_sched C w init hinit hac hok
  have hg : (takeInitNode w1).graph = w.graph := han.graph
  have htr : (takeInitNode w1).trace = w.trace := han.trace
  have hrg : (takeInitNode w1).engine.retain_graph = w.engine.retain_graph := han.retain_graph
  obtain ⟨evs, hevs, hclear⟩ := hinv.frame.trace
  rw [htr] at hevs
  rw [hrg] at hclear
  refine ⟨vis, done, evs, ?_, hvis, ?_, ?_, ?_, ?_, hclear⟩
  · rw [hex]
    exact hevs
  · have := hinv.ran
    rw [hevs, htr, hg] at this
    unfold ranOpsFull at this ⊢
    rw [List.filterMap_append] at this
    exact List.append_cancel_left this
  · have := hinv.nodup
    rw [hq, List.append_nil] at this
    exact this
  · intro m hm
    exact hinv.sub m (List.mem_append_left _ hm)
  · have := hinv.topo
    rw [hg] at this
    exact this

/-- C1. Topological order: when `Execute` completes without error over an acyclic reverse
graph, then in the events it appends to the trace, whenever an operator of a node `p` is
run, every operator of every node `m` reachable from `init_node_` that has `p` among its
pending nodes has been run before. -/
theorem execute_topological_order {n : Nat} (C : Collab) (w : World n) (init : Fin n)
    (hinit : w.engine.init_node = some init) (hac : Acyclic w.graph)
    (hok : (BasicEngine.Execute C w).error? = none) :
    ∃ evs, (BasicEngine.Execute C w).state.trace = w.trace ++ evs ∧
      ∀ pre e post p k, evs = pre ++ e :: post → e.ran = some (p, k) →
        ∀ m, Reachable w.graph init m → some p ∈ (w.graph m).grad_pending_nodes →
          ∀ j, j < (w.graph m).ops.length → (m, j) ∈ ranOps pre := by
  obtain ⟨vis, done, evs, hevs, hvis, hran, _, _, htopo, _⟩ :=
    Execute_trace C w init hinit hac hok
  refine ⟨evs, hevs, ?_⟩
  intro pre e post p k hsplit he m hm hedge j hj
  obtain ⟨op, hop⟩ : ∃ op, e.ranOp = some (p, k, op) := by
    cases e <;> simp only [Event.ran] at he <;> try cases he
    exact ⟨_, rfl⟩
  have h1 : done.flatMap (opsOf w.graph)
      = ranOpsFull pre ++ (p, k, op) :: ranOpsFull post := by
    rw [← hran, hsplit]
    unfold ranOpsFull
    rw [List.filterMap_append, List.filterMap_cons, hop]
  obtain ⟨d1, c, d2, hd, hx, hpre⟩ := flatMap_split _ _ _ _ _ h1
  have hc : p = c := opsOf_node w.graph c _ hx
  subst hc
  have hm1 : m ∈ d1 := htopo d1 p d2 hd m ((hvis m).mpr hm) hedge
  obtain ⟨opj, _, hmem⟩ := opsOf_all w.graph m j hj
  have := hpre (m, j, opj) (List.mem_flatMap.mpr ⟨m, hm1, hmem⟩)
  exact ranOps_of_full pre _ this

theorem exGraph_acyclic : Acyclic exGraph :=
  acyclic_of_rank exGraph (fun m => m.val) (by decide)

/-- Witness of C1: the example `z = x + y`, `y = 2x`, whose two nodes run in order. -/
theorem execute_topological_order_witness :
    ∃ evs, (BasicEngine.Execute exCollab exReady).state.trace = exReady.trace ++ evs ∧
      ∀ pre e post p k, evs = pre ++ e :: post → e.ran = some (p, k) →
        ∀ m, Reachable exReady.graph 0 m → some p ∈ (exReady.graph m).grad_pending_nodes →
          ∀ j, j < (exReady.graph m).ops.length → (m, j) ∈ ranOps pre :=
  execute_topological_order exCollab exReady 0 (by decide) exGraph_acyclic (by decide!)

/-! ## Retention and the clearing of backward traces -/

theorem clearedNext_quiet {n : Nat} (node : Fin n) (idx : Nat) (evs rest : List (Event n))
    (h : ∀ e ∈ evs, e.isQuiet = true) :
    clearedNext node idx (evs ++ rest) = clearedNext node idx rest := by
  induction evs with
  | nil => rfl
  | cons e evs ih =>
    have he := h e (List.mem_cons_self _ _)
    have ih := ih (fun x hx => h x (List.mem_cons_of_mem _ hx))
    cases e <;> simp only [Event.isQuiet] at he <;> try cases he
    all_goals simpa [clearedNext] using ih

theorem clearedAfterRun_quiet {n : Nat} (evs rest : List (Event n))
    (h : ∀ e ∈ evs, e.isQuiet = true) :
    clearedAfterRun (evs ++ rest) = clearedAfterRun rest := by
  induction evs with
  | nil => rfl
  | cons e evs ih =>
    have he := h e (List.mem_cons_self _ _)
    have ih := ih (fun x hx => h x (List.mem_cons_of_mem _ hx))
    cases e <;> simp only [Event.isQuiet] at he <;> try cases he
    all_goals simpa [clearedAfterRun] using ih

theorem clearedNext_append {n : Nat} (node : Fin n) (idx : Nat) (a b : List (Event n))
    (h : clearedNext node idx a = true) : clearedNext node idx (a ++ b) = true := by
  induction a with
  | nil => simp [clearedNext] at h
  | cons e a ih =>
    cases e <;> simp only [clearedNext, List.cons_append] at h ⊢ <;>
      first | exact h | exact ih h

theorem clearedAfterRun_append {n : Nat} (a b : List (Event n))
    (ha : clearedAfterRun a = true) (hb : clearedAfterRun b = true) :
    clearedAfterRun (a ++ b) = true := by
  induction a with
  | nil => exact hb
  | cons e a ih =>
    cases e
    case run_op node idx op ins outs =>
      simp only [clearedAfterRun, List.cons_append, Bool.and_eq_true] at ha ⊢
      exact ⟨clearedNext_append node idx a b ha.1, ih ha.2⟩
    all_goals
      simp only [clearedAfterRun, List.cons_append] at ha ⊢
      exact ih ha

theorem Cleared.nothing {n : Nat} (w : World n) : Cleared w w := ⟨[], by simp, rfl⟩

theorem Cleared.more {n : Nat} {w w1 w2 : World n} (h1 : Cleared w w1) (h2 : Cleared w1 w2) :
    Cleared w w2 := by
  obtain ⟨e1, he1, hc1⟩ := h1
  obtain ⟨e2, he2, hc2⟩ := h2
  exact ⟨e1 ++ e2, by rw [he2, he1, List.append_assoc], clearedAfterRun_append e1 e2 hc1 hc2⟩

/-- The events logged after the kernel call of an operator: quiet ones, and last the
clearing of the backward trace of the operator when the graph is not retained. -/
theorem afterRun_trace {n : Nat} (C : Collab) (cur_node : Fin n) (idx : Nat) (cur_op : OpBase)
    (w : World n) :
    ∃ evs, (∀ e ∈ evs, e.isQuiet = true) ∧
      (afterRun C cur_node idx cur_op w).trace
        = w.trace ++ evs ++
          (if w.engine.retain_graph then [] else [Event.clear_backward_trace cur_node idx]) := by
  have quiet : ∀ (w0 : World n), ∀ s : World n,
      (s.engine.retain_graph = w0.engine.retain_graph ∧
        ∃ evs, (∀ e ∈ evs, e.isQuiet = true) ∧ s.trace = w0.trace ++ evs) →
      ∀ (f : Store → Store) (g : BasicEngine n) (e : Event n), e.isQuiet = true →
        g.retain_graph = s.engine.retain_graph →
        (({ s with store := f s.store, engine := g, trace := s.trace ++ [e] } : World n).engine.retain_graph
            = w0.engine.retain_graph ∧
          ∃ evs, (∀ x ∈ evs, x.isQuiet = true) ∧
            ({ s with store := f s.store, engine := g, trace := s.trace ++ [e] } : World n).trace
              = w0.trace ++ evs) := by
    intro w0 s hs f g e he hg
    obtain ⟨hr, evs, hq, ht⟩ := hs
    refine ⟨hg.trans hr, evs ++ [e], ?_, ?_⟩
    · intro x hx
      rcases List.mem_append.mp hx with h | h
      · exact hq x h
      · rw [List.mem_singleton] at h; rw [h]; exact he
    · show s.trace ++ [e] = _
      rw [ht, List.append_assoc]
  have hmod : ∀ (e : BasicEngine n) (r : AccRef n) (f : GradientAccumulator → GradientAccumulator),
      (e.modifyAcc r f).retain_graph = e.retain_graph := by
    intro e r f
    cases r <;> rfl
  have h1 : (moveInplace C w).engine.retain_graph = w.engine.retain_graph ∧
      ∃ evs, (∀ e ∈ evs, e.isQuiet = true) ∧ (moveInplace C w).trace = w.trace ++ evs := by
    unfold moveInplace
    refine foldl_inv _ (fun s => s.engine.retain_graph = w.engine.retain_graph ∧
      ∃ evs, (∀ e ∈ evs, e.isQuiet = true) ∧ s.trace = w.trace ++ evs) ?_ _ w
      ⟨rfl, [], by simp, by simp⟩
    intro s pair hs
    exact quiet w s hs (C.move_var pair.1 pair.2) s.engine _ rfl rfl
  have h2 : (sumGrads C cur_op (moveInplace C w)).engine.retain_graph = w.engine.retain_graph ∧
      ∃ evs, (∀ e ∈ evs, e.isQuiet = true) ∧
        (sumGrads C cur_op (moveInplace C w)).trace = w.trace ++ evs := by
    unfold sumGrads
    refine foldl_inv _ (fun (s : World n) => s.engine.retain_graph = w.engine.retain_graph ∧
      ∃ evs, (∀ e ∈ evs, e.isQuiet = true) ∧ s.trace = w.trace ++ evs) ?_ _ _ h1
    intro s pair hs
    cases hacc : s.engine.acc? pair.1 with
    | none => exact hs
    | some acc =>
      exact quiet w s hs (C.sum_grad acc pair.2 cur_op.id) _ _ rfl (hmod _ _ _)
  have h3 : (accumulateLeaves C (sumGrads C cur_op (moveInplace C w))).engine.retain_graph
        = w.engine.retain_graph ∧
      ∃ evs, (∀ e ∈ evs, e.isQuiet = true) ∧
        (accumulateLeaves C (sumGrads C cur_op (moveInplace C w))).trace = w.trace ++ evs := by
    unfold accumulateLeaves
    refine foldl_inv _ (fun (s : World n) => s.engine.retain_graph = w.engine.retain_graph ∧
      ∃ evs, (∀ e ∈ evs, e.isQuiet = true) ∧ s.trace = w.trace ++ evs) ?_ _ _ h2
    intro s ref hs
    cases hacc : s.engine.acc? ref with
    | none => exact hs
    | some acc =>
      dsimp only
      by_cases hc : C.sum_grad_completed acc = true
      · have hs1 := quiet w s hs (C.accumulate_grad acc) s.engine (.accumulate_grad ref) rfl rfl
        by_cases hp : acc.post_hooks.isSome = true
        · simp only [hc, hp, Bool.not_true, Bool.false_eq_true, if_false, if_true]
          exact quiet w _ hs1 (C.call_backward_post_hooks acc) s.engine
            (.call_backward_post_hooks ref) rfl rfl
        · simp only [hc, hp, Bool.not_true, Bool.false_eq_true, if_false]
          exact hs1
      · simp only [hc, Bool.not_false, if_true]
        exact hs
  obtain ⟨hr, evs, hq, ht⟩ := h3
  refine ⟨evs, hq, ?_⟩
  unfold afterRun
  dsimp only
  rw [hr]
  cases hrg : w.engine.retain_graph with
  | true =>
    simp only [Bool.not_true, Bool.false_eq_true, if_false, if_true, List.append_nil]
    exact ht
  | false =>
    simp only [Bool.not_false, if_true, Bool.false_eq_true, if_false, clearBackwardTrace]
    rw [ht]

theorem clearedAfterRun_of_quiet {n : Nat} (evs : List (Event n))
    (h : ∀ e ∈ evs, e.isQuiet = true) : clearedAfterRun evs = true := by
  have := clearedAfterRun_quiet evs [] h
  rw [List.append_nil] at this
  rw [this]
  rfl

/-- Without retention, every outcome of `runOp` leaves no operator uncleared: when the kernel
has been called, the backward trace of the operator is cleared before `runOp` returns. -/
theorem runOp_cleared {n : Nat} (C : Collab) (cur_node : Fin n) (idx : Nat)
    (cur_op : OpBase) (w : World n) (hrg : w.engine.retain_graph = false) :
    Cleared w (runOp C cur_node idx cur_op w).state := by
  have hc := CheckBackwardInputs_frame cur_op w
  have hr := remapOuts_frame C cur_node cur_op.ins cur_op.outs
    (BasicEngine.CheckBackwardInputs cur_op w)
  obtain ⟨e1, he1, hq1⟩ := hc.trace
  have hq1 : ∀ e ∈ e1, e.isQuiet = true := by
    intro e he
    obtain ⟨v, x, hx⟩ := hq1 e he
    rw [hx]; rfl
  rcases hrm : remapOuts C cur_node cur_op.ins cur_op.outs
      (BasicEngine.CheckBackwardInputs cur_op w) with ⟨e, w1⟩ | ⟨w2, tmp_outs⟩
  · rw [hrm] at hr
    simp only [runOp, hrm]
    exact ⟨e1, by rw [← he1]; exact hr.trace, clearedAfterRun_of_quiet e1 hq1⟩
  · rw [hrm] at hr
    simp only [endWorld] at hr
    have h2 : Cleared w w2 :=
      ⟨e1, by rw [← he1]; exact hr.trace, clearedAfterRun_of_quiet e1 hq1⟩
    have hrg2 : w2.engine.retain_graph = false := by
      rw [hr.retain_graph, hc.engine]; exact hrg
    simp only [runOp, hrm]
    have hcv := checkVersions_state cur_op w2
    rcases hv : checkVersions cur_op w2 with ⟨e, w3⟩ | w3
    · rw [hv] at hcv
      simp only [Res.state] at hcv
      subst hcv
      exact h2
    · rw [hv] at hcv
      simp only [Res.state] at hcv
      subst hcv
      simp only
      split
      · exact h2
      · rename_i store hrun
        obtain ⟨e2, hq2, ht2⟩ := afterRun_trace C cur_node idx cur_op
          ({ w3 with store := store, trace := w3.trace ++
            [.run_op cur_node idx cur_op cur_op.ins tmp_outs] } : World n)
        have hrg3 : ({ w3 with store := store, trace := w3.trace ++
            [.run_op cur_node idx cur_op cur_op.ins tmp_outs] } : World n).engine.retain_graph
              = false := hrg2
        rw [hrg3] at ht2
        simp only [Bool.false_eq_true, if_false] at ht2
        refine ⟨e1 ++ (Event.run_op cur_node idx cur_op cur_op.ins tmp_outs ::
          (e2 ++ [Event.clear_backward_trace cur_node idx])), ?_, ?_⟩
        · simp only [Res.state]
          rw [ht2]
          show ((w3.trace ++ _) ++ e2) ++ _ = _
          rw [hr.trace, he1]
          simp
        · rw [clearedAfterRun_quiet e1 _ hq1]
          simp only [clearedAfterRun, Bool.and_eq_true]
          constructor
          · rw [clearedNext_quiet cur_node idx e2 _ hq2]
            simp [clearedNext]
          · rw [clearedAfterRun_quiet e2 _ hq2]
            rfl

theorem runOps_cleared {n : Nat} (C : Collab) (cur_node : Fin n) (w0 w : World n)
    (h : w.engine.retain_graph = false ∧ Cleared w0 w) :
    (runOps C cur_node w).state.engine.retain_graph = false ∧
      Cleared w0 (runOps C cur_node w).state := by
  unfold runOps
  refine forEach_state_inv _
    (fun (s : World n) => s.engine.retain_graph = false ∧ Cleared w0 s) ?_ _ w h
  intro idx s hs
  cases hop : (s.graph cur_node).ops.get? idx with
  | none => exact hs
  | some op =>
    simp only
    have hst := runOp_stepped C cur_node (fun _ => True) idx op s trivial
    exact ⟨hst.retain_graph.trans hs.1, hs.2.more (runOp_cleared C cur_node idx op s hs.1)⟩

/-- A property of worlds kept by the loop over the operators of a node and by updates of
`node_deps_` holds in every outcome of the scheduling loop. -/
theorem execLoop_state_inv {n : Nat} (C : Collab) (P : World n → Prop)
    (hrun : ∀ cur w, P w → P (runOps C cur w).state)
    (hdeps : ∀ (w : World n) d, P w →
      P ({ w with engine := { w.engine with node_deps := d } } : World n)) :
    ∀ (fuel : Nat) (s : Sched n), P s.world → P (execLoop C fuel s).state.world := by
  have hcollect : ∀ e (s : Sched n), P s.world → P (collectReady e s).state.world := by
    intro e s hs
    cases e with
    | none => exact hs
    | some p =>
      simp only [collectReady]
      cases hf : find p s.world.engine.node_deps with
      | none => exact hs
      | some d =>
        simp only
        split
        · exact hdeps _ _ hs
        · exact hdeps _ _ hs
  have hnode : ∀ cur (s : Sched n), P s.world → P (execNode C cur s).state.world := by
    intro cur s hs
    unfold execNode
    have h1 := hrun cur s.world hs
    rcases hr : runOps C cur s.world with ⟨e, wE⟩ | wA
    · rw [hr] at h1
      simpa [Sched.lift, Res.state] using h1
    · rw [hr] at h1
      simp only [Sched.lift]
      exact forEach_state_inv collectReady (fun s => P s.world) hcollect _ _ h1
  intro fuel
  induction fuel with
  | zero =>
    intro s hs
    unfold execLoop
    rcases hq : s.q with _ | ⟨cur, rest⟩
    · exact hs
    · exact hs
  | succ fuel ih =>
    intro s hs
    unfold execLoop
    rcases hq : s.q with _ | ⟨cur, rest⟩
    · exact hs
    · simp only
      have h1 := hnode cur { s with q := rest } hs
      rcases hn : execNode C cur { s with q := rest } with ⟨e, sE⟩ | s2
      · rw [hn] at h1
        exact h1
      · rw [hn] at h1
        exact ih s2 h1

/-- Every outcome of `PrepareDeps` is within its frame. -/
theorem PrepareDeps_frame {n : Nat} (C : Collab) (w : World n) :
    Analysed w (BasicEngine.PrepareDeps C w).state := by
  have hdeps : ∀ (s : World n) d, Analysed w s →
      Analysed w ({ s with engine := { s.engine with node_deps := d } } : World n) := by
    intro s d hs
    exact ⟨hs.graph, hs.wrappers, hs.store, hs.trace, hs.init_node, hs.retain_graph,
      hs.need_accu, hs.inplace, hs.leaf_accumulators, hs.temps⟩
  have hscan : ∀ e (s : Sweep n), Analysed w s.world → Analysed w (scanPending e s).state.world := by
    intro e s hs
    cases e with
    | none => exact hs
    | some p =>
      simp only [scanPending]
      split
      · exact hdeps _ _ hs
      · exact hdeps _ _ hs
  have hnode : ∀ cur (s : Sweep n), Analysed w s.world →
      Analysed w (sweepNode C cur s).state.world := by
    intro cur s hs
    unfold sweepNode
    simp only
    have h1 := (prepareOps_spec C (s.world.graph cur).grad_pending_nodes
      (s.world.graph cur).ops s.world).1
    rcases hf : forEach (prepareOp C (s.world.graph cur).grad_pending_nodes)
        (s.world.graph cur).ops s.world with ⟨e, wE⟩ | wA
    · rw [hf] at h1
      simp only [Sweep.lift]
      exact hs.extend h1.analysed
    · rw [hf] at h1
      simp only [Sweep.lift]
      exact forEach_state_inv scanPending (fun s => Analysed w s.world) hscan _ _
        (hs.extend h1.analysed)
  have hloop : ∀ (fuel : Nat) (s : Sweep n), Analysed w s.world →
      Analysed w (sweepLoop C fuel s).state.world := by
    intro fuel
    induction fuel with
    | zero =>
      intro s hs
      unfold sweepLoop
      rcases hq : s.q with _ | ⟨cur, rest⟩
      · exact hs
      · exact hs
    | succ fuel ih =>
      intro s hs
      unfold sweepLoop
      rcases hq : s.q with _ | ⟨cur, rest⟩
      · exact hs
      · simp only
        have h1 := hnode cur { s with q := rest } hs
        rcases hn : sweepNode C cur { s with q := rest } with ⟨e, sE⟩ | s2
        · rw [hn] at h1
          exact h1
        · rw [hn] at h1
          exact ih s2 h1
  unfold BasicEngine.PrepareDeps
  split
  · exact Analysed.start w
  split
  · exact Analysed.start w
  split
  · exact Analysed.start w
  · rename_i init hinit
    have := hloop n { world := w, q := [init], visited := [init] } (Analysed.start w)
    rcases hl : sweepLoop C n { world := w, q := [init], visited := [init] } with ⟨e, sE⟩ | sF
    · rw [hl] at this; exact this
    · rw [hl] at this; exact this

/-- Every outcome of `Execute`: with retention the graph is left as it was and no backward
trace is cleared; without, every operator that was run has been cleared right after. -/
theorem Execute_frame {n : Nat} (C : Collab) (w : World n) :
    ∃ evs, (BasicEngine.Execute C w).state.trace = w.trace ++ evs ∧
      (w.engine.retain_graph = true →
        (BasicEngine.Execute C w).state.graph = w.graph ∧ ∀ e ∈ evs, e.isClear = false) ∧
      (w.engine.retain_graph = false → clearedAfterRun evs = true) := by
  have hnone : ∃ evs, w.trace = w.trace ++ evs ∧
      (w.engine.retain_graph = true → w.graph = w.graph ∧ ∀ e ∈ evs, e.isClear = false) ∧
      (w.engine.retain_graph = false → clearedAfterRun evs = true) :=
    ⟨[], by simp, fun _ => ⟨rfl, fun _ h => by cases h⟩, fun _ => rfl⟩
  unfold BasicEngine.Execute
  cases hinit : w.engine.init_node with
  | none => exact hnone
  | some init =>
    simp only
    have han := PrepareDeps_frame C w
    rcases hp : BasicEngine.PrepareDeps C w with ⟨e, wE⟩ | w1
    · rw [hp] at han
      simp only [Res.state] at han ⊢
      rw [han.trace, han.graph]
      exact hnone
    · rw [hp] at han
      simp only [Res.state] at han
      have hloop := execLoop_state_inv C
        (fun s => Driven (takeInitNode w1) s ∧
          ((takeInitNode w1).engine.retain_graph = false → Cleared (takeInitNode w1) s))
        (by
          intro cur s hs
          have hst := runOps_stepped C cur s
          refine ⟨hst.driven hs.1, fun hr => ?_⟩
          exact (runOps_cleared C cur (takeInitNode w1) s
            ⟨hs.1.retain_graph.trans hr, hs.2 hr⟩).2)
        (by
          intro s d hs
          exact ⟨hs.1.node_deps d, hs.2⟩)
        (n + 1) { world := takeInitNode w1, q := [init] }
        ⟨Driven.begin _, fun _ => Cleared.nothing _⟩
      have hfin : ∀ wF : World n, (Driven (takeInitNode w1) wF ∧
          ((takeInitNode w1).engine.retain_graph = false → Cleared (takeInitNode w1) wF)) →
          ∃ evs, wF.trace = w.trace ++ evs ∧
            (w.engine.retain_graph = true → wF.graph = w.graph ∧ ∀ e ∈ evs, e.isClear = false) ∧
            (w.engine.retain_graph = false → clearedAfterRun evs = true) := by
        intro wF hF
        have htr : (takeInitNode w1).trace = w.trace := han.trace
        have hrg : (takeInitNode w1).engine.retain_graph = w.engine.retain_graph :=
          han.retain_graph
        have hg : (takeInitNode w1).graph = w.graph := han.graph
        obtain ⟨evs, hevs, hcl⟩ := hF.1.trace
        refine ⟨evs, by rw [hevs, htr], fun hr => ⟨?_, hcl (hrg.trans hr)⟩, fun hr => ?_⟩
        · rw [hF.1.retained (hrg.trans hr), hg]
        · obtain ⟨evs2, hevs2, hc2⟩ := hF.2 (hrg.trans hr)
          rw [hevs] at hevs2
          rw [List.append_cancel_left hevs2]
          exact hc2
      rcases hl : execLoop C (n + 1) { world := takeInitNode w1, q := [init] }
        with ⟨e, sE⟩ | sF
      · rw [hl] at hloop
        simp only [hl, Res.state]
        exact hfin sE.world hloop
      · rw [hl] at hloop
        simp only [hl, Res.state]
        exact hfin sF.world hloop

theorem Execute_ok_split {n : Nat} (C : Collab) (w : World n) (init : Fin n)
    (hinit : w.engine.init_node = some init)
    (hok : (BasicEngine.Execute C w).error? = none) :
    ∃ (w1 : World n) (sF : Sched n),
      BasicEngine.PrepareDeps C w = .ok w1 ∧
      execLoop C (n + 1) { world := takeInitNode w1, q := [init] } = .ok sF ∧
      BasicEngine.Execute C w = .ok (BasicEngine.Clear sF.world) := by
  unfold BasicEngine.Execute at hok ⊢
  simp only [hinit] at hok ⊢
  rcases hp : BasicEngine.PrepareDeps C w with ⟨e, wE⟩ | w1
  · simp [hp, Res.error?] at hok
  simp only [hp] at hok ⊢
  rcases hl : execLoop C (n + 1) { world := takeInitNode w1, q := [init] } with ⟨e, sE⟩ | sF
  · simp [hl, Res.error?] at hok
  exact ⟨w1, sF, rfl, hl, rfl⟩

theorem collectReady_world {n : Nat} (e : Option (Fin n)) (s s1 : Sched n)
    (h : collectReady e s = .ok s1) :
    ∃ d, s1.world = ({ s.world with engine := { s.world.engine with node_deps := d } } : World n) := by
  cases e with
  | none => simp [collectReady] at h
  | some p =>
    simp only [collectReady] at h
    cases hf : find p s.world.engine.node_deps with
    | none =>
      rw [hf] at h
      simp only [Except.ok.injEq] at h
      subst h
      exact ⟨s.world.engine.node_deps, rfl⟩
    | some d =>
      rw [hf] at h
      dsimp only at h
      by_cases hz : d - 1 = 0
      · rw [if_pos hz] at h
        simp only [Except.ok.injEq] at h
        subst h
        exact ⟨_, rfl⟩
      · rw [if_neg hz] at h
        simp only [Except.ok.injEq] at h
        subst h
        exact ⟨_, rfl⟩

theorem execNode_ret {n : Nat} (C : Collab) (w0 : World n) (done : List (Fin n)) (cur : Fin n)
    (rest : List (Fin n)) (s s1 : Sched n) (hinv : RetInv w0 done s)
    (h : execNode C cur { s with q := rest } = .ok s1) :
    RetInv w0 (done ++ [cur]) s1 := by
  unfold execNode at h
  have hst := runOps_stepped C cur s.world
  rcases hr : runOps C cur s.world with ⟨e, wE⟩ | wA
  · simp [hr, Sched.lift] at h
  rw [hr] at hst
  have hst : Stepped cur (fun _ => True) s.world wA := hst
  have hran := runOps_ok C cur s.world wA hr
  simp only [hr, Sched.lift] at h
  have hA : RetInv w0 (done ++ [cur]) ({ world := wA, q := rest } : Sched n) := by
    refine ⟨hst.driven hinv.frame, hinv.retain, ?_⟩
    show ranOpsFull wA.trace = _
    rw [hran, hinv.ran, hinv.frame.retained hinv.retain, List.flatMap_append,
      List.append_assoc]
    simp
  refine forEach_ok_inv collectReady (fun s2 => RetInv w0 (done ++ [cur]) s2) _ ?_ _ s1 hA h
  intro a _ s2 s3 hs2 hb
  obtain ⟨d, hd⟩ := collectReady_world a s2 s3 hb
  refine ⟨?_, hs2.retain, ?_⟩
  · rw [hd]
    exact hs2.frame.node_deps d
  · rw [hd]
    exact hs2.ran

theorem pendingCount_perm {n : Nat} (g : Fin n → GradOpNode n) (l1 l2 : List (Fin n))
    (h1 : l1.Nodup) (h2 : l2.Nodup) (h : ∀ m, m ∈ l1 ↔ m ∈ l2) (p : Fin n) :
    pendingCount g l1 p = pendingCount g l2 p := by
  unfold pendingCount
  exact (((List.perm_ext_iff_of_nodup h1 h2).mpr h).map _).sum_eq

theorem ranOpsFull_cancel {n : Nat} (t0 t1 evs : List (Event n))
    (X : List (Fin n × Nat × OpBase)) (ht : t1 = t0 ++ evs)
    (h : ranOpsFull t1 = ranOpsFull t0 ++ X) : ranOpsFull evs = X := by
  rw [ht] at h
  unfold ranOpsFull at h ⊢
  rw [List.filterMap_append] at h
  exact List.append_cancel_left h

/-- Two successful runs of `Execute` from the same initial node over the same graph, the
first with retention, run the same operators in the same order. -/
theorem Execute_same_ops {n : Nat} (C : Collab) (w w2 : World n) (init : Fin n)
    (hinit : w.engine.init_node = some init) (hinit2 : w2.engine.init_node = some init)
    (hg : w2.graph = w.graph) (hr : w.engine.retain_graph = true)
    (hdis : w2.engine.retain_graph = true ∨ Acyclic w.graph)
    (hok : (BasicEngine.Execute C w).error? = none)
    (hok2 : (BasicEngine.Execute C w2).error? = none) :
    ∃ evs evs2, (BasicEngine.Execute C w).state.trace = w.trace ++ evs ∧
      (BasicEngine.Execute C w2).state.trace = w2.trace ++ evs2 ∧
      ranOpsFull evs2 = ranOpsFull evs := by
  obtain ⟨w1, sF, hp, hl, hex⟩ := Execute_ok_split C w init hinit hok
  obtain ⟨v1, tF, hp2, hl2, hex2⟩ := Execute_ok_split C w2 init hinit2 hok2
  obtain ⟨vis, hnd, hvis, han, hdeps, _, _, _, _⟩ :=
    PrepareDeps_spec C w init hinit (by rw [hp]; rfl)
  obtain ⟨vis2, hnd2, hvis2, han2, hdeps2, _, _, _, _⟩ :=
    PrepareDeps_spec C w2 init hinit2 (by rw [hp2]; rfl)
  rw [hp] at han hdeps
  rw [hp2] at han2 hdeps2
  simp only [Res.state] at han hdeps han2 hdeps2
  have hg1 : (takeInitNode w1).graph = w.graph := han.graph
  have hg2 : (takeInitNode v1).graph = w.graph := han2.graph.trans hg
  have hsame : ∀ m, m ∈ vis ↔ m ∈ vis2 := by
    intro m
    rw [hvis m, hvis2 m, hg]
  have hsim : Sim ({ world := takeInitNode w1, q := [init] } : Sched n)
      ({ world := takeInitNode v1, q := [init] } : Sched n) := by
    refine ⟨rfl, ?_, ?_⟩
    · intro p
      show find p w1.engine.node_deps = find p v1.engine.node_deps
      rw [hdeps p, hdeps2 p, hg, pendingCount_perm w.graph vis vis2 hnd hnd2 hsame p]
    · intro m
      show ((takeInitNode w1).graph m).grad_pending_nodes
        = ((takeInitNode v1).graph m).grad_pending_nodes
      rw [hg1, hg2]
  have hJ0 : RetInv (takeInitNode w1) [] ({ world := takeInitNode w1, q := [init] } : Sched n) :=
    ⟨Driven.begin _, han.retain_graph.trans hr, by simp⟩
  have hclosed : ∀ m ∈ vis2, ∀ p, Edge (takeInitNode v1).graph m p → p ∈ vis2 := by
    intro m hm p he
    rw [hg2, ← hg] at he
    exact (hvis2 p).mpr (Relation.ReflTransGen.tail ((hvis2 m).mp hm) he)
  have hK0 : RetInv (takeInitNode v1) [] ({ world := takeInitNode v1, q := [init] } : Sched n) ∨
      SchedInv (takeInitNode v1) init vis2 [] ({ world := takeInitNode v1, q := [init] } : Sched n) := by
    rcases hdis with h | h
    · exact Or.inl ⟨Driven.begin _, han2.retain_graph.trans h, by simp⟩
    · refine Or.inr (SchedInv.initial (takeInitNode v1) init vis2 ?_ ?_ ?_)
      · rw [hg2, ← hg]; exact hvis2
      · rw [hg2]; exact h
      · rw [hg2, ← hg]; exact hdeps2
  obtain ⟨l, hJ, hK⟩ := execLoop_lockstep C (RetInv (takeInitNode w1))
    (fun done t => RetInv (takeInitNode v1) done t ∨ SchedInv (takeInitNode v1) init vis2 done t)
    (fun done cur rest s s1 _ hinv h => execNode_ret C _ done cur rest s s1 hinv h)
    (fun done cur rest s s1 hq hinv h => by
      rcases hinv with hinv | hinv
      · exact Or.inl (execNode_ret C _ done cur rest s s1 hinv h)
      · exact Or.inr (execNode_inv C _ init vis2 done cur rest s s1 hclosed hq hinv h))
    (n + 1) (n + 1) [] _ _ sF tF hsim hJ0 hK0 hl hl2
  obtain ⟨evs, hevs, _⟩ := hJ.frame.trace
  have hran2 : ranOpsFull tF.world.trace
      = ranOpsFull (takeInitNode v1).trace ++ ([] ++ l).flatMap (opsOf (takeInitNode v1).graph) := by
    rcases hK with h | h
    · exact h.ran
    · exact h.ran
  have hfr2 : Driven (takeInitNode v1) tF.world := by
    rcases hK with h | h
    · exact h.frame
    · exact h.frame
  obtain ⟨evs2, hevs2, _⟩ := hfr2.trace
  have htr1 : (takeInitNode w1).trace = w.trace := han.trace
  have htr2 : (takeInitNode v1).trace = w2.trace := han2.trace
  refine ⟨evs, evs2, ?_, ?_, ?_⟩
  · rw [hex]
    show sF.world.trace = _
    rw [hevs, htr1]
  · rw [hex2]
    show tF.world.trace = _
    rw [hevs2, htr2]
  · rw [ranOpsFull_cancel _ _ evs2 _ hevs2 hran2, ranOpsFull_cancel _ _ evs _ hevs hJ.ran,
      hg1, hg2]

theorem withSeed_seed {n : Nat} (var : VarBase n) (r : Res (World n)) :
    (withSeed var r).state.2 = var := by
  rcases r with ⟨e, w⟩ | w <;> rfl

theorem withSeed_world {n : Nat} (var : VarBase n) (r : Res (World n)) :
    (withSeed var r).state.1 = r.state := by
  rcases r with ⟨e, w⟩ | w <;> rfl

theorem seedGradient_spec {n : Nat} (a b : VarId) (u : World n) :
    (seedGradient a b u).state.engine = u.engine ∧
    (seedGradient a b u).error? ≠ some .AlreadyConsumed := by
  unfold seedGradient
  rcases h1 : (u.store (.graphVar a)).holder with _ | (fwd | tag)
  · exact ⟨rfl, by simp [Res.error?]⟩
  · dsimp only
    rcases h2 : (u.store (.graphVar b)).holder with _ | (t | tag2) <;>
      rcases h3 : fwd.holder with _ | al <;>
      exact ⟨rfl, by simp [Res.error?]⟩
  · exact ⟨rfl, by simp [Res.error?]⟩

theorem Init_retain_seed {n : Nat} (w : World n) (wrapper : VarId) (g : GradVarBase n) :
    (BasicEngine.Init w ⟨wrapper, some g⟩ true).state.2 = ⟨wrapper, some g⟩ := by
  simp only [BasicEngine.Init]
  split
  · rfl
  · simp only [if_true]
    split
    · rfl
    · exact withSeed_seed _ _

/-- C6. Retention.  `Init` with `retain_graph = true` stores the flag in the engine and leaves
the seed as it was, its `graph_is_freed` flag and its producer node included, so a further
`Init` on the seed of a graph that was not freed does not fail with `AlreadyConsumed`.
`Execute` with the flag set, whatever its outcome, leaves the graph as it was and clears
the backward trace of no operator; a second successful `Execute` from the same initial node
over that graph (itself with retention, or over an acyclic graph) runs the same operators
in the same order, each with the input and output maps it was recorded with.  With the
flag unset, in every outcome of `Execute`, every operator that was run has its backward
trace cleared before any other operator is run. -/
theorem retain_graph_retention {n : Nat} (C : Collab) (wrapper : VarId) (g : GradVarBase n) :
    (∀ w : World n,
      (BasicEngine.Init w ⟨wrapper, some g⟩ true).state.2 = ⟨wrapper, some g⟩ ∧
      (BasicEngine.Init w ⟨wrapper, some g⟩ true).state.1.engine.retain_graph = true) ∧
    (g.graph_is_freed = false → ∀ (w w1 : World n) (r : Bool),
      (BasicEngine.Init w1 (BasicEngine.Init w ⟨wrapper, some g⟩ true).state.2 r).error?
        ≠ some .AlreadyConsumed) ∧
    (∀ w : World n, w.engine.retain_graph = true →
      (BasicEngine.Execute C w).state.graph = w.graph ∧
      ∃ evs, (BasicEngine.Execute C w).state.trace = w.trace ++ evs ∧
        ∀ e ∈ evs, e.isClear = false) ∧
    (∀ (w w2 : World n) (init : Fin n), w.engine.retain_graph = true →
      w.engine.init_node = some init → w2.engine.init_node = some init →
      w2.graph = (BasicEngine.Execute C w).state.graph →
      (w2.engine.retain_graph = true ∨ Acyclic w.graph) →
      (BasicEngine.Execute C w).error? = none → (BasicEngine.Execute C w2).error? = none →
      ∃ evs evs2, (BasicEngine.Execute C w).state.trace = w.trace ++ evs ∧
        (BasicEngine.Execute C w2).state.trace = w2.trace ++ evs2 ∧
        ranOpsFull evs2 = ranOpsFull evs) ∧
    (∀ w : World n, w.engine.retain_graph = false →
      ∃ evs, (BasicEngine.Execute C w).state.trace = w.trace ++ evs ∧
        clearedAfterRun evs = true) := by
  refine ⟨fun w => ⟨Init_retain_seed w wrapper g, ?_⟩, ?_, ?_, ?_, ?_⟩
  · simp only [BasicEngine.Init]
    split
    · rfl
    · simp only [if_true]
      split
      · rfl
      · rw [withSeed_world]
        rw [(seedGradient_spec _ _ _).1]
  · intro hg w w1 r
    rw [Init_retain_seed]
    simp only [BasicEngine.Init, hg, Bool.false_eq_true, if_false]
    split
    · simp [Res.error?]
    · intro h
      have hs := (seedGradient_spec wrapper g.wrapper
        ({ w1 with engine := { w1.engine with retain_graph := r, init_node := g.grad_node } }
          : World n)).2
      revert h hs
      generalize seedGradient _ _ _ = res
      intro h hs
      rcases res with ⟨e, u⟩ | u
      · simp only [withSeed, Res.error?, Option.some.injEq, ne_eq] at h hs
        exact hs h
      · simp [withSeed, Res.error?] at h
  · intro w hr
    obtain ⟨evs, hevs, h1, _⟩ := Execute_frame C w
    exact ⟨(h1 hr).1, evs, hevs, (h1 hr).2⟩
  · intro w w2 init hr hinit hinit2 hg hdis hok hok2
    obtain ⟨_, _, h1, _⟩ := Execute_frame C w
    exact Execute_same_ops C w w2 init hinit hinit2 (hg.trans (h1 hr).1) hr hdis hok hok2
  · intro w hr
    obtain ⟨evs, hevs, _, h2⟩ := Execute_frame C w
    exact ⟨evs, hevs, h2 hr⟩

/-- Witness of C6 on the example: a second `Init` after one with retention is not rejected,
the second pass runs the operators of the first, and a pass without retention clears every
operator it ran. -/
theorem retain_graph_retention_witness :
    (∀ (w w1 : World 2) (r : Bool),
      (BasicEngine.Init w1 (BasicEngine.Init w ⟨2, some ⟨12, some 0, false⟩⟩ true).state.2 r).error?
        ≠ some .AlreadyConsumed) ∧
    ((BasicEngine.Execute exCollab exReady).state.graph = exReady.graph ∧
      ∃ evs, (BasicEngine.Execute exCollab exReady).state.trace = exReady.trace ++ evs ∧
        ∀ e ∈ evs, e.isClear = false) ∧
    (∃ evs evs2, (BasicEngine.Execute exCollab exReady).state.trace = exReady.trace ++ evs ∧
      (BasicEngine.Execute exCollab exAgain).state.trace = exAgain.trace ++ evs2 ∧
      ranOpsFull evs2 = ranOpsFull evs) ∧
    (∃ evs, (BasicEngine.Execute exCollab exOnce).state.trace = exOnce.trace ++ evs ∧
      clearedAfterRun evs = true) :=
  ⟨(retain_graph_retention exCollab 2 ⟨12, some 0, false⟩).2.1 rfl,
    (retain_graph_retention exCollab 2 ⟨12, some 0, false⟩).2.2.1 exReady (by decide),
    (retain_graph_retention exCollab 2 ⟨12, some 0, false⟩).2.2.2.1 exReady exAgain 0
      (by decide) (by decide) (by decide!) rfl (Or.inr exGraph_acyclic) (by decide!)
      (by decide!),
    (retain_graph_retention exCollab 2 ⟨12, some 0, false⟩).2.2.2.2 exOnce (by decide)⟩

/-! ## Well-formedness of the accumulators built by the analysis -/

theorem acc?_set_leaf {n : Nat} (e : BasicEngine n) (v : VarId) (a : GradientAccumulator)
    (ref : AccRef n) :
    BasicEngine.acc?
        { e with leaf_basic_accumulators := upsert v (fun _ => a) e.leaf_basic_accumulators } ref
      = if ref = .leaf v then some a else e.acc? ref := by
  cases ref with
  | leaf v1 =>
    simp only [BasicEngine.acc?, find_upsert]
    by_cases h : v1 = v <;> simp [h]
  | nonLeaf p v1 => simp [BasicEngine.acc?]

theorem acc?_set_nonLeaf {n : Nat} (e : BasicEngine n) (p : Fin n) (v : VarId)
    (a : GradientAccumulator) (ref : AccRef n) :
    BasicEngine.acc?
        { e with accumulators := upsert p (fun o => upsert v (fun _ => a) (o.getD [])) e.accumulators }
        ref
      = if ref = .nonLeaf p v then some a else e.acc? ref := by
  cases ref with
  | leaf v1 => simp [BasicEngine.acc?]
  | nonLeaf p1 v1 =>
    simp only [BasicEngine.acc?, find_upsert]
    by_cases hp : p1 = p
    · subst hp
      simp only [if_true, Option.some_bind]
      by_cases h : v1 = v
      · simp [h, find_upsert]
      · have h2 : ¬ v = v1 := fun e => h e.symm
        cases find p1 e.accumulators <;> simp [find, find_upsert, h, h2]
    · simp [hp]

theorem increaseAndHook_inner (vw : VariableWrapper) (acc : GradientAccumulator) :
    (increaseAndHook vw acc).1.inner_var = acc.inner_var := by
  unfold increaseAndHook
  split
  · split <;> rfl
  · rfl

theorem newAccumulator_inner {n : Nat} (C : Collab) (w : World n) (var : VarId) :
    ∀ x, (newAccumulator C w var).2.inner_var = some x →
      ∃ k, x = VarRef.fresh k ∧ k < (newAccumulator C w var).1.temps.length := by
  intro x hx
  unfold newAccumulator at hx ⊢
  split at hx
  · rename_i h
    simp only [h, if_true]
    simp only [World.allocLike, World.alloc, Option.some.injEq] at hx ⊢
    exact ⟨_, hx.symm, by simp⟩
  · cases hx

theorem AccWF_grow {n : Nat} {w w1 : World n} (h : AccWF w) (he : w1.engine = w.engine)
    (ht : ∃ l, w1.temps = w.temps ++ l) : AccWF w1 := by
  intro r a ha
  rw [he] at ha
  obtain ⟨hpos, hin⟩ := h r a ha
  refine ⟨hpos, fun x hx => ?_⟩
  obtain ⟨k, hk, hlt⟩ := hin x hx
  obtain ⟨l, hl⟩ := ht
  exact ⟨k, hk, by rw [hl, List.length_append]; omega⟩

/-- Looking up or creating an accumulator and referencing it once more keeps the registries
well-formed, whichever registry the accumulator is stored in afterwards. -/
theorem AccWF_provision {n : Nat} (C : Collab) (w w1 : World n) (var : VarId) (ref : AccRef n)
    (hwf : AccWF w)
    (hw1 : ∀ r, w1.engine.acc? r =
      if r = ref then
        some (increaseAndHook (w.wrappers var)
          (match w.engine.acc? ref with
            | some a => (w, a)
            | none => newAccumulator C w var).2).1
      else w.engine.acc? r)
    (ht : w1.temps = (match w.engine.acc? ref with
            | some a => (w, a)
            | none => newAccumulator C w var).1.temps) : AccWF w1 := by
  have hprefix : ∃ l, w1.temps = w.temps ++ l := by
    rw [ht]
    cases w.engine.acc? ref with
    | none => exact (newAccumulator_frame C w var).1.temps
    | some a => exact ⟨[], by simp⟩
  intro r a ha
  rw [hw1 r] at ha
  by_cases hr : r = ref
  · rw [if_pos hr] at ha
    simp only [Option.some.injEq] at ha
    subst ha
    refine ⟨by rw [increaseAndHook_ref_cnt]; omega, fun x hx => ?_⟩
    rw [increaseAndHook_inner] at hx
    rw [ht]
    cases hacc : w.engine.acc? ref with
    | none =>
      rw [hacc] at hx
      exact newAccumulator_inner C w var x hx
    | some a0 =>
      rw [hacc] at hx
      exact (hwf ref a0 hacc).2 x hx
  · rw [if_neg hr] at ha
    obtain ⟨hpos, hin⟩ := hwf r a ha
    refine ⟨hpos, fun x hx => ?_⟩
    obtain ⟨k, hk, hlt⟩ := hin x hx
    obtain ⟨l, hl⟩ := hprefix
    exact ⟨k, hk, by rw [hl, List.length_append]; omega⟩

theorem prepareLeaf_wf {n : Nat} (C : Collab) (var : VarId) (w : World n) (hwf : AccWF w) :
    AccWF (prepareLeaf C var w).state := by
  unfold prepareLeaf
  simp only [Res.state_ite]
  refine AccWF_provision C w _ var (.leaf var) hwf ?_ ?_
  · intro r
    have he : (match find var w.engine.leaf_basic_accumulators with
        | some a => (w, a)
        | none => newAccumulator C w var).1.engine = w.engine := by
      cases find var w.engine.leaf_basic_accumulators with
      | none => exact newAccumulator_engine C w var
      | some a => rfl
    simp only [acc?_set_leaf, he]
    rfl
  · rfl

theorem prepareNonLeaf_wf {n : Nat} (C : Collab) (var : VarId)
    (pending : List (Option (Fin n))) (w : World n) (hwf : AccWF w) :
    AccWF (prepareNonLeaf C var pending w).state := by
  induction pending with
  | nil => exact hwf
  | cons q rest ih =>
    cases q with
    | none => exact hwf
    | some p =>
      simp only [prepareNonLeaf]
      split
      · exact hwf
      · split
        · exact ih
        · simp only [Res.state_ite]
          have hget : (find p w.engine.accumulators).bind (find var)
              = find var ((find p w.engine.accumulators).getD []) := by
            cases find p w.engine.accumulators <;> simp [find]
          refine AccWF_provision C w _ var (.nonLeaf p var) hwf ?_ ?_
          · intro r
            have he : (match find var ((find p w.engine.accumulators).getD []) with
                | some a => (w, a)
                | none => newAccumulator C w var).1.engine = w.engine := by
              cases find var ((find p w.engine.accumulators).getD []) with
              | none => exact newAccumulator_engine C w var
              | some a => rfl
            simp only [acc?_set_nonLeaf, he]
            simp only [BasicEngine.acc?, hget]
          · simp only [BasicEngine.acc?, hget]

theorem prepareOp_wf {n : Nat} (C : Collab) (pending : List (Option (Fin n))) (op : OpBase)
    (w : World n) (hwf : AccWF w) : AccWF (prepareOp C pending op w).state := by
  unfold prepareOp
  split
  · exact hwf
  · unfold BasicEngine.PrepareGradAccumulators
    refine forEach_state_inv _ AccWF ?_ _ w hwf
    intro pair s hs
    split
    · exact hs
    · refine forEach_state_inv _ AccWF ?_ _ s hs
      intro var s1 hs1
      cases var with
      | none => exact hs1
      | some v =>
        simp only [prepareVar]
        split
        · exact prepareLeaf_wf C v s1 hs1
        · exact prepareNonLeaf_wf C v pending s1 hs1
theorem AccWF_node_deps {n : Nat} (w : World n) (d : List (Fin n × Int)) (hwf : AccWF w) :
    AccWF ({ w with engine := { w.engine with node_deps := d } } : World n) := by
  intro r a ha
  have : w.engine.acc? r = some a := by
    cases r <;> exact ha
  exact hwf r a this

theorem sweepNode_wf {n : Nat} (C : Collab) (cur : Fin n) (s : Sweep n) (hwf : AccWF s.world) :
    AccWF (sweepNode C cur s).state.world := by
  unfold sweepNode
  simp only
  have h1 : AccWF (forEach (prepareOp C (s.world.graph cur).grad_pending_nodes)
      (s.world.graph cur).ops s.world).state :=
    forEach_state_inv _ AccWF (fun op w hw => prepareOp_wf C _ op w hw) _ _ hwf
  rcases hf : forEach (prepareOp C (s.world.graph cur).grad_pending_nodes)
      (s.world.graph cur).ops s.world with ⟨e, w1⟩ | w1
  · rw [hf] at h1
    exact h1
  · rw [hf] at h1
    simp only [Sweep.lift]
    refine forEach_state_inv scanPending (fun s => AccWF s.world) ?_ _ _ h1
    intro x s1 hs1
    cases x with
    | none => exact hs1
    | some p =>
      simp only [scanPending]
      split
      · exact AccWF_node_deps s1.world _ hs1
      · exact AccWF_node_deps s1.world _ hs1

theorem sweepLoop_wf {n : Nat} (C : Collab) (fuel : Nat) :
    ∀ s : Sweep n, AccWF s.world → AccWF (sweepLoop C fuel s).state.world := by
  induction fuel with
  | zero =>
    intro s hwf
    unfold sweepLoop
    rcases hq : s.q with _ | ⟨cur, rest⟩
    · exact hwf
    · exact hwf
  | succ fuel ih =>
    intro s hwf
    unfold sweepLoop
    rcases hq : s.q with _ | ⟨cur, rest⟩
    · exact hwf
    · simp only
      have h1 := sweepNode_wf C cur { s with q := rest } hwf
      rcases hn : sweepNode C cur { s with q := rest } with ⟨e, s1⟩ | s1
      · rw [hn] at h1; exact h1
      · rw [hn] at h1; exact ih s1 h1

theorem PrepareDeps_wf {n : Nat} (C : Collab) (w : World n) (hwf : AccWF w) :
    AccWF (BasicEngine.PrepareDeps C w).state := by
  unfold BasicEngine.PrepareDeps
  split
  · exact hwf
  · split
    · exact hwf
    · split
      · exact hwf
      · rename_i init hinit
        have h := sweepLoop_wf C n { world := w, q := [init], visited := [init] } hwf
        rcases hl : sweepLoop C n ({ world := w, q := [init], visited := [init] } : Sweep n)
          with ⟨e, s1⟩ | s1
        · rw [hl] at h; exact h
        · rw [hl] at h; exact h

theorem AccWF_idle {n : Nat} (w : World n) (h1 : w.engine.accumulators = [])
    (h2 : w.engine.leaf_basic_accumulators = []) : AccWF w := by
  intro r a ha
  cases r <;> simp [BasicEngine.acc?, h1, h2, find] at ha

/-! ## Counting the `SumGrad` calls -/

theorem Kept.here {n : Nat} (w : World n) : Kept w w :=
  ⟨rfl, fun _ => rfl, fun _ => rfl, fun _ => rfl, ⟨[], by simp⟩⟩

theorem Driven.kept {n : Nat} {w0 w : World n} (h : Driven w0 w) : Kept w0 w :=
  ⟨h.wrappers, h.pending, h.inplace_map, h.accs, h.temps⟩

theorem Kept.remapped {n : Nat} {wp w w1 : World n} (h : Kept wp w) (h1 : Remapped w w1) :
    Kept wp w1 := by
  refine ⟨h1.wrappers.trans h.wrappers, fun m => ?_, fun m => ?_, fun r => ?_, ?_⟩
  · rw [h1.graph]; exact h.pending m
  · rw [h1.graph]; exact h.inplace_map m
  · rw [← h.accs r]
    cases r with
    | leaf v => simp only [BasicEngine.acc?, h1.leaf_basic]
    | nonLeaf p v => simp only [BasicEngine.acc?, h1.accumulators]
  · obtain ⟨l1, hl1⟩ := h.temps
    obtain ⟨l2, hl2⟩ := h1.temps
    exact ⟨l1 ++ l2, by rw [hl2, hl1, List.append_assoc]⟩

theorem Kept.checked {n : Nat} {wp w w1 : World n} (h : Kept wp w) (h1 : InputsChecked w w1) :
    Kept wp w1 := by
  refine ⟨h1.wrappers.trans h.wrappers, fun m => ?_, fun m => ?_, fun r => ?_, ?_⟩
  · rw [h1.graph]; exact h.pending m
  · rw [h1.graph]; exact h.inplace_map m
  · rw [h1.engine]; exact h.accs r
  · rw [h1.temps]; exact h.temps

theorem findSome?_map {α β γ : Type} (f : α → Option β) (h : β → γ) (l : List α) :
    (l.findSome? f).map h = l.findSome? fun x => (f x).map h := by
  induction l with
  | nil => rfl
  | cons a l ih =>
    simp only [List.findSome?]
    cases hf : f a with
    | none => simpa using ih
    | some b => simp

/-- The accumulator lookup of the remapping, through `acc?`. -/
theorem findAccumulator_eq {n : Nat} (w : World n) (cur_node : Fin n) (v : VarId) :
    findAccumulator w cur_node v =
      if !(w.wrappers v).has_grad_node then
        (w.engine.acc? (.leaf v)).map fun a => (AccRef.leaf v, a)
      else
        (w.graph cur_node).grad_pending_nodes.findSome? fun q =>
          match q with
          | none => none
          | some p => (w.engine.acc? (.nonLeaf p v)).map fun a => (AccRef.nonLeaf p v, a) := rfl

theorem findAccumulator_kept {n : Nat} {wp w : World n} (h : Kept wp w) (cur_node : Fin n)
    (v : VarId) :
    (findAccumulator w cur_node v).map (fun x => (x.1, x.2.static))
      = (findAccumulator wp cur_node v).map (fun x => (x.1, x.2.static)) := by
  rw [findAccumulator_eq, findAccumulator_eq, h.wrappers, h.pending]
  split
  · have := h.accs (.leaf v)
    simp only [Option.map_map] at this ⊢
    cases h1 : w.engine.acc? (.leaf v) <;> cases h2 : wp.engine.acc? (.leaf v) <;>
      simp_all
  · rw [findSome?_map, findSome?_map]
    congr 1
    funext q
    cases q with
    | none => rfl
    | some p =>
      have := h.accs (.nonLeaf p v)
      simp only [Option.map_map] at this ⊢
      cases h1 : w.engine.acc? (.nonLeaf p v) <;> cases h2 : wp.engine.acc? (.nonLeaf p v) <;>
        simp_all

theorem findAccumulator_acc {n : Nat} (w : World n) (cur_node : Fin n) (v : VarId)
    (ref : AccRef n) (acc : GradientAccumulator)
    (h : findAccumulator w cur_node v = some (ref, acc)) :
    w.engine.acc? ref = some acc ∧ ref.var = v := by
  rw [findAccumulator_eq] at h
  split at h
  · cases h1 : w.engine.acc? (.leaf v) with
    | none => rw [h1] at h; cases h
    | some a =>
      rw [h1] at h
      simp only [Option.map_some', Option.some.injEq, Prod.mk.injEq] at h
      rw [← h.1, ← h.2]
      exact ⟨h1, rfl⟩
  · obtain ⟨q, _, hq⟩ := List.exists_of_findSome?_eq_some h
    cases q with
    | none => cases hq
    | some p =>
      cases h1 : w.engine.acc? (.nonLeaf p v) with
      | none => simp [h1] at hq
      | some a =>
        simp only [h1, Option.map_some', Option.some.injEq, Prod.mk.injEq] at hq
        rw [← hq.1, ← hq.2]
        exact ⟨h1, rfl⟩

theorem redirected_kept {n : Nat} {wp w : World n} (h : Kept wp w) (hwf : AccWF wp)
    (ref : AccRef n) (v : VarId) (a a1 : GradientAccumulator)
    (ha : wp.engine.acc? ref = some a1) (hs : a.static = a1.static) :
    redirected w v a = redirected wp v a1 := by
  have hin : a.inner_var = a1.inner_var := by
    show a.static.inner_var = a1.static.inner_var
    rw [hs]
  have hrc : a.ref_cnt = a1.ref_cnt := by
    show a.static.ref_cnt = a1.static.ref_cnt
    rw [hs]
  have hb : boundVar w v a = boundVar wp v a1 := by
    unfold boundVar
    rw [h.wrappers, hin]
  have hw : w.wrapper (boundVar wp v a1) = wp.wrapper (boundVar wp v a1) := by
    have hg : ∀ i, w.wrapper (.graphVar i) = wp.wrapper (.graphVar i) := by
      intro i
      show w.wrappers i = wp.wrappers i
      rw [h.wrappers]
    unfold boundVar
    split
    · cases hx : a1.inner_var with
      | none => exact hg v
      | some x =>
        obtain ⟨k, hk, hlt⟩ := (hwf ref a1 ha).2 x hx
        subst hk
        obtain ⟨l, hl⟩ := h.temps
        show w.temps.getD k _ = wp.temps.getD k _
        rw [hl, List.getD_append _ _ _ _ hlt]
    · exact hg v
  unfold redirected
  rw [hb, hw, hrc]

theorem sumsInto_kept {n : Nat} {wp w : World n} (h : Kept wp w) (hwf : AccWF wp)
    (cur_node : Fin n) (r : AccRef n) (var : Option VarId) :
    sumsInto w cur_node r var = sumsInto wp cur_node r var := by
  cases var with
  | none => rfl
  | some v =>
    have hk := findAccumulator_kept h cur_node v
    simp only [sumsInto]
    rcases h1 : findAccumulator w cur_node v with _ | ⟨ref, a⟩
    · rcases h2 : findAccumulator wp cur_node v with _ | ⟨ref1, a1⟩
      · rfl
      · rw [h1, h2] at hk
        simp at hk
    · rcases h2 : findAccumulator wp cur_node v with _ | ⟨ref1, a1⟩
      · rw [h1, h2] at hk
        simp at hk
      · rw [h1, h2] at hk
        simp only [Option.map_some', Option.some.injEq, Prod.mk.injEq] at hk
        obtain ⟨hr, hs⟩ := hk
        subst hr
        have ha := (findAccumulator_acc wp cur_node v ref a1 h2).1
        simp only [redirected_kept h hwf ref v a a1 ha hs]

theorem inplaceScan_need {n : Nat} (C : Collab) (l : List (Option VarId)) :
    ∀ (b : Binding n),
      (inplaceScan C l b).1.engine.need_accu_var_list = b.1.engine.need_accu_var_list := by
  induction l with
  | nil => intro b; rfl
  | cons a l ih =>
    rintro ⟨w, var⟩
    simp only [inplaceScan]
    split
    · rw [ih]; rfl
    · rw [ih]

/-- The remapping of one grad-output appends to `need_accu_var_list_` an entry for the
accumulator it is routed to exactly when the test of line 354 holds. -/
theorem remapVar_count {n : Nat} (C : Collab) (cur_node : Fin n) (bwd_ins : NameVarMap VarId)
    (slot : String) (v : VarId) (w w1 : World n) (b : VarRef)
    (h : remapVar C cur_node bwd_ins slot v w = .ok (w1, b)) :
    (∀ r, needCount w1.engine.need_accu_var_list r
      = needCount w.engine.need_accu_var_list r + sumsInto w cur_node r (some v)) ∧
    ((∀ pair ∈ w.engine.need_accu_var_list, (w.engine.acc? pair.1).isSome = true) →
      ∀ pair ∈ w1.engine.need_accu_var_list, (w.engine.acc? pair.1).isSome = true) := by
  unfold remapVar at h
  rcases hf : findAccumulator w cur_node v with _ | ⟨ref, acc⟩
  · rw [hf] at h; cases h
  rw [hf] at h
  have hacc := (findAccumulator_acc w cur_node v ref acc hf).1
  simp only at h
  have hb1 : ∀ (b1 : Binding n), b1 = (if (w.wrappers v).is_leaf_grad then
          (({ w with engine := { w.engine with
             leaf_accumulators :=
               if ref ∈ w.engine.leaf_accumulators then w.engine.leaf_accumulators
               else w.engine.leaf_accumulators ++ [ref] } } : World n),
           acc.inner_var.getD (.graphVar v))
        else (w, .graphVar v)) →
      b1.1.engine.need_accu_var_list = w.engine.need_accu_var_list ∧
      (b1.1.wrapper b1.2).overrided_stop_gradient
        = (w.wrapper (boundVar w v acc)).overrided_stop_gradient := by
    intro b1 hb
    subst hb
    unfold boundVar
    split <;> exact ⟨rfl, rfl⟩
  generalize (if (w.wrappers v).is_leaf_grad then
          (({ w with engine := { w.engine with
             leaf_accumulators :=
               if ref ∈ w.engine.leaf_accumulators then w.engine.leaf_accumulators
               else w.engine.leaf_accumulators ++ [ref] } } : World n),
           acc.inner_var.getD (.graphVar v))
        else (w, .graphVar v)) = b1 at h hb1
  obtain ⟨hneed, hstop⟩ := hb1 b1 rfl
  have hred : ((b1.1.wrapper b1.2).overrided_stop_gradient || decide (acc.ref_cnt > 1))
      = redirected w v acc := by
    unfold redirected
    rw [hstop]
  rw [hred] at h
  simp only [sumsInto, hf]
  by_cases hrd : redirected w v acc = true
  · rw [if_pos hrd] at h
    simp only [Except.ok.injEq, Prod.mk.injEq] at h
    obtain ⟨h, _⟩ := h
    subst h
    constructor
    · intro r
      show needCount (b1.1.engine.need_accu_var_list ++ [(ref, _)]) r = _
      rw [hneed]
      simp only [needCount, List.map_append, List.sum_append, List.map_cons, List.map_nil,
        List.sum_cons, List.sum_nil, Nat.add_zero, hrd, and_true]
    · intro hex pair hp
      have hp : pair ∈ b1.1.engine.need_accu_var_list ++ [(ref, _)] := hp
      rw [hneed, List.mem_append, List.mem_singleton] at hp
      rcases hp with hp | hp
      · exact hex pair hp
      · rw [hp]
        simp [hacc]
  · rw [if_neg hrd] at h
    have hsame : w1.engine.need_accu_var_list = w.engine.need_accu_var_list := by
      split at h
      · simp only [Except.ok.injEq] at h
        have h1 : b1.1 = w1 := congrArg Prod.fst h
        rw [← h1]
        exact hneed
      · split at h
        · cases h
        · rename_i in_vars _
          simp only [Except.ok.injEq] at h
          have := inplaceScan_need C in_vars.vars b1
          rw [h] at this
          exact this.trans hneed
    constructor
    · intro r
      rw [hsame]
      simp [hrd]
    · intro hex pair hp
      rw [hsame] at hp
      exact hex pair hp

theorem Kept.isSome {n : Nat} {wp w : World n} (h : Kept wp w) (r : AccRef n) :
    (w.engine.acc? r).isSome = (wp.engine.acc? r).isSome :=
  static_isSome (h.accs r)

theorem remapVars_count {n : Nat} (C : Collab) (cur_node : Fin n) (bwd_ins : NameVarMap VarId)
    (slot : String) (wp : World n) (hwf : AccWF wp) (l : List (Option VarId)) :
    ∀ (w w1 : World n) (vs : List (Option VarRef)), Kept wp w →
      remapVars C cur_node bwd_ins slot l w = .ok (w1, vs) →
      (∀ r, needCount w1.engine.need_accu_var_list r
        = needCount w.engine.need_accu_var_list r + (l.map (sumsInto wp cur_node r)).sum) ∧
      ((∀ pair ∈ w.engine.need_accu_var_list, (wp.engine.acc? pair.1).isSome = true) →
        ∀ pair ∈ w1.engine.need_accu_var_list, (wp.engine.acc? pair.1).isSome = true) := by
  induction l with
  | nil =>
    intro w w1 vs _ h
    simp only [remapVars, Except.ok.injEq, Prod.mk.injEq] at h
    rw [← h.1]
    exact ⟨fun r => by simp, fun hex => hex⟩
  | cons a l ih =>
    intro w w1 vs hk h
    cases a with
    | none =>
      simp only [remapVars] at h
      rcases hr : remapVars C cur_node bwd_ins slot l w with ⟨e, wE⟩ | ⟨w2, vs2⟩
      · rw [hr] at h; cases h
      · rw [hr] at h
        simp only [Except.ok.injEq, Prod.mk.injEq] at h
        rw [← h.1]
        obtain ⟨h1, h2⟩ := ih w w2 vs2 hk hr
        exact ⟨fun r => by rw [h1 r]; simp [sumsInto], h2⟩
    | some v =>
      simp only [remapVars] at h
      have hfr := remapVar_frame C cur_node bwd_ins slot v w
      rcases hr1 : remapVar C cur_node bwd_ins slot v w with ⟨e, wE⟩ | ⟨w2, var⟩
      · rw [hr1] at h; cases h
      rw [hr1] at h hfr
      simp only [endWorld] at hfr
      simp only at h
      rcases hr2 : remapVars C cur_node bwd_ins slot l w2 with ⟨e, wE⟩ | ⟨w3, vs3⟩
      · rw [hr2] at h; cases h
      rw [hr2] at h
      simp only [Except.ok.injEq, Prod.mk.injEq] at h
      rw [← h.1]
      obtain ⟨c1, x1⟩ := remapVar_count C cur_node bwd_ins slot v w w2 var hr1
      obtain ⟨c2, x2⟩ := ih w2 w3 vs3 (hk.remapped hfr) hr2
      constructor
      · intro r
        rw [c2 r, c1 r, sumsInto_kept hk hwf]
        simp only [List.map_cons, List.sum_cons]
        omega
      · intro hex
        refine x2 (fun pair hp => ?_)
        rw [← hk.isSome]
        exact x1 (fun pair hp => by rw [hk.isSome]; exact hex pair hp) pair hp

theorem remapOuts_count {n : Nat} (C : Collab) (cur_node : Fin n) (bwd_ins : NameVarMap VarId)
    (wp : World n) (hwf : AccWF wp) (outs : NameVarMap VarId) :
    ∀ (w w1 : World n) (m : NameVarMap VarRef), Kept wp w →
      remapOuts C cur_node bwd_ins outs w = .ok (w1, m) →
      (∀ r, needCount w1.engine.need_accu_var_list r
        = needCount w.engine.need_accu_var_list r +
          (outs.map fun pair =>
            if pair.2.is_grad then (pair.2.vars.map (sumsInto wp cur_node r)).sum else 0).sum) ∧
      ((∀ pair ∈ w.engine.need_accu_var_list, (wp.engine.acc? pair.1).isSome = true) →
        ∀ pair ∈ w1.engine.need_accu_var_list, (wp.engine.acc? pair.1).isSome = true) := by
  induction outs with
  | nil =>
    intro w w1 m _ h
    simp only [remapOuts, Except.ok.injEq, Prod.mk.injEq] at h
    rw [← h.1]
    exact ⟨fun r => by simp, fun hex => hex⟩
  | cons a l ih =>
    intro w w1 m hk h
    obtain ⟨slot, sl⟩ := a
    simp only [remapOuts] at h
    by_cases hg : sl.is_grad = true
    · simp only [hg, Bool.not_true, Bool.false_eq_true, if_false] at h
      have hfr := remapVars_frame C cur_node bwd_ins slot sl.vars w
      rcases hr1 : remapVars C cur_node bwd_ins slot sl.vars w with ⟨e, wE⟩ | ⟨w2, vs⟩
      · rw [hr1] at h; cases h
      rw [hr1] at h hfr
      simp only [endWorld] at hfr
      simp only at h
      rcases hr2 : remapOuts C cur_node bwd_ins l w2 with ⟨e, wE⟩ | ⟨w3, m3⟩
      · rw [hr2] at h; cases h
      rw [hr2] at h
      simp only [Except.ok.injEq, Prod.mk.injEq] at h
      rw [← h.1]
      obtain ⟨c1, x1⟩ := remapVars_count C cur_node bwd_ins slot wp hwf sl.vars w w2 vs hk hr1
      obtain ⟨c2, x2⟩ := ih w2 w3 m3 (hk.remapped hfr) hr2
      constructor
      · intro r
        rw [c2 r, c1 r]
        simp only [List.map_cons, List.sum_cons, hg, if_true]
        omega
      · exact fun hex => x2 (x1 hex)
    · simp only [hg, Bool.not_false, if_true] at h
      rcases hr : remapOuts C cur_node bwd_ins l w with ⟨e, wE⟩ | ⟨w2, m2⟩
      · rw [hr] at h; cases h
      rw [hr] at h
      simp only [Except.ok.injEq, Prod.mk.injEq] at h
      rw [← h.1]
      obtain ⟨c1, x1⟩ := ih w w2 m2 hk hr
      constructor
      · intro r
        rw [c1 r]
        simp [hg]
      · exact x1

/-- A successful `runOp` started with an empty `need_accu_var_list_` makes on every
accumulator the `SumGrad` calls counted by `opSums`. -/
theorem runOp_count {n : Nat} (C : Collab) (cur_node : Fin n) (idx : Nat) (cur_op : OpBase)
    (wp w wf : World n) (hwf : AccWF wp) (hk : Kept wp w)
    (hneed : w.engine.need_accu_var_list = [])
    (h : runOp C cur_node idx cur_op w = .ok wf) :
    wf.engine.need_accu_var_list = [] ∧
    ∀ r, sumGradCalls wf.trace r = sumGradCalls w.trace r + opSums wp cur_node r cur_op := by
  obtain ⟨_, hn, _, w2, tmp_outs, hrm, hcount⟩ := runOp_ok C cur_node idx cur_op w wf h
  refine ⟨hn, fun r => ?_⟩
  have hc := CheckBackwardInputs_frame cur_op w
  have hk1 : Kept wp (BasicEngine.CheckBackwardInputs cur_op w) := hk.checked hc
  obtain ⟨c1, x1⟩ := remapOuts_count C cur_node cur_op.ins wp hwf cur_op.outs _ w2 tmp_outs hk1 hrm
  have hfr := remapOuts_frame C cur_node cur_op.ins cur_op.outs
    (BasicEngine.CheckBackwardInputs cur_op w)
  rw [hrm] at hfr
  simp only [endWorld] at hfr
  have hk2 : Kept wp w2 := hk1.remapped hfr
  have hn0 : (BasicEngine.CheckBackwardInputs cur_op w).engine.need_accu_var_list = [] := by
    rw [hc.engine]; exact hneed
  have hex : ∀ pair ∈ w2.engine.need_accu_var_list, (w2.engine.acc? pair.1).isSome = true := by
    intro pair hp
    rw [hk2.isSome]
    exact x1 (by rw [hn0]; intro pair hp; cases hp) pair hp
  rw [hcount hex r]
  have := c1 r
  rw [hn0] at this
  simp only [needCount, List.map_nil, List.sum_nil, Nat.zero_add] at this
  unfold opSums
  rw [← this]

theorem sum_range_get? {α : Type} (f : α → Nat) (l : List α) :
    ((List.range l.length).map fun i => ((l.get? i).map f).getD 0).sum = (l.map f).sum := by
  induction l using List.reverseRecOn with
  | nil => rfl
  | append_singleton l a ih =>
    rw [List.length_append, List.length_singleton, List.range_succ, List.map_append,
      List.sum_append, List.map_append, List.sum_append]
    congr 1
    · rw [← ih]
      congr 1
      refine List.map_congr_left (fun i hi => ?_)
      rw [List.get?_eq_getElem?, List.get?_eq_getElem?,
        List.getElem?_append_left (List.mem_range.mp hi)]
    · simp

theorem Kept.afterStep {n : Nat} {wp w w1 : World n} {cur_node : Fin n} {T : Nat → Prop}
    (h : Kept wp w) (h1 : Stepped cur_node T w w1) : Kept wp w1 := by
  refine ⟨h1.wrappers.trans h.wrappers, fun m => (h1.pending m).trans (h.pending m),
    fun m => (h1.inplace_map m).trans (h.inplace_map m),
    fun r => (h1.accs r).trans (h.accs r), ?_⟩
  obtain ⟨l1, hl1⟩ := h.temps
  obtain ⟨l2, hl2⟩ := h1.temps
  exact ⟨l1 ++ l2, by rw [hl2, hl1, List.append_assoc]⟩

/-- A successful loop over the operators of a node, started with an empty
`need_accu_var_list_`, makes the `SumGrad` calls of its operators. -/
theorem runOps_count {n : Nat} (C : Collab) (cur_node : Fin n) (wp w w1 : World n)
    (hwf : AccWF wp) (hk : Kept wp w) (hneed : w.engine.need_accu_var_list = [])
    (h : runOps C cur_node w = .ok w1) :
    w1.engine.need_accu_var_list = [] ∧
    ∀ r, sumGradCalls w1.trace r
      = sumGradCalls w.trace r + ((w.graph cur_node).ops.map (opSums wp cur_node r)).sum := by
  unfold runOps at h
  have key := forEach_prefix
    (fun idx (s : World n) =>
      match (s.graph cur_node).ops.get? idx with
      | none => (.ok s : Res (World n))
      | some cur_op => runOp C cur_node idx cur_op s)
    (fun pre s => Stepped cur_node (fun j => j ∈ pre) w s ∧
      s.engine.need_accu_var_list = [] ∧
      ∀ r, sumGradCalls s.trace r = sumGradCalls w.trace r +
        (pre.map fun i =>
          (((w.graph cur_node).ops.get? i).map (opSums wp cur_node r)).getD 0).sum)
    (List.range (w.graph cur_node).ops.length) ?_ w w1
    ⟨Stepped.same _ _ w, hneed, by simp⟩ h
  · refine ⟨key.2.1, fun r => ?_⟩
    rw [key.2.2 r, sum_range_get?]
  · intro pre idx suf s s1 hl hI hb
    have hnd : (pre ++ idx :: suf).Nodup := hl ▸ List.nodup_range _
    have hnot : idx ∉ pre := by
      intro hmem
      have := (List.nodup_append.mp hnd).2.2 hmem (List.mem_cons_self _ _)
      exact this
    have hget : (s.graph cur_node).ops.get? idx = (w.graph cur_node).ops.get? idx :=
      hI.1.untouched idx hnot
    simp only [hget] at hb
    have hmono : Stepped cur_node (fun j => j ∈ pre ++ [idx]) w s :=
      hI.1.mono (fun j hj => List.mem_append_left _ hj)
    cases hop : (w.graph cur_node).ops.get? idx with
    | none =>
      rw [hop] at hb
      simp only [Except.ok.injEq] at hb
      subst hb
      refine ⟨hmono, hI.2.1, fun r => ?_⟩
      rw [hI.2.2 r]
      simp only [List.map_append, List.sum_append, List.map_cons, List.map_nil, List.sum_cons,
        List.sum_nil, hop, Option.map_none', Option.getD_none, Nat.add_zero]
    | some op =>
      rw [hop] at hb
      simp only at hb
      have hst := runOp_stepped C cur_node (fun j => j ∈ pre ++ [idx]) idx op s (by simp)
      rw [hb] at hst
      obtain ⟨hn1, hc1⟩ := runOp_count C cur_node idx op wp s s1 hwf (hk.afterStep hI.1) hI.2.1 hb
      refine ⟨hmono.next hst, hn1, fun r => ?_⟩
      rw [hc1 r, hI.2.2 r]
      simp only [List.map_append, List.sum_append, List.map_cons, List.map_nil, List.sum_cons,
        List.sum_nil, hop, Option.map_some', Option.getD_some, Nat.add_zero, Nat.add_assoc]

theorem execNode_count {n : Nat} (C : Collab) (w0 : World n) (init : Fin n)
    (vis done : List (Fin n)) (cur : Fin n) (rest : List (Fin n)) (s s1 : Sched n)
    (hwf : AccWF w0) (hq : s.q = cur :: rest)
    (hinv : SchedInv w0 init vis done s) (hc : CountInv w0 done s)
    (h : execNode C cur { s with q := rest } = .ok s1) :
    CountInv w0 (done ++ [cur]) s1 := by
  unfold execNode at h
  rcases hr : runOps C cur s.world with ⟨e, wE⟩ | wA
  · simp [hr, Sched.lift] at h
  simp only [hr, Sched.lift] at h
  have hcur_done : cur ∉ done := by
    intro hm
    have hnd := hinv.nodup
    rw [hq] at hnd
    exact List.disjoint_of_nodup_append hnd hm (List.mem_cons_self _ _)
  obtain ⟨hn1, hc1⟩ := runOps_count C cur w0 s.world wA hwf hinv.frame.kept hc.need hr
  have hA : CountInv w0 (done ++ [cur]) ({ world := wA, q := rest } : Sched n) := by
    refine ⟨hn1, fun r => ?_⟩
    show sumGradCalls wA.trace r = _
    rw [hc1 r, hc.calls r, hinv.fresh cur hcur_done]
    simp only [List.map_append, List.sum_append, List.map_cons, List.map_nil, List.sum_cons,
      List.sum_nil, Nat.add_zero, Nat.add_assoc]
  refine forEach_ok_inv collectReady (fun s2 => CountInv w0 (done ++ [cur]) s2) _ ?_ _ s1 hA h
  intro a _ s2 s3 hs2 hb
  obtain ⟨d, hd⟩ := collectReady_world a s2 s3 hb
  refine ⟨?_, ?_⟩
  · rw [hd]; exact hs2.need
  · rw [hd]; exact hs2.calls

/-- When the scheduling loop over an acyclic graph has drained its queue, every node
reachable from the initial node has been popped. -/
theorem SchedInv.complete {n : Nat} {w0 : World n} {init : Fin n} {vis done : List (Fin n)}
    {s : Sched n} (hinv : SchedInv w0 init vis done s) (hq : s.q = [])
    (hvis : ∀ m, m ∈ vis ↔ Reachable w0.graph init m) (hnd : vis.Nodup)
    (hac : Acyclic w0.graph) : ∀ m ∈ vis, m ∈ done := by
  have hdq : done ++ s.q = done := by rw [hq, List.append_nil]
  have hdone_nd : done.Nodup := by
    have := hinv.nodup
    rwa [hdq] at this
  have hdone_sub : done ⊆ vis := by
    intro x hx
    exact hinv.sub x (List.mem_append_left _ hx)
  have hinit : init ∈ done := by
    have := hinv.init_mem
    rwa [hdq] at this
  haveI : IsIrrefl (Fin n) (Relation.TransGen (Edge w0.graph)) := ⟨hac⟩
  have hwf : WellFounded (Relation.TransGen (Edge w0.graph)) :=
    Finite.wellFounded_of_trans_of_irrefl _
  by_contra hcon
  push_neg at hcon
  obtain ⟨m0, hm0, hm0d⟩ := hcon
  obtain ⟨b, hb, hmin⟩ := hwf.has_min {m | m ∈ vis ∧ m ∉ done} ⟨m0, hm0, hm0d⟩
  have hbr : Reachable w0.graph init b := (hvis b).mp hb.1
  have hne : b ≠ init := by
    rintro rfl
    exact hb.2 hinit
  obtain ⟨a, ha, hab⟩ : ∃ a, Reachable w0.graph init a ∧ Edge w0.graph a b := by
    rcases Relation.ReflTransGen.cases_tail hbr with h | h
    · exact absurd h hne
    · exact h
  have htot : pendingCount w0.graph vis b ≠ 0 :=
    (pendingCount_pos w0.graph vis b).mpr ⟨a, (hvis a).mpr ha, hab⟩
  have hall : ∀ x ∈ vis, (w0.graph x).grad_pending_nodes.count (some b) ≠ 0 → x ∈ done := by
    intro x hx hcount
    by_contra hxd
    have hedge : Edge w0.graph x b := List.count_pos_iff.mp (Nat.pos_of_ne_zero hcount)
    exact hmin x ⟨hx, hxd⟩ (Relation.TransGen.single hedge)
  have hle : pendingCount w0.graph vis b ≤ pendingCount w0.graph done b :=
    sum_map_le_of_support _ vis done hnd hall
  have hge := pendingCount_le w0.graph done vis hdone_nd hdone_sub b
  have := hinv.pushed b htot (by omega)
  rw [hdq] at this
  exact hb.2 this

/-! ## Routing agreement between the analysis and the execution -/

theorem findSome?_agree {α β : Type} (f g : α → Option β) :
    ∀ (L : List α), (∀ x ∈ L, (f x).isSome = true → f x = g x) →
      (∀ x ∈ L, (g x).isSome = true → g x = L.findSome? g → (f x).isSome = true) →
      L.findSome? f = L.findSome? g := by
  intro L
  induction L with
  | nil => intro _ _; rfl
  | cons a L ih =>
    intro hA hB
    cases hg : g a with
    | none =>
      have hf : f a = none := by
        cases hfa : f a with
        | none => rfl
        | some y =>
          have := hA a (List.mem_cons_self _ _) (by rw [hfa]; rfl)
          rw [hfa, hg] at this
          cases this
      simp only [List.findSome?, hg, hf]
      refine ih (fun x hx => hA x (List.mem_cons_of_mem _ hx)) (fun x hx hs he => ?_)
      refine hB x (List.mem_cons_of_mem _ hx) hs ?_
      simp only [List.findSome?, hg]
      exact he
    | some y =>
      have hs : (f a).isSome = true :=
        hB a (List.mem_cons_self _ _) (by rw [hg]; rfl) (by simp [List.findSome?, hg])
      have hfa := hA a (List.mem_cons_self _ _) hs
      rw [hg] at hfa
      simp only [List.findSome?, hg, hfa]

theorem firstReader_reads {n : Nat} (g : Fin n → GradOpNode n) (pending : List (Option (Fin n)))
    (v : VarId) (p : Fin n) (h : firstReader g pending v = some p) : readsVar (g p) v = true := by
  unfold firstReader at h
  obtain ⟨q, _, hq⟩ := List.exists_of_findSome?_eq_some h
  cases q with
  | none => cases hq
  | some p1 =>
    simp only at hq
    split at hq
    · cases hq; assumption
    · cases hq

theorem writeSites_pos {n : Nat} (g : Fin n → GradOpNode n) (wr : VarId → VariableWrapper)
    (vis : List (Fin n)) (r : AccRef n) (h : 0 < writeSites g wr vis r) :
    ∃ m ∈ vis, routeVia g wr (g m).grad_pending_nodes r.var = some r := by
  unfold writeSites at h
  induction vis with
  | nil => simp at h
  | cons a vis ih =>
    simp only [List.map_cons, List.sum_cons] at h
    by_cases ha : routeVia g wr (g a).grad_pending_nodes r.var = some r
    · exact ⟨a, List.mem_cons_self _ _, ha⟩
    · rw [if_neg ha, Nat.zero_add] at h
      obtain ⟨m, hm, hr⟩ := ih h
      exact ⟨m, List.mem_cons_of_mem _ hm, hr⟩

theorem sum_pos_of_mem {α : Type} (f : α → Nat) (l : List α) (a : α) (ha : a ∈ l)
    (h : 0 < f a) : 0 < (l.map f).sum := by
  induction l with
  | nil => cases ha
  | cons b l ih =>
    simp only [List.map_cons, List.sum_cons]
    rcases List.mem_cons.mp ha with rfl | h1
    · omega
    · have := ih h1
      omega

theorem writeSites_of_site {n : Nat} (g : Fin n → GradOpNode n) (wr : VarId → VariableWrapper)
    (vis : List (Fin n)) (r : AccRef n) (m : Fin n) (op : OpBase) (hm : m ∈ vis)
    (hop : op ∈ (g m).ops) (hr : routeVia g wr (g m).grad_pending_nodes r.var = some r)
    (hout : 0 < gradOutCount op r.var) : 0 < writeSites g wr vis r := by
  unfold writeSites
  refine sum_pos_of_mem _ vis m hm ?_
  rw [if_pos hr]
  exact sum_pos_of_mem _ _ op hop hout

/-- Routing agreement: when every accumulator exists exactly if some write-site of the
reachable nodes is routed to it, the lookup made by the remapping for a grad-output of an
operator of a reachable node finds the accumulator the analysis routed that output to. -/
theorem findAccumulator_route {n : Nat} (w1 : World n) (vis : List (Fin n))
    (hex : ∀ r, (w1.engine.acc? r).isSome = true ↔ 0 < writeSites w1.graph w1.wrappers vis r)
    (m : Fin n) (op : OpBase) (v : VarId) (hm : m ∈ vis) (hop : op ∈ (w1.graph m).ops)
    (hout : 0 < gradOutCount op v) :
    (findAccumulator w1 m v).map Prod.fst
      = routeVia w1.graph w1.wrappers (w1.graph m).grad_pending_nodes v := by
  have hsite : ∀ r, routeVia w1.graph w1.wrappers (w1.graph m).grad_pending_nodes v = some r →
      (w1.engine.acc? r).isSome = true := by
    intro r hr
    have hv := routeVia_var _ _ _ _ _ hr
    subst hv
    exact (hex r).mpr (writeSites_of_site _ _ vis r m op hm hop hr hout)
  rw [findAccumulator_eq]
  unfold routeVia
  split
  · rename_i hleaf
    have := hsite (.leaf v) (by unfold routeVia; rw [if_pos hleaf])
    cases ha : w1.engine.acc? (.leaf v) with
    | none => rw [ha] at this; cases this
    | some a => rfl
  · rename_i hleaf
    unfold firstReader
    rw [findSome?_map, findSome?_map]
    refine findSome?_agree _ _ _ ?_ ?_
    · intro q _ hq
      cases q with
      | none => cases hq
      | some p =>
        simp only at hq ⊢
        cases ha : w1.engine.acc? (.nonLeaf p v) with
        | none => rw [ha] at hq; cases hq
        | some a =>
          obtain ⟨m1, _, hr1⟩ := writeSites_pos _ _ vis (.nonLeaf p v)
            ((hex (.nonLeaf p v)).mp (by rw [ha]; rfl))
          have hreads : readsVar (w1.graph p) v = true := by
            unfold routeVia at hr1
            simp only [AccRef.var] at hr1
            rw [if_neg hleaf] at hr1
            cases hfr : firstReader w1.graph (w1.graph m1).grad_pending_nodes v with
            | none => rw [hfr] at hr1; cases hr1
            | some p1 =>
              rw [hfr] at hr1
              simp only [Option.map_some', Option.some.injEq, AccRef.nonLeaf.injEq, and_true] at hr1
              subst hr1
              exact firstReader_reads _ _ _ _ hfr
          simp [hreads]
    · intro q _ hq he
      cases q with
      | none => cases hq
      | some p =>
        simp only at hq he ⊢
        by_cases hreads : readsVar (w1.graph p) v = true
        · simp only [hreads, if_true, Option.map_some'] at he
          have hr : routeVia w1.graph w1.wrappers (w1.graph m).grad_pending_nodes v
              = some (.nonLeaf p v) := by
            unfold routeVia firstReader
            rw [if_neg hleaf, findSome?_map]
            exact he.symm
          have := hsite _ hr
          cases ha : w1.engine.acc? (.nonLeaf p v) with
          | none => rw [ha] at this; cases this
          | some a => rfl
        · simp [hreads] at hq

theorem sum_ite_count (x : Option VarId) (P : Prop) [Decidable P] (l : List (Option VarId)) :
    (l.map fun y => if y = x ∧ P then 1 else 0).sum = if P then l.count x else 0 := by
  induction l with
  | nil => simp
  | cons a l ih =>
    simp only [List.map_cons, List.sum_cons, ih, List.count_cons]
    by_cases hP : P
    · by_cases ha : a = x
      · simp [hP, ha]; omega
      · simp [hP, ha]
    · simp [hP]

theorem gradOutCount_pos (op : OpBase) (pair : String × SavedVariableWrapperList VarId)
    (v : VarId) (hp : pair ∈ op.outs) (hg : pair.2.is_grad = true) (hv : some v ∈ pair.2.vars) :
    0 < gradOutCount op v := by
  unfold gradOutCount
  refine sum_pos_of_mem _ op.outs pair hp ?_
  rw [if_pos hg]
  exact List.count_pos_iff.mpr hv

/-- The `SumGrad` calls an operator of a reachable node leads to on the accumulator `r`:
one per occurrence of the variable of `r` among its grad-outputs, when the analysis routed
the grad-outputs of the node for that variable to `r` and the test of line 354 holds for
`r`; none otherwise. -/
theorem opSums_route {n : Nat} (w1 : World n) (vis : List (Fin n))
    (hex : ∀ r, (w1.engine.acc? r).isSome = true ↔ 0 < writeSites w1.graph w1.wrappers vis r)
    (m : Fin n) (op : OpBase) (hm : m ∈ vis) (hop : op ∈ (w1.graph m).ops) (r : AccRef n) :
    opSums w1 m r op =
      if routeVia w1.graph w1.wrappers (w1.graph m).grad_pending_nodes r.var = some r ∧
          redirectedAt w1 r = true then gradOutCount op r.var
      else 0 := by
  have hvar : ∀ pair ∈ op.outs, pair.2.is_grad = true → ∀ var ∈ pair.2.vars,
      sumsInto w1 m r var =
        if var = some r.var ∧
          (routeVia w1.graph w1.wrappers (w1.graph m).grad_pending_nodes r.var = some r ∧
            redirectedAt w1 r = true) then 1 else 0 := by
    intro pair hp hg var hvar
    cases var with
    | none => simp [sumsInto]
    | some v =>
      have hout := gradOutCount_pos op pair v hp hg hvar
      have hagree := findAccumulator_route w1 vis hex m op v hm hop hout
      simp only [sumsInto]
      rcases hf : findAccumulator w1 m v with _ | ⟨ref, a⟩
      · rw [hf] at hagree
        simp only [Option.map_none'] at hagree
        by_cases hv : v = r.var
        · subst hv
          simp [← hagree]
        · simp [hv]
      · rw [hf] at hagree
        simp only [Option.map_some'] at hagree
        obtain ⟨hacc, hrv⟩ := findAccumulator_acc w1 m v ref a hf
        by_cases hr : ref = r
        · subst hr
          subst hrv
          have hred : redirectedAt w1 ref = redirected w1 ref.var a := by
            simp only [redirectedAt, hacc]
          simp only [true_and, hred, ← hagree]
        · by_cases hv : v = r.var
          · subst hv
            have hne : ¬ routeVia w1.graph w1.wrappers (w1.graph m).grad_pending_nodes r.var
                = some r := by
              rw [← hagree]
              intro h
              exact hr (Option.some.inj h)
            simp [hr, hne]
          · simp [hr, hv]
  unfold opSums gradOutCount
  have hstep : ∀ pair ∈ op.outs,
      (if pair.2.is_grad = true then (pair.2.vars.map (sumsInto w1 m r)).sum else 0)
        = if routeVia w1.graph w1.wrappers (w1.graph m).grad_pending_nodes r.var = some r ∧
            redirectedAt w1 r = true
          then (if pair.2.is_grad = true then pair.2.vars.count (some r.var) else 0) else 0 := by
    intro pair hp
    by_cases hg : pair.2.is_grad = true
    · rw [if_pos hg, if_pos hg, List.map_congr_left (hvar pair hp hg), sum_ite_count]
    · rw [if_neg hg, if_neg hg]
      simp
  rw [List.map_congr_left hstep]
  by_cases hP : routeVia w1.graph w1.wrappers (w1.graph m).grad_pending_nodes r.var = some r ∧
      redirectedAt w1 r = true
  · simp only [hP, and_self, if_true]
  · simp only [hP, if_false]
    simp

theorem writeSites_perm {n : Nat} (g : Fin n → GradOpNode n) (wr : VarId → VariableWrapper)
    (l1 l2 : List (Fin n)) (h : l1.Perm l2) (r : AccRef n) :
    writeSites g wr l1 r = writeSites g wr l2 r := by
  unfold writeSites
  exact (h.map _).sum_eq

/-- The `SumGrad` calls of the operators of a list of reachable nodes on an accumulator: as
many as the write-sites routed to it when the test of line 354 holds for it, none
otherwise. -/
theorem opSums_total {n : Nat} (w1 : World n) (vis : List (Fin n))
    (hex : ∀ r, (w1.engine.acc? r).isSome = true ↔ 0 < writeSites w1.graph w1.wrappers vis r)
    (r : AccRef n) (done : List (Fin n)) (hsub : ∀ m ∈ done, m ∈ vis) :
    (done.map fun m => ((w1.graph m).ops.map (opSums w1 m r)).sum).sum
      = if redirectedAt w1 r = true then writeSites w1.graph w1.wrappers done r else 0 := by
  have hnode : ∀ m ∈ done, ((w1.graph m).ops.map (opSums w1 m r)).sum
      = if redirectedAt w1 r = true then
          (if routeVia w1.graph w1.wrappers (w1.graph m).grad_pending_nodes r.var = some r then
            ((w1.graph m).ops.map fun op => gradOutCount op r.var).sum else 0)
        else 0 := by
    intro m hm
    rw [List.map_congr_left (fun op hop => opSums_route w1 vis hex m op (hsub m hm) hop r)]
    by_cases hred : redirectedAt w1 r = true
    · by_cases hroute : routeVia w1.graph w1.wrappers (w1.graph m).grad_pending_nodes r.var
          = some r
      · simp only [hred, hroute, and_self, if_true]
      · simp only [hred, hroute, false_and, if_false, if_true]
        simp
    · simp only [hred, and_false, if_false]
      simp
  rw [List.map_congr_left hnode]
  unfold writeSites
  by_cases hred : redirectedAt w1 r = true
  · simp only [hred, if_true]
  · simp only [hred, if_false]
    simp

theorem takeInitNode_acc {n : Nat} (w : World n) (r : AccRef n) :
    (takeInitNode w).engine.acc? r = w.engine.acc? r := by
  cases r <;> rfl

theorem sumGradCalls_cancel {n : Nat} (t0 t1 evs : List (Event n)) (r : AccRef n) (k : Nat)
    (ht : t1 = t0 ++ evs) (h : sumGradCalls t1 r = sumGradCalls t0 r + k) :
    sumGradCalls evs r = k := by
  rw [ht] at h
  unfold sumGradCalls at h ⊢
  rw [List.countP_append] at h
  omega

/-- C4, as stated, fails on the example `z = x + y`, `y = 2x`: the analysis gives the
accumulator of the gradient of `y` at node 1 the reference count 1, `Execute` succeeds from
an idle engine, and no `SumGrad` call is made on that accumulator: with a reference count
of 1 and no stop-gradient the operator writes the gradient variable directly. -/
theorem sum_grad_calls_below_ref_cnt :
    exReady.engine.Idle ∧
    (BasicEngine.Execute exCollab exReady).error? = none ∧
    ((BasicEngine.PrepareDeps exCollab exReady).state.engine.acc? (.nonLeaf 1 11)).map
      (fun a => a.ref_cnt) = some 1 ∧
    sumGradCalls (BasicEngine.Execute exCollab exReady).state.trace (.nonLeaf 1 11) = 0 := by
  refine ⟨by decide, by decide!, by decide!, by decide!⟩

/-- C4, amended.  When `Execute` succeeds from an idle engine over an acyclic reverse graph,
then for every accumulator `a` the analysis created, the number of `SumGrad` calls made on
it is its reference count when the grad-outputs routed to it are redirected to temporaries,
that is when the variable bound for writing is stop-gradient or the reference count exceeds
1 (the test of line 354), and 0 otherwise. -/
theorem sum_grad_calls_by_redirection {n : Nat} (C : Collab) (w : World n) (init : Fin n)
    (hinit : w.engine.init_node = some init) (hidle : w.engine.Idle) (hac : Acyclic w.graph)
    (hok : (BasicEngine.Execute C w).error? = none) :
    ∃ evs, (BasicEngine.Execute C w).state.trace = w.trace ++ evs ∧
      ∀ r a, (BasicEngine.PrepareDeps C w).state.engine.acc? r = some a →
        sumGradCalls evs r
          = if redirected (BasicEngine.PrepareDeps C w).state r.var a = true then a.ref_cnt
            else 0 := by
  obtain ⟨w1, sF, hp, hl, hex⟩ := Execute_ok_split C w init hinit hok
  obtain ⟨vis, hnd, hvis, han, hdeps, hrefs, _, _, hacc0⟩ :=
    PrepareDeps_spec C w init hinit (by rw [hp]; rfl)
  obtain ⟨_, _, hleaf0, hneed0, _⟩ := hidle
  have hwf1 := PrepareDeps_wf C w (AccWF_idle w hacc0 hleaf0)
  rw [hp] at han hdeps hrefs hwf1 ⊢
  simp only [Res.state] at han hdeps hrefs hwf1 ⊢
  have hg : (takeInitNode w1).graph = w.graph := han.graph
  have hwr : (takeInitNode w1).wrappers = w.wrappers := han.wrappers
  have hwf0 : AccWF (takeInitNode w1) := by
    intro r a ha
    rw [takeInitNode_acc] at ha
    exact hwf1 r a ha
  have hzero : ∀ r, refCntOf w.engine r = 0 := by
    intro r
    cases r <;> simp [refCntOf, BasicEngine.acc?, hleaf0, hacc0, find]
  have hexists : ∀ r, ((takeInitNode w1).engine.acc? r).isSome = true ↔
      0 < writeSites (takeInitNode w1).graph (takeInitNode w1).wrappers vis r := by
    intro r
    rw [hg, hwr, takeInitNode_acc]
    have hr := hrefs r
    rw [hzero, Nat.zero_add] at hr
    rw [← hr]
    cases ha : w1.engine.acc? r with
    | none => simp [refCntOf, ha]
    | some a =>
      have := (hwf1 r a ha).1
      simp [refCntOf, ha, this]
  have hstart := SchedInv.initial (takeInitNode w1) init vis (by rw [hg]; exact hvis)
    (by rw [hg]; exact hac) (by rw [hg]; exact hdeps)
  have hcount0 : CountInv (takeInitNode w1) []
      ({ world := takeInitNode w1, q := [init] } : Sched n) :=
    ⟨han.need_accu.trans hneed0, fun r => by simp⟩
  have hclosed : ∀ m ∈ vis, ∀ p, Edge (takeInitNode w1).graph m p → p ∈ vis := by
    intro m hm p he
    rw [hg] at he
    exact (hvis p).mpr (Relation.ReflTransGen.tail ((hvis m).mp hm) he)
  obtain ⟨l, ⟨hinv, hcnt⟩, hq⟩ := execLoop_inv C
    (fun done s => SchedInv (takeInitNode w1) init vis done s ∧
      CountInv (takeInitNode w1) done s)
    (fun done cur rest s s1 hq hJ h =>
      ⟨execNode_inv C (takeInitNode w1) init vis done cur rest s s1 hclosed hq hJ.1 h,
        execNode_count C (takeInitNode w1) init vis done cur rest s s1 hwf0 hq hJ.1 hJ.2 h⟩)
    (n + 1) [] _ sF ⟨hstart, hcount0⟩ hl
  simp only [List.nil_append] at hinv hcnt
  have hall := hinv.complete hq (by rw [hg]; exact hvis) hnd (by rw [hg]; exact hac)
  have hdone_nd : l.Nodup := by
    have := hinv.nodup
    rwa [hq, List.append_nil] at this
  have hsub : ∀ m ∈ l, m ∈ vis := fun m hm => hinv.sub m (List.mem_append_left _ hm)
  have hperm : l.Perm vis :=
    (List.perm_ext_iff_of_nodup hdone_nd hnd).mpr (fun m => ⟨hsub m, hall m⟩)
  obtain ⟨evs, hevs, _⟩ := hinv.frame.trace
  have htr : (takeInitNode w1).trace = w.trace := han.trace
  refine ⟨evs, ?_, ?_⟩
  · rw [hex]
    show sF.world.trace = _
    rw [hevs, htr]
  · intro r a ha
    have hsum := sumGradCalls_cancel _ _ evs r _ hevs (hcnt.calls r)
    rw [hsum, opSums_total (takeInitNode w1) vis hexists r l hsub,
      writeSites_perm _ _ l vis hperm r, hg, hwr]
    have hr := hrefs r
    rw [hzero, Nat.zero_add] at hr
    have hred : redirectedAt (takeInitNode w1) r = redirected w1 r.var a := by
      simp only [redirectedAt, takeInitNode_acc, ha]
      rfl
    rw [hred, ← hr]
    simp [refCntOf, ha]

/-- Witness of the amended C4 on the example. -/
theorem sum_grad_calls_by_redirection_witness :
    ∃ evs, (BasicEngine.Execute exCollab exReady).state.trace = exReady.trace ++ evs ∧
      ∀ r a, (BasicEngine.PrepareDeps exCollab exReady).state.engine.acc? r = some a →
        sumGradCalls evs r
          = if redirected (BasicEngine.PrepareDeps exCollab exReady).state r.var a = true
            then a.ref_cnt else 0 :=
  sum_grad_calls_by_redirection exCollab exReady 0 (by decide) (by decide) exGraph_acyclic
    (by decide!)

/-! ## Fuel: the loops never run out of it -/

theorem forEach_fuel {σ α : Type} (body : α → σ → Res σ)
    (hbody : ∀ a s, (body a s).error? ≠ some .FuelExhausted) :
    ∀ (l : List α) (s : σ), (forEach body l s).error? ≠ some .FuelExhausted := by
  intro l
  induction l with
  | nil => intro s; simp [forEach, Res.error?]
  | cons a l ih =>
    intro s
    simp only [forEach]
    have := hbody a s
    rcases hb : body a s with ⟨e, s1⟩ | s1
    · rw [hb] at this
      exact this
    · exact ih s1

theorem prepareLeaf_fuel {n : Nat} (C : Collab) (var : VarId) (w : World n) :
    (prepareLeaf C var w).error? ≠ some .FuelExhausted := by
  unfold prepareLeaf
  simp only
  split <;> simp [Res.error?]

theorem prepareNonLeaf_fuel {n : Nat} (C : Collab) (var : VarId)
    (pending : List (Option (Fin n))) :
    ∀ w : World n, (prepareNonLeaf C var pending w).error? ≠ some .FuelExhausted := by
  induction pending with
  | nil => intro w; simp [prepareNonLeaf, Res.error?]
  | cons a l ih =>
    intro w
    cases a with
    | none => simp [prepareNonLeaf, Res.error?]
    | some p =>
      simp only [prepareNonLeaf]
      split
      · simp [Res.error?]
      · split
        · exact ih w
        · split <;> simp [Res.error?]

theorem prepareVar_fuel {n : Nat} (C : Collab) (pending : List (Option (Fin n)))
    (var : Option VarId) (w : World n) :
    (prepareVar C pending var w).error? ≠ some .FuelExhausted := by
  cases var with
  | none => simp [prepareVar, Res.error?]
  | some v =>
    simp only [prepareVar]
    split
    · exact prepareLeaf_fuel C v w
    · exact prepareNonLeaf_fuel C v pending w

theorem prepareOp_fuel {n : Nat} (C : Collab) (pending : List (Option (Fin n))) (op : OpBase)
    (w : World n) : (prepareOp C pending op w).error? ≠ some .FuelExhausted := by
  unfold prepareOp
  split
  · simp [Res.error?]
  · unfold BasicEngine.PrepareGradAccumulators
    refine forEach_fuel _ (fun pair s => ?_) _ _
    split
    · simp [Res.error?]
    · exact forEach_fuel _ (prepareVar_fuel C pending) _ _

theorem scanPending_fuel {n : Nat} (e : Option (Fin n)) (s : Sweep n) :
    (scanPending e s).error? ≠ some .FuelExhausted := by
  cases e with
  | none => simp [scanPending, Res.error?]
  | some p =>
    simp only [scanPending]
    split <;> simp [Res.error?]

theorem sweepNode_fuel {n : Nat} (C : Collab) (cur : Fin n) (s : Sweep n) :
    (sweepNode C cur s).error? ≠ some .FuelExhausted := by
  unfold sweepNode
  simp only
  have h1 := forEach_fuel _ (prepareOp_fuel C (s.world.graph cur).grad_pending_nodes)
    (s.world.graph cur).ops s.world
  rcases hf : forEach (prepareOp C (s.world.graph cur).grad_pending_nodes)
      (s.world.graph cur).ops s.world with ⟨e, wE⟩ | wA
  · rw [hf] at h1
    simpa [Sweep.lift, Res.error?] using h1
  · simp only [Sweep.lift]
    exact forEach_fuel _ scanPending_fuel _ _

theorem nodup_length_le {n : Nat} (l : List (Fin n)) (h : l.Nodup) : l.length ≤ n := by
  have := h.length_le_card
  simpa using this

/-- The sweep of `PrepareDeps` pops every node at most once: `n` units of fuel are enough. -/
theorem sweepLoop_fuel {n : Nat} (C : Collab) (w0 : World n) (init : Fin n) :
    ∀ (fuel : Nat) (proc : List (Fin n)) (s : Sweep n), SweepInv w0 init proc s →
      n ≤ fuel + proc.length → (sweepLoop C fuel s).error? ≠ some .FuelExhausted := by
  intro fuel
  induction fuel with
  | zero =>
    intro proc s hinv hfuel
    unfold sweepLoop
    rcases hq : s.q with _ | ⟨cur, rest⟩
    · simp [Res.error?]
    · exfalso
      have h1 := nodup_length_le _ hinv.nodup
      rw [hinv.vis, hq, List.length_append, List.length_cons] at h1
      omega
  | succ fuel ih =>
    intro proc s hinv hfuel
    unfold sweepLoop
    rcases hq : s.q with _ | ⟨cur, rest⟩
    · simp [Res.error?]
    · simp only
      have h1 := sweepNode_fuel C cur { s with q := rest }
      rcases hn : sweepNode C cur { s with q := rest } with ⟨e, sE⟩ | s2
      · rw [hn] at h1
        exact h1
      · simp only
        refine ih (proc ++ [cur]) s2 (sweepNode_spec C w0 init proc cur rest s s2 hq hinv hn) ?_
        rw [List.length_append, List.length_singleton]
        omega

theorem PrepareDeps_fuel {n : Nat} (C : Collab) (w : World n) :
    (BasicEngine.PrepareDeps C w).error? ≠ some .FuelExhausted := by
  unfold BasicEngine.PrepareDeps
  by_cases h1 : w.engine.node_deps.isEmpty = true
  swap
  · simp [h1, Res.error?]
  by_cases h2 : w.engine.accumulators.isEmpty = true
  swap
  · simp [h1, h2, Res.error?]
  simp only [h1, h2, Bool.not_true, Bool.false_eq_true, if_false]
  cases hinit : w.engine.init_node with
  | none => simp [Res.error?]
  | some init =>
    simp only
    have hnd : w.engine.node_deps = [] := List.isEmpty_iff.mp h1
    have hinv0 : SweepInv w init []
        ({ world := w, q := [init], visited := [init] } : Sweep n) := by
      refine ⟨Analysed.start w, rfl, List.nodup_singleton _, ?_, List.mem_singleton_self _,
        by simp, ?_, by simp [writeSites], by simp⟩
      · intro m hm
        simp only [List.mem_singleton] at hm
        subst hm
        exact Relation.ReflTransGen.refl
      · intro p
        simp [hnd, find, pendingCount, depEntry]
    have := sweepLoop_fuel C w init n [] _ hinv0 (by simp)
    rcases hl : sweepLoop C n ({ world := w, q := [init], visited := [init] } : Sweep n)
      with ⟨e, s1⟩ | s1
    · rw [hl] at this
      simpa [Res.error?] using this
    · simp [Res.error?]

theorem remapVar_fuel {n : Nat} (C : Collab) (cur_node : Fin n) (bwd_ins : NameVarMap VarId)
    (slot : String) (v : VarId) (w : World n) (e : Error) (x : World n)
    (h : remapVar C cur_node bwd_ins slot v w = .error (e, x)) : e ≠ .FuelExhausted := by
  unfold remapVar at h
  rcases hf : findAccumulator w cur_node v with _ | ⟨ref, acc⟩
  · rw [hf] at h
    cases h
    simp
  rw [hf] at h
  simp only at h
  generalize (if (w.wrappers v).is_leaf_grad then
          (({ w with engine := { w.engine with
             leaf_accumulators :=
               if ref ∈ w.engine.leaf_accumulators then w.engine.leaf_accumulators
               else w.engine.leaf_accumulators ++ [ref] } } : World n),
           acc.inner_var.getD (.graphVar v))
        else (w, .graphVar v)) = b1 at h
  split at h
  · cases h
  · split at h
    · cases h
    · split at h
      · cases h
        simp
      · cases h

theorem remapVars_fuel {n : Nat} (C : Collab) (cur_node : Fin n) (bwd_ins : NameVarMap VarId)
    (slot : String) (l : List (Option VarId)) :
    ∀ (w : World n) (e : Error) (x : World n),
      remapVars C cur_node bwd_ins slot l w = .error (e, x) → e ≠ .FuelExhausted := by
  induction l with
  | nil => intro w e x h; cases h
  | cons a l ih =>
    intro w e x h
    cases a with
    | none =>
      simp only [remapVars] at h
      rcases hr : remapVars C cur_node bwd_ins slot l w with ⟨e1, x1⟩ | ⟨w1, vs⟩
      · rw [hr] at h
        cases h
        exact ih w e x hr
      · rw [hr] at h; cases h
    | some v =>
      simp only [remapVars] at h
      rcases hr1 : remapVar C cur_node bwd_ins slot v w with ⟨e1, x1⟩ | ⟨w1, var⟩
      · rw [hr1] at h
        cases h
        exact remapVar_fuel C cur_node bwd_ins slot v w e x hr1
      · rw [hr1] at h
        simp only at h
        rcases hr2 : remapVars C cur_node bwd_ins slot l w1 with ⟨e2, x2⟩ | ⟨w2, vs⟩
        · rw [hr2] at h
          cases h
          exact ih w1 e x hr2
        · rw [hr2] at h; cases h

theorem remapOuts_fuel {n : Nat} (C : Collab) (cur_node : Fin n) (bwd_ins : NameVarMap VarId)
    (outs : NameVarMap VarId) :
    ∀ (w : World n) (e : Error) (x : World n),
      remapOuts C cur_node bwd_ins outs w = .error (e, x) → e ≠ .FuelExhausted := by
  induction outs with
  | nil => intro w e x h; cases h
  | cons a l ih =>
    intro w e x h
    obtain ⟨slot, sl⟩ := a
    simp only [remapOuts] at h
    split at h
    · rcases hr : remapOuts C cur_node bwd_ins l w with ⟨e1, x1⟩ | ⟨w1, m⟩
      · rw [hr] at h
        cases h
        exact ih w e x hr
      · rw [hr] at h; cases h
    · rcases hr1 : remapVars C cur_node bwd_ins slot sl.vars w with ⟨e1, x1⟩ | ⟨w1, vs⟩
      · rw [hr1] at h
        cases h
        exact remapVars_fuel C cur_node bwd_ins slot sl.vars w e x hr1
      · rw [hr1] at h
        simp only at h
        rcases hr2 : remapOuts C cur_node bwd_ins l w1 with ⟨e2, x2⟩ | ⟨w2, m⟩
        · rw [hr2] at h
          cases h
          exact ih w1 e x hr2
        · rw [hr2] at h; cases h

theorem checkVersions_fuel {n : Nat} (cur_op : OpBase) (w : World n) :
    (checkVersions cur_op w).error? ≠ some .FuelExhausted := by
  unfold checkVersions
  refine forEach_fuel _ (fun pair s => forEach_fuel _ (fun var s1 => ?_) _ _) _ _
  cases var with
  | none => simp [checkVersion, Res.error?]
  | some v =>
    simp only [checkVersion]
    split <;> simp [Res.error?]

theorem runOp_fuel {n : Nat} (C : Collab) (cur_node : Fin n) (idx : Nat) (cur_op : OpBase)
    (w : World n) : (runOp C cur_node idx cur_op w).error? ≠ some .FuelExhausted := by
  unfold runOp
  simp only
  rcases hrm : remapOuts C cur_node cur_op.ins cur_op.outs
      (BasicEngine.CheckBackwardInputs cur_op w) with ⟨e, w1⟩ | ⟨w2, tmp_outs⟩
  · have := remapOuts_fuel C cur_node cur_op.ins cur_op.outs _ e w1 hrm
    simpa [Res.error?] using this
  · simp only
    have hcv := checkVersions_fuel cur_op w2
    rcases hv : checkVersions cur_op w2 with ⟨e, w3⟩ | w3
    · rw [hv] at hcv
      exact hcv
    · simp only
      split <;> simp [Res.error?]

theorem runOps_fuel {n : Nat} (C : Collab) (cur_node : Fin n) (w : World n) :
    (runOps C cur_node w).error? ≠ some .FuelExhausted := by
  unfold runOps
  refine forEach_fuel _ (fun idx s => ?_) _ _
  split
  · simp [Res.error?]
  · exact runOp_fuel C cur_node idx _ s

theorem collectReady_fuel {n : Nat} (e : Option (Fin n)) (s : Sched n) :
    (collectReady e s).error? ≠ some .FuelExhausted := by
  cases e with
  | none => simp [collectReady, Res.error?]
  | some p =>
    simp only [collectReady]
    split
    · simp [Res.error?]
    · split <;> simp [Res.error?]

theorem execNode_fuel {n : Nat} (C : Collab) (cur : Fin n) (s : Sched n) :
    (execNode C cur s).error? ≠ some .FuelExhausted := by
  unfold execNode
  have h1 := runOps_fuel C cur s.world
  rcases hr : runOps C cur s.world with ⟨e, wE⟩ | wA
  · rw [hr] at h1
    simpa [Sched.lift, Res.error?] using h1
  · simp only [Sched.lift]
    exact forEach_fuel _ collectReady_fuel _ _

theorem collectReady_push {n : Nat} (init : Fin n) (done : List (Fin n)) (e : Option (Fin n))
    (s s1 : Sched n) (hI : PushInv init done s) (h : collectReady e s = .ok s1) :
    PushInv init done s1 := by
  cases e with
  | none => simp [collectReady] at h
  | some p =>
    simp only [collectReady] at h
    cases hf : find p s.world.engine.node_deps with
    | none =>
      rw [hf] at h
      simp only [Except.ok.injEq] at h
      subst h
      exact hI
    | some d =>
      rw [hf] at h
      dsimp only at h
      obtain ⟨L, hL, hnd, hdeps⟩ := hI
      by_cases hz : d - 1 = 0
      · rw [if_pos hz] at h
        simp only [Except.ok.injEq] at h
        subst h
        have hp : p ∉ L := by
          intro hm
          obtain ⟨d1, hd1, hle⟩ := hdeps p hm
          rw [hf] at hd1
          cases hd1
          omega
        refine ⟨L ++ [p], ?_, ?_, ?_⟩
        · show done ++ (s.q ++ [p]) = _
          rw [← List.append_assoc, hL]
          rfl
        · exact List.Nodup.append hnd (List.nodup_singleton p)
            (by
              intro x hx hx2
              rw [List.mem_singleton] at hx2
              subst hx2
              exact hp hx)
        · intro q hq
          show ∃ d1, find q (upsert p _ _) = some d1 ∧ d1 ≤ 0
          rw [find_upsert]
          by_cases hqp : q = p
          · rw [if_pos hqp]
            exact ⟨d - 1, rfl, by omega⟩
          · rw [if_neg hqp]
            rcases List.mem_append.mp hq with h1 | h1
            · exact hdeps q h1
            · rw [List.mem_singleton] at h1
              exact absurd h1 hqp
      · rw [if_neg hz] at h
        simp only [Except.ok.injEq] at h
        subst h
        refine ⟨L, hL, hnd, ?_⟩
        intro q hq
        show ∃ d1, find q (upsert p _ _) = some d1 ∧ d1 ≤ 0
        rw [find_upsert]
        by_cases hqp : q = p
        · rw [if_pos hqp]
          subst hqp
          obtain ⟨d1, hd1, hle⟩ := hdeps q hq
          rw [hf] at hd1
          cases hd1
          exact ⟨d - 1, rfl, by omega⟩
        · rw [if_neg hqp]
          exact hdeps q hq

theorem execNode_push {n : Nat} (C : Collab) (init : Fin n) (done : List (Fin n)) (cur : Fin n)
    (rest : List (Fin n)) (s s1 : Sched n) (hq : s.q = cur :: rest) (hI : PushInv init done s)
    (h : execNode C cur { s with q := rest } = .ok s1) : PushInv init (done ++ [cur]) s1 := by
  unfold execNode at h
  have hst := runOps_stepped C cur s.world
  rcases hr : runOps C cur s.world with ⟨e, wE⟩ | wA
  · simp [hr, Sched.lift] at h
  rw [hr] at hst
  have hst : Stepped cur (fun _ => True) s.world wA := hst
  simp only [hr, Sched.lift] at h
  have hA : PushInv init (done ++ [cur]) ({ world := wA, q := rest } : Sched n) := by
    obtain ⟨L, hL, hnd, hdeps⟩ := hI
    refine ⟨L, ?_, hnd, ?_⟩
    · show (done ++ [cur]) ++ rest = _
      rw [← hL, hq]
      simp
    · intro p hp
      show ∃ d, find p wA.engine.node_deps = some d ∧ d ≤ 0
      rw [hst.node_deps]
      exact hdeps p hp
  exact forEach_ok_inv collectReady (fun s2 => PushInv init (done ++ [cur]) s2) _
    (fun a _ s2 s3 hs2 hb => collectReady_push init _ a s2 s3 hs2 hb) _ s1 hA h

/-- The scheduling loop of `Execute` pops the initial node at most twice and every other node
at most once, in any graph: `n + 1` units of fuel are enough. -/
theorem execLoop_fuel {n : Nat} (C : Collab) (init : Fin n) :
    ∀ (fuel : Nat) (done : List (Fin n)) (s : Sched n), PushInv init done s →
      n + 1 ≤ fuel + done.length → (execLoop C fuel s).error? ≠ some .FuelExhausted := by
  intro fuel
  induction fuel with
  | zero =>
    intro done s hI hfuel
    unfold execLoop
    rcases hq : s.q with _ | ⟨cur, rest⟩
    · simp [Res.error?]
    · exfalso
      obtain ⟨L, hL, hnd, _⟩ := hI
      have h1 := nodup_length_le _ hnd
      have h2 := congrArg List.length hL
      rw [hq, List.length_append, List.length_cons, List.length_cons] at h2
      omega
  | succ fuel ih =>
    intro done s hI hfuel
    unfold execLoop
    rcases hq : s.q with _ | ⟨cur, rest⟩
    · simp [Res.error?]
    · simp only
      have h1 := execNode_fuel C cur { s with q := rest }
      rcases hn : execNode C cur { s with q := rest } with ⟨e, sE⟩ | s2
      · rw [hn] at h1
        exact h1
      · simp only
        refine ih (done ++ [cur]) s2 (execNode_push C init done cur rest s s2 hq hI hn) ?_
        rw [List.length_append, List.length_singleton]
        omega

/-- The error `FuelExhausted` of the model is never raised by `Execute`: every error of the
model is an error of the code. -/
theorem Execute_fuel {n : Nat} (C : Collab) (w : World n) :
    (BasicEngine.Execute C w).error? ≠ some .FuelExhausted := by
  unfold BasicEngine.Execute
  cases hinit : w.engine.init_node with
  | none => simp [Res.error?]
  | some init =>
    simp only
    have hp := PrepareDeps_fuel C w
    rcases hpd : BasicEngine.PrepareDeps C w with ⟨e, wE⟩ | w1
    · rw [hpd] at hp
      exact hp
    · simp only
      have hl := execLoop_fuel C init (n + 1) [] { world := takeInitNode w1, q := [init] }
        ⟨[], rfl, List.nodup_nil, fun _ h => by cases h⟩ (by simp)
      rcases hlp : execLoop C (n + 1) { world := takeInitNode w1, q := [init] }
        with ⟨e, sE⟩ | sF
      · rw [hlp] at hl
        simpa [Res.error?] using hl
      · simp [Res.error?]

/-! ## The errors of `PrepareDeps` -/

theorem forEach_errors {σ α : Type} (P : Error → Prop) (body : α → σ → Res σ)
    (hbody : ∀ a s e, (body a s).error? = some e → P e) :
    ∀ (l : List α) (s : σ) (e : Error), (forEach body l s).error? = some e → P e := by
  intro l
  induction l with
  | nil => intro s e h; simp [forEach, Res.error?] at h
  | cons a l ih =>
    intro s e h
    simp only [forEach] at h
    rcases hb : body a s with ⟨e1, s1⟩ | s1
    · rw [hb] at h
      exact hbody a s e (by rw [hb]; exact h)
    · rw [hb] at h
      exact ih s1 e h

theorem prepareLeaf_errors {n : Nat} (C : Collab) (var : VarId) (w : World n) (e : Error)
    (h : (prepareLeaf C var w).error? = some e) : e.isSweepError = true := by
  unfold prepareLeaf at h
  simp only at h
  split at h
  · simp [Res.error?] at h
  · simp only [Res.error?, Option.some.injEq] at h
    rw [← h]
    rfl

theorem prepareNonLeaf_errors {n : Nat} (C : Collab) (var : VarId)
    (pending : List (Option (Fin n))) :
    ∀ (w : World n) (e : Error), (prepareNonLeaf C var pending w).error? = some e →
      e.isSweepError = true := by
  induction pending with
  | nil => intro w e h; simp [prepareNonLeaf, Res.error?] at h
  | cons a l ih =>
    intro w e h
    cases a with
    | none =>
      simp only [prepareNonLeaf, Res.error?, Option.some.injEq] at h
      rw [← h]; rfl
    | some p =>
      simp only [prepareNonLeaf] at h
      split at h
      · simp only [Res.error?, Option.some.injEq] at h
        rw [← h]; rfl
      · split at h
        · exact ih w e h
        · split at h
          · simp [Res.error?] at h
          · simp only [Res.error?, Option.some.injEq] at h
            rw [← h]; rfl

theorem prepareOp_errors {n : Nat} (C : Collab) (pending : List (Option (Fin n))) (op : OpBase)
    (w : World n) (e : Error) (h : (prepareOp C pending op w).error? = some e) :
    e.isSweepError = true := by
  unfold prepareOp at h
  split at h
  · simp only [Res.error?, Option.some.injEq] at h
    rw [← h]; rfl
  · unfold BasicEngine.PrepareGradAccumulators at h
    refine forEach_errors (fun e => e.isSweepError = true) _ (fun pair s e1 h1 => ?_) _ _ e h
    split at h1
    · simp [Res.error?] at h1
    · refine forEach_errors (fun e => e.isSweepError = true) _ (fun var s1 e2 h2 => ?_) _ _ e1 h1
      cases var with
      | none => simp [prepareVar, Res.error?] at h2
      | some v =>
        simp only [prepareVar] at h2
        split at h2
        · exact prepareLeaf_errors C v s1 e2 h2
        · exact prepareNonLeaf_errors C v pending s1 e2 h2

theorem sweepNode_errors {n : Nat} (C : Collab) (cur : Fin n) (s : Sweep n) (e : Error)
    (h : (sweepNode C cur s).error? = some e) : e.isSweepError = true := by
  unfold sweepNode at h
  simp only at h
  rcases hf : forEach (prepareOp C (s.world.graph cur).grad_pending_nodes)
      (s.world.graph cur).ops s.world with ⟨e1, wE⟩ | wA
  · rw [hf] at h
    simp only [Sweep.lift, Res.error?, Option.some.injEq] at h
    refine forEach_errors (fun e => e.isSweepError = true) _
      (prepareOp_errors C (s.world.graph cur).grad_pending_nodes) (s.world.graph cur).ops
      s.world e ?_
    rw [hf, ← h]
    rfl
  · rw [hf] at h
    simp only [Sweep.lift] at h
    refine forEach_errors (fun e => e.isSweepError = true) _ (fun a s1 e1 h1 => ?_) _ _ e h
    cases a with
    | none =>
      simp only [scanPending, Res.error?, Option.some.injEq] at h1
      rw [← h1]; rfl
    | some p =>
      simp only [scanPending] at h1
      split at h1 <;> simp [Res.error?] at h1

theorem sweepLoop_errors {n : Nat} (C : Collab) :
    ∀ (fuel : Nat) (s : Sweep n) (e : Error), (sweepLoop C fuel s).error? = some e →
      e.isSweepError = true ∨ e = .FuelExhausted := by
  intro fuel
  induction fuel with
  | zero =>
    intro s e h
    unfold sweepLoop at h
    rcases hq : s.q with _ | ⟨cur, rest⟩
    · simp [hq, Res.error?] at h
    · simp only [hq, Res.error?, Option.some.injEq] at h
      exact Or.inr h.symm
  | succ fuel ih =>
    intro s e h
    unfold sweepLoop at h
    rcases hq : s.q with _ | ⟨cur, rest⟩
    · simp [hq, Res.error?] at h
    · simp only [hq] at h
      rcases hn : sweepNode C cur { s with q := rest } with ⟨e1, sE⟩ | s2
      · rw [hn] at h
        simp only [Res.error?, Option.some.injEq] at h
        exact Or.inl (sweepNode_errors C cur _ e (by rw [hn, ← h]; rfl))
      · rw [hn] at h
        exact ih s2 e h

/-- The errors of `PrepareDeps`: `AlreadyInitialized` is raised by the two checks of lines
223-228 and by nothing else. -/
theorem PrepareDeps_errors {n : Nat} (C : Collab) (w : World n) :
    ((BasicEngine.PrepareDeps C w).error? = some .AlreadyInitialized ↔
      (w.engine.node_deps ≠ [] ∨ w.engine.accumulators ≠ [])) ∧
    ((BasicEngine.PrepareDeps C w).error? = some .AlreadyInitialized →
      (BasicEngine.PrepareDeps C w).state = w) ∧
    (∀ e, (BasicEngine.PrepareDeps C w).error? = some e → w.engine.node_deps = [] →
      w.engine.accumulators = [] → w.engine.init_node ≠ none → e.isSweepError = true) := by
  unfold BasicEngine.PrepareDeps
  by_cases h1 : w.engine.node_deps.isEmpty = true
  swap
  · have h1n : w.engine.node_deps ≠ [] := fun h => h1 (by rw [h]; rfl)
    simp only [h1, Bool.not_false, if_true, Res.error?, Res.state, true_iff, implies_true,
      and_true, true_and]
    exact ⟨Or.inl h1n, fun e _ h => absurd h h1n⟩
  have hnd : w.engine.node_deps = [] := List.isEmpty_iff.mp h1
  by_cases h2 : w.engine.accumulators.isEmpty = true
  swap
  · have h2n : w.engine.accumulators ≠ [] := fun h => h2 (by rw [h]; rfl)
    simp only [h1, h2, Bool.not_true, Bool.not_false, Bool.false_eq_true, if_false, if_true,
      Res.error?, Res.state, true_iff, implies_true, and_true, true_and]
    exact ⟨Or.inr h2n, fun e _ _ h => absurd h h2n⟩
  have hacc : w.engine.accumulators = [] := List.isEmpty_iff.mp h2
  simp only [h1, h2, Bool.not_true, Bool.false_eq_true, if_false]
  have hno : ¬ (w.engine.node_deps ≠ [] ∨ w.engine.accumulators ≠ []) := by
    rintro (h | h)
    · exact h hnd
    · exact h hacc
  cases hinit : w.engine.init_node with
  | none =>
    simp only [Res.error?, Option.some.injEq, reduceCtorEq, false_iff, false_implies, true_and]
    exact ⟨hno, fun e _ _ _ h => absurd rfl h⟩
  | some init =>
    simp only
    have hloop := sweepLoop_errors C n { world := w, q := [init], visited := [init] }
    have hfuel := PrepareDeps_fuel C w
    unfold BasicEngine.PrepareDeps at hfuel
    simp only [h1, h2, Bool.not_true, Bool.false_eq_true, if_false, hinit] at hfuel
    rcases hl : sweepLoop C n ({ world := w, q := [init], visited := [init] } : Sweep n)
      with ⟨e1, s1⟩ | s1
    · rw [hl] at hloop hfuel
      simp only [Res.error?, Option.some.injEq, ne_eq] at hloop hfuel ⊢
      have hclass : e1.isSweepError = true := by
        rcases hloop e1 rfl with h | h
        · exact h
        · exact absurd h hfuel
      refine ⟨⟨fun h => ?_, fun h => absurd h hno⟩, fun h => ?_, fun e h _ _ _ => ?_⟩
      · rw [h] at hclass; cases hclass
      · rw [h] at hclass; cases hclass
      · rw [← h]; exact hclass
    · simp only [Res.error?, reduceCtorEq, false_iff, false_implies, true_and]
      exact ⟨hno, fun _ => trivial⟩

/-- C11. The precondition of `PrepareDeps`: it fails with `AlreadyInitialized` exactly when
`node_deps_` or `accumulators_` is non-empty at entry, and when it fails this way the world
is left as it was, `node_deps_`, `accumulators_` and `leaf_basic_accumulators_` included. -/
theorem prepare_deps_precondition {n : Nat} (C : Collab) (w : World n) :
    ((BasicEngine.PrepareDeps C w).error? = some .AlreadyInitialized ↔
      (w.engine.node_deps ≠ [] ∨ w.engine.accumulators ≠ [])) ∧
    ((BasicEngine.PrepareDeps C w).error? = some .AlreadyInitialized →
      (BasicEngine.PrepareDeps C w).state = w ∧
      (BasicEngine.PrepareDeps C w).state.engine.node_deps = w.engine.node_deps ∧
      (BasicEngine.PrepareDeps C w).state.engine.accumulators = w.engine.accumulators ∧
      (BasicEngine.PrepareDeps C w).state.engine.leaf_basic_accumulators
        = w.engine.leaf_basic_accumulators) := by
  obtain ⟨h1, h2, _⟩ := PrepareDeps_errors C w
  refine ⟨h1, fun h => ?_⟩
  have hs := h2 h
  rw [hs]
  exact ⟨rfl, rfl, rfl, rfl⟩

/-- Witness of C11: the second example with the analysis already made. -/
theorem prepare_deps_precondition_witness :
    (BasicEngine.PrepareDeps exCollab tPrepared).error? = some .AlreadyInitialized ∧
    (BasicEngine.PrepareDeps exCollab tPrepared).state = tPrepared :=
  ⟨(prepare_deps_precondition exCollab tPrepared).1.mpr (Or.inl (by decide)),
    ((prepare_deps_precondition exCollab tPrepared).2
      ((prepare_deps_precondition exCollab tPrepared).1.mpr (Or.inl (by decide)))).1⟩

/-! ## `Clear` and the per-operator work lists -/

/-- C12, evaluated on the code.  The method `Clear` resets `init_node_`, `node_deps_`,
`accumulators_`, `leaf_basic_accumulators_`, `need_accu_var_list_` and `leaf_accumulators_`
and leaves `inplace_var_list_` as it was.  Nothing else clears that list: in the in-place
example `Execute`, started from an idle engine with an empty list, returns normally with the
pair recorded for `relu_grad` still in it. -/
theorem clear_keeps_inplace_var_list :
    (∀ (n : Nat) (w : World n),
      (BasicEngine.Clear w).engine.init_node = none ∧
      (BasicEngine.Clear w).engine.node_deps = [] ∧
      (BasicEngine.Clear w).engine.accumulators = [] ∧
      (BasicEngine.Clear w).engine.leaf_basic_accumulators = [] ∧
      (BasicEngine.Clear w).engine.need_accu_var_list = [] ∧
      (BasicEngine.Clear w).engine.leaf_accumulators = [] ∧
      (BasicEngine.Clear w).engine.inplace_var_list = w.engine.inplace_var_list) ∧
    iWorld.engine.Idle ∧ iWorld.engine.inplace_var_list = [] ∧
    (BasicEngine.Execute exCollab iWorld).error? = none ∧
    (BasicEngine.Execute exCollab iWorld).state.engine.inplace_var_list
      = [(.graphVar 21, .fresh 1)] := by
  refine ⟨fun n w => ⟨rfl, rfl, rfl, rfl, rfl, rfl, rfl⟩, by decide, by decide, by decide!,
    by decide!⟩

/-- C17, evaluated on the code.  In the in-place example `Execute` runs `relu_grad` and then
`f_grad`.  The pair recorded in `inplace_var_list_` by the remapping of `relu_grad` is still
in the list when the first node is done, so the remapping of `f_grad` starts with a
non-empty list, and the pair is moved a second time after `f_grad` has run, although the
remapping of `f_grad` recorded no pair. -/
theorem inplace_pairs_moved_again :
    (BasicEngine.Execute exCollab iWorld).error? = none ∧
    ranOps (BasicEngine.Execute exCollab iWorld).state.trace = [(0, 0), (1, 0)] ∧
    (execNode exCollab 0
      { world := takeInitNode (BasicEngine.PrepareDeps exCollab iWorld).state, q := [] }
      ).state.world.engine.inplace_var_list = [(.graphVar 21, .fresh 1)] ∧
    movedPairs (BasicEngine.Execute exCollab iWorld).state.trace
      = [(.graphVar 21, .fresh 1), (.graphVar 21, .fresh 1)] := by
  refine ⟨by decide!, by decide!, by decide!, by decide!⟩

/-! ## `CheckBackwardInputs` as a function of the store -/

theorem foldl_inv_mem {σ α : Type} (f : σ → α → σ) (P : σ → Prop) (l : List α)
    (hf : ∀ s a, a ∈ l → P s → P (f s a)) : ∀ (s : σ), P s → P (l.foldl f s) := by
  induction l with
  | nil => intro s hs; exact hs
  | cons a l ih =>
    intro s hs
    exact ih (fun s1 b hb => hf s1 b (List.mem_cons_of_mem _ hb)) _
      (hf s a (List.mem_cons_self _ _) hs)

theorem foldl_reach {σ α : Type} (f : σ → α → σ) (P : σ → Prop) (D : α → σ → Prop)
    (l : List α) (hP : ∀ s a, a ∈ l → P s → P (f s a))
    (hD : ∀ s a, a ∈ l → P s → D a (f s a))
    (hkeep : ∀ s a b, a ∈ l → P s → D b s → D b (f s a)) :
    ∀ (s : σ), P s → ∀ a ∈ l, D a (l.foldl f s) := by
  induction l with
  | nil => intro s _ a ha; cases ha
  | cons b l ih =>
    intro s hs a ha
    have hs1 := hP s b (List.mem_cons_self _ _) hs
    have hP1 : ∀ s1 c, c ∈ l → P s1 → P (f s1 c) :=
      fun s1 c hc => hP s1 c (List.mem_cons_of_mem _ hc)
    have hkeep1 : ∀ s1 c d, c ∈ l → P s1 → D d s1 → D d (f s1 c) :=
      fun s1 c d hc => hkeep s1 c d (List.mem_cons_of_mem _ hc)
    rcases List.mem_cons.mp ha with rfl | h1
    · have h0 := hD s a (List.mem_cons_self _ _) hs
      simp only [List.foldl_cons]
      refine foldl_inv_mem f (fun s1 => P s1 ∧ D a s1) l ?_ _ ⟨hs1, h0⟩ |>.2
      intro s1 c hc hs2
      exact ⟨hP1 s1 c hc hs2.1, hkeep1 s1 c a hc hs2.1 hs2.2⟩
    · exact ih hP1 (fun s1 c hc => hD s1 c (List.mem_cons_of_mem _ hc)) hkeep1 _ hs1 a h1

theorem zeroFilled_hasData (place dtype : Nat) (x : Variable) :
    (zeroFilled place dtype x).hasData = true := by
  unfold zeroFilled
  rcases hh : x.holder with _ | (t | tag)
  · simp [Variable.hasData, Tensor.filled]
  · simp only
    split
    · simp [Variable.hasData, Tensor.filled]
    · rename_i h
      simp only [Variable.hasData, hh]
      cases ht : t.holder with
      | none => rw [ht] at h; simp at h
      | some a => rfl
  · simp [Variable.hasData, hh]

theorem zeroFilled_of_hasData (place dtype : Nat) (x : Variable) (h : x.hasData = true) :
    zeroFilled place dtype x = x := by
  unfold zeroFilled
  rcases hh : x.holder with _ | (t | tag)
  · simp [Variable.hasData, hh] at h
  · simp only [Variable.hasData, hh] at h
    simp only
    rw [if_neg]
    rw [Option.isNone_iff_eq_none]
    intro hn
    rw [hn] at h
    cases h
  · rfl

/-- The body of the inner loop of `CheckBackwardInputs`, as a function of the store. -/
theorem checkBackwardInput_store {n : Nat} (op : OpBase) (v : VarId) (w : World n) :
    (checkBackwardInput op v w).wrappers = w.wrappers ∧
    (checkBackwardInput op v w).store (.graphVar v)
      = zeroFilled op.place (w.wrappers v).data_type (w.store (.graphVar v)) ∧
    (∀ x, x ≠ .graphVar v → (checkBackwardInput op v w).store x = w.store x) ∧
    ((w.store (.graphVar v)).hasData = true → checkBackwardInput op v w = w) := by
  simp only [checkBackwardInput, zeroFilled]
  rcases hh : (w.store (.graphVar v)).holder with _ | (t | tag)
  · simp only [Tensor.blank, Option.isNone_none, if_true, Store.set, if_true, true_and]
    refine ⟨fun x hx => by rw [if_neg hx], fun h => ?_⟩
    simp [Variable.hasData, hh] at h
  · simp only
    by_cases ht : t.holder.isNone = true
    · simp only [ht, if_true, Store.set, true_and]
      refine ⟨fun x hx => by rw [if_neg hx], fun h => ?_⟩
      rw [Option.isNone_iff_eq_none] at ht
      simp [Variable.hasData, hh, ht] at h
    · simp only [ht, if_false]
      exact ⟨rfl, rfl, fun _ _ => rfl, fun _ => rfl⟩
  · exact ⟨rfl, rfl, fun _ _ => rfl, fun _ => rfl⟩

/-- The method `CheckBackwardInputs`, as a function of the store: every variable of a
grad-input slot ends zero-filled where it held no data, every other variable is as it was,
and a second call changes nothing. -/
theorem CheckBackwardInputs_store {n : Nat} (op : OpBase) (w : World n) :
    (∀ v, gradIn op v → (BasicEngine.CheckBackwardInputs op w).store (.graphVar v)
      = zeroFilled op.place (w.wrappers v).data_type (w.store (.graphVar v))) ∧
    (∀ x, (∀ v, gradIn op v → x ≠ .graphVar v) →
      (BasicEngine.CheckBackwardInputs op w).store x = w.store x) ∧
    BasicEngine.CheckBackwardInputs op (BasicEngine.CheckBackwardInputs op w)
      = BasicEngine.CheckBackwardInputs op w := by
  let Z : VarId → Variable := fun v =>
    zeroFilled op.place (w.wrappers v).data_type (w.store (.graphVar v))
  let P : World n → Prop := fun s =>
    s.wrappers = w.wrappers ∧
    ∀ x, s.store x = w.store x ∨ ∃ v, x = .graphVar v ∧ gradIn op v ∧ s.store x = Z v
  let D : VarId → World n → Prop := fun v s => s.store (.graphVar v) = Z v
  let step : World n → Option VarId → World n := fun s var =>
    match var with
    | none => s
    | some v => checkBackwardInput op v s
  have hidem : ∀ v, zeroFilled op.place (w.wrappers v).data_type (Z v) = Z v :=
    fun v => zeroFilled_of_hasData _ _ _ (zeroFilled_hasData _ _ _)
  have hnew : ∀ s v, P s → (checkBackwardInput op v s).store (.graphVar v) = Z v := by
    intro s v hs
    rw [(checkBackwardInput_store op v s).2.1, hs.1]
    rcases hs.2 (.graphVar v) with h | ⟨v1, hv1, _, h⟩
    · rw [h]
    · cases hv1
      rw [h]
      exact hidem v
  have hstepP : ∀ s var, (∀ v, var = some v → gradIn op v) → P s → P (step s var) := by
    intro s var hg hs
    cases var with
    | none => exact hs
    | some v =>
      refine ⟨(checkBackwardInput_store op v s).1.trans hs.1, fun x => ?_⟩
      by_cases hx : x = .graphVar v
      · subst hx
        exact Or.inr ⟨v, rfl, hg v rfl, hnew s v hs⟩
      · show (checkBackwardInput op v s).store x = _ ∨ _
        rw [(checkBackwardInput_store op v s).2.2.1 x hx]
        exact hs.2 x
  have hstepD : ∀ s var b, P s → D b s → D b (step s var) := by
    intro s var b hs hb
    cases var with
    | none => exact hb
    | some v =>
      by_cases hvb : v = b
      · subst hvb
        exact hnew s v hs
      · show (checkBackwardInput op v s).store (.graphVar b) = _
        rw [(checkBackwardInput_store op v s).2.2.1 _ (fun h => hvb (by cases h; rfl))]
        exact hb
  have hinnerP : ∀ (pair : String × SavedVariableWrapperList VarId), pair ∈ op.ins →
      pair.2.is_grad = true → ∀ s, P s → P (pair.2.vars.foldl step s) := by
    intro pair hp hg s hs
    refine foldl_inv_mem step P pair.2.vars (fun s1 var hvar hs1 => ?_) s hs
    exact hstepP s1 var (fun v hv => ⟨pair, hp, hg, hv ▸ hvar⟩) hs1
  have hinnerD : ∀ (l : List (Option VarId)) b s, P s →
      (∀ v, some v ∈ l → gradIn op v) → D b s → D b (l.foldl step s) := by
    intro l b s hs hl hb
    refine (foldl_inv_mem step (fun s1 => P s1 ∧ D b s1) l (fun s1 var hvar hs1 => ?_) s
      ⟨hs, hb⟩).2
    exact ⟨hstepP s1 var (fun v hv => hl v (hv ▸ hvar)) hs1.1, hstepD s1 var b hs1.1 hs1.2⟩
  let outer : World n → String × SavedVariableWrapperList VarId → World n := fun s pair =>
    if !pair.2.is_grad then s else pair.2.vars.foldl step s
  have hfold : BasicEngine.CheckBackwardInputs op w = op.ins.foldl outer w := rfl
  have houterP : ∀ s pair, pair ∈ op.ins → P s → P (outer s pair) := by
    intro s pair hp hs
    show P (if !pair.2.is_grad then s else pair.2.vars.foldl step s)
    by_cases hg : pair.2.is_grad = true
    · simp only [hg, Bool.not_true, Bool.false_eq_true, if_false]
      exact hinnerP pair hp hg s hs
    · simp only [hg, Bool.not_false, if_true]
      exact hs
  have houterD : ∀ s pair b, pair ∈ op.ins → P s → D b s → D b (outer s pair) := by
    intro s pair b hp hs hb
    show D b (if !pair.2.is_grad then s else pair.2.vars.foldl step s)
    by_cases hg : pair.2.is_grad = true
    · simp only [hg, Bool.not_true, Bool.false_eq_true, if_false]
      exact hinnerD pair.2.vars b s hs (fun v hv => ⟨pair, hp, hg, hv⟩) hb
    · simp only [hg, Bool.not_false, if_true]
      exact hb
  have hP0 : P w := ⟨rfl, fun x => Or.inl rfl⟩
  have hPend : P (op.ins.foldl outer w) := foldl_inv_mem outer P op.ins houterP w hP0
  have hgrad : ∀ v, gradIn op v → D v (op.ins.foldl outer w) := by
    rintro v ⟨pair, hp, hg, hv⟩
    have := foldl_reach outer P
      (fun pair s => pair.2.is_grad = true → ∀ v, some v ∈ pair.2.vars → D v s) op.ins houterP
      (fun s pair hp hs hg v hv => by
        show D v (if !pair.2.is_grad then s else pair.2.vars.foldl step s)
        simp only [hg, Bool.not_true, Bool.false_eq_true, if_false]
        have := foldl_reach step P (fun var s1 => ∀ v, var = some v → D v s1) pair.2.vars
          (fun s1 var hvar hs1 =>
            hstepP s1 var (fun v hv => ⟨pair, hp, hg, hv ▸ hvar⟩) hs1)
          (fun s1 var _ hs1 v hv => by subst hv; exact hnew s1 v hs1)
          (fun s1 var b _ hs1 hb v hv => hstepD s1 var v hs1 (hb v hv))
          s hs (some v) hv
        exact this v rfl)
      (fun s pair b hp hs hb hg v hv => houterD s pair v hp hs (hb hg v hv))
      w hP0 pair hp
    exact this hg v hv
  refine ⟨fun v hv => ?_, fun x hx => ?_, ?_⟩
  · rw [hfold]
    exact hgrad v hv
  · rw [hfold]
    rcases hPend.2 x with h | ⟨v, hv, hg, _⟩
    · exact h
    · exact absurd hv (hx v hg)
  · rw [hfold]
    have hdata : ∀ v, gradIn op v →
        ((op.ins.foldl outer w).store (.graphVar v)).hasData = true := by
      intro v hv
      rw [hgrad v hv]
      exact zeroFilled_hasData _ _ _
    refine foldl_inv_mem outer (fun s => s = op.ins.foldl outer w) op.ins ?_ _ rfl
    intro s pair hp hs
    subst hs
    show (if !pair.2.is_grad then _ else pair.2.vars.foldl step _) = _
    by_cases hg : pair.2.is_grad = true
    · simp only [hg, Bool.not_true, Bool.false_eq_true, if_false]
      refine foldl_inv_mem step (fun s => s = op.ins.foldl outer w) pair.2.vars ?_ _ rfl
      intro s var hvar hs
      subst hs
      cases var with
      | none => rfl
      | some v =>
        exact (checkBackwardInput_store op v _).2.2.2 (hdata v ⟨pair, hp, hg, hvar⟩)
    · simp only [hg, Bool.not_false, if_true]

/-- C13. `CheckBackwardInputs` zero-fills missing gradients and nothing else.  After the
call, a variable of a grad-input slot that was uninitialized, or held a dense tensor without
data, holds a dense tensor of the same dims (those of a default tensor when it was
uninitialized) allocated on the place of the operator with the dtype of its wrapper and every
element 0; a variable that held data (an allocated dense tensor or a value of another type)
is as it was, and so is every variable that occurs in no grad-input slot; the graph, the
wrappers and the engine are untouched; and a second call changes nothing. -/
theorem check_backward_inputs_zero_fill {n : Nat} (op : OpBase) (w : World n) :
    (∀ v, gradIn op v →
      ((w.store (.graphVar v)).holder = none →
        (BasicEngine.CheckBackwardInputs op w).store (.graphVar v)
          = { holder := some (.lodTensor (.filled [0] op.place (w.wrappers v).data_type 0))
              inplace_version := (w.store (.graphVar v)).inplace_version }) ∧
      (∀ t, (w.store (.graphVar v)).holder = some (.lodTensor t) → t.holder = none →
        (BasicEngine.CheckBackwardInputs op w).store (.graphVar v)
          = { holder := some (.lodTensor (.filled t.dims op.place (w.wrappers v).data_type 0))
              inplace_version := (w.store (.graphVar v)).inplace_version })) ∧
    (∀ x, (w.store x).hasData = true →
      (BasicEngine.CheckBackwardInputs op w).store x = w.store x) ∧
    (∀ x, (∀ v, gradIn op v → x ≠ .graphVar v) →
      (BasicEngine.CheckBackwardInputs op w).store x = w.store x) ∧
    ((BasicEngine.CheckBackwardInputs op w).graph = w.graph ∧
      (BasicEngine.CheckBackwardInputs op w).wrappers = w.wrappers ∧
      (BasicEngine.CheckBackwardInputs op w).temps = w.temps ∧
      (BasicEngine.CheckBackwardInputs op w).engine = w.engine) ∧
    BasicEngine.CheckBackwardInputs op (BasicEngine.CheckBackwardInputs op w)
      = BasicEngine.CheckBackwardInputs op w := by
  obtain ⟨h1, h2, h3⟩ := CheckBackwardInputs_store op w
  have hfr := CheckBackwardInputs_frame op w
  refine ⟨fun v hv => ⟨fun hn => ?_, fun t ht htn => ?_⟩, hfr.kept, h2,
    ⟨hfr.graph, hfr.wrappers, hfr.temps, hfr.engine⟩, h3⟩
  · rw [h1 v hv]
    simp only [zeroFilled, hn, Tensor.blank]
  · rw [h1 v hv]
    simp only [zeroFilled, ht, htn, Option.isNone_none, if_true]

/-- Witness of C13: the gradient of `u` in the second example, uninitialized when `mul_grad`
is checked, is zero-filled. -/
theorem check_backward_inputs_zero_fill_witness :
    (BasicEngine.CheckBackwardInputs opMul tWorld).store (.graphVar 11)
      = { holder := some (.lodTensor (.filled [0] 0 5 0)), inplace_version := 0 } :=
  ((check_backward_inputs_zero_fill opMul tWorld).1 11
    ⟨("Out@GRAD", ⟨[some 11], true⟩), by decide, rfl, by decide⟩).1 (by decide)

/-! ## Leaf hooks in `PrepareGradAccumulators` -/

theorem prepareNonLeaf_hooks {n : Nat} (C : Collab) (v : VarId)
    (pending : List (Option (Fin n))) (w : World n)
    (hg : (w.wrappers v).has_grad_node = true) (hh : (w.wrappers v).has_leaf_hooks = true)
    (hnn : ∀ q ∈ pending, ∃ p, q = some p ∧ (w.graph p).ops.all OpBase.hasInOut = true) :
    (prepareNonLeaf C v pending w).error?
        = (if (firstReader w.graph pending v).isSome then some .HookOnNonLeaf else none) ∧
    (firstReader w.graph pending v = none → prepareNonLeaf C v pending w = .ok w) := by
  induction pending with
  | nil => exact ⟨rfl, fun _ => rfl⟩
  | cons a l ih =>
    obtain ⟨p, hp, hio⟩ := hnn a (List.mem_cons_self _ _)
    subst hp
    have ih := ih (fun q hq => hnn q (List.mem_cons_of_mem _ hq))
    simp only [prepareNonLeaf, hio, Bool.not_true, Bool.false_eq_true, if_false, firstReader,
      List.findSome?]
    by_cases hr : readsVar (w.graph p) v = true
    · simp only [hr, Bool.not_true, Bool.false_eq_true, if_false, if_true, Option.isSome_some,
        increaseAndHook, hh, hg]
      exact ⟨rfl, fun h => by cases h⟩
    · simp only [hr, Bool.not_false, if_true, if_false]
      exact ih

theorem prepareLeaf_hooks {n : Nat} (C : Collab) (v : VarId) (w : World n)
    (hg : (w.wrappers v).has_grad_node = false) :
    (prepareLeaf C v w).error? = none ∧
    ((w.wrappers v).has_leaf_hooks = true →
      ∃ a, (prepareLeaf C v w).state.engine.acc? (.leaf v) = some a ∧
        a.post_hooks = some (w.wrappers v).leaf_hooks) := by
  unfold prepareLeaf
  simp only [increaseAndHook, hg, Bool.false_eq_true, if_false]
  cases hh : (w.wrappers v).has_leaf_hooks with
  | true =>
    simp only [if_true, Res.error?, Res.state, BasicEngine.acc?, find_upsert, true_and]
    exact fun _ => ⟨_, rfl, rfl⟩
  | false =>
    simp only [Bool.false_eq_true, if_false, if_true, Res.error?, true_and]
    exact fun h => by cases h

/-- C14, as stated, fails: the operator `loose_grad` writes the gradient of `z`, which has a
producer node and declares a leaf hook; no operator of the pending node reads that variable,
so `PrepareGradAccumulators` skips it: nothing is raised and the world is as it was. -/
theorem hooked_non_leaf_not_rejected :
    (hWorld.wrappers 12).has_grad_node = true ∧ (hWorld.wrappers 12).has_leaf_hooks = true ∧
    BasicEngine.PrepareGradAccumulators exCollab opLoose [some 1] hWorld = .ok hWorld := by
  refine ⟨by decide, by decide, ?_⟩
  rfl

/-- C14, amended.  For a grad-output `v`, over a pending list without null entry whose nodes
hold only operators with inputs or outputs: when `v` has a producer node and declares leaf
hooks, the body of `PrepareGradAccumulators` raises `HookOnNonLeaf` exactly when some pending
node reads `v`, and otherwise skips `v` and leaves the world as it was; when `v` has no
producer node, it raises nothing, and when `v` declares leaf hooks the leaf accumulator of
`v` ends with exactly those hooks attached. -/
theorem hooks_only_on_leaves {n : Nat} (C : Collab) (pending : List (Option (Fin n)))
    (v : VarId) (w : World n)
    (hnn : ∀ q ∈ pending, ∃ p, q = some p ∧ (w.graph p).ops.all OpBase.hasInOut = true) :
    ((w.wrappers v).has_grad_node = true → (w.wrappers v).has_leaf_hooks = true →
      (prepareVar C pending (some v) w).error?
          = (if (firstReader w.graph pending v).isSome then some .HookOnNonLeaf else none) ∧
      (firstReader w.graph pending v = none → prepareVar C pending (some v) w = .ok w)) ∧
    ((w.wrappers v).has_grad_node = false →
      (prepareVar C pending (some v) w).error? = none ∧
      ((w.wrappers v).has_leaf_hooks = true →
        ∃ a, (prepareVar C pending (some v) w).state.engine.acc? (.leaf v) = some a ∧
          a.post_hooks = some (w.wrappers v).leaf_hooks)) := by
  constructor
  · intro hg hh
    simp only [prepareVar, hg, Bool.not_true, Bool.false_eq_true, if_false]
    exact prepareNonLeaf_hooks C v pending w hg hh hnn
  · intro hg
    simp only [prepareVar, hg, Bool.not_false, if_true]
    exact prepareLeaf_hooks C v w hg

/-- Witness of the amended C14: in the first example with hooks declared, the gradient of `y`
written by `add_grad` is read by node 1 and rejected. -/
theorem hooks_only_on_leaves_witness :
    (prepareVar exCollab [some 1] (some 11) hWorld).error? = some .HookOnNonLeaf :=
  ((hooks_only_on_leaves exCollab [some 1] 11 hWorld
    (by intro q hq; exact ⟨1, by simpa using hq, by decide⟩)).1 (by decide) (by decide)).1

/-! ## The errors of `Execute` -/

theorem remapVar_errors {n : Nat} (C : Collab) (cur_node : Fin n) (bwd_ins : NameVarMap VarId)
    (slot : String) (v : VarId) (w : World n) (e : Error) (x : World n)
    (h : remapVar C cur_node bwd_ins slot v w = .error (e, x)) :
    (e = .MissingAccumulator ∧ findAccumulator w cur_node v = none) ∨ e = .OutOfRange := by
  unfold remapVar at h
  rcases hf : findAccumulator w cur_node v with _ | ⟨ref, acc⟩
  · rw [hf] at h
    cases h
    exact Or.inl ⟨rfl, rfl⟩
  rw [hf] at h
  simp only at h
  generalize (if (w.wrappers v).is_leaf_grad then
          (({ w with engine := { w.engine with
             leaf_accumulators :=
               if ref ∈ w.engine.leaf_accumulators then w.engine.leaf_accumulators
               else w.engine.leaf_accumulators ++ [ref] } } : World n),
           acc.inner_var.getD (.graphVar v))
        else (w, .graphVar v)) = b1 at h
  split at h
  · cases h
  · split at h
    · cases h
    · split at h
      · cases h
        exact Or.inr rfl
      · cases h

theorem remapVars_errors {n : Nat} (C : Collab) (cur_node : Fin n) (bwd_ins : NameVarMap VarId)
    (slot : String) (l : List (Option VarId)) :
    ∀ (w : World n) (e : Error) (x : World n),
      remapVars C cur_node bwd_ins slot l w = .error (e, x) → e.isRunError = true := by
  induction l with
  | nil => intro w e x h; cases h
  | cons a l ih =>
    intro w e x h
    cases a with
    | none =>
      simp only [remapVars] at h
      rcases hr : remapVars C cur_node bwd_ins slot l w with ⟨e1, x1⟩ | ⟨w1, vs⟩
      · rw [hr] at h
        cases h
        exact ih w e x hr
      · rw [hr] at h; cases h
    | some v =>
      simp only [remapVars] at h
      rcases hr1 : remapVar C cur_node bwd_ins slot v w with ⟨e1, x1⟩ | ⟨w1, var⟩
      · rw [hr1] at h
        cases h
        rcases remapVar_errors C cur_node bwd_ins slot v w e x hr1 with ⟨h1, _⟩ | h1 <;>
          rw [h1] <;> rfl
      · rw [hr1] at h
        simp only at h
        rcases hr2 : remapVars C cur_node bwd_ins slot l w1 with ⟨e2, x2⟩ | ⟨w2, vs⟩
        · rw [hr2] at h
          cases h
          exact ih w1 e x hr2
        · rw [hr2] at h; cases h

theorem remapOuts_errors {n : Nat} (C : Collab) (cur_node : Fin n) (bwd_ins : NameVarMap VarId)
    (outs : NameVarMap VarId) :
    ∀ (w : World n) (e : Error) (x : World n),
      remapOuts C cur_node bwd_ins outs w = .error (e, x) → e.isRunError = true := by
  induction outs with
  | nil => intro w e x h; cases h
  | cons a l ih =>
    intro w e x h
    obtain ⟨slot, sl⟩ := a
    simp only [remapOuts] at h
    split at h
    · rcases hr : remapOuts C cur_node bwd_ins l w with ⟨e1, x1⟩ | ⟨w1, m⟩
      · rw [hr] at h
        cases h
        exact ih w e x hr
      · rw [hr] at h; cases h
    · rcases hr1 : remapVars C cur_node bwd_ins slot sl.vars w with ⟨e1, x1⟩ | ⟨w1, vs⟩
      · rw [hr1] at h
        cases h
        exact remapVars_errors C cur_node bwd_ins slot sl.vars w e x hr1
      · rw [hr1] at h
        simp only at h
        rcases hr2 : remapOuts C cur_node bwd_ins l w1 with ⟨e2, x2⟩ | ⟨w2, m⟩
        · rw [hr2] at h
          cases h
          exact ih w1 e x hr2
        · rw [hr2] at h; cases h

theorem runOps_errors {n : Nat} (C : Collab) (cur_node : Fin n) (w : World n) (e : Error)
    (h : (runOps C cur_node w).error? = some e) : e.isRunError = true := by
  unfold runOps at h
  refine forEach_errors (fun e => e.isRunError = true) _ (fun idx s e1 h1 => ?_) _ _ e h
  split at h1
  · simp [Res.error?] at h1
  · rename_i cur_op _
    unfold runOp at h1
    simp only at h1
    rcases hrm : remapOuts C cur_node cur_op.ins cur_op.outs
        (BasicEngine.CheckBackwardInputs cur_op s) with ⟨e2, w1⟩ | ⟨w2, tmp_outs⟩
    · rw [hrm] at h1
      simp only [Res.error?, Option.some.injEq] at h1
      rw [← h1]
      exact remapOuts_errors C cur_node cur_op.ins cur_op.outs _ e2 w1 hrm
    · rw [hrm] at h1
      simp only at h1
      rcases hv : checkVersions cur_op w2 with ⟨e3, w3⟩ | w3
      · rw [hv] at h1
        simp only [Res.error?, Option.some.injEq] at h1
        have : (checkVersions cur_op w2).error? = some e1 := by rw [hv, ← h1]; rfl
        unfold checkVersions at this
        refine forEach_errors (fun e => e.isRunError = true) _
          (fun pair s1 e4 h4 => forEach_errors (fun e => e.isRunError = true) _
            (fun var s2 e5 h5 => ?_) _ _ e4 h4) _ _ e1 this
        cases var with
        | none =>
          simp only [checkVersion, Res.error?, Option.some.injEq] at h5
          rw [← h5]; rfl
        | some v =>
          simp only [checkVersion] at h5
          split at h5
          · simp [Res.error?] at h5
          · simp only [Res.error?, Option.some.injEq] at h5
            rw [← h5]; rfl
      · rw [hv] at h1
        simp only at h1
        split at h1
        · simp only [Res.error?, Option.some.injEq] at h1
          rw [← h1]; rfl
        · simp [Res.error?] at h1

theorem collectReady_errors {n : Nat} (l : List (Option (Fin n))) :
    ∀ (s : Sched n) (e : Error), (forEach collectReady l s).error? = some e →
      e = .MissingNode ∧ none ∈ l := by
  induction l with
  | nil => intro s e h; simp [forEach, Res.error?] at h
  | cons a l ih =>
    intro s e h
    simp only [forEach] at h
    cases a with
    | none =>
      simp only [collectReady, Res.error?, Option.some.injEq] at h
      exact ⟨h.symm, List.mem_cons_self _ _⟩
    | some p =>
      rcases hb : collectReady (some p) s with ⟨e1, s1⟩ | s1
      · simp only [collectReady] at hb
        split at hb
        · cases hb
        · split at hb <;> cases hb
      · rw [hb] at h
        obtain ⟨h1, h2⟩ := ih s1 e h
        exact ⟨h1, List.mem_cons_of_mem _ h2⟩

/-- An error of the scheduling loop is an error of one of its turns, met in a state that
satisfies every invariant of the turns. -/
theorem execLoop_error_inv {n : Nat} (C : Collab) (J : Sched n → Prop) (P : Error → Prop)
    (hJ : ∀ cur rest s s1, s.q = cur :: rest → J s →
      execNode C cur { s with q := rest } = .ok s1 → J s1)
    (hP : ∀ cur rest s e, s.q = cur :: rest → J s →
      (execNode C cur { s with q := rest }).error? = some e → P e) :
    ∀ (fuel : Nat) (s : Sched n) (e : Error), J s → (execLoop C fuel s).error? = some e →
      P e ∨ e = .FuelExhausted := by
  intro fuel
  induction fuel with
  | zero =>
    intro s e hs h
    unfold execLoop at h
    rcases hq : s.q with _ | ⟨cur, rest⟩
    · simp [hq, Res.error?] at h
    · simp only [hq, Res.error?, Option.some.injEq] at h
      exact Or.inr h.symm
  | succ fuel ih =>
    intro s e hs h
    unfold execLoop at h
    rcases hq : s.q with _ | ⟨cur, rest⟩
    · simp [hq, Res.error?] at h
    · simp only [hq] at h
      rcases hn : execNode C cur { s with q := rest } with ⟨e1, sE⟩ | s2
      · rw [hn] at h
        simp only [Res.error?, Option.some.injEq] at h
        exact Or.inl (hP cur rest s e hq hs (by rw [hn, ← h]; rfl))
      · rw [hn] at h
        exact ih s2 e (hJ cur rest s s2 hq hs hn) h

theorem collectReady_q {n : Nat} (e : Option (Fin n)) (s s1 : Sched n)
    (h : collectReady e s = .ok s1) : s1.q = s.q ∨ ∃ p, e = some p ∧ s1.q = s.q ++ [p] := by
  cases e with
  | none => simp [collectReady] at h
  | some p =>
    simp only [collectReady] at h
    cases hf : find p s.world.engine.node_deps with
    | none =>
      rw [hf] at h
      simp only [Except.ok.injEq] at h
      subst h
      exact Or.inl rfl
    | some d =>
      rw [hf] at h
      dsimp only at h
      by_cases hz : d - 1 = 0
      · rw [if_pos hz] at h
        simp only [Except.ok.injEq] at h
        subst h
        exact Or.inr ⟨p, rfl, rfl⟩
      · rw [if_neg hz] at h
        simp only [Except.ok.injEq] at h
        subst h
        exact Or.inl rfl

/-- In any graph, the scheduling loop of `Execute` keeps its frame and queues only nodes
reachable from the initial node. -/
theorem execNode_reach {n : Nat} (C : Collab) (w0 : World n) (vis : List (Fin n))
    (hclosed : ∀ m ∈ vis, ∀ p, Edge w0.graph m p → p ∈ vis)
    (cur : Fin n) (rest : List (Fin n)) (s s1 : Sched n) (hq : s.q = cur :: rest)
    (hJ : Driven w0 s.world ∧ ∀ m ∈ s.q, m ∈ vis)
    (h : execNode C cur { s with q := rest } = .ok s1) :
    Driven w0 s1.world ∧ ∀ m ∈ s1.q, m ∈ vis := by
  unfold execNode at h
  have hst := runOps_stepped C cur s.world
  rcases hr : runOps C cur s.world with ⟨e, wE⟩ | wA
  · simp [hr, Sched.lift] at h
  rw [hr] at hst
  have hst : Stepped cur (fun _ => True) s.world wA := hst
  simp only [hr, Sched.lift] at h
  have hcur : cur ∈ vis := hJ.2 cur (by rw [hq]; exact List.mem_cons_self _ _)
  have hfr : Driven w0 wA := hst.driven hJ.1
  have hA : Driven w0 wA ∧ ∀ m ∈ rest, m ∈ vis :=
    ⟨hfr, fun m hm => hJ.2 m (by rw [hq]; exact List.mem_cons_of_mem _ hm)⟩
  refine forEach_ok_inv collectReady (fun s2 => Driven w0 s2.world ∧ ∀ m ∈ s2.q, m ∈ vis) _
    ?_ _ s1 hA h
  intro a ha s2 s3 hs2 hb
  obtain ⟨d, hd⟩ := collectReady_world a s2 s3 hb
  refine ⟨by rw [hd]; exact hs2.1.node_deps d, fun m hm => ?_⟩
  rcases collectReady_q a s2 s3 hb with hq3 | ⟨p, hp, hq3⟩
  · rw [hq3] at hm
    exact hs2.2 m hm
  · rw [hq3] at hm
    rcases List.mem_append.mp hm with h1 | h1
    · exact hs2.2 m h1
    · rw [List.mem_singleton] at h1
      subst h1
      refine hclosed cur hcur m ?_
      unfold Edge
      rw [← hfr.pending cur, ← hp]
      exact ha

/-- C15. Null pending nodes are rejected during the analysis: when some node reachable from
`init_node_` has a null entry in its pending list, `PrepareDeps` fails, with `MissingNode`
or with an error raised before the entry is met (`NoInOut`, `HookOnNonLeaf`, or
`AlreadyInitialized` at entry); and whenever `PrepareDeps` succeeds, `Execute` does not fail
with `MissingNode`: the check of its traversal never fires. -/
theorem null_pending_node_rejected {n : Nat} (C : Collab) (w : World n) (init : Fin n)
    (hinit : w.engine.init_node = some init) :
    (∀ m, Reachable w.graph init m → none ∈ (w.graph m).grad_pending_nodes →
      ∃ e, (BasicEngine.PrepareDeps C w).error? = some e ∧
        (e = .MissingNode ∨ e = .NoInOut ∨ e = .HookOnNonLeaf ∨ e = .AlreadyInitialized)) ∧
    ((BasicEngine.PrepareDeps C w).error? = none →
      (BasicEngine.Execute C w).error? ≠ some .MissingNode) := by
  constructor
  · intro m hm hnull
    cases herr : (BasicEngine.PrepareDeps C w).error? with
    | none =>
      obtain ⟨vis, _, hvis, _, _, _, hnn, _, _⟩ := PrepareDeps_spec C w init hinit herr
      exact absurd hnull (hnn m ((hvis m).mpr hm))
    | some e =>
      refine ⟨e, rfl, ?_⟩
      obtain ⟨h1, _, h3⟩ := PrepareDeps_errors C w
      by_cases hai : e = .AlreadyInitialized
      · exact Or.inr (Or.inr (Or.inr hai))
      · have hno : ¬ (w.engine.node_deps ≠ [] ∨ w.engine.accumulators ≠ []) := by
          intro h
          have := h1.mpr h
          rw [herr] at this
          exact hai (Option.some.inj this)
        push_neg at hno
        have hcl := h3 e herr hno.1 hno.2 (by rw [hinit]; simp)
        cases e <;> simp [Error.isSweepError] at hcl ⊢
  · intro hok
    obtain ⟨vis, _, hvis, han, _, _, hnn, _, _⟩ := PrepareDeps_spec C w init hinit hok
    unfold BasicEngine.Execute
    simp only [hinit]
    rcases hp : BasicEngine.PrepareDeps C w with ⟨e, wE⟩ | w1
    · rw [hp] at hok
      simp [Res.error?] at hok
    rw [hp] at han
    simp only [Res.state] at han
    simp only
    have hg : (takeInitNode w1).graph = w.graph := han.graph
    have hclosed : ∀ m ∈ vis, ∀ p, Edge (takeInitNode w1).graph m p → p ∈ vis := by
      intro m hm p he
      rw [hg] at he
      exact (hvis p).mpr (Relation.ReflTransGen.tail ((hvis m).mp hm) he)
    have herr := execLoop_error_inv C
      (fun s => Driven (takeInitNode w1) s.world ∧ ∀ m ∈ s.q, m ∈ vis)
      (fun e => e ≠ .MissingNode)
      (fun cur rest s s1 hq hJ h => execNode_reach C _ vis hclosed cur rest s s1 hq hJ h)
      (by
        intro cur rest s e hq hJ he
        unfold execNode at he
        have hst := runOps_stepped C cur s.world
        rcases hr : runOps C cur s.world with ⟨e1, wE⟩ | wA
        · rw [hr] at he
          simp only [Sched.lift, Res.error?, Option.some.injEq] at he
          have := runOps_errors C cur s.world e1 (by rw [hr]; rfl)
          rw [← he]
          intro h
          rw [h] at this
          cases this
        · rw [hr] at he hst
          have hst : Stepped cur (fun _ => True) s.world wA := hst
          simp only [Sched.lift] at he
          obtain ⟨_, hnone⟩ := collectReady_errors _ _ e he
          have hcur : cur ∈ vis := hJ.2 cur (by rw [hq]; exact List.mem_cons_self _ _)
          have hpend : (wA.graph cur).grad_pending_nodes = (w.graph cur).grad_pending_nodes := by
            rw [(hst.driven hJ.1).pending cur, hg]
          rw [hpend] at hnone
          exact absurd hnone (hnn cur hcur))
      (n + 1) { world := takeInitNode w1, q := [init] }
    rcases hl : execLoop C (n + 1) { world := takeInitNode w1, q := [init] }
      with ⟨e, sE⟩ | sF
    · simp only [Res.error?, ne_eq, Option.some.injEq]
      rcases herr e ⟨Driven.begin _, fun m hm => by
          rw [List.mem_singleton] at hm
          rw [hm]
          exact (hvis init).mpr Relation.ReflTransGen.refl⟩ (by rw [hl]; rfl) with h | h
      · exact h
      · rw [h]
        simp
    · simp [Res.error?]

/-- Witness of C15: with a null entry in the pending list of the initial node the analysis
fails; the analysis of the first example succeeds, and its execution does not fail with
`MissingNode`. -/
theorem null_pending_node_rejected_witness :
    (∃ e, (BasicEngine.PrepareDeps exCollab nWorld).error? = some e ∧
      (e = .MissingNode ∨ e = .NoInOut ∨ e = .HookOnNonLeaf ∨ e = .AlreadyInitialized)) ∧
    (BasicEngine.Execute exCollab exReady).error? ≠ some .MissingNode :=
  ⟨(null_pending_node_rejected exCollab nWorld 0 (by decide)).1 0 Relation.ReflTransGen.refl
      (by decide),
    (null_pending_node_rejected exCollab exReady 0 (by decide)).2 (by decide!)⟩

/-! ## `Execute` without an initial node -/

/-- C16. `Execute` without `init_node_` is a no-op: it returns the world as it was, so no
operator is run and no field of the engine changes.  `Init` on a seed whose gradient has no
producer node leaves `init_node_` null, and a successful `Execute` leaves it null, so that
an `Execute` right after a successful `Execute` changes nothing. -/
theorem execute_without_init_node {n : Nat} (C : Collab) :
    (∀ w : World n, w.engine.init_node = none → BasicEngine.Execute C w = .ok w) ∧
    (∀ w : World n, (BasicEngine.Execute C w).error? = none →
      (BasicEngine.Execute C w).state.engine.init_node = none ∧
      BasicEngine.Execute C (BasicEngine.Execute C w).state
        = .ok (BasicEngine.Execute C w).state) ∧
    (∀ (w : World n) (wrapper : VarId) (g : GradVarBase n) (r : Bool),
      g.grad_node = none → g.graph_is_freed = false →
      (BasicEngine.Init w ⟨wrapper, some g⟩ r).error? = none ∧
      (BasicEngine.Init w ⟨wrapper, some g⟩ r).state.1.engine.init_node = none) := by
  have hnone : ∀ w : World n, w.engine.init_node = none → BasicEngine.Execute C w = .ok w := by
    intro w h
    unfold BasicEngine.Execute
    rw [h]
  refine ⟨hnone, fun w hok => ?_, fun w wrapper g r hg hf => ?_⟩
  · have hinit : (BasicEngine.Execute C w).state.engine.init_node = none := by
      cases hi : w.engine.init_node with
      | none => rw [hnone w hi]; exact hi
      | some init =>
        obtain ⟨w1, sF, _, _, hex⟩ := Execute_ok_split C w init hi hok
        rw [hex]
        rfl
    exact ⟨hinit, hnone _ hinit⟩
  · simp only [BasicEngine.Init, hf, Bool.false_eq_true, if_false, hg, Option.isNone_none,
      Bool.true_or, if_true, Res.error?, Res.state, and_self]

/-- Witness of C16: the first example before `Init`, and after a first `Execute`. -/
theorem execute_without_init_node_witness :
    BasicEngine.Execute exCollab exWorld = .ok exWorld ∧
    BasicEngine.Execute exCollab (BasicEngine.Execute exCollab exReady).state
      = .ok (BasicEngine.Execute exCollab exReady).state :=
  ⟨(execute_without_init_node exCollab).1 exWorld (by decide),
    ((execute_without_init_node exCollab).2.1 exReady (by decide!)).2⟩

/-! ## Accumulators of `accumulators_` are referenced at least once -/

theorem accPos_provision {n : Nat} (C : Collab) (w w1 : World n) (var : VarId) (ref : AccRef n)
    (hpos : AccPos w)
    (hw1 : ∀ r, w1.engine.acc? r =
      if r = ref then
        some (increaseAndHook (w.wrappers var)
          (match w.engine.acc? ref with
            | some a => (w, a)
            | none => newAccumulator C w var).2).1
      else w.engine.acc? r) : AccPos w1 := by
  intro p v a ha
  rw [hw1] at ha
  by_cases hr : AccRef.nonLeaf p v = ref
  · rw [if_pos hr] at ha
    simp only [Option.some.injEq] at ha
    rw [← ha, increaseAndHook_ref_cnt]
    omega
  · rw [if_neg hr] at ha
    exact hpos p v a ha

theorem prepareVar_pos {n : Nat} (C : Collab) (pending : List (Option (Fin n)))
    (var : Option VarId) (w : World n)
    (hpos : AccPos w) : AccPos (prepareVar C pending var w).state := by
  cases var with
  | none => exact hpos
  | some u =>
    simp only [prepareVar]
    split
    · unfold prepareLeaf
      simp only [Res.state_ite]
      refine accPos_provision C w _ u (.leaf u) hpos ?_
      intro r
      have he : (match find u w.engine.leaf_basic_accumulators with
          | some a => (w, a)
          | none => newAccumulator C w u).1.engine = w.engine := by
        cases find u w.engine.leaf_basic_accumulators with
        | none => exact newAccumulator_engine C w u
        | some a => rfl
      simp only [acc?_set_leaf, he]
      rfl
    · induction pending with
      | nil => exact hpos
      | cons q rest ih =>
        cases q with
        | none => exact hpos
        | some p1 =>
          simp only [prepareNonLeaf]
          split
          · exact hpos
          · split
            · exact ih
            · simp only [Res.state_ite]
              have hget : (find p1 w.engine.accumulators).bind (find u)
                  = find u ((find p1 w.engine.accumulators).getD []) := by
                cases find p1 w.engine.accumulators <;> simp [find]
              refine accPos_provision C w _ u (.nonLeaf p1 u) hpos ?_
              intro r
              have he : (match find u ((find p1 w.engine.accumulators).getD []) with
                  | some a => (w, a)
                  | none => newAccumulator C w u).1.engine = w.engine := by
                cases find u ((find p1 w.engine.accumulators).getD []) with
                | none => exact newAccumulator_engine C w u
                | some a => rfl
              simp only [acc?_set_nonLeaf, he]
              simp only [BasicEngine.acc?, hget]

theorem PrepareDeps_pos {n : Nat} (C : Collab) (w : World n)
    (hpos : AccPos w) : AccPos (BasicEngine.PrepareDeps C w).state := by
  let Q : World n → Prop := AccPos
  have hop : ∀ pending op (s : World n), Q s → Q (prepareOp C pending op s).state := by
    intro pending op s hs
    unfold prepareOp
    split
    · exact hs
    · unfold BasicEngine.PrepareGradAccumulators
      refine forEach_state_inv _ Q ?_ _ s hs
      intro pair s1 hs1
      split
      · exact hs1
      · exact forEach_state_inv _ Q (fun var s2 hs2 => prepareVar_pos C pending var s2 hs2)
          _ s1 hs1
  have hnode : ∀ cur (s : Sweep n), Q s.world → Q (sweepNode C cur s).state.world := by
    intro cur s hs
    unfold sweepNode
    simp only
    have h1 : Q (forEach (prepareOp C (s.world.graph cur).grad_pending_nodes)
        (s.world.graph cur).ops s.world).state :=
      forEach_state_inv _ Q (fun op s1 hs1 => hop _ op s1 hs1) _ _ hs
    rcases hf : forEach (prepareOp C (s.world.graph cur).grad_pending_nodes)
        (s.world.graph cur).ops s.world with ⟨e, w1⟩ | w1
    · rw [hf] at h1
      exact h1
    · rw [hf] at h1
      simp only [Sweep.lift]
      refine forEach_state_inv scanPending (fun s => Q s.world) ?_ _ _ h1
      intro x s1 hs1
      cases x with
      | none => exact hs1
      | some p =>
        simp only [scanPending]
        split
        · exact fun p v a ha => hs1 p v a ha
        · exact fun p v a ha => hs1 p v a ha
  have hloop : ∀ (fuel : Nat) (s : Sweep n), Q s.world → Q (sweepLoop C fuel s).state.world := by
    intro fuel
    induction fuel with
    | zero =>
      intro s hs
      unfold sweepLoop
      rcases hq : s.q with _ | ⟨cur, rest⟩
      · exact hs
      · exact hs
    | succ fuel ih =>
      intro s hs
      unfold sweepLoop
      rcases hq : s.q with _ | ⟨cur, rest⟩
      · exact hs
      · simp only
        have h1 := hnode cur { s with q := rest } hs
        rcases hn : sweepNode C cur { s with q := rest } with ⟨e, s1⟩ | s1
        · rw [hn] at h1; exact h1
        · rw [hn] at h1; exact ih s1 h1
  show Q (BasicEngine.PrepareDeps C w).state
  unfold BasicEngine.PrepareDeps
  split
  · exact hpos
  · split
    · exact hpos
    · split
      · exact hpos
      · rename_i init hinit
        have h := hloop n { world := w, q := [init], visited := [init] } hpos
        rcases hl : sweepLoop C n ({ world := w, q := [init], visited := [init] } : Sweep n)
          with ⟨e, s1⟩ | s1
        · rw [hl] at h; exact h
        · rw [hl] at h; exact h

/-! ## Routing agreement between the analysis and the execution -/

/-- After a successful `PrepareDeps`, an accumulator of `accumulators_[p][v]` exists only when
`p` reads `v`, and the accumulator every write-site of a reachable node is routed to exists. -/
theorem PrepareDeps_routed {n : Nat} (C : Collab) (w : World n) (init : Fin n)
    (hinit : w.engine.init_node = some init)
    (hok : (BasicEngine.PrepareDeps C w).error? = none) :
    (∀ p v, ((BasicEngine.PrepareDeps C w).state.engine.acc? (.nonLeaf p v)).isSome = true →
      readsVar (w.graph p) v = true) ∧
    (∀ m, Reachable w.graph init m → ∀ op ∈ (w.graph m).ops, ∀ v, 0 < gradOutCount op v →
      ∀ r, routeVia w.graph w.wrappers (w.graph m).grad_pending_nodes v = some r →
        ((BasicEngine.PrepareDeps C w).state.engine.acc? r).isSome = true) := by
  obtain ⟨vis, _, hvis, _, _, href, _, _, hacc⟩ := PrepareDeps_spec C w init hinit hok
  have hpos0 : AccPos w := by
    intro p v a ha
    simp [BasicEngine.acc?, hacc, find] at ha
  have hpos := PrepareDeps_pos C w hpos0
  constructor
  · intro p v hs
    cases ha : (BasicEngine.PrepareDeps C w).state.engine.acc? (.nonLeaf p v) with
    | none => rw [ha] at hs; cases hs
    | some a =>
      have h1 := hpos p v a ha
      have h2 := href (.nonLeaf p v)
      have h3 : refCntOf w.engine (.nonLeaf p v) = 0 := by
        simp [refCntOf, BasicEngine.acc?, hacc, find]
      have h4 : refCntOf (BasicEngine.PrepareDeps C w).state.engine (.nonLeaf p v)
          = a.ref_cnt := by
        simp [refCntOf, ha]
      rw [h3, h4] at h2
      obtain ⟨m1, _, hr1⟩ := writeSites_pos w.graph w.wrappers vis (.nonLeaf p v) (by omega)
      unfold routeVia at hr1
      simp only [AccRef.var] at hr1
      split at hr1
      · cases hr1
      · cases hfr : firstReader w.graph (w.graph m1).grad_pending_nodes v with
        | none => rw [hfr] at hr1; cases hr1
        | some p1 =>
          rw [hfr] at hr1
          simp only [Option.map_some', Option.some.injEq, AccRef.nonLeaf.injEq, and_true] at hr1
          subst hr1
          exact firstReader_reads _ _ _ _ hfr
  · intro m hm op hop v hout r hr
    have hv := routeVia_var _ _ _ _ _ hr
    subst hv
    have h1 := writeSites_of_site _ _ vis r m op ((hvis m).mpr hm) hop hr hout
    have h2 := href r
    cases ha : (BasicEngine.PrepareDeps C w).state.engine.acc? r with
    | none =>
      simp only [refCntOf, ha, Option.map_none', Option.getD_none] at h2
      omega
    | some a => rfl

/-- Routing agreement: when an accumulator of `accumulators_[p][v]` exists only if `p` reads
`v`, and the accumulator the analysis routes the grad-output `v` of the node `m` to exists,
the lookup made by the remapping finds that accumulator. -/
theorem findAccumulator_routed {n : Nat} (w1 : World n) (m : Fin n) (v : VarId)
    (hreads : ∀ p, (w1.engine.acc? (.nonLeaf p v)).isSome = true →
      readsVar (w1.graph p) v = true)
    (hsite : ∀ r, routeVia w1.graph w1.wrappers (w1.graph m).grad_pending_nodes v = some r →
      (w1.engine.acc? r).isSome = true) :
    (findAccumulator w1 m v).map Prod.fst
      = routeVia w1.graph w1.wrappers (w1.graph m).grad_pending_nodes v := by
  rw [findAccumulator_eq]
  unfold routeVia
  split
  · rename_i hleaf
    have := hsite (.leaf v) (by unfold routeVia; rw [if_pos hleaf])
    cases ha : w1.engine.acc? (.leaf v) with
    | none => rw [ha] at this; cases this
    | some a => rfl
  · rename_i hleaf
    unfold firstReader
    rw [findSome?_map, findSome?_map]
    refine findSome?_agree _ _ _ ?_ ?_
    · intro q _ hq
      cases q with
      | none => cases hq
      | some p =>
        simp only at hq ⊢
        cases ha : w1.engine.acc? (.nonLeaf p v) with
        | none => rw [ha] at hq; cases hq
        | some a =>
          have hr := hreads p (by rw [ha]; rfl)
          simp [hr]
    · intro q _ hq he
      cases q with
      | none => cases hq
      | some p =>
        simp only at hq he ⊢
        by_cases hr : readsVar (w1.graph p) v = true
        · simp only [hr, if_true, Option.map_some'] at he
          have hr : routeVia w1.graph w1.wrappers (w1.graph m).grad_pending_nodes v
              = some (.nonLeaf p v) := by
            unfold routeVia firstReader
            rw [if_neg hleaf, findSome?_map]
            exact he.symm
          have := hsite _ hr
          cases ha : w1.engine.acc? (.nonLeaf p v) with
          | none => rw [ha] at this; cases this
          | some a => rfl
        · simp [hr] at hq

/-- In every world the execution passes through after a successful `PrepareDeps`, the lookup
of the remapping for a grad-output of an operator of a reachable node finds the accumulator
the analysis routed that output to. -/
theorem findAccumulator_agrees {n : Nat} (C : Collab) (w : World n) (init : Fin n)
    (hinit : w.engine.init_node = some init)
    (hok : (BasicEngine.PrepareDeps C w).error? = none)
    (s : World n) (hk : Kept (BasicEngine.PrepareDeps C w).state s)
    (m : Fin n) (hm : Reachable w.graph init m) (op : OpBase) (hop : op ∈ (w.graph m).ops)
    (v : VarId) (hout : 0 < gradOutCount op v) :
    (findAccumulator s m v).map Prod.fst
      = routeVia w.graph w.wrappers (w.graph m).grad_pending_nodes v := by
  obtain ⟨vis, _, _, han, _, _, _, _, _⟩ := PrepareDeps_spec C w init hinit hok
  obtain ⟨hreads, hsite⟩ := PrepareDeps_routed C w init hinit hok
  have h1 := findAccumulator_routed (BasicEngine.PrepareDeps C w).state m v
    (fun p hp => by rw [han.graph]; exact hreads p v hp)
    (fun r hr => by
      rw [han.graph, han.wrappers] at hr
      exact hsite m hm op hop v hout r hr)
  rw [han.graph, han.wrappers] at h1
  rw [← h1]
  have h2 := congrArg (Option.map Prod.fst) (findAccumulator_kept hk m v)
  simp only [Option.map_map] at h2
  exact h2

/-- C18. Accumulator routing agrees between analysis and execution.  After a successful
`PrepareDeps`, in every world `s` the execution passes through (the wrappers, the pending
lists and the accumulator registries are as the analysis left them), for every node `m`
reachable from `init_node_` and every non-leaf grad-output `v` of an operator of `m`, the
accumulator that the lookup of `Execute` resolves, the first pending node `p` of `m` with an
entry `accumulators_[p][v]`, is the one at the first pending node of `m` that has `v` among
its grad-inputs, however many pending nodes read `v`; and that is the accumulator whose
reference count `PrepareGradAccumulators` increments for a write-site of `v`: in any world
of the analysis, the reference count of the accumulator at the first reader goes up by one
and no other changes. -/
theorem routing_agreement {n : Nat} (C : Collab) (w : World n) (init : Fin n)
    (hinit : w.engine.init_node = some init)
    (hok : (BasicEngine.PrepareDeps C w).error? = none) :
    (∀ s, Kept (BasicEngine.PrepareDeps C w).state s →
      ∀ m, Reachable w.graph init m → ∀ op ∈ (w.graph m).ops, ∀ v, 0 < gradOutCount op v →
        (w.wrappers v).has_grad_node = true →
        (findAccumulator s m v).map Prod.fst
          = (firstReader w.graph (w.graph m).grad_pending_nodes v).map
              fun p => AccRef.nonLeaf p v) ∧
    (∀ (s : World n) (pending : List (Option (Fin n))) (v : VarId),
      (s.wrappers v).has_grad_node = true →
      (prepareVar C pending (some v) s).error? = none →
      ∀ ref, refCntOf (prepareVar C pending (some v) s).state.engine ref
        = refCntOf s.engine ref +
          if (firstReader s.graph pending v).map (fun p => AccRef.nonLeaf p v) = some ref
          then 1 else 0) := by
  constructor
  · intro s hk m hm op hop v hout hnl
    rw [findAccumulator_agrees C w init hinit hok s hk m hm op hop v hout]
    unfold routeVia
    simp [hnl]
  · intro s pending v hnl hok1 ref
    have h := (prepareVar_spec C pending (some v) s).2 hok1 ref
    simp only [routeVia, hnl, Bool.not_true, Bool.false_eq_true, if_false] at h
    exact h

/-- Witness of C18 on the fan-out example: both pending nodes of node 0 read variable 11,
and the lookup resolves the accumulator at node 2, the first of them. -/
theorem routing_agreement_witness :
    (findAccumulator (BasicEngine.PrepareDeps exCollab rWorld).state 0 11).map Prod.fst
      = (firstReader rWorld.graph (rWorld.graph 0).grad_pending_nodes 11).map
          (fun p => AccRef.nonLeaf p 11) ∧
    firstReader rWorld.graph (rWorld.graph 0).grad_pending_nodes 11 = some 2 ∧
    readsVar (rWorld.graph 1) 11 = true ∧ readsVar (rWorld.graph 2) 11 = true :=
  ⟨(routing_agreement exCollab rWorld 0 (by decide) (by decide!)).1 _ (Kept.here _) 0
      Relation.ReflTransGen.refl opFan (by decide) 11 (by decide) (by decide),
    by decide, by decide, by decide⟩

/-! ## Where `MissingAccumulator` is raised -/

theorem forEach_error_inv {σ α : Type} (body : α → σ → Res σ) (J : σ → Prop)
    (P : Error → Prop)
    (hJ : ∀ a s s1, J s → body a s = .ok s1 → J s1)
    (hP : ∀ a s e, J s → (body a s).error? = some e → P e) :
    ∀ (l : List α) (s : σ) (e : Error), J s → (forEach body l s).error? = some e → P e := by
  intro l
  induction l with
  | nil => intro s e _ h; simp [forEach, Res.error?] at h
  | cons a l ih =>
    intro s e hs h
    simp only [forEach] at h
    rcases hb : body a s with ⟨e1, s1⟩ | s1
    · rw [hb] at h
      exact hP a s e hs (by rw [hb]; exact h)
    · rw [hb] at h
      exact ih s1 e (hJ a s s1 hs hb) h

theorem Stepped.opsSame {n : Nat} {cur : Fin n} {w w1 : World n}
    (h : Stepped cur (fun _ => False) w w1) (m : Fin n) (j : Nat) :
    (w1.graph m).ops.get? j = (w.graph m).ops.get? j := by
  by_cases hm : m = cur
  · subst hm
    exact h.untouched j (fun hf => hf)
  · rw [h.others m hm]

theorem afterRun_ops {n : Nat} (C : Collab) (cur : Fin n) (idx : Nat) (cur_op : OpBase)
    (w : World n) (m : Fin n) (j : Nat) (op : OpBase)
    (h : ((afterRun C cur idx cur_op w).graph m).ops.get? j = some op) :
    (w.graph m).ops.get? j = some op ∨ op.outs = [] := by
  have h1 := (moveInplace_stepped C cur (fun _ => False) w).1
  have h2 := (sumGrads_frame C cur (fun _ => False) cur_op (moveInplace C w)).1
  have h3 := (accumulateLeaves_spec C cur (fun _ => False)
    (sumGrads C cur_op (moveInplace C w))).1
  have h5 := ((h1.next h2).next h3).opsSame m j
  unfold afterRun at h
  simp only at h
  generalize accumulateLeaves C (sumGrads C cur_op (moveInplace C w)) = w5 at h5 h
  split at h
  · unfold clearBackwardTrace at h
    simp only at h
    by_cases hm : m = cur
    · simp only [hm, if_true, List.get?_eq_getElem?, List.getElem?_modify] at h
      rw [hm] at h5
      rw [hm, ← h5, List.get?_eq_getElem?]
      cases hg : (w5.graph cur).ops[j]? with
      | none => rw [hg] at h; cases h
      | some a =>
        rw [hg] at h
        simp only [Option.map_eq_map, Option.map_some', Option.some.injEq] at h
        by_cases hi : idx = j
        · rw [if_pos hi] at h
          right
          rw [← h]
        · rw [if_neg hi] at h
          left
          rw [h]
    · simp only [hm, if_false] at h
      left
      rw [← h5]
      exact h
  · left
    rw [← h5]
    exact h

theorem OpsKept.via {n : Nat} {w0 w w1 : World n} (h0 : OpsKept w0 w)
    (h : ∀ m j op, (w1.graph m).ops.get? j = some op →
      (w.graph m).ops.get? j = some op ∨ op.outs = []) : OpsKept w0 w1 := by
  intro m j op hop
  rcases h m j op hop with h1 | h1
  · exact h0 m j op h1
  · exact Or.inr h1

theorem runOp_opsKept {n : Nat} (C : Collab) (cur_node : Fin n) (idx : Nat)
    (cur_op : OpBase) (w0 w : World n) (h0 : OpsKept w0 w) :
    OpsKept w0 (runOp C cur_node idx cur_op w).state := by
  refine h0.via ?_
  have hc := (CheckBackwardInputs_frame cur_op w).stepped cur_node (fun _ => False)
  have hr := remapOuts_frame C cur_node cur_op.ins cur_op.outs
    (BasicEngine.CheckBackwardInputs cur_op w)
  rcases hrm : remapOuts C cur_node cur_op.ins cur_op.outs
      (BasicEngine.CheckBackwardInputs cur_op w) with ⟨e, w1⟩ | ⟨w2, tmp_outs⟩
  · rw [hrm] at hr
    simp only [runOp, hrm]
    intro m j op hop
    left
    rw [← (hc.next (hr.toStepped cur_node _)).opsSame m j]
    exact hop
  · rw [hrm] at hr
    simp only [endWorld] at hr
    have h2 := (hc.next (hr.toStepped cur_node (fun _ => False))).opsSame
    simp only [runOp, hrm]
    have hcv := checkVersions_state cur_op w2
    rcases hv : checkVersions cur_op w2 with ⟨e, w3⟩ | w3
    · rw [hv] at hcv
      simp only [Res.state] at hcv
      subst hcv
      intro m j op hop
      exact Or.inl ((h2 m j).symm.trans hop)
    · rw [hv] at hcv
      simp only [Res.state] at hcv
      subst hcv
      simp only
      split
      · intro m j op hop
        exact Or.inl ((h2 m j).symm.trans hop)
      · rename_i store hrun
        intro m j op hop
        rcases afterRun_ops C cur_node idx cur_op _ m j op hop with h4 | h4
        · exact Or.inl ((h2 m j).symm.trans h4)
        · exact Or.inr h4

theorem findAccumulator_frame {n : Nat} {w w1 : World n} (hg : w1.graph = w.graph)
    (hw : w1.wrappers = w.wrappers)
    (ha : w1.engine.accumulators = w.engine.accumulators)
    (hl : w1.engine.leaf_basic_accumulators = w.engine.leaf_basic_accumulators)
    (cur_node : Fin n) (v : VarId) :
    findAccumulator w1 cur_node v = findAccumulator w cur_node v := by
  unfold findAccumulator
  rw [hg, hw, ha, hl]

theorem remapVars_missing {n : Nat} (C : Collab) (cur_node : Fin n) (bwd_ins : NameVarMap VarId)
    (slot : String) (l : List (Option VarId)) :
    ∀ (w x : World n), remapVars C cur_node bwd_ins slot l w = .error (.MissingAccumulator, x) →
      ∃ v, some v ∈ l ∧ findAccumulator w cur_node v = none := by
  induction l with
  | nil => intro w x h; cases h
  | cons a l ih =>
    intro w x h
    cases a with
    | none =>
      simp only [remapVars] at h
      rcases hr : remapVars C cur_node bwd_ins slot l w with ⟨e1, x1⟩ | ⟨w1, vs⟩
      · rw [hr] at h
        cases h
        obtain ⟨v, hv, hf⟩ := ih w x hr
        exact ⟨v, List.mem_cons_of_mem _ hv, hf⟩
      · rw [hr] at h; cases h
    | some v =>
      simp only [remapVars] at h
      have hfr := remapVar_frame C cur_node bwd_ins slot v w
      rcases hr1 : remapVar C cur_node bwd_ins slot v w with ⟨e1, x1⟩ | ⟨w1, var⟩
      · rw [hr1] at h
        cases h
        rcases remapVar_errors C cur_node bwd_ins slot v w _ x hr1 with ⟨_, h1⟩ | h1
        · exact ⟨v, List.mem_cons_self _ _, h1⟩
        · cases h1
      · rw [hr1] at h hfr
        simp only [endWorld] at hfr
        simp only at h
        rcases hr2 : remapVars C cur_node bwd_ins slot l w1 with ⟨e2, x2⟩ | ⟨w2, vs⟩
        · rw [hr2] at h
          cases h
          obtain ⟨u, hu, hf⟩ := ih w1 x hr2
          refine ⟨u, List.mem_cons_of_mem _ hu, ?_⟩
          rw [← findAccumulator_frame hfr.graph hfr.wrappers hfr.accumulators hfr.leaf_basic]
          exact hf
        · rw [hr2] at h; cases h

theorem remapOuts_missing {n : Nat} (C : Collab) (cur_node : Fin n) (bwd_ins : NameVarMap VarId)
    (outs : NameVarMap VarId) :
    ∀ (w x : World n), remapOuts C cur_node bwd_ins outs w = .error (.MissingAccumulator, x) →
      ∃ pair ∈ outs, pair.2.is_grad = true ∧ ∃ v, some v ∈ pair.2.vars ∧
        findAccumulator w cur_node v = none := by
  induction outs with
  | nil => intro w x h; cases h
  | cons a l ih =>
    intro w x h
    obtain ⟨slot, sl⟩ := a
    simp only [remapOuts] at h
    split at h
    · rcases hr : remapOuts C cur_node bwd_ins l w with ⟨e1, x1⟩ | ⟨w1, m⟩
      · rw [hr] at h
        cases h
        obtain ⟨pair, hp, hrest⟩ := ih w x hr
        exact ⟨pair, List.mem_cons_of_mem _ hp, hrest⟩
      · rw [hr] at h; cases h
    · rename_i hg
      have hfr := remapVars_frame C cur_node bwd_ins slot sl.vars w
      rcases hr1 : remapVars C cur_node bwd_ins slot sl.vars w with ⟨e1, x1⟩ | ⟨w1, vs⟩
      · rw [hr1] at h
        cases h
        obtain ⟨v, hv, hf⟩ := remapVars_missing C cur_node bwd_ins slot sl.vars w x hr1
        exact ⟨(slot, sl), List.mem_cons_self _ _, by simpa using hg, v, hv, hf⟩
      · rw [hr1] at h hfr
        simp only [endWorld] at hfr
        simp only at h
        rcases hr2 : remapOuts C cur_node bwd_ins l w1 with ⟨e2, x2⟩ | ⟨w2, m⟩
        · rw [hr2] at h
          cases h
          obtain ⟨pair, hp, hgr, u, hu, hf⟩ := ih w1 x hr2
          refine ⟨pair, List.mem_cons_of_mem _ hp, hgr, u, hu, ?_⟩
          rw [← findAccumulator_frame hfr.graph hfr.wrappers hfr.accumulators hfr.leaf_basic]
          exact hf
        · rw [hr2] at h; cases h

/-- An operator that fails with `MissingAccumulator` has a grad-output for which the lookup
of the remapping finds no accumulator. -/
theorem runOp_missing {n : Nat} (C : Collab) (cur_node : Fin n) (idx : Nat) (cur_op : OpBase)
    (w : World n) (h : (runOp C cur_node idx cur_op w).error? = some .MissingAccumulator) :
    ∃ v, 0 < gradOutCount cur_op v ∧ findAccumulator w cur_node v = none := by
  have hc := CheckBackwardInputs_frame cur_op w
  unfold runOp at h
  simp only at h
  rcases hrm : remapOuts C cur_node cur_op.ins cur_op.outs
      (BasicEngine.CheckBackwardInputs cur_op w) with ⟨e2, w1⟩ | ⟨w2, tmp_outs⟩
  · rw [hrm] at h
    simp only [Res.error?, Option.some.injEq] at h
    subst h
    obtain ⟨pair, hp, hg, v, hv, hf⟩ := remapOuts_missing C cur_node cur_op.ins cur_op.outs _ w1 hrm
    refine ⟨v, gradOutCount_pos cur_op pair v hp hg hv, ?_⟩
    rw [← findAccumulator_frame hc.graph hc.wrappers (by rw [hc.engine]) (by rw [hc.engine])]
    exact hf
  · rw [hrm] at h
    simp only at h
    rcases hv : checkVersions cur_op w2 with ⟨e3, w3⟩ | w3
    · rw [hv] at h
      simp only [Res.error?, Option.some.injEq] at h
      have : (checkVersions cur_op w2).error? = some .MissingAccumulator := by
        rw [hv, ← h]; rfl
      exfalso
      unfold checkVersions at this
      have hcl := forEach_errors (fun e => e ≠ .MissingAccumulator) _
        (fun pair s1 e4 h4 => forEach_errors (fun e => e ≠ .MissingAccumulator) _
          (fun var s2 e5 h5 => ?_) _ _ e4 h4) _ _ _ this
      · exact hcl rfl
      · cases var with
        | none =>
          simp only [checkVersion, Res.error?, Option.some.injEq] at h5
          rw [← h5]; simp
        | some v =>
          simp only [checkVersion] at h5
          split at h5
          · simp [Res.error?] at h5
          · simp only [Res.error?, Option.some.injEq] at h5
            rw [← h5]; simp
    · rw [hv] at h
      simp only at h
      split at h
      · simp [Res.error?] at h
      · simp [Res.error?] at h
theorem runOps_opsKept {n : Nat} (C : Collab) (cur_node : Fin n) (w0 w : World n)
    (h0 : OpsKept w0 w) : OpsKept w0 (runOps C cur_node w).state := by
  unfold runOps
  refine forEach_state_inv _ (OpsKept w0) ?_ _ w h0
  intro idx s hs
  cases (s.graph cur_node).ops.get? idx with
  | none => exact hs
  | some op => exact runOp_opsKept C cur_node idx op w0 s hs
theorem Kept.chain {n : Nat} {wp w0 w : World n} (h : Kept wp w0) (h1 : Kept w0 w) :
    Kept wp w := by
  refine ⟨h1.wrappers.trans h.wrappers, fun m => (h1.pending m).trans (h.pending m),
    fun m => (h1.inplace_map m).trans (h.inplace_map m),
    fun r => (h1.accs r).trans (h.accs r), ?_⟩
  obtain ⟨l1, hl1⟩ := h.temps
  obtain ⟨l2, hl2⟩ := h1.temps
  exact ⟨l1 ++ l2, by rw [hl2, hl1, List.append_assoc]⟩

theorem gradOutCount_outs (op : OpBase) (v : VarId) (h : 0 < gradOutCount op v) :
    op.outs ≠ [] := by
  intro he
  simp [gradOutCount, he] at h

/-- A loop over the operators of a node that fails with `MissingAccumulator` met an operator
that the node had from the start, with a grad-output for which the registries the analysis
left hold no accumulator. -/
theorem runOps_missing {n : Nat} (C : Collab) (cur : Fin n) (wp w0 w : World n)
    (hk : Kept wp w) (ho : OpsKept w0 w)
    (h : (runOps C cur w).error? = some .MissingAccumulator) :
    ∃ j op, (w0.graph cur).ops.get? j = some op ∧
      ∃ v, 0 < gradOutCount op v ∧ findAccumulator wp cur v = none := by
  unfold runOps at h
  refine forEach_error_inv _ (fun (s : World n) => Kept wp s ∧ OpsKept w0 s)
    (fun e => e = .MissingAccumulator → ∃ j op, (w0.graph cur).ops.get? j = some op ∧
      ∃ v, 0 < gradOutCount op v ∧ findAccumulator wp cur v = none)
    ?_ ?_ _ w _ ⟨hk, ho⟩ h rfl
  · intro idx s s1 hs hb
    cases hop : (s.graph cur).ops.get? idx with
    | none =>
      rw [hop] at hb
      simp only [Except.ok.injEq] at hb
      rw [← hb]
      exact hs
    | some op =>
      rw [hop] at hb
      simp only at hb
      have h1 := runOp_stepped C cur (fun _ => True) idx op s trivial
      have h2 := runOp_opsKept C cur idx op w0 s hs.2
      rw [hb] at h1 h2
      exact ⟨hs.1.afterStep h1, h2⟩
  · intro idx s e hs he heq
    subst heq
    cases hop : (s.graph cur).ops.get? idx with
    | none =>
      rw [hop] at he
      simp [Res.error?] at he
    | some op =>
      rw [hop] at he
      simp only at he
      obtain ⟨v, hout, hnone⟩ := runOp_missing C cur idx op s he
      refine ⟨idx, op, ?_, v, hout, ?_⟩
      · rcases hs.2 cur idx op hop with h1 | h1
        · exact h1
        · exact absurd h1 (gradOutCount_outs op v hout)
      · have h1 := findAccumulator_kept hs.1 cur v
        rw [hnone] at h1
        simp only [Option.map_none'] at h1
        cases hf : findAccumulator wp cur v with
        | none => rfl
        | some x => rw [hf] at h1; cases h1

/-- An `Execute` that fails with `MissingAccumulator`, after a successful analysis, met an
operator of a reachable node with a grad-output for which the registries the analysis left
hold no accumulator. -/
theorem Execute_missing {n : Nat} (C : Collab) (w : World n) (init : Fin n)
    (hinit : w.engine.init_node = some init)
    (hok : (BasicEngine.PrepareDeps C w).error? = none)
    (h : (BasicEngine.Execute C w).error? = some .MissingAccumulator) :
    ∃ m, Reachable w.graph init m ∧ ∃ op ∈ (w.graph m).ops, ∃ v, 0 < gradOutCount op v ∧
      findAccumulator (BasicEngine.PrepareDeps C w).state m v = none := by
  obtain ⟨vis, _, hvis, han, _, _, _, _, _⟩ := PrepareDeps_spec C w init hinit hok
  unfold BasicEngine.Execute at h
  simp only [hinit] at h
  rcases hp : BasicEngine.PrepareDeps C w with ⟨e, wE⟩ | w1
  · rw [hp] at hok
    simp [Res.error?] at hok
  rw [hp] at han h
  simp only [Res.state] at han ⊢
  simp only at h
  have hg : (takeInitNode w1).graph = w.graph := han.graph
  have hclosed : ∀ m ∈ vis, ∀ p, Edge (takeInitNode w1).graph m p → p ∈ vis := by
    intro m hm p he
    rw [hg] at he
    exact (hvis p).mpr (Relation.ReflTransGen.tail ((hvis m).mp hm) he)
  have hk0 : Kept w1 (takeInitNode w1) :=
    ⟨rfl, fun _ => rfl, fun _ => rfl, fun r => by cases r <;> rfl, ⟨[], by simp [takeInitNode]⟩⟩
  have herr := execLoop_error_inv C
    (fun s => (Driven (takeInitNode w1) s.world ∧ ∀ m ∈ s.q, m ∈ vis) ∧
      OpsKept (takeInitNode w1) s.world)
    (fun e => e = .MissingAccumulator →
      ∃ m, Reachable w.graph init m ∧ ∃ op ∈ (w.graph m).ops, ∃ v, 0 < gradOutCount op v ∧
        findAccumulator w1 m v = none)
    (by
      intro cur rest s s1 hq hJ h1
      refine ⟨execNode_reach C _ vis hclosed cur rest s s1 hq hJ.1 h1, ?_⟩
      unfold execNode at h1
      have hst := runOps_opsKept C cur _ s.world hJ.2
      rcases hr : runOps C cur s.world with ⟨e, wE⟩ | wA
      · simp [hr, Sched.lift] at h1
      rw [hr] at hst
      simp only [hr, Sched.lift] at h1
      refine forEach_ok_inv collectReady (fun s2 => OpsKept (takeInitNode w1) s2.world) _
        ?_ _ s1 hst h1
      intro a _ s2 s3 hs2 hb
      obtain ⟨d, hd⟩ := collectReady_world a s2 s3 hb
      rw [hd]
      exact hs2)
    (by
      intro cur rest s e hq hJ he heq
      subst heq
      unfold execNode at he
      rcases hr : runOps C cur s.world with ⟨e1, wE⟩ | wA
      · rw [hr] at he
        simp only [Sched.lift, Res.error?, Option.some.injEq] at he
        obtain ⟨j, op, hop, v, hout, hnone⟩ := runOps_missing C cur w1 (takeInitNode w1)
          s.world (hk0.chain hJ.1.1.kept) hJ.2 (by rw [hr, ← he]; rfl)
        have hcur : cur ∈ vis := hJ.1.2 cur (by rw [hq]; exact List.mem_cons_self _ _)
        rw [hg] at hop
        exact ⟨cur, (hvis cur).mp hcur, op, List.get?_mem hop, v, hout, hnone⟩
      · rw [hr] at he
        simp only [Sched.lift] at he
        obtain ⟨hmn, _⟩ := collectReady_errors _ _ _ he
        cases hmn)
    (n + 1) { world := takeInitNode w1, q := [init] }
  rcases hl : execLoop C (n + 1) { world := takeInitNode w1, q := [init] }
    with ⟨e, sE⟩ | sF
  · rw [hl] at h
    simp only [Res.error?, Option.some.injEq] at h
    subst h
    rcases herr _ ⟨⟨Driven.begin _, fun m hm => by
        rw [List.mem_singleton] at hm
        rw [hm]
        exact (hvis init).mpr Relation.ReflTransGen.refl⟩,
        fun m j op hop => Or.inl hop⟩ (by rw [hl]; rfl) with h1 | h1
    · exact h1 rfl
    · cases h1
  · rw [hl] at h
    simp [Res.error?] at h

/-- C20. `MissingAccumulator` is raised exactly for unrouted non-leaf outputs.  After a
successful `PrepareDeps`, in every world `s` the execution passes through, for every
grad-output `v` of an operator of a node `m` reachable from `init_node_`: when `v` has no
grad node, `v` is a key of `leaf_basic_accumulators_` and the remapping of `v` does not
raise `MissingAccumulator`; when `v` has a grad node, the remapping of `v` raises
`MissingAccumulator` if and only if no pending node of `m` has `v` among the grad-inputs of
its operators.  And an `Execute` that fails with `MissingAccumulator` has met such an
unrouted non-leaf grad-output at a reachable node. -/
theorem missing_accumulator_unrouted {n : Nat} (C : Collab) (w : World n) (init : Fin n)
    (hinit : w.engine.init_node = some init)
    (hok : (BasicEngine.PrepareDeps C w).error? = none) :
    (∀ s, Kept (BasicEngine.PrepareDeps C w).state s →
      ∀ m, Reachable w.graph init m → ∀ op ∈ (w.graph m).ops, ∀ v, 0 < gradOutCount op v →
      ∀ (bwd_ins : NameVarMap VarId) (slot : String),
        ((w.wrappers v).has_grad_node = false →
          (find v s.engine.leaf_basic_accumulators).isSome = true ∧
          ∀ x, remapVar C m bwd_ins slot v s ≠ .error (.MissingAccumulator, x)) ∧
        ((w.wrappers v).has_grad_node = true →
          ((∃ x, remapVar C m bwd_ins slot v s = .error (.MissingAccumulator, x)) ↔
            ∀ p, some p ∈ (w.graph m).grad_pending_nodes → readsVar (w.graph p) v = false))) ∧
    ((BasicEngine.Execute C w).error? = some .MissingAccumulator →
      ∃ m, Reachable w.graph init m ∧ ∃ op ∈ (w.graph m).ops, ∃ v, 0 < gradOutCount op v ∧
        (w.wrappers v).has_grad_node = true ∧
        ∀ p, some p ∈ (w.graph m).grad_pending_nodes → readsVar (w.graph p) v = false) := by
  have hfirst : ∀ (m : Fin n) (v : VarId),
      firstReader w.graph (w.graph m).grad_pending_nodes v = none ↔
        ∀ p, some p ∈ (w.graph m).grad_pending_nodes → readsVar (w.graph p) v = false := by
    intro m v
    unfold firstReader
    rw [List.findSome?_eq_none_iff]
    constructor
    · intro h p hp
      have := h (some p) hp
      simp only at this
      cases hr : readsVar (w.graph p) v with
      | false => rfl
      | true => rw [hr] at this; simp at this
    · intro h q hq
      cases q with
      | none => rfl
      | some p => simp [h p hq]
  have hmiss : ∀ (s : World n) (m : Fin n) (bwd_ins : NameVarMap VarId) (slot : String)
      (v : VarId), (∃ x, remapVar C m bwd_ins slot v s = .error (.MissingAccumulator, x)) ↔
        findAccumulator s m v = none := by
    intro s m bwd_ins slot v
    constructor
    · rintro ⟨x, hx⟩
      rcases remapVar_errors C m bwd_ins slot v s _ x hx with ⟨_, h1⟩ | h1
      · exact h1
      · cases h1
    · intro hf
      refine ⟨s, ?_⟩
      unfold remapVar
      rw [hf]
  constructor
  · intro s hk m hm op hop v hout bwd_ins slot
    have hagree := findAccumulator_agrees C w init hinit hok s hk m hm op hop v hout
    constructor
    · intro hleaf
      have hroute : routeVia w.graph w.wrappers (w.graph m).grad_pending_nodes v
          = some (.leaf v) := by
        unfold routeVia
        simp [hleaf]
      constructor
      · have h1 := (PrepareDeps_routed C w init hinit hok).2 m hm op hop v hout _ hroute
        rw [← hk.isSome] at h1
        exact h1
      · intro x hx
        have h1 := (hmiss s m bwd_ins slot v).mp ⟨x, hx⟩
        rw [h1, hroute] at hagree
        cases hagree
    · intro hnl
      have hroute : routeVia w.graph w.wrappers (w.graph m).grad_pending_nodes v
          = (firstReader w.graph (w.graph m).grad_pending_nodes v).map
              fun p => AccRef.nonLeaf p v := by
        unfold routeVia
        simp [hnl]
      rw [hmiss, ← hfirst]
      rw [hroute] at hagree
      constructor
      · intro h1
        rw [h1] at hagree
        cases hf : firstReader w.graph (w.graph m).grad_pending_nodes v with
        | none => rfl
        | some p => rw [hf] at hagree; cases hagree
      · intro h1
        rw [h1] at hagree
        cases hf : findAccumulator s m v with
        | none => rfl
        | some x => rw [hf] at hagree; cases hagree
  · intro herr
    obtain ⟨m, hm, op, hop, v, hout, hnone⟩ := Execute_missing C w init hinit hok herr
    have hagree := findAccumulator_agrees C w init hinit hok _ (Kept.here _) m hm op hop v hout
    rw [hnone] at hagree
    refine ⟨m, hm, op, hop, v, hout, ?_⟩
    unfold routeVia at hagree
    cases hnl : (w.wrappers v).has_grad_node with
    | false => simp [hnl] at hagree
    | true =>
      simp only [hnl, Bool.not_true, Bool.false_eq_true, if_false, Option.map_none'] at hagree
      refine ⟨rfl, (hfirst m v).mp ?_⟩
      cases hf : firstReader w.graph (w.graph m).grad_pending_nodes v with
      | none => rfl
      | some p => rw [hf] at hagree; cases hagree

/-- Witness of C20 on the unrouted example: the only pending node of node 0 does not read
variable 11, the remapping of that output of `fan_grad` raises `MissingAccumulator`, and so
does `Execute`. -/
theorem missing_accumulator_unrouted_witness :
    ((∃ x, remapVar exCollab 0 opFan.ins "X@GRAD" 11
        (BasicEngine.PrepareDeps exCollab uWorld).state = .error (.MissingAccumulator, x)) ↔
      ∀ p, some p ∈ (uWorld.graph 0).grad_pending_nodes → readsVar (uWorld.graph p) 11 = false) ∧
    (∀ p, some p ∈ (uWorld.graph 0).grad_pending_nodes → readsVar (uWorld.graph p) 11 = false) ∧
    (BasicEngine.Execute exCollab uWorld).error? = some .MissingAccumulator :=
  ⟨(((missing_accumulator_unrouted exCollab uWorld 0 (by decide) (by decide!)).1 _
      (Kept.here _) 0 Relation.ReflTransGen.refl opFan (by decide) 11 (by decide)
      opFan.ins "X@GRAD").2 (by decide)),
    by decide, by decide!⟩

/-! ## The redirection policy -/

theorem inplaceScan_fresh {n : Nat} (C : Collab) (l : List (Option VarId)) :
    ∀ (w : World n) (k : Nat), inplaceScan C l (w, .fresh k) = (w, .fresh k) := by
  induction l with
  | nil => intro w k; rfl
  | cons a l ih =>
    intro w k
    simp only [inplaceScan]
    have : ¬ (a.map VarRef.graphVar = some (VarRef.fresh k)) := by
      cases a <;> simp
    rw [if_neg this]
    exact ih w k

theorem inplaceScan_miss {n : Nat} (C : Collab) (l : List (Option VarId)) (u : VarId) :
    ∀ (w : World n), some u ∉ l → inplaceScan C l (w, .graphVar u) = (w, .graphVar u) := by
  induction l with
  | nil => intro w _; rfl
  | cons a l ih =>
    intro w h
    simp only [inplaceScan]
    have : ¬ (a.map VarRef.graphVar = some (VarRef.graphVar u)) := by
      intro he
      cases a with
      | none => simp at he
      | some x =>
        simp only [Option.map_some', Option.some.injEq, VarRef.graphVar.injEq] at he
        subst he
        exact h (List.mem_cons_self _ _)
    rw [if_neg this]
    exact ih w (fun hm => h (List.mem_cons_of_mem _ hm))

/-- The loop over the mapped input slot, for a slot bound to the graph variable `u` that
occurs in it: one temporary is allocated at the first occurrence, one pair is recorded, and
the slot is bound to the temporary, which no later entry equals. -/
theorem inplaceScan_hit {n : Nat} (C : Collab) (l : List (Option VarId)) (u : VarId) :
    ∀ (w : World n), some u ∈ l →
      inplaceScan C l (w, .graphVar u)
        = ({ (w.allocLike C (.graphVar u)).1 with engine :=
               { (w.allocLike C (.graphVar u)).1.engine with
                 inplace_var_list := w.engine.inplace_var_list
                   ++ [(.graphVar u, .fresh w.temps.length)] } },
           .fresh w.temps.length) := by
  induction l with
  | nil => intro w h; cases h
  | cons a l ih =>
    intro w h
    simp only [inplaceScan]
    by_cases ha : a = some u
    · subst ha
      simp only [Option.map_some', if_true]
      exact inplaceScan_fresh C l _ _
    · have : ¬ (a.map VarRef.graphVar = some (VarRef.graphVar u)) := by
        intro he
        cases a with
        | none => simp at he
        | some x =>
          simp only [Option.map_some', Option.some.injEq, VarRef.graphVar.injEq] at he
          exact ha (by rw [he])
      rw [if_neg this]
      rcases List.mem_cons.mp h with h1 | h1
      · exact absurd h1.symm ha
      · exact ih w h1

theorem markLeaf_frame {n : Nat} (w : World n) (v : VarId) (ref : AccRef n) :
    (markLeaf w v ref).graph = w.graph ∧ (markLeaf w v ref).wrappers = w.wrappers ∧
    (markLeaf w v ref).temps = w.temps ∧
    (markLeaf w v ref).engine.need_accu_var_list = w.engine.need_accu_var_list ∧
    (markLeaf w v ref).engine.inplace_var_list = w.engine.inplace_var_list := by
  unfold markLeaf
  split <;> exact ⟨rfl, rfl, rfl, rfl, rfl⟩

/-- The remapping of one grad-output whose accumulator is found, by the three cases of
lines 354-378. -/
theorem remapVar_cases {n : Nat} (C : Collab) (cur_node : Fin n) (bwd_ins : NameVarMap VarId)
    (slot : String) (v : VarId) (w : World n) (ref : AccRef n) (acc : GradientAccumulator)
    (hf : findAccumulator w cur_node v = some (ref, acc)) :
    remapVar C cur_node bwd_ins slot v w =
      if redirected w v acc = true then
        .ok ({ ((markLeaf w v ref).allocLike C (boundVar w v acc)).1 with engine :=
                 { ((markLeaf w v ref).allocLike C (boundVar w v acc)).1.engine with
                   need_accu_var_list := w.engine.need_accu_var_list
                     ++ [(ref, .fresh w.temps.length)] } },
             .fresh w.temps.length)
      else
        match find slot (w.graph cur_node).inplace_grad_name_map with
        | none => .ok (markLeaf w v ref, boundVar w v acc)
        | some in_slot =>
          match find in_slot bwd_ins with
          | none => .error (.OutOfRange, markLeaf w v ref)
          | some in_vars =>
            .ok (inplaceScan C in_vars.vars (markLeaf w v ref, boundVar w v acc)) := by
  unfold remapVar
  rw [hf]
  simp only
  have hb1 : (if (w.wrappers v).is_leaf_grad then
          (({ w with engine := { w.engine with
             leaf_accumulators :=
               if ref ∈ w.engine.leaf_accumulators then w.engine.leaf_accumulators
               else w.engine.leaf_accumulators ++ [ref] } } : World n),
           acc.inner_var.getD (.graphVar v))
        else (w, .graphVar v)) = (markLeaf w v ref, boundVar w v acc) := by
    unfold markLeaf boundVar
    split <;> rfl
  rw [hb1]
  simp only
  have hm := markLeaf_frame w v ref
  have hred : ((World.wrapper (markLeaf w v ref) (boundVar w v acc)).overrided_stop_gradient
      || decide (acc.ref_cnt > 1)) = redirected w v acc := by
    unfold redirected
    have : World.wrapper (markLeaf w v ref) (boundVar w v acc)
        = w.wrapper (boundVar w v acc) := by
      unfold World.wrapper
      cases boundVar w v acc with
      | graphVar i => simp only [hm.2.1]
      | fresh k => simp only [hm.2.2.1]
    rw [this]
  rw [hred, hm.1]
  split
  · simp only [World.allocLike, World.alloc, hm.2.2.1, hm.2.2.2.1]
  · rfl

/-- C19. The redirection policy for a non-null grad-output `v` of an operator whose
accumulator `acc` is found.  The policy is decided on the variable the slot is bound to when
the test of line 354 is reached, `boundVar`: `v` itself, unless `v` is a leaf gradient whose
accumulator wraps an inner variable, to which lines 346-352 have then rebound the slot.
(i) The entry made of the accumulator and a new temporary is appended to
`need_accu_var_list_`, and the slot bound to that temporary, if and only if the bound
variable is stop-gradient or `acc.ref_cnt > 1`: when the test fails `need_accu_var_list_` is
unchanged.  (ii) Otherwise, when the slot name is in `inplace_grad_name_map` and the bound
variable is a variable of the mapped input slot, exactly one pair, the bound variable and a
new temporary, is appended to `inplace_var_list_` and the slot is bound to that temporary.
(iii) Otherwise, when the slot name is not in the map or no variable of the mapped input
slot is the bound variable, the slot stays bound to the bound variable for a direct write and
nothing is allocated (when the mapped input slot is missing from the inputs the remapping
fails with `OutOfRange` and the operator is not executed).  At most one temporary is created,
and the remapping of the outputs of an operator leaves the graph, so the operator's own
output map, unchanged. -/
theorem redirection_policy {n : Nat} (C : Collab) (cur_node : Fin n)
    (bwd_ins : NameVarMap VarId) (slot : String) (v : VarId) (w : World n) (ref : AccRef n)
    (acc : GradientAccumulator) (hf : findAccumulator w cur_node v = some (ref, acc)) :
    ((w.wrappers v).is_leaf_grad = false ∨ acc.inner_var = none →
      boundVar w v acc = .graphVar v) ∧
    (redirected w v acc = true →
      ∃ w1, remapVar C cur_node bwd_ins slot v w = .ok (w1, .fresh w.temps.length) ∧
        w1.engine.need_accu_var_list
          = w.engine.need_accu_var_list ++ [(ref, .fresh w.temps.length)] ∧
        w1.engine.inplace_var_list = w.engine.inplace_var_list ∧
        w1.temps.length = w.temps.length + 1) ∧
    (redirected w v acc = false →
      (endWorld (remapVar C cur_node bwd_ins slot v w)).engine.need_accu_var_list
        = w.engine.need_accu_var_list ∧
      (∀ in_slot in_vars u, find slot (w.graph cur_node).inplace_grad_name_map = some in_slot →
        find in_slot bwd_ins = some in_vars → some u ∈ in_vars.vars →
        boundVar w v acc = .graphVar u →
        ∃ w1, remapVar C cur_node bwd_ins slot v w = .ok (w1, .fresh w.temps.length) ∧
          w1.engine.inplace_var_list
            = w.engine.inplace_var_list ++ [(.graphVar u, .fresh w.temps.length)] ∧
          w1.temps.length = w.temps.length + 1) ∧
      ((find slot (w.graph cur_node).inplace_grad_name_map = none ∨
          ∃ in_slot in_vars, find slot (w.graph cur_node).inplace_grad_name_map = some in_slot ∧
            find in_slot bwd_ins = some in_vars ∧
            ∀ u, some u ∈ in_vars.vars → boundVar w v acc ≠ .graphVar u) →
        ∃ w1, remapVar C cur_node bwd_ins slot v w = .ok (w1, boundVar w v acc) ∧
          w1.engine.inplace_var_list = w.engine.inplace_var_list ∧ w1.temps = w.temps) ∧
      (∀ in_slot, find slot (w.graph cur_node).inplace_grad_name_map = some in_slot →
        find in_slot bwd_ins = none →
        ∃ x, remapVar C cur_node bwd_ins slot v w = .error (.OutOfRange, x))) ∧
    (endWorld (remapVar C cur_node bwd_ins slot v w)).temps.length ≤ w.temps.length + 1 ∧
    (∀ (outs : NameVarMap VarId) (s : World n),
      (endWorld (remapOuts C cur_node bwd_ins outs s)).graph = s.graph) := by
  have hm := markLeaf_frame w v ref
  have hscan : ∀ (l : List (Option VarId)),
      (∀ u, some u ∈ l → boundVar w v acc ≠ .graphVar u) →
      inplaceScan C l (markLeaf w v ref, boundVar w v acc)
        = (markLeaf w v ref, boundVar w v acc) := by
    intro l hl
    cases hb : boundVar w v acc with
    | fresh k => exact inplaceScan_fresh C l _ k
    | graphVar u =>
      refine inplaceScan_miss C l u _ (fun hu => ?_)
      exact hl u hu hb
  refine ⟨?_, ?_, ?_, ?_, ?_⟩
  · intro h
    unfold boundVar
    rcases h with h | h
    · simp [h]
    · simp [h]
  · intro hred
    rw [remapVar_cases C cur_node bwd_ins slot v w ref acc hf, if_pos hred]
    refine ⟨_, rfl, rfl, ?_, ?_⟩
    · exact hm.2.2.2.2
    · simp [World.allocLike, World.alloc, hm.2.2.1]
  · intro hred
    have hnr : ¬ (redirected w v acc = true) := by rw [hred]; simp
    rw [remapVar_cases C cur_node bwd_ins slot v w ref acc hf, if_neg hnr]
    refine ⟨?_, ?_, ?_, ?_⟩
    · cases find slot (w.graph cur_node).inplace_grad_name_map with
      | none => exact hm.2.2.2.1
      | some in_slot =>
        simp only
        cases find in_slot bwd_ins with
        | none => exact hm.2.2.2.1
        | some in_vars =>
          simp only [endWorld]
          rw [inplaceScan_need]
          exact hm.2.2.2.1
    · intro in_slot in_vars u hs hi hu hb
      rw [hs]
      simp only
      rw [hi]
      simp only
      rw [hb, inplaceScan_hit C in_vars.vars u _ hu]
      refine ⟨_, by rw [hm.2.2.1], ?_, ?_⟩
      · simp only [hm.2.2.2.2]
      · simp [World.allocLike, World.alloc, hm.2.2.1]
    · rintro (hs | ⟨in_slot, in_vars, hs, hi, hl⟩)
      · rw [hs]
        exact ⟨_, rfl, hm.2.2.2.2, hm.2.2.1⟩
      · rw [hs]
        simp only
        rw [hi]
        simp only
        rw [hscan in_vars.vars hl]
        exact ⟨_, rfl, hm.2.2.2.2, hm.2.2.1⟩
    · intro in_slot hs hi
      rw [hs]
      simp only
      rw [hi]
      exact ⟨_, rfl⟩
  · rw [remapVar_cases C cur_node bwd_ins slot v w ref acc hf]
    split
    · simp [endWorld, World.allocLike, World.alloc, hm.2.2.1]
    · cases find slot (w.graph cur_node).inplace_grad_name_map with
      | none => simp [endWorld, hm.2.2.1]
      | some in_slot =>
        simp only
        cases find in_slot bwd_ins with
        | none => simp [endWorld, hm.2.2.1]
        | some in_vars =>
          simp only [endWorld]
          by_cases hl : ∀ u, some u ∈ in_vars.vars → boundVar w v acc ≠ .graphVar u
          · rw [hscan in_vars.vars hl]
            simp [hm.2.2.1]
          · push_neg at hl
            obtain ⟨u, hu, hb⟩ := hl
            rw [hb, inplaceScan_hit C in_vars.vars u _ hu]
            simp [World.allocLike, World.alloc, hm.2.2.1]
  · intro outs s
    exact (remapOuts_frame C cur_node bwd_ins outs s).graph

/-- Witness of C19 on the in-place example: the output of `relu_grad` is its input, its
accumulator is referenced once and nothing is stop-gradient, so that one pair is appended to
`inplace_var_list_`. -/
theorem redirection_policy_witness :
    findAccumulator (BasicEngine.PrepareDeps exCollab iWorld).state 0 21
      = some (.nonLeaf 1 21, { var := 21, inner_var := none, ref_cnt := 1, cur_cnt := 0
                               post_hooks := none, sorted := false }) ∧
    ∃ w1, remapVar exCollab 0 opRelu.ins "X@GRAD" 21
        (BasicEngine.PrepareDeps exCollab iWorld).state = .ok (w1, .fresh 1) ∧
      w1.engine.inplace_var_list = [(.graphVar 21, .fresh 1)] ∧ w1.temps.length = 2 :=
  ⟨by decide!,
    ((redirection_policy exCollab 0 opRelu.ins "X@GRAD" 21
      (BasicEngine.PrepareDeps exCollab iWorld).state (.nonLeaf 1 21)
      { var := 21, inner_var := none, ref_cnt := 1, cur_cnt := 0
        post_hooks := none, sorted := false } (by decide!)).2.2.1 (by decide!)).2.1
      "Out@GRAD" ⟨[some 21], true⟩ 21 (by decide!) (by decide!) (by decide!) (by decide!)⟩

/-! ## Exactly-once scheduling -/

/-- A run of the scheduling loop that returns pops a list of nodes `l`, one per turn: any
fuel of at least `l.length` gives the same result, and less fuel runs out. -/
theorem execLoop_turns {n : Nat} (C : Collab) (J : List (Fin n) → Sched n → Prop)
    (hJ : ∀ done cur rest s s1, s.q = cur :: rest → J done s →
      execNode C cur { s with q := rest } = .ok s1 → J (done ++ [cur]) s1) :
    ∀ (fuel : Nat) (done : List (Fin n)) (s s1 : Sched n), J done s →
      execLoop C fuel s = .ok s1 →
      ∃ l, J (done ++ l) s1 ∧ s1.q = [] ∧
        (∀ f, l.length ≤ f → execLoop C f s = .ok s1) ∧
        (∀ f, f < l.length → (execLoop C f s).error? = some .FuelExhausted) := by
  intro fuel
  induction fuel with
  | zero =>
    intro done s s1 hJ0 h
    unfold execLoop at h
    rcases hq : s.q with _ | ⟨cur, rest⟩
    · simp only [hq, Except.ok.injEq] at h
      subst h
      refine ⟨[], by simpa using hJ0, hq, fun f _ => ?_, fun f hf => by simp at hf⟩
      unfold execLoop
      simp only [hq]
    · simp [hq] at h
  | succ fuel ih =>
    intro done s s1 hJ0 h
    unfold execLoop at h
    rcases hq : s.q with _ | ⟨cur, rest⟩
    · simp only [hq, Except.ok.injEq] at h
      subst h
      refine ⟨[], by simpa using hJ0, hq, fun f _ => ?_, fun f hf => by simp at hf⟩
      unfold execLoop
      simp only [hq]
    · simp only [hq] at h
      rcases hn : execNode C cur { s with q := rest } with ⟨e, sE⟩ | s2
      · simp [hn] at h
      · simp only [hn] at h
        obtain ⟨l, hl, hq1, hge, hlt⟩ :=
          ih (done ++ [cur]) s2 s1 (hJ done cur rest s s2 hq hJ0 hn) h
        refine ⟨cur :: l, by simpa using hl, hq1, fun f hf => ?_, fun f hf => ?_⟩
        · cases f with
          | zero => simp at hf
          | succ f =>
            unfold execLoop
            simp only [hq, hn]
            exact hge f (by simpa using hf)
        · cases f with
          | zero =>
            unfold execLoop
            simp only [hq, Res.error?]
          | succ f =>
            unfold execLoop
            simp only [hq, hn]
            exact hlt f (by simpa using hf)

/-- C21. Exactly-once scheduling and termination.  The model of `Execute` never runs out of
fuel, whatever the graph.  When `Execute` raises no error over an acyclic reverse graph, the
analysis returned a world `w1` and the scheduling loop, started from it with `init_node_`
in the queue, returns a state `sF` with an empty queue after popping a list `done` of
nodes, one per turn (any fuel of at least `done.length` gives `sF`, less fuel runs out),
where `done` holds each node reachable from `init_node_` exactly once and nothing else;
the operators run are those of the nodes of `done`, node by node, each node's operators
once and in recorded order; and when the queue drains `node_deps_` has the keys the
analysis gave it, each with the value 0. -/
theorem exactly_once_scheduling {n : Nat} (C : Collab) (w : World n) (init : Fin n)
    (hinit : w.engine.init_node = some init) (hac : Acyclic w.graph) :
    (BasicEngine.Execute C w).error? ≠ some .FuelExhausted ∧
    ((BasicEngine.Execute C w).error? = none →
      ∃ (w1 : World n) (sF : Sched n) (done : List (Fin n)),
        BasicEngine.PrepareDeps C w = .ok w1 ∧
        (∀ fuel, done.length ≤ fuel →
          execLoop C fuel { world := takeInitNode w1, q := [init] } = .ok sF) ∧
        (∀ fuel, fuel < done.length →
          (execLoop C fuel { world := takeInitNode w1, q := [init] }).error?
            = some .FuelExhausted) ∧
        sF.q = [] ∧
        BasicEngine.Execute C w = .ok (BasicEngine.Clear sF.world) ∧
        done.Nodup ∧ (∀ m, m ∈ done ↔ Reachable w.graph init m) ∧
        ranOpsFull sF.world.trace = ranOpsFull w.trace ++ done.flatMap (opsOf w.graph) ∧
        ranOpsFull (BasicEngine.Execute C w).state.trace
          = ranOpsFull w.trace ++ done.flatMap (opsOf w.graph) ∧
        (∀ p, find p sF.world.engine.node_deps
          = (find p w1.engine.node_deps).map fun _ => 0)) := by
  refine ⟨Execute_fuel C w, fun hok => ?_⟩
  obtain ⟨w1, sF, hp, hl, hex⟩ := Execute_ok_split C w init hinit hok
  obtain ⟨vis, hnd, hvis, han, hdeps, _, _, _, _⟩ :=
    PrepareDeps_spec C w init hinit (by rw [hp]; rfl)
  rw [hp] at han hdeps
  simp only [Res.state] at han hdeps
  have hg : (takeInitNode w1).graph = w.graph := han.graph
  have hstart := SchedInv.initial (takeInitNode w1) init vis (by rw [hg]; exact hvis)
    (by rw [hg]; exact hac) (by rw [hg]; exact hdeps)
  have hclosed : ∀ m ∈ vis, ∀ p, Edge (takeInitNode w1).graph m p → p ∈ vis := by
    intro m hm p he
    rw [hg] at he
    exact (hvis p).mpr (Relation.ReflTransGen.tail ((hvis m).mp hm) he)
  obtain ⟨l, hinv, hq, hge, hlt⟩ := execLoop_turns C
    (fun done s => SchedInv (takeInitNode w1) init vis done s)
    (fun done cur rest s s1 hq hJ h =>
      execNode_inv C (takeInitNode w1) init vis done cur rest s s1 hclosed hq hJ h)
    (n + 1) [] _ sF hstart hl
  simp only [List.nil_append] at hinv
  have hall := hinv.complete hq (by rw [hg]; exact hvis) hnd (by rw [hg]; exact hac)
  have hdone_nd : l.Nodup := by
    have := hinv.nodup
    rwa [hq, List.append_nil] at this
  have hsub : ∀ m ∈ l, m ∈ vis := fun m hm => hinv.sub m (List.mem_append_left _ hm)
  have hran : ranOpsFull sF.world.trace
      = ranOpsFull w.trace ++ l.flatMap (opsOf w.graph) := by
    have := hinv.ran
    rw [hg] at this
    rw [this]
    congr 2
    exact han.trace
  refine ⟨w1, sF, l, hp, hge, hlt, hq, hex, hdone_nd,
    fun m => ⟨fun hm => (hvis m).mp (hsub m hm), fun hm => hall m ((hvis m).mpr hm)⟩,
    hran, ?_, ?_⟩
  · rw [hex]
    exact hran
  · intro p
    rw [hinv.deps p, hdeps p, hg]
    unfold depEntry
    by_cases hz : pendingCount w.graph vis p = 0
    · simp [hz]
    · simp only [hz, if_false, Option.map_some', Option.some.injEq]
      obtain ⟨m, hm, he⟩ := (pendingCount_pos w.graph vis p).mp hz
      have hpv : p ∈ vis := (hvis p).mpr (Relation.ReflTransGen.tail ((hvis m).mp hm) he)
      have := hinv.ready p (List.mem_append_left _ (hall p hpv))
      rw [hg] at this
      rw [this]
      omega

/-- Witness of C21: the example `z = x + y`, `y = 2x`, whose two nodes are popped in two
turns. -/
theorem exactly_once_scheduling_witness :
    (BasicEngine.Execute exCollab exReady).error? ≠ some .FuelExhausted ∧
    ∃ (w1 : World 2) (sF : Sched 2) (done : List (Fin 2)),
      BasicEngine.PrepareDeps exCollab exReady = .ok w1 ∧
      (∀ fuel, done.length ≤ fuel →
        execLoop exCollab fuel { world := takeInitNode w1, q := [0] } = .ok sF) ∧
      (∀ fuel, fuel < done.length →
        (execLoop exCollab fuel { world := takeInitNode w1, q := [0] }).error?
          = some .FuelExhausted) ∧
      sF.q = [] ∧
      BasicEngine.Execute exCollab exReady = .ok (BasicEngine.Clear sF.world) ∧
      done.Nodup ∧ (∀ m, m ∈ done ↔ Reachable exReady.graph 0 m) ∧
      ranOpsFull sF.world.trace
        = ranOpsFull exReady.trace ++ done.flatMap (opsOf exReady.graph) ∧
      ranOpsFull (BasicEngine.Execute exCollab exReady).state.trace
        = ranOpsFull exReady.trace ++ done.flatMap (opsOf exReady.graph) ∧
      (∀ p, find p sF.world.engine.node_deps
        = (find p w1.engine.node_deps).map fun _ => 0) :=
  ⟨(exactly_once_scheduling exCollab exReady 0 (by decide) exGraph_acyclic).1,
    (exactly_once_scheduling exCollab exReady 0 (by decide) exGraph_acyclic).2 (by decide!)⟩

/-! ## The Sum kernel for NPU -/

theorem toInt32_small (k : Nat) (h : k < 2 ^ 31) : toInt32 k = (k : Int) := by
  unfold toInt32
  have h1 : k % 2 ^ 32 = k := Nat.mod_eq_of_lt (by omega)
  rw [h1, if_pos h]

theorem forwarded_append (x : List (Option Tensor)) (o : Option Tensor) :
    forwarded (x ++ [o])
      = forwarded x ++
        (match o with
          | some t => if 0 < t.numel then [(x.length, t)] else []
          | none => []) := by
  unfold forwarded
  rw [List.enum_append, List.filterMap_append]
  congr 1
  cases o with
  | none => rfl
  | some t =>
    simp only [List.enumFrom_singleton, List.filterMap_cons, List.filterMap_nil]
    split <;> simp_all

/-- The loop of lines 45-52 over the first `n` inputs collects the forwarded inputs among
them, and names each after its index. -/
theorem pushInput_loop (x : List (Option Tensor)) :
    ∀ n, n ≤ x.length →
      (List.range n).foldl (SumNPUKernel.pushInput x) ([], [])
        = ((forwarded (x.take n)).map Prod.snd,
           (forwarded (x.take n)).map fun p => "x" ++ toString p.1) := by
  intro n
  induction n with
  | zero => intro _; rfl
  | succ n ih =>
    intro hn
    have hlt : n < x.length := hn
    rw [List.range_succ, List.foldl_append, ih (Nat.le_of_lt hlt)]
    have htake : x.take (n + 1) = x.take n ++ [x.get ⟨n, hlt⟩] := by
      rw [List.take_succ, List.getElem?_eq_getElem hlt]
      rfl
    have hget : x.get? n = some (x.get ⟨n, hlt⟩) := List.get?_eq_get hlt
    rw [htake, forwarded_append]
    have hlen : (x.take n).length = n := by
      rw [List.length_take]
      omega
    simp only [List.foldl_cons, List.foldl_nil, SumNPUKernel.pushInput, hget, hlen]
    cases x.get ⟨n, hlt⟩ with
    | none => simp
    | some t =>
      simp only
      split <;> simp

theorem forwarded_from (k : Nat) (x : List (Option Tensor)) :
    (((x.enumFrom k).filterMap fun p =>
        match p.2 with
        | some t => if 0 < t.numel then some (p.1, t) else none
        | none => none).map Prod.snd
      = x.filterMap fun o => o.bind fun t => if 0 < t.numel then some t else none) ∧
    (∀ q ∈ ((x.enumFrom k).filterMap fun p =>
        match p.2 with
        | some t => if 0 < t.numel then some (p.1, t) else none
        | none => none), k ≤ q.1) ∧
    (((x.enumFrom k).filterMap fun p =>
        match p.2 with
        | some t => if 0 < t.numel then some (p.1, t) else none
        | none => none).map Prod.fst).Pairwise (· < ·) := by
  induction x generalizing k with
  | nil => simp
  | cons o x ih =>
    obtain ⟨h1, h2, h3⟩ := ih (k + 1)
    have h2k : ∀ q ∈ ((x.enumFrom (k + 1)).filterMap fun p =>
        match p.2 with
        | some t => if 0 < t.numel then some (p.1, t) else none
        | none => none), k < q.1 := fun q hq => h2 q hq
    cases o with
    | none =>
      simp only [List.enumFrom_cons, List.filterMap_cons, Option.bind_none] at h1 h2 h3 ⊢
      exact ⟨h1, fun q hq => Nat.le_of_lt (h2k q hq), h3⟩
    | some t =>
      by_cases ht : 0 < t.numel
      · simp only [List.enumFrom_cons, List.filterMap_cons, ht, if_true, Option.bind_some,
          List.map_cons, List.mem_cons, List.pairwise_cons, List.mem_map] at h1 h2 h3 ⊢
        refine ⟨by rw [h1]; simp [ht], ?_, ?_, h3⟩
        · rintro q (rfl | hq)
          · exact Nat.le_refl _
          · exact Nat.le_of_lt (h2k q hq)
        · rintro j ⟨q, hq, rfl⟩
          exact h2k q hq
      · simp only [List.enumFrom_cons, List.filterMap_cons, ht, if_false,
          Option.bind_some] at h1 h2 h3 ⊢
        exact ⟨by rw [h1]; simp [ht], fun q hq => Nat.le_of_lt (h2k q hq), h3⟩

theorem mem_forwarded (x : List (Option Tensor)) (i : Nat) (t : Tensor) :
    (i, t) ∈ forwarded x ↔ x.get? i = some (some t) ∧ 0 < t.numel := by
  unfold forwarded
  rw [List.mem_filterMap]
  constructor
  · rintro ⟨⟨j, o⟩, hmem, hf⟩
    cases o with
    | none => simp at hf
    | some u =>
      simp only at hf
      split at hf
      · rename_i hu
        simp only [Option.some.injEq, Prod.mk.injEq] at hf
        obtain ⟨rfl, rfl⟩ := hf
        exact ⟨by rw [List.get?_eq_getElem?]; exact List.mk_mem_enum_iff_getElem?.mp hmem, hu⟩
      · cases hf
  · rintro ⟨hget, ht⟩
    exact ⟨(i, some t), List.mk_mem_enum_iff_getElem?.mpr (by rw [← List.get?_eq_getElem?]; exact hget), by simp [ht]⟩

theorem length_filterMap_eq {α β : Type} (f : α → Option β) (l : List α) :
    (l.filterMap f).length = l.length ↔ ∀ a ∈ l, (f a).isSome = true := by
  induction l with
  | nil => simp
  | cons a l ih =>
    have hle := List.length_filterMap_le f l
    cases hf : f a with
    | none =>
      simp only [List.filterMap_cons, hf, List.length_cons, List.mem_cons, forall_eq_or_imp,
        Option.isSome_none, Bool.false_eq_true, false_and, iff_false]
      omega
    | some b =>
      simp only [List.filterMap_cons, hf, List.length_cons, List.mem_cons, forall_eq_or_imp,
        Option.isSome_some, true_and, Nat.add_right_cancel_iff]
      exact ih
/-- C22, evaluated on the code.  For an input list `x` of fewer than `2 ^ 31` entries and of
length other than 1, `Compute` runs one `AddN` runner on the output: the tensors it is given
are those of `forwarded x`, the non-null inputs with `numel > 0` in their original order,
and the `k`-th name is `"x"` followed by the original index of the `k`-th of them; but the
attribute `N` is the length of `x`, which is the number of tensors forwarded only when no
input is null or empty.  For a single non-null input the output is the `TensorCopy` of that
input and no runner is run. -/
theorem sum_npu_attr_counts_all_inputs (K : NpuCollab) (ctx : ExecutionContext)
    (hlen : ctx.x.length < 2 ^ 31) :
    (ctx.x.length ≠ 1 →
      ∃ r : NpuOpRunner,
        SumNPUKernel.Compute K ctx = .ok { out := K.run r, runners := [r] } ∧
        r.op_type = "AddN" ∧
        r.outputs = [K.mutable_data ctx.out ctx.place ctx.dtype] ∧
        r.inputs = (forwarded ctx.x).map Prod.snd ∧
        r.input_names = (forwarded ctx.x).map (fun p => "x" ++ toString p.1) ∧
        r.attrs = [("N", (ctx.x.length : Int))]) ∧
    ((forwarded ctx.x).map Prod.snd
        = ctx.x.filterMap (fun o => o.bind fun t => if 0 < t.numel then some t else none) ∧
      (∀ i t, (i, t) ∈ forwarded ctx.x ↔ ctx.x.get? i = some (some t) ∧ 0 < t.numel) ∧
      ((forwarded ctx.x).map Prod.fst).Pairwise (· < ·)) ∧
    ((forwarded ctx.x).length = ctx.x.length ↔
      ∀ o ∈ ctx.x, ∃ t, o = some t ∧ 0 < t.numel) ∧
    (∀ t, ctx.x = [some t] →
      SumNPUKernel.Compute K ctx
        = .ok { out := K.tensor_copy t ctx.place (K.mutable_data ctx.out ctx.place ctx.dtype)
                runners := [] }) := by
  have hn : toInt32 ctx.x.length = (ctx.x.length : Int) := toInt32_small _ hlen
  have hf := forwarded_from 0 ctx.x
  refine ⟨fun hne => ?_, ⟨hf.1, mem_forwarded ctx.x, hf.2.2⟩, ?_, fun t ht => ?_⟩
  · have hne1 : ¬ ((ctx.x.length : Int) = 1) := by
      intro h
      exact hne (by exact_mod_cast h)
    have hloop := pushInput_loop ctx.x ctx.x.length (Nat.le_refl _)
    rw [List.take_length] at hloop
    refine ⟨{ op_type := "AddN", inputs := (forwarded ctx.x).map Prod.snd
              outputs := [K.mutable_data ctx.out ctx.place ctx.dtype]
              attrs := [("N", (ctx.x.length : Int))]
              input_names := (forwarded ctx.x).map (fun p => "x" ++ toString p.1) },
      ?_, rfl, rfl, rfl, rfl, rfl⟩
    unfold SumNPUKernel.Compute
    simp only [hn, hne1, if_false, Int.toNat_ofNat, hloop]
  · have h1 : (forwarded ctx.x).length
        = (ctx.x.filterMap
            (fun o => o.bind fun t => if 0 < t.numel then some t else none)).length := by
      rw [← hf.1, List.length_map]
      rfl
    rw [h1, length_filterMap_eq]
    constructor
    · intro h o ho
      have := h o ho
      cases o with
      | none => simp at this
      | some t =>
        refine ⟨t, rfl, ?_⟩
        by_contra hz
        simp [hz] at this
    · intro h o ho
      obtain ⟨t, rfl, ht⟩ := h o ho
      simp [ht]
  · unfold SumNPUKernel.Compute
    simp [ht, toInt32]

/-- Witness of C22: of three inputs the second is null; two tensors are forwarded, named
`x0` and `x2`, and the attribute `N` is 3. -/
theorem sum_npu_attr_counts_all_inputs_witness :
    ∃ r : NpuOpRunner,
      SumNPUKernel.Compute sumCollab sumCtx = .ok { out := sumCollab.run r, runners := [r] } ∧
      r.inputs = [Tensor.filled [2] 0 5 1, Tensor.filled [2] 0 5 3] ∧
      r.input_names = ["x0", "x2"] ∧
      r.attrs = [("N", 3)] := by
  obtain ⟨r, h1, _, _, h4, h5, h6⟩ :=
    (sum_npu_attr_counts_all_inputs sumCollab sumCtx (by decide)).1 (by decide)
  exact ⟨r, h1, by rw [h4]; decide, by rw [h5]; decide, by rw [h6]; rfl⟩

/-- C3, as stated, fails on an engine that is used again after an `Execute` that threw.  In
the graph of `y = 2x`, `Init` and an `Execute` whose kernel fails leave `node_deps_` and
`accumulators_` empty and the leaf accumulator of the gradient of `x` in
`leaf_basic_accumulators_` with reference count 1.  After a second `Init`, `PrepareDeps`
succeeds, and the reference count of that accumulator is 2, although the only reachable node
has one grad-output occurrence of the variable: the count is not the number of write-sites,
whatever list of nodes they are counted over. -/
theorem stale_leaf_accumulator_recounted :
    (BasicEngine.Init sWorld sSeed true).error? = none ∧
    (BasicEngine.Execute failCollab (BasicEngine.Init sWorld sSeed true).state.1).error?
      = some .KernelFailure ∧
    sFailed.engine.node_deps = [] ∧ sFailed.engine.accumulators = [] ∧
    (sFailed.engine.leaf_basic_accumulators.map fun p => (p.1, p.2.ref_cnt)) = [(10, 1)] ∧
    (BasicEngine.Init sFailed (BasicEngine.Init sWorld sSeed true).state.2 true).error? = none ∧
    sAgain.engine.init_node = some 0 ∧
    (BasicEngine.PrepareDeps failCollab sAgain).error? = none ∧
    (sAgain.wrappers 10).has_grad_node = false ∧
    refCntOf (BasicEngine.PrepareDeps failCollab sAgain).state.engine (.leaf 10) = 2 ∧
    ((sAgain.graph 0).ops.map fun op => gradOutCount op 10).sum = 1 ∧
    (∀ vis : List (Fin 1), vis.Nodup →
      refCntOf (BasicEngine.PrepareDeps failCollab sAgain).state.engine (.leaf 10)
        ≠ (vis.map fun m => ((sAgain.graph m).ops.map fun op => gradOutCount op 10).sum).sum) := by
  refine ⟨by decide!, by decide!, by decide!, by decide!, by decide!, by decide!, by decide!,
    by decide!, by decide!, by decide!, by decide!, ?_⟩
  intro vis hnd
  have h2 : refCntOf (BasicEngine.PrepareDeps failCollab sAgain).state.engine (.leaf 10) = 2 := by
    decide!
  have hterm : ∀ m : Fin 1,
      ((sAgain.graph m).ops.map fun op => gradOutCount op 10).sum = 1 := by decide!
  have hsum : (vis.map fun m => ((sAgain.graph m).ops.map fun op => gradOutCount op 10).sum).sum
      = vis.length := by
    clear hnd
    induction vis with
    | nil => rfl
    | cons a vis ih =>
      rw [List.map_cons, List.sum_cons, ih, hterm a, List.length_cons]
      omega
  have hlen : vis.length ≤ 1 := by
    have := List.Nodup.length_le_card hnd
    simpa using this
  rw [h2, hsum]
  omega

end Imperative
